import Mathlib

/-!
# Verification development for the SumUp .NET SDK generator

The development embeds the identifier normalizer (`codegen/internal/naming/naming.go`)
and the model / client assembler (`codegen/internal/generator/generator.go`) as Lean
functions and proves properties of them.

Modelling conventions

* A Go `string` is a `Str`, a list of Unicode scalar values: the strings the generator
  receives come out of a parsed YAML/JSON document and are valid UTF-8.  A byte index into
  a string (`part[:1]`, `part[1:]`) is modelled through `Char.utf8Size`.
* The Go `unicode` tables are exact on ASCII and on U+FFFD; outside of that they are the
  parameter `UnicodeTables`, so every theorem holds for whatever the tables say there.
* Functions that may recurse without bound take a fuel argument and return `none` when the
  fuel is exhausted.
-/

namespace SumUp

/-- A Go string, as the sequence of its runes. -/
abbrev Str := List Char

/-- The rune `utf8.RuneError`, U+FFFD, which Go substitutes for a byte that is not valid UTF-8. -/
def runeError : Char := Char.ofNat 0xFFFD

/-- The part of the Go `unicode` tables that lies outside ASCII (and is not U+FFFD). -/
structure UnicodeTables where
  isDigit : Char → Bool
  isUpper : Char → Bool
  isLower : Char → Bool
  toUpper : Char → Char
  toLower : Char → Char

/-- Tables that know no digit, no letter and no case mapping outside ASCII. -/
def asciiTables : UnicodeTables :=
  { isDigit := fun _ => false, isUpper := fun _ => false, isLower := fun _ => false,
    toUpper := fun c => c, toLower := fun c => c }

/-- Go `unicode.IsDigit`. -/
def unicodeIsDigit (U : UnicodeTables) (c : Char) : Bool :=
  if c.toNat < 128 then c.isDigit else if c = runeError then false else U.isDigit c

/-- Go `unicode.IsUpper`. -/
def unicodeIsUpper (U : UnicodeTables) (c : Char) : Bool :=
  if c.toNat < 128 then c.isUpper else if c = runeError then false else U.isUpper c

/-- Go `unicode.IsLower`. -/
def unicodeIsLower (U : UnicodeTables) (c : Char) : Bool :=
  if c.toNat < 128 then c.isLower else if c = runeError then false else U.isLower c

/-- Go `unicode.ToUpper`. -/
def unicodeToUpper (U : UnicodeTables) (c : Char) : Char :=
  if c.toNat < 128 then c.toUpper else if c = runeError then c else U.toUpper c

/-- Go `unicode.ToLower`. -/
def unicodeToLower (U : UnicodeTables) (c : Char) : Char :=
  if c.toNat < 128 then c.toLower else if c = runeError then c else U.toLower c

/-- Go `unicode.IsSpace`: the White_Space property. -/
def unicodeIsSpace (c : Char) : Bool :=
  let n := c.toNat
  (9 ≤ n && n ≤ 13) || n = 32 || n = 0x85 || n = 0xA0 || n = 0x1680 ||
  (0x2000 ≤ n && n ≤ 0x200A) || n = 0x2028 || n = 0x2029 || n = 0x202F ||
  n = 0x205F || n = 0x3000

/-- Go `strings.ToUpper` on valid UTF-8. -/
def stringsToUpper (U : UnicodeTables) (s : Str) : Str := s.map (unicodeToUpper U)

/-- Go `strings.ToLower` on valid UTF-8. -/
def stringsToLower (U : UnicodeTables) (s : Str) : Str := s.map (unicodeToLower U)

/-- Go `len(s)`: the number of bytes of the UTF-8 encoding. -/
def byteLen (s : Str) : Nat := (s.map Char.utf8Size).sum

/-- The character class `[0-9A-Za-z]` of the regular expression `nonAlphaNum`. -/
def isAlphaNum (c : Char) : Bool := c.isDigit || c.isUpper || c.isLower

/-- The keyword table `reserved`. -/
def reserved : List Str :=
  (["abstract", "as", "base", "bool", "break", "byte", "case",
    "catch", "char", "checked", "class", "const", "continue",
    "decimal", "default", "delegate", "do", "double", "else",
    "enum", "event", "explicit", "extern", "false", "finally",
    "fixed", "float", "for", "foreach", "goto", "if", "implicit",
    "in", "int", "interface", "internal", "is", "lock", "long",
    "namespace", "new", "null", "object", "operator", "out", "override",
    "params", "private", "protected", "public", "readonly", "ref",
    "return", "sbyte", "sealed", "short", "sizeof", "stackalloc",
    "static", "string", "struct", "switch", "this", "throw", "true",
    "try", "typeof", "uint", "ulong", "unchecked", "unsafe", "ushort",
    "using", "virtual", "void", "volatile", "while"] : List String).map String.toList

/-- The call `nonAlphaNum.ReplaceAllString(input, " ")`: every maximal run of characters
outside `[0-9A-Za-z]` becomes one blank.  `inRun` tells that the previous character
belonged to such a run, whose blank has been written already. -/
def replaceNonAlphaNum (inRun : Bool) : Str → Str
  | [] => []
  | c :: rest =>
    if isAlphaNum c then c :: replaceNonAlphaNum false rest
    else if inRun then replaceNonAlphaNum true rest
    else ' ' :: replaceNonAlphaNum true rest

/-- Go `strings.Fields`: the maximal runs of non-space characters; `cur` is the field
being read. -/
def fieldsLoop (cur : Str) : Str → List Str
  | [] => if cur = [] then [] else [cur]
  | c :: rest =>
    if unicodeIsSpace c then
      (if cur = [] then fieldsLoop [] rest else cur :: fieldsLoop [] rest)
    else fieldsLoop (cur ++ [c]) rest

/-- Go `strings.Fields`. -/
def stringsFields (s : Str) : List Str := fieldsLoop [] s

/-- `shouldSplit` of naming.go; a missing `next` is the zero rune. -/
def shouldSplit (U : UnicodeTables) (prev curr next : Char) : Bool :=
  if unicodeIsDigit U curr && !unicodeIsDigit U prev then true
  else if unicodeIsUpper U curr && !unicodeIsUpper U prev then true
  else if unicodeIsUpper U curr && unicodeIsUpper U prev && next != Char.ofNat 0 &&
      unicodeIsLower U next then true
  else false

/-- The loop of `splitCamel`: `prev` is `runes[i-1]`, the list is `runes[i:]` and `cur` is
`runes[start:i]`; the result is the words appended to `parts` from here on, the closing
`runes[start:]` included. -/
def splitCamelLoop (U : UnicodeTables) : Char → Str → Str → List Str
  | _, [], cur => [cur]
  | prev, curr :: rest, cur =>
    if shouldSplit U prev curr (rest.headD (Char.ofNat 0)) then
      cur :: splitCamelLoop U curr rest [curr]
    else splitCamelLoop U curr rest (cur ++ [curr])

/-- `splitCamel` of naming.go. -/
def splitCamel (U : UnicodeTables) (word : Str) : List Str :=
  match word with
  | [] => []
  | [c] => [[c]]
  | c :: rest => splitCamelLoop U c rest [c]

/-- `splitIntoWords` of naming.go. -/
def splitIntoWords (U : UnicodeTables) (input : Str) : List Str :=
  let clean := replaceNonAlphaNum false input
  let fields := stringsFields clean
  if fields.length = 0 ∧ input ≠ [] then [input]
  else fields.foldl (fun result field => result ++ splitCamel U field) []

/-- `sanitizeLeadingCharacter` of naming.go. -/
def sanitizeLeadingCharacter (U : UnicodeTables) (input : Str) : Str :=
  match input with
  | [] => "Value".toList
  | c :: _ => if unicodeIsDigit U c then '_' :: input else input

/-- The expression `strings.ToUpper(part[:1])` for a non-empty `part`: the first byte is
the first character when that is ASCII, and otherwise a lone lead byte, which
`strings.ToUpper` maps to U+FFFD. -/
def upperFirstByte (U : UnicodeTables) (part : Str) : Str :=
  match part with
  | [] => []
  | c :: _ => if c.toNat < 128 then [unicodeToUpper U c] else [runeError]

/-- The expression `strings.ToLower(part[1:])`: when the first character is not ASCII the
slice starts with its continuation bytes, each of which `strings.ToLower` maps to
U+FFFD. -/
def lowerAfterFirstByte (U : UnicodeTables) (part : Str) : Str :=
  match part with
  | [] => []
  | c :: rest =>
    if c.toNat < 128 then stringsToLower U rest
    else List.replicate (c.utf8Size - 1) runeError ++ stringsToLower U rest

/-- One round of the loop of `PascalCase`: what is written to the builder for `part`. -/
def pascalPart (U : UnicodeTables) (part : Str) : Str :=
  if part = [] then []
  else upperFirstByte U part ++ (if 1 < byteLen part then lowerAfterFirstByte U part else [])

/-- `PascalCase` of naming.go. -/
def PascalCase (U : UnicodeTables) (input : Str) : Str :=
  let parts := splitIntoWords U input
  if parts.length = 0 then "Value".toList
  else sanitizeLeadingCharacter U (parts.foldl (fun builder part => builder ++ pascalPart U part) [])

/-- `CamelCase` of naming.go. -/
def CamelCase (U : UnicodeTables) (input : Str) : Str :=
  match PascalCase U input with
  | [] => "value".toList
  | r :: runes => unicodeToLower U r :: runes

/-- `ensureNotReserved` of naming.go. -/
def ensureNotReserved (U : UnicodeTables) (name : Str) : Str :=
  if name = [] then name
  else if stringsToLower U name ∈ reserved then name ++ "Value".toList
  else sanitizeLeadingCharacter U name

/-- `Identifier` of naming.go. -/
def Identifier (U : UnicodeTables) (input : Str) : Str :=
  ensureNotReserved U (CamelCase U input)

/-- `PascalIdentifier` of naming.go. -/
def PascalIdentifier (U : UnicodeTables) (input : Str) : Str :=
  ensureNotReserved U (PascalCase U input)

end SumUp

/-! ### The normalizer with Go's run-time checks made explicit

In the following variants `none` stands for a run-time panic (a slice or index expression
out of range).  They differ from the functions above only in those checks. -/

namespace SumUp

/-- The expression `strings.ToUpper(part[:1])`; the slice panics when `len(part) < 1`. -/
def upperFirstByteRun (U : UnicodeTables) (part : Str) : Option Str :=
  if byteLen part < 1 then none else some (upperFirstByte U part)

/-- The expression `strings.ToLower(part[1:])`; the slice panics when `len(part) < 1`. -/
def lowerAfterFirstByteRun (U : UnicodeTables) (part : Str) : Option Str :=
  if byteLen part < 1 then none else some (lowerAfterFirstByte U part)

/-- One round of the loop of `PascalCase`, with its slice expressions checked. -/
def pascalPartRun (U : UnicodeTables) (part : Str) : Option Str :=
  if part = [] then some []
  else
    match upperFirstByteRun U part with
    | none => none
    | some u =>
      if 1 < byteLen part then
        match lowerAfterFirstByteRun U part with
        | none => none
        | some l => some (u ++ l)
      else some u

/-- The loop of `PascalCase` over `parts`, with its slice expressions checked. -/
def pascalLoopRun (U : UnicodeTables) : Str → List Str → Option Str
  | builder, [] => some builder
  | builder, part :: parts =>
    match pascalPartRun U part with
    | none => none
    | some w => pascalLoopRun U (builder ++ w) parts

/-- `sanitizeLeadingCharacter` with the index expression `runes[0]` checked. -/
def sanitizeLeadingCharacterRun (U : UnicodeTables) (input : Str) : Option Str :=
  if input = [] then some "Value".toList
  else
    match input.head? with
    | none => none
    | some r => if unicodeIsDigit U r then some ('_' :: input) else some input

/-- `PascalCase` with its slice and index expressions checked. -/
def PascalCaseRun (U : UnicodeTables) (input : Str) : Option Str :=
  let parts := splitIntoWords U input
  if parts.length = 0 then some "Value".toList
  else
    match pascalLoopRun U [] parts with
    | none => none
    | some b => sanitizeLeadingCharacterRun U b

/-- `CamelCase` with the index expression `runes[0]` checked. -/
def CamelCaseRun (U : UnicodeTables) (input : Str) : Option Str :=
  match PascalCaseRun U input with
  | none => none
  | some pascal =>
    if pascal = [] then some "value".toList
    else
      match pascal with
      | [] => none
      | r :: runes => some (unicodeToLower U r :: runes)

/-- `ensureNotReserved` with the index expression of `sanitizeLeadingCharacter` checked. -/
def ensureNotReservedRun (U : UnicodeTables) (name : Str) : Option Str :=
  if name = [] then some name
  else if stringsToLower U name ∈ reserved then some (name ++ "Value".toList)
  else sanitizeLeadingCharacterRun U name

/-- `Identifier` with its slice and index expressions checked. -/
def IdentifierRun (U : UnicodeTables) (input : Str) : Option Str :=
  match CamelCaseRun U input with
  | none => none
  | some id => ensureNotReservedRun U id

/-- `PascalIdentifier` with its slice and index expressions checked. -/
def PascalIdentifierRun (U : UnicodeTables) (input : Str) : Option Str :=
  match PascalCaseRun U input with
  | none => none
  | some name => ensureNotReservedRun U name

/-- The string starts with a digit, in the sense of `unicode.IsDigit`. -/
def startsWithDigit (U : UnicodeTables) (s : Str) : Bool :=
  match s with
  | [] => false
  | c :: _ => unicodeIsDigit U c

/-- The first character of the string, if there is one, is ASCII or U+FFFD, and it is not a
lowercase ASCII letter. -/
def HeadPlain (s : Str) : Prop :=
  ∀ c t, s = c :: t → (c.toNat < 128 ∨ c = runeError) ∧ c.isLower = false

end SumUp

namespace SumUp

/-- A word made only of lowercase ASCII letters. -/
def IsLowerWord (w : Str) : Prop := ∀ c ∈ w, c.isLower = true

/-- A word made only of uppercase ASCII letters. -/
def IsUpperWord (w : Str) : Prop := ∀ c ∈ w, c.isUpper = true

instance (w : Str) : Decidable (IsLowerWord w) :=
  inferInstanceAs (Decidable (∀ c ∈ w, c.isLower = true))

instance (w : Str) : Decidable (IsUpperWord w) :=
  inferInstanceAs (Decidable (∀ c ∈ w, c.isUpper = true))

/-- The word with its first letter upper-cased, as the specification words it. -/
def upperFirstLetter (w : Str) : Str :=
  match w with
  | [] => []
  | c :: t => c.toUpper :: t

end SumUp

namespace SumUp

/-- No uppercase letter of the string directly follows an uppercase letter, unless a
lowercase letter follows it. -/
def noBareUpperPair : Str → Bool
  | x :: y :: rest =>
    !(x.isUpper && y.isUpper && !(match rest with | [] => false | z :: _ => z.isLower)) &&
      noBareUpperPair (y :: rest)
  | _ => true

/-- Only ASCII letters and digits, and no uppercase pair as excluded by `noBareUpperPair`. -/
def settledBody (t : Str) : Bool := t.all isAlphaNum && noBareUpperPair t

/-- An identifier that is `settledBody`, possibly after one leading underscore that stands
in front of a digit. -/
def Settled (r : Str) : Bool :=
  match r with
  | [] => false
  | c :: t =>
    if c = '_' then (match t with | [] => false | d :: _ => d.isDigit) && settledBody t
    else settledBody r

end SumUp

/-! ## The generator (`codegen/internal/generator/generator.go`)

### The specification document as the loader hands it over -/

namespace SumUp

mutual
/-- The type `base.Schema` of the loader, with the fields the generator reads.  An enum
literal is held as the string `yamlNodeToString` returns for it; a `nil` property map is
the empty list. -/
inductive Schema where
  | mk (type : List Str) (format : Str) (nullable : Option Bool) (enum : List Str)
      (properties : List (Str × SchemaProxy)) (required : List Str)
      (allOf : List SchemaProxy) (additionalProperties : DynamicValue)
      (items : DynamicValue) (description : Str)
/-- The type `base.SchemaProxy`: a schema written in place, or a `$ref`. -/
inductive SchemaProxy where
  | inline (schema : Schema)
  | reference (ref : Str)
/-- The type `DynamicValue[*SchemaProxy, bool]`, or the `nil` pointer to it (`absent`);
`aNil` is the `A` side holding a `nil` proxy. -/
inductive DynamicValue where
  | absent
  | aNil
  | a (proxy : SchemaProxy)
  | b (value : Bool)
end

/-- The field `Type`. -/
def Schema.type : Schema → List Str
  | .mk t _ _ _ _ _ _ _ _ _ => t

/-- The field `Format`. -/
def Schema.format : Schema → Str
  | .mk _ f _ _ _ _ _ _ _ _ => f

/-- The field `Nullable`. -/
def Schema.nullable : Schema → Option Bool
  | .mk _ _ n _ _ _ _ _ _ _ => n

/-- The field `Enum`. -/
def Schema.enum : Schema → List Str
  | .mk _ _ _ e _ _ _ _ _ _ => e

/-- The field `Properties`, oldest entry first. -/
def Schema.properties : Schema → List (Str × SchemaProxy)
  | .mk _ _ _ _ p _ _ _ _ _ => p

/-- The field `Required`. -/
def Schema.required : Schema → List Str
  | .mk _ _ _ _ _ r _ _ _ _ => r

/-- The field `AllOf`. -/
def Schema.allOf : Schema → List SchemaProxy
  | .mk _ _ _ _ _ _ a _ _ _ => a

/-- The field `AdditionalProperties`. -/
def Schema.additionalProperties : Schema → DynamicValue
  | .mk _ _ _ _ _ _ _ ap _ _ => ap

/-- The field `Items`. -/
def Schema.items : Schema → DynamicValue
  | .mk _ _ _ _ _ _ _ _ i _ => i

/-- The field `Description`. -/
def Schema.description : Schema → Str
  | .mk _ _ _ _ _ _ _ _ _ d => d

/-- The test `d != nil && d.IsA() && d.A != nil`, with the proxy it then reads. -/
def DynamicValue.schemaA : DynamicValue → Option SchemaProxy
  | .a p => some p
  | _ => none

/-- The test `d != nil && d.IsA()`. -/
def DynamicValue.isA : DynamicValue → Bool
  | .a _ => true
  | .aNil => true
  | _ => false

/-- The test `d != nil && d.IsB() && d.B`. -/
def DynamicValue.isTrueB : DynamicValue → Bool
  | .b true => true
  | _ => false

/-- What lies outside the repository: the Unicode tables of the Go library, and the schema
the loader resolves a `$ref` string to (the result of `SchemaProxy.Schema()` on a reference
proxy, `none` when the loader cannot resolve it). -/
structure Library where
  unicode : UnicodeTables
  schemaOf : Str → Option Schema

/-- The call `proxy.Schema()`. -/
def SchemaProxy.schema (L : Library) : SchemaProxy → Option Schema
  | .inline s => some s
  | .reference r => L.schemaOf r

/-- The call `proxy.IsReference()`. -/
def SchemaProxy.isReference : SchemaProxy → Bool
  | .inline _ => false
  | .reference _ => true

/-- The call `proxy.GetReference()`. -/
def SchemaProxy.getReference : SchemaProxy → Str
  | .inline _ => []
  | .reference r => r

/-! ### Go library functions on strings -/

/-- Go `strings.HasSuffix(s, "?")`. -/
def hasSuffixQ (s : Str) : Bool := s.getLast? = some '?'

/-- Go `strings.TrimSuffix(s, "?")`. -/
def trimSuffixQ (s : Str) : Str := if hasSuffixQ s then s.dropLast else s

/-- Go `strings.Contains`. -/
def stringsContains (s sub : Str) : Bool :=
  match s with
  | [] => sub.isEmpty
  | c :: rest => sub.isPrefixOf (c :: rest) || stringsContains rest sub

/-- One pair of runes of `strings.EqualFold(t, target)` for an ASCII `target` rune: equal,
or equal up to ASCII letter case, or one of the two non-ASCII runes that fold to an ASCII
letter (U+212A to `k`, U+017F to `s`). -/
def foldMatches (c d : Char) : Bool :=
  c = d || (c.toNat < 128 && c.toLower = d.toLower) ||
    (c = Char.ofNat 0x212A && d.toLower = 'k') || (c = Char.ofNat 0x17F && d.toLower = 's')

/-- Go `strings.EqualFold(t, target)` for an ASCII `target`. -/
def equalFold : Str → Str → Bool
  | [], [] => true
  | c :: t, d :: target => foldMatches c d && equalFold t target
  | _, _ => false

/-- Go `fmt.Sprintf("%d", n)` for `n ≥ 0`. -/
def decimal (n : Nat) : Str := Nat.toDigits 10 n

/-- Go `strings.TrimSpace`. -/
def trimSpace (s : Str) : Str :=
  ((s.dropWhile unicodeIsSpace).reverse.dropWhile unicodeIsSpace).reverse

/-- Go `strings.ReplaceAll(s, "\r\n", " ")`. -/
def replaceCRLF : Str → Str
  | [] => []
  | c :: rest =>
    match rest with
    | d :: rest' =>
      if c = '\r' ∧ d = '\n' then ' ' :: replaceCRLF rest' else c :: replaceCRLF (d :: rest')
    | [] => [c]

/-- Go `strings.ReplaceAll(s, "\n", " ")`. -/
def replaceLF (s : Str) : Str := s.map (fun c => if c = '\n' then ' ' else c)

/-- `sanitizeText` of generator.go. -/
def sanitizeText (value : Str) : Str :=
  let value := trimSpace value
  if value = [] then []
  else
    let value := replaceCRLF value
    let value := replaceLF value
    List.intercalate [' '] (stringsFields value)

/-- Go `sort.Strings`. -/
def sortStrings (names : List Str) : List Str := names.insertionSort (· ≤ ·)

/-- The map read `m.GetOrZero(key)` of an ordered map. -/
def getOrZero {β : Type} (m : List (Str × β)) (key : Str) : Option β :=
  match m with
  | [] => none
  | (k, v) :: rest => if k = key then some v else getOrZero rest key

/-- The keys of an ordered map, oldest first (`KeysFromOldest`). -/
def keysFromOldest {β : Type} (m : List (Str × β)) : List Str := m.map Prod.fst

/-- `componentName` of generator.go: the last of the segments `strings.Split(ref, "/")`. -/
def componentName (ref : Str) : Str := (ref.reverse.takeWhile (· ≠ '/')).reverse

/-! ### Records -/

/-- The type `schemaKind`. -/
inductive schemaKind where
  | schemaKindAlias
  | schemaKindObject
  | schemaKindEnum
  deriving DecidableEq, Repr

open schemaKind

/-- The type `schemaTypeInfo`. -/
structure schemaTypeInfo where
  Name : Str
  TypeName : Str
  Kind : schemaKind := schemaKindAlias
  Schema : SchemaProxy
  AliasType : Str := []
  AliasIsValueType : Bool := false

/-- The type `typeInfo`. -/
structure typeInfo where
  TypeName : Str
  IsCollection : Bool
  IsValueType : Bool
  deriving DecidableEq, Repr

/-- The type `modelPropertyTemplateData`. -/
structure modelPropertyTemplateData where
  PropertyName : Str
  JsonName : Str
  TypeName : Str
  Description : Str
  Required : Bool
  NeedsInitializer : Bool
  IsValueType : Bool
  IsNullable : Bool
  deriving DecidableEq, Repr

/-- The type `enumValueTemplateData`. -/
structure enumValueTemplateData where
  Name : Str
  Value : Str
  deriving DecidableEq, Repr

/-- The type `modelTemplateData`. -/
structure modelTemplateData where
  Namespace : Str
  Name : Str
  Description : Str
  Kind : schemaKind
  Properties : List modelPropertyTemplateData := []
  EnumValues : List enumValueTemplateData := []
  HasProperties : Bool := false
  UsesCollections : Bool := false
  UsesJson : Bool := false
  HasExtensionData : Bool := false
  ExtensionDataValueType : Str := []
  EmitToString : Bool := false
  deriving DecidableEq, Repr

/-- The type `Config`. -/
structure Config where
  OutputDir : Str
  Namespace : Str

/-- The type `Generator`.  The Go maps `schemaTypes`, `modelNames` and `errorModels` are
only read by key and written, never iterated: they are a function and two finite sets. -/
structure Generator where
  config : Config
  schemaTypes : Str → Option schemaTypeInfo
  inlineModels : List modelTemplateData
  modelNames : Finset Str
  errorModels : Finset Str

/-- The assignment `g.modelNames[name] = struct{}{}`. -/
def Generator.addModelName (g : Generator) (name : Str) : Generator :=
  { g with modelNames := insert name g.modelNames }

/-- The assignment `g.schemaTypes[name] = info`. -/
def Generator.setSchemaType (g : Generator) (name : Str) (info : schemaTypeInfo) : Generator :=
  { g with schemaTypes := fun k => if k = name then some info else g.schemaTypes k }

end SumUp

/-! ### Operations, as the loader hands them over -/

namespace SumUp

/-- The type `v3.MediaType`: the field `Schema`, which may be `nil`. -/
structure MediaType where
  Schema : Option SchemaProxy

/-- The type `v3.Response`: the field `Content` (a `nil` map is the empty list). -/
structure Response where
  Content : List (Str × MediaType)

/-- The type `v3.Responses`. -/
structure Responses where
  Codes : List (Str × Response)
  Default : Option Response

/-- The type `v3.RequestBody`. -/
structure RequestBody where
  Content : List (Str × MediaType)
  Required : Option Bool
  Description : Str

/-- The type `v3.Parameter`. -/
structure Parameter where
  Name : Str
  In : Str
  Required : Option Bool
  Schema : Option SchemaProxy
  Description : Str

/-- The type `v3.Operation`.  `xCodegen` is the extension `x-codegen`: the values of the
nodes in `node.Content`, or `none` when the extension is absent. -/
structure Operation where
  Tags : List Str
  OperationId : Str
  Summary : Str
  Description : Str
  Parameters : List Parameter
  RequestBody : Option RequestBody
  Responses : Option Responses
  xCodegen : Option (List Str)

/-- The type `v3.PathItem`: its parameters, and the ordered map `GetOperations()` returns
(HTTP method, in lower case, to operation). -/
structure PathItem where
  Parameters : List Parameter
  Operations : List (Str × Operation)

/-- The type `v3.Document`: `Components.Schemas`, `Paths.PathItems` and `Info.Version`
(`nil` maps are empty lists, a missing `Info` is `none`). -/
structure Document where
  Schemas : List (Str × SchemaProxy)
  PathItems : List (Str × PathItem)
  Version : Option Str

end SumUp

/-! ### Type resolution and model assembly

Fuel: every function that follows references or descends into schemas takes a fuel
argument, decreases it at each recursive call and returns `none` when it runs out.  The
mutual recursion `collectProperties → resolvePropertyType → resolveInlineSchemaType →
createInlineModel → buildClassModel → collectProperties` of the source is tied through
`resolveInlineSchemaType`: the other four functions are first written over the resolver of
the next lower fuel (the argument `resolveInline`) and then closed. -/

namespace SumUp

open schemaKind

/-- `nullableType` of generator.go; `collection` is the optional trailing argument. -/
def nullableType (typeName : Str) (isValueType : Bool) (required : Bool)
    (collection : Bool) : typeInfo :=
  let typeName := if !required && !hasSuffixQ typeName then typeName ++ ['?'] else typeName
  { TypeName := typeName,
    IsCollection := collection || stringsContains typeName "IEnumerable".toList ||
      stringsContains typeName "IDictionary".toList,
    IsValueType := isValueType }

/-- `schemaHasType` of generator.go. -/
def schemaHasType (schema : Schema) (target : Str) : Bool :=
  schema.type.any (fun t => equalFold t target)

/-- `schemaFromProxy` of generator.go (for a proxy that is not `nil`); the inner `none` is
the `nil` schema. -/
def schemaFromProxy (L : Library) (g : Generator) : Nat → SchemaProxy → Option (Option Schema)
  | 0, _ => none
  | fuel + 1, proxy =>
    match proxy.schema L with
    | some schema => some (some schema)
    | none =>
      if proxy.isReference then
        match g.schemaTypes (componentName proxy.getReference) with
        | some info => schemaFromProxy L g fuel info.Schema
        | none => some none
      else some none

/-- `schemaDescription` of generator.go. -/
def schemaDescription (L : Library) (g : Generator) (fuel : Nat) (proxy : Option SchemaProxy) :
    Option Str :=
  match proxy with
  | none => some []
  | some p =>
    match schemaFromProxy L g fuel p with
    | none => none
    | some (some schema) => some schema.description
    | some none => some []

/-- `classifySchema` of generator.go (for a schema that is not `nil`). -/
def classifySchema (schema : Schema) : schemaKind :=
  if schema.enum.length > 0 then schemaKindEnum
  else if schema.properties.length > 0 || schema.allOf.length > 0 then schemaKindObject
  else if schemaHasType schema "object".toList then schemaKindObject
  else if schema.additionalProperties.schemaA.isSome then schemaKindObject
  else schemaKindAlias

/-- The `string` case of `resolveType`: the type name for a format. -/
def stringTypeName (format : Str) : Str :=
  if format = "date-time".toList then "DateTimeOffset".toList
  else if format = "date".toList then "DateTime".toList
  else if format = "uuid".toList then "Guid".toList
  else if format = "byte".toList ∨ format = "binary".toList then "byte[]".toList
  else "string".toList

/-- The reference branch of `resolveType`: a reference whose component name is in
`schemaTypes` is answered from the table. -/
def resolveTypeViaTable (g : Generator) (schemaRef : SchemaProxy) (required : Bool) :
    Option typeInfo :=
  if schemaRef.isReference then
    match g.schemaTypes (componentName schemaRef.getReference) with
    | some info =>
      let typeName :=
        if info.Kind = schemaKindAlias ∧ info.AliasType ≠ [] then info.AliasType
        else info.TypeName
      let isValueType :=
        if info.Kind = schemaKindObject then false
        else if info.Kind = schemaKindEnum then true
        else info.AliasIsValueType
      some (nullableType typeName isValueType required false)
    | none => none
  else none

/-- The `switch` of `resolveType` on a schema that is not `nil`; `resolve` is the
recursive call of `resolveType`. -/
def resolveSchemaType (resolve : Option SchemaProxy → Bool → Option typeInfo)
    (schema : Schema) (required : Bool) : Option typeInfo :=
  let required := if schema.nullable = some true then false else required
  if schemaHasType schema "string".toList then
    some (nullableType (stringTypeName schema.format) false required false)
  else if schemaHasType schema "integer".toList then
    some (nullableType
      (if schema.format = "int64".toList then "long".toList else "int".toList)
      true required false)
  else if schemaHasType schema "number".toList then
    let typeName := "decimal".toList
    let typeName := if schema.format = "float".toList then "float".toList else typeName
    let typeName := if schema.format = "double".toList then "double".toList else typeName
    some (nullableType typeName true required false)
  else if schemaHasType schema "boolean".toList then
    some (nullableType "bool".toList true required false)
  else if schemaHasType schema "array".toList || schema.items.isA then
    if schema.items.isA then
      match resolve schema.items.schemaA true with
      | none => none
      | some elem =>
        some (nullableType
          ("IEnumerable<".toList ++ trimSuffixQ elem.TypeName ++ ">".toList)
          false required true)
    else some (nullableType "IEnumerable<JsonDocument>".toList false required true)
  else if schemaHasType schema "object".toList then
    match schema.additionalProperties.schemaA with
    | some valueSchema =>
      match resolve (some valueSchema) true with
      | none => none
      | some valueType =>
        some (nullableType
          ("IDictionary<string, ".toList ++ trimSuffixQ valueType.TypeName ++ ">".toList)
          false required true)
    | none =>
      if schema.additionalProperties.isTrueB then
        some (nullableType "IDictionary<string, JsonElement>".toList false required true)
      else some (nullableType "JsonDocument".toList false required false)
  else some (nullableType "JsonDocument".toList false required false)

/-- The body of `resolveType`, over its own recursive call `resolve`. -/
def resolveTypeStep (L : Library) (g : Generator) (fuel : Nat)
    (resolve : Option SchemaProxy → Bool → Option typeInfo)
    (schemaRef : Option SchemaProxy) (required : Bool) : Option typeInfo :=
  match schemaRef with
  | none => some (nullableType "JsonDocument".toList false required false)
  | some schemaRef =>
    match resolveTypeViaTable g schemaRef required with
    | some t => some t
    | none =>
      match schemaFromProxy L g fuel schemaRef with
      | none => none
      | some none => some (nullableType "JsonDocument".toList false required false)
      | some (some schema) => resolveSchemaType resolve schema required

/-- `resolveType` of generator.go. -/
def resolveType (L : Library) (g : Generator) :
    Nat → Option SchemaProxy → Bool → Option typeInfo
  | 0 => fun _ _ => none
  | fuel + 1 => resolveTypeStep L g fuel (resolveType L g fuel)

/-- The loop of `buildEnumValues`; `names` is the map of the counts. -/
def buildEnumValuesLoop (L : Library) :
    List Str → (Str → Option Nat) → List enumValueTemplateData → List enumValueTemplateData
  | [], _, values => values
  | str :: rest, names, values =>
    let name := PascalIdentifier L.unicode str
    match names name with
    | some count =>
      let count := count + 1
      buildEnumValuesLoop L rest (fun k => if k = name then some count else names k)
        (values ++ [{ Name := name ++ decimal count, Value := str }])
    | none =>
      buildEnumValuesLoop L rest (fun k => if k = name then some 0 else names k)
        (values ++ [{ Name := name, Value := str }])

/-- `buildEnumValues` of generator.go. -/
def buildEnumValues (L : Library) (schema : Schema) : List enumValueTemplateData :=
  buildEnumValuesLoop L schema.enum (fun _ => none) []

/-- `reserveModelName` of generator.go: the loop, with `index` the next numeral to try. -/
def reserveModelNameLoop (modelNames : Finset Str) (base : Str) : Nat → Str → Nat → Option Str
  | 0, _, _ => none
  | fuel + 1, name, index =>
    if name ∉ modelNames then some name
    else reserveModelNameLoop modelNames base fuel (base ++ decimal index) (index + 1)

/-- `reserveModelName` of generator.go. -/
def reserveModelName (fuel : Nat) (g : Generator) (base : Str) : Option (Str × Generator) :=
  match reserveModelNameLoop g.modelNames base fuel base 2 with
  | none => none
  | some name => some (name, g.addModelName name)

/-- The signature of `resolveInlineSchemaType` at one fuel level. -/
abbrev InlineResolver :=
  Generator → Option SchemaProxy → Bool → Str → Option (typeInfo × Generator)

/-- `resolvePropertyType` of generator.go. -/
def resolvePropertyTypeWith (L : Library) (resolveInline : InlineResolver) (g : Generator)
    (ownerName propertyName : Str) (schemaRef : Option SchemaProxy) (required : Bool) :
    Option (typeInfo × Generator) :=
  resolveInline g schemaRef required (ownerName ++ PascalIdentifier L.unicode propertyName)

/-- The assignment `propMap[name] = prop`. -/
def propMapSet (propMap : List (Str × modelPropertyTemplateData)) (name : Str)
    (prop : modelPropertyTemplateData) : List (Str × modelPropertyTemplateData) :=
  match propMap with
  | [] => [(name, prop)]
  | (k, v) :: rest => if k = name then (k, prop) :: rest else (k, v) :: propMapSet rest name prop

/-- What `collectProperties` accumulates: the generator, `propMap`, `usesCollections` and
`usesJson`. -/
structure collectState where
  g : Generator
  propMap : List (Str × modelPropertyTemplateData)
  usesCollections : Bool
  usesJson : Bool

/-- The loop over the sorted property names in the closure `addProps`. -/
def addPropsLoop (L : Library) (fuel : Nat) (resolveInline : InlineResolver) (ownerName : Str)
    (source : Schema) : List Str → collectState → Option collectState
  | [], st => some st
  | name :: rest, st =>
    let propRef := getOrZero source.properties name
    let required := decide (name ∈ source.required)
    match resolvePropertyTypeWith L resolveInline st.g ownerName name propRef required with
    | none => none
    | some (typeInfo, g) =>
      match schemaDescription L g fuel propRef with
      | none => none
      | some description =>
        let prop : modelPropertyTemplateData :=
          { PropertyName := PascalIdentifier L.unicode name,
            JsonName := name,
            TypeName := typeInfo.TypeName,
            Description := sanitizeText description,
            Required := required,
            NeedsInitializer := required && !typeInfo.IsValueType && !hasSuffixQ typeInfo.TypeName,
            IsValueType := typeInfo.IsValueType,
            IsNullable := hasSuffixQ typeInfo.TypeName }
        addPropsLoop L fuel resolveInline ownerName source rest
          { g := g,
            propMap := propMapSet st.propMap name prop,
            usesCollections := st.usesCollections || typeInfo.IsCollection,
            usesJson := st.usesJson ||
              stringsContains typeInfo.TypeName "JsonDocument".toList ||
              stringsContains typeInfo.TypeName "JsonElement".toList }

/-- The closure `addProps` of `collectProperties`. -/
def addProps (L : Library) (fuel : Nat) (resolveInline : InlineResolver) (ownerName : Str)
    (source : Schema) (st : collectState) : Option collectState :=
  addPropsLoop L fuel resolveInline ownerName source
    (sortStrings (keysFromOldest source.properties)) st

/-- The loop over `schema.AllOf` in `collectProperties`. -/
def allOfLoop (L : Library) (fuel : Nat) (resolveInline : InlineResolver) (ownerName : Str) :
    List SchemaProxy → collectState → Option collectState
  | [], st => some st
  | allOf :: rest, st =>
    match schemaFromProxy L st.g fuel allOf with
    | none => none
    | some none => allOfLoop L fuel resolveInline ownerName rest st
    | some (some sub) =>
      match addProps L fuel resolveInline ownerName sub st with
      | none => none
      | some st => allOfLoop L fuel resolveInline ownerName rest st

/-- `collectProperties` of generator.go (for a schema that is not `nil`): the properties,
`usesCollections`, `usesJson`, and the generator afterwards. -/
def collectPropertiesWith (L : Library) (fuel : Nat) (resolveInline : InlineResolver)
    (g : Generator) (ownerName : Str) (schema : Schema) :
    Option ((List modelPropertyTemplateData × Bool × Bool) × Generator) :=
  match addProps L fuel resolveInline ownerName schema
      { g := g, propMap := [], usesCollections := false, usesJson := false } with
  | none => none
  | some st =>
    match allOfLoop L fuel resolveInline ownerName schema.allOf st with
    | none => none
    | some st =>
      let keys := sortStrings (keysFromOldest st.propMap)
      some ((keys.filterMap (getOrZero st.propMap), st.usesCollections, st.usesJson), st.g)

/-- `buildClassModel` of generator.go. -/
def buildClassModelWith (L : Library) (fuel : Nat) (resolveInline : InlineResolver)
    (g : Generator) (typeName : Str) (schema : Schema) : Option (modelTemplateData × Generator) :=
  match collectPropertiesWith L fuel resolveInline g typeName schema with
  | none => none
  | some ((props, usesCollections, usesJson), g) =>
    let ext : Option (Str × Bool × Bool) :=
      match schema.additionalProperties.schemaA with
      | some valueSchema =>
        match resolveType L g fuel (some valueSchema) true with
        | none => none
        | some val =>
          let extensionType := trimSuffixQ val.TypeName
          some (extensionType, true,
            usesJson || stringsContains extensionType "Json".toList)
      | none =>
        if schema.additionalProperties.isTrueB then some ("JsonElement".toList, true, true)
        else some ([], usesCollections, usesJson)
    match ext with
    | none => none
    | some (extensionType, usesCollections, usesJson) =>
      some ({ Namespace := g.config.Namespace,
              Name := typeName,
              Description := sanitizeText schema.description,
              Properties := props,
              Kind := schemaKindObject,
              HasProperties := props.length > 0,
              UsesCollections := usesCollections,
              UsesJson := usesJson,
              HasExtensionData := extensionType ≠ [],
              ExtensionDataValueType := extensionType }, g)

/-- `createInlineModel` of generator.go. -/
def createInlineModelWith (L : Library) (fuel : Nat) (resolveInline : InlineResolver)
    (g : Generator) (baseName : Str) (schema : Schema) : Option (Str × Generator) :=
  match reserveModelName fuel g baseName with
  | none => none
  | some (typeName, g) =>
    match buildClassModelWith L fuel resolveInline g typeName schema with
    | none => none
    | some (model, g) => some (typeName, { g with inlineModels := g.inlineModels ++ [model] })

/-- `schemaDefinesStructuredObject` of generator.go (for a schema that is not `nil`). -/
def schemaDefinesStructuredObject (schema : Schema) : Bool :=
  schema.properties.length > 0 || schema.allOf.length > 0

/-- The body of `resolveInlineSchemaType`, over its own recursive call `resolveInline`
(which `createInlineModel` reaches as well). -/
def resolveInlineStep (L : Library) (fuel : Nat) (resolveInline : InlineResolver)
    (g : Generator) (schemaRef : Option SchemaProxy) (required : Bool) (inlineBase : Str) :
    Option (typeInfo × Generator) :=
  match schemaRef with
  | none => some (nullableType "JsonDocument".toList false required false, g)
  | some schemaRef =>
    if inlineBase ≠ [] ∧ schemaRef.isReference = false then
      match schemaFromProxy L g fuel schemaRef with
      | none => none
      | some none => some (nullableType "JsonDocument".toList false required false, g)
      | some (some schema) =>
        if schemaDefinesStructuredObject schema then
          match createInlineModelWith L fuel resolveInline g inlineBase schema with
          | none => none
          | some (typeName, g) => some (nullableType typeName false required false, g)
        else
          match schema.additionalProperties.schemaA with
          | some valueSchema =>
            match resolveInline g (some valueSchema) true (inlineBase ++ "Value".toList) with
            | none => none
            | some (valueInfo, g) =>
              some (nullableType
                ("IDictionary<string, ".toList ++ trimSuffixQ valueInfo.TypeName ++ ">".toList)
                false required true, g)
          | none =>
            if schema.additionalProperties.isTrueB then
              some (nullableType "IDictionary<string, JsonElement>".toList false required true, g)
            else if schema.items.isA then
              match resolveInline g schema.items.schemaA true (inlineBase ++ "Item".toList) with
              | none => none
              | some (itemInfo, g) =>
                some (nullableType
                  ("IEnumerable<".toList ++ trimSuffixQ itemInfo.TypeName ++ ">".toList)
                  false required true, g)
            else
              match resolveType L g fuel (some schemaRef) required with
              | none => none
              | some t => some (t, g)
    else
      match resolveType L g fuel (some schemaRef) required with
      | none => none
      | some t => some (t, g)

/-- `resolveInlineSchemaType` of generator.go. -/
def resolveInlineSchemaType (L : Library) : Nat → InlineResolver
  | 0 => fun _ _ _ _ => none
  | fuel + 1 => resolveInlineStep L fuel (resolveInlineSchemaType L fuel)

/-- `resolvePropertyType` of generator.go. -/
def resolvePropertyType (L : Library) (fuel : Nat) : Generator → Str → Str →
    Option SchemaProxy → Bool → Option (typeInfo × Generator) :=
  resolvePropertyTypeWith L (resolveInlineSchemaType L fuel)

/-- `collectProperties` of generator.go. -/
def collectProperties (L : Library) (fuel : Nat) : Generator → Str → Schema →
    Option ((List modelPropertyTemplateData × Bool × Bool) × Generator) :=
  collectPropertiesWith L fuel (resolveInlineSchemaType L fuel)

/-- `buildClassModel` of generator.go. -/
def buildClassModel (L : Library) (fuel : Nat) : Generator → Str → Schema →
    Option (modelTemplateData × Generator) :=
  buildClassModelWith L fuel (resolveInlineSchemaType L fuel)

/-- `createInlineModel` of generator.go. -/
def createInlineModel (L : Library) (fuel : Nat) : Generator → Str → Schema →
    Option (Str × Generator) :=
  createInlineModelWith L fuel (resolveInlineSchemaType L fuel)

end SumUp

namespace SumUp

open schemaKind

/-- The first loop of `buildModels`: one `schemaTypeInfo` per named schema, and its type
name entered into `modelNames`. -/
def registerSchemas (L : Library) : List (Str × SchemaProxy) → Generator → Generator
  | [], g => g
  | (name, schemaProxy) :: rest, g =>
    let info : schemaTypeInfo :=
      { Name := name, TypeName := PascalIdentifier L.unicode name, Schema := schemaProxy }
    registerSchemas L rest ((g.setSchemaType name info).addModelName info.TypeName)

/-- The second loop of `buildModels`: the kind of every named schema. -/
def classifyLoop (L : Library) (fuel : Nat) : List Str → Generator → Option Generator
  | [], g => some g
  | name :: rest, g =>
    match g.schemaTypes name with
    | none => classifyLoop L fuel rest g
    | some info =>
      match schemaFromProxy L g fuel info.Schema with
      | none => none
      | some none => classifyLoop L fuel rest g
      | some (some schema) =>
        classifyLoop L fuel rest (g.setSchemaType name { info with Kind := classifySchema schema })

/-- The third loop of `buildModels`: the target of every alias. -/
def aliasLoop (L : Library) (fuel : Nat) : List Str → Generator → Option Generator
  | [], g => some g
  | name :: rest, g =>
    match g.schemaTypes name with
    | none => aliasLoop L fuel rest g
    | some info =>
      if info.Kind ≠ schemaKindAlias then aliasLoop L fuel rest g
      else
        match schemaFromProxy L g fuel info.Schema with
        | none => none
        | some none => aliasLoop L fuel rest g
        | some (some schema) =>
          match resolveType L g fuel (some (SchemaProxy.inline schema)) true with
          | none => none
          | some typeInfo =>
            aliasLoop L fuel rest
              (g.setSchemaType name
                { info with AliasType := trimSuffixQ typeInfo.TypeName,
                            AliasIsValueType := typeInfo.IsValueType })

/-- The fourth loop of `buildModels`: one model per enum or object schema. -/
def modelLoop (L : Library) (fuel : Nat) :
    List Str → Generator → List modelTemplateData → Option (List modelTemplateData × Generator)
  | [], g, models => some (models, g)
  | name :: rest, g, models =>
    match g.schemaTypes name with
    | none => modelLoop L fuel rest g models
    | some info =>
      match schemaFromProxy L g fuel info.Schema with
      | none => none
      | some none => modelLoop L fuel rest g models
      | some (some schema) =>
        match info.Kind with
        | schemaKindEnum =>
          let model : modelTemplateData :=
            { Namespace := g.config.Namespace,
              Name := info.TypeName,
              Description := sanitizeText schema.description,
              Kind := schemaKindEnum,
              EnumValues := buildEnumValues L schema,
              UsesCollections := false }
          modelLoop L fuel rest
            (g.setSchemaType name
              { info with AliasType := info.TypeName, AliasIsValueType := true })
            (models ++ [model])
        | schemaKindObject =>
          match buildClassModel L fuel g info.TypeName schema with
          | none => none
          | some (model, g) =>
            modelLoop L fuel rest
              (g.setSchemaType name
                { info with AliasType := info.TypeName, AliasIsValueType := false })
              (models ++ [{ model with Kind := schemaKindObject }])
        | schemaKindAlias => modelLoop L fuel rest g models

/-- Go `sort.Slice(models, ...)` by `Name`.  The Go sort is not stable and leaves the order
of records with equal names open; the model sorts stably.  Where the names are pairwise
distinct every sorting algorithm returns this list. -/
def sortModels (models : List modelTemplateData) : List modelTemplateData :=
  models.insertionSort (fun a b => a.Name ≤ b.Name)

/-- `buildModels` of generator.go: the models and the generator afterwards. -/
def buildModels (L : Library) (fuel : Nat) (g : Generator) (doc : Document) :
    Option (List modelTemplateData × Generator) :=
  let g := { g with schemaTypes := fun _ => none }
  if doc.Schemas.length = 0 then some ([], g)
  else
    let g := registerSchemas L doc.Schemas g
    let names := sortStrings (keysFromOldest doc.Schemas)
    match classifyLoop L fuel names g with
    | none => none
    | some g =>
      match aliasLoop L fuel names g with
      | none => none
      | some g =>
        match modelLoop L fuel names g [] with
        | none => none
        | some (models, g) => some (sortModels models, g)

/-- `New` of generator.go. -/
def Generator.new (config : Config) : Generator :=
  { config := config, schemaTypes := fun _ => none, inlineModels := [],
    modelNames := ∅, errorModels := ∅ }

/-- The generator as `Run` prepares it before it calls `buildModels`: the registries are
reset and an empty namespace becomes `SumUp`. -/
def Generator.start (config : Config) : Generator :=
  Generator.new
    { config with Namespace := if config.Namespace = [] then "SumUp".toList else config.Namespace }

end SumUp

/-! ### Operations and clients -/

namespace SumUp

/-- The type `parameterTemplateData`. -/
structure parameterTemplateData where
  Location : Str
  Name : Str
  ArgName : Str
  Declaration : Str
  Description : Str
  Required : Bool
  BuilderCall : Str
  IsCollection : Bool
  deriving DecidableEq, Repr

/-- The type `methodParameter`. -/
structure methodParameter where
  Name : Str
  Signature : Str
  Description : Str
  deriving DecidableEq, Repr

/-- The type `bodyTemplateData`. -/
structure bodyTemplateData where
  ArgName : Str
  Signature : Str
  Description : Str
  Required : Bool
  ContentType : Str
  TypeName : Str
  IsCollection : Bool
  deriving DecidableEq, Repr

/-- The type `errorResponseTemplateData`. -/
structure errorResponseTemplateData where
  StatusCodeLiteral : Str
  ErrorType : Str
  IsDefault : Bool
  deriving DecidableEq, Repr

/-- The type `operationTemplateData`. -/
structure operationTemplateData where
  MethodName : Str
  HttpMethod : Str
  HttpMethodExpr : Str
  Path : Str
  Summary : Str
  Description : Str
  PathParams : List parameterTemplateData
  QueryParams : List parameterTemplateData
  HeaderParams : List parameterTemplateData
  Parameters : List methodParameter
  HasParameters : Bool
  HasRequestBody : Bool
  Body : Option bodyTemplateData
  ResponseType : Str
  HasBuilder : Bool
  HasPathParams : Bool
  HasQueryParams : Bool
  HasHeaderParams : Bool
  UsesCollections : Bool
  HasErrorResponses : Bool
  ErrorResponses : List errorResponseTemplateData
  ResponseMode : Str
  deriving DecidableEq, Repr

/-- The type `clientTemplateData`. -/
structure clientTemplateData where
  Namespace : Str
  ClientName : Str
  PropertyName : Str
  Operations : List operationTemplateData := []
  UsesCollections : Bool := false
  UsesJson : Bool := false
  UsesErrorResponses : Bool := false
  deriving DecidableEq, Repr

/-- Go `strings.HasPrefix(code, "2")`. -/
def hasPrefix2 (code : Str) : Bool := code.head? = some '2'

/-- `canonicalMethodName` of generator.go.  The byte slices `lower[:1]` and `lower[1:]` are
the first character and the rest when the first character is ASCII, as it is for every key
of `GetOperations()`; otherwise the lead byte becomes U+FFFD and the continuation bytes,
which Go leaves as they are, are written as U+FFFD too. -/
def canonicalMethodName (U : UnicodeTables) (method : Str) : Str :=
  if method = [] then []
  else
    match stringsToLower U method with
    | [] => []
    | c :: rest =>
      if c.toNat < 128 then unicodeToUpper U c :: rest
      else runeError :: (List.replicate (c.utf8Size - 1) runeError ++ rest)

/-- `generateOperationName` of generator.go. -/
def generateOperationName (U : UnicodeTables) (method path : Str) : Str :=
  let combined := method ++ "_".toList ++ path
  let combined := combined.filter (fun c => c ≠ Char.ofNat 123)
  let combined := combined.filter (fun c => c ≠ Char.ofNat 125)
  PascalIdentifier U combined

/-- The loop of `methodNameFromExtension` over the key and value nodes. -/
def methodNameFromContent : List Str → Str
  | key :: value :: rest =>
    if key = "method_name".toList ∧ trimSpace value ≠ [] then value
    else methodNameFromContent rest
  | _ => []

/-- `methodNameFromExtension` of generator.go. -/
def methodNameFromExtension (op : Operation) : Str :=
  match op.xCodegen with
  | none => []
  | some content => methodNameFromContent content

/-- `operationBaseName` of generator.go. -/
def operationBaseName (U : UnicodeTables) (method path : Str) (op : Operation) : Str :=
  if methodNameFromExtension op ≠ [] then methodNameFromExtension op
  else if op.OperationId ≠ [] then op.OperationId
  else generateOperationName U method path

/-- `mergeParameters` of generator.go. -/
def mergeParameters (pathParams opParams : List Parameter) : List Parameter :=
  pathParams ++ opParams

/-- `builderCall` of generator.go. -/
def builderCall (location name arg : Str) : Str :=
  if location = "path".toList then
    "builder.AddPath(\"".toList ++ name ++ "\", ".toList ++ arg ++ ");".toList
  else if location = "query".toList then
    "builder.AddQuery(\"".toList ++ name ++ "\", ".toList ++ arg ++ ");".toList
  else if location = "header".toList then
    "builder.AddHeader(\"".toList ++ name ++ "\", ".toList ++ arg ++ ");".toList
  else []

/-- `httpMethodExpression` of generator.go. -/
def httpMethodExpression (U : UnicodeTables) (method : Str) : Str :=
  let lower := stringsToLower U method
  if lower = "get".toList then "HttpMethod.Get".toList
  else if lower = "post".toList then "HttpMethod.Post".toList
  else if lower = "put".toList then "HttpMethod.Put".toList
  else if lower = "delete".toList then "HttpMethod.Delete".toList
  else if lower = "options".toList then "HttpMethod.Options".toList
  else if lower = "head".toList then "HttpMethod.Head".toList
  else if lower = "trace".toList then "HttpMethod.Trace".toList
  else if lower = "patch".toList then "new HttpMethod(\"PATCH\")".toList
  else "new HttpMethod(\"".toList ++ stringsToUpper U method ++ "\")".toList

/-- `firstContentType` of generator.go. -/
def firstContentType (content : List (Str × MediaType)) : Str :=
  match content with
  | [] => []
  | (k, _) :: _ => k

/-- The loop of `preferredSchema`: the first media type that has a schema. -/
def firstSchema : List (Str × MediaType) → Option SchemaProxy
  | [] => none
  | (_, media) :: rest =>
    match media.Schema with
    | some schema => some schema
    | none => firstSchema rest

/-- `preferredSchema` of generator.go. -/
def preferredSchema (content : List (Str × MediaType)) : Option SchemaProxy :=
  match getOrZero content "application/json".toList with
  | some media =>
    match media.Schema with
    | some schema => some schema
    | none => firstSchema content
  | none => firstSchema content

/-- `firstNonEmpty` of generator.go. -/
def firstNonEmpty : List Str → Str
  | [] => []
  | value :: rest => if trimSpace value ≠ [] then value else firstNonEmpty rest

/-- `isNumericStatusCode` of generator.go. -/
def isNumericStatusCode (code : Str) : Bool :=
  byteLen code = 3 && code.all (fun r => '0' ≤ r && r ≤ '9')

/-- `statusCodeLiteral` of generator.go. -/
def statusCodeLiteral (code : Str) : Str :=
  if equalFold code "default".toList then []
  else if isNumericStatusCode code then code
  else []

/-- `statusCodeSuffix` of generator.go. -/
def statusCodeSuffix (U : UnicodeTables) (code : Str) : Str :=
  if equalFold code "default".toList then "Default".toList
  else if isNumericStatusCode code then code
  else if PascalIdentifier U code = [] then "Unknown".toList
  else PascalIdentifier U code

/-- `toMethodParameters` of generator.go. -/
def toMethodParameters (params : List parameterTemplateData) : List methodParameter :=
  params.map (fun param =>
    { Name := param.ArgName, Signature := param.Declaration, Description := param.Description })

/-- `hasCollections` of generator.go. -/
def hasCollections (params : List parameterTemplateData) : Bool :=
  params.any (fun param => param.IsCollection)

/-- `convertParameter` of generator.go (for a parameter that is not `nil`). -/
def convertParameter (L : Library) (fuel : Nat) (g : Generator) (param : Parameter) :
    Option parameterTemplateData :=
  let required := decide (param.Required = some true)
  match resolveType L g fuel param.Schema required with
  | none => none
  | some typeInfo =>
    let defaultValue := if !required then " = null".toList else []
    let argName := Identifier L.unicode param.Name
    some { Location := param.In,
           Name := param.Name,
           ArgName := argName,
           Declaration := typeInfo.TypeName ++ " ".toList ++ argName ++ defaultValue,
           Description := sanitizeText param.Description,
           Required := required,
           BuilderCall := builderCall param.In param.Name argName,
           IsCollection := typeInfo.IsCollection }

/-- The step `if idx, ok := index[parameter.Name]; ok { params[idx] = parameter } else
{ ...append }` of `buildOperation`: the index map sends a name to the position of its
first entry. -/
def placeParameter (params : List parameterTemplateData) (parameter : parameterTemplateData) :
    List parameterTemplateData :=
  match params with
  | [] => [parameter]
  | p :: rest =>
    if p.Name = parameter.Name then parameter :: rest
    else p :: placeParameter rest parameter

/-- The path, query and header parameters of an operation, as `buildOperation` collects
them. -/
structure parameterLists where
  pathParams : List parameterTemplateData := []
  queryParams : List parameterTemplateData := []
  headerParams : List parameterTemplateData := []

/-- The loop of `buildOperation` over the merged parameters. -/
def collectParameters (L : Library) (fuel : Nat) (g : Generator) :
    List Parameter → parameterLists → Option parameterLists
  | [], acc => some acc
  | param :: rest, acc =>
    match convertParameter L fuel g param with
    | none => none
    | some parameter =>
      if parameter.Location = "path".toList then
        collectParameters L fuel g rest
          { acc with pathParams := placeParameter acc.pathParams parameter }
      else if parameter.Location = "query".toList then
        collectParameters L fuel g rest
          { acc with queryParams := placeParameter acc.queryParams parameter }
      else if parameter.Location = "header".toList then
        collectParameters L fuel g rest
          { acc with headerParams := placeParameter acc.headerParams parameter }
      else collectParameters L fuel g rest acc

/-- `resolveRequestBodyType` of generator.go. -/
def resolveRequestBodyType (L : Library) (fuel : Nat) (g : Generator)
    (schemaRef : Option SchemaProxy) (required : Bool) (clientName methodName : Str) :
    Option (typeInfo × Generator) :=
  resolveInlineSchemaType L fuel g schemaRef required
    (clientName ++ methodName ++ "Request".toList)

/-- `buildRequestBody` of generator.go. -/
def buildRequestBody (L : Library) (fuel : Nat) (g : Generator) (clientName methodName : Str)
    (body : Option RequestBody) : Option (Option bodyTemplateData × Generator) :=
  match body with
  | none => some (none, g)
  | some body =>
    let contentType := firstContentType body.Content
    if contentType = [] then some (none, g)
    else
      match preferredSchema body.Content with
      | none => some (none, g)
      | some schemaRef =>
        let required := decide (body.Required = some true)
        match resolveRequestBodyType L fuel g (some schemaRef) required clientName methodName with
        | none => none
        | some (typeInfo, g) =>
          let signature :=
            if !required then typeInfo.TypeName ++ " body = null".toList
            else typeInfo.TypeName ++ " body".toList
          some (some { ArgName := "body".toList,
                       Signature := signature,
                       Description := sanitizeText body.Description,
                       Required := required,
                       ContentType := contentType,
                       TypeName := typeInfo.TypeName,
                       IsCollection := typeInfo.IsCollection }, g)

/-- The zero value `typeInfo{}`. -/
def typeInfo.zero : typeInfo := { TypeName := [], IsCollection := false, IsValueType := false }

/-- `responseTypeForResponse` of generator.go (for a response that is not `nil`). -/
def responseTypeForResponse (L : Library) (fuel : Nat) (g : Generator) (resp : Response)
    (inlineBase : Str) : Option (typeInfo × Generator) :=
  if resp.Content.length = 0 then some (typeInfo.zero, g)
  else
    match preferredSchema resp.Content with
    | none => some (typeInfo.zero, g)
    | some schemaRef => resolveInlineSchemaType L fuel g (some schemaRef) true inlineBase

/-- The loop of `resolveResponseType` over the sorted status codes; the inner `none` says
that no code gave a type. -/
def responseTypeLoop (L : Library) (fuel : Nat) (codesMap : List (Str × Response))
    (inlineBase : Str) : List Str → Generator → Option (Option typeInfo × Generator)
  | [], g => some (none, g)
  | code :: rest, g =>
    if !hasPrefix2 code then responseTypeLoop L fuel codesMap inlineBase rest g
    else
      match getOrZero codesMap code with
      | none => responseTypeLoop L fuel codesMap inlineBase rest g
      | some resp =>
        match responseTypeForResponse L fuel g resp inlineBase with
        | none => none
        | some (info, g) =>
          if info.TypeName ≠ [] then some (some info, g)
          else responseTypeLoop L fuel codesMap inlineBase rest g

/-- `resolveResponseType` of generator.go. -/
def resolveResponseType (L : Library) (fuel : Nat) (g : Generator) (op : Operation)
    (clientName methodName : Str) : Option (typeInfo × Generator) :=
  let fallback := nullableType "JsonDocument".toList false true false
  match op.Responses with
  | none => some (fallback, g)
  | some responses =>
    if responses.Codes.length = 0 then some (fallback, g)
    else
      let codes := sortStrings (keysFromOldest responses.Codes)
      match responseTypeLoop L fuel responses.Codes
          (clientName ++ methodName ++ "Response".toList) codes g with
      | none => none
      | some (some info, g) => some (info, g)
      | some (none, g) =>
        match responses.Default with
        | none => some (fallback, g)
        | some resp =>
          match responseTypeForResponse L fuel g resp
              (clientName ++ methodName ++ "ResponseDefault".toList) with
          | none => none
          | some (info, g) => if info.TypeName ≠ [] then some (info, g) else some (fallback, g)

/-- `responseModeForResponse` of generator.go (for a response that is not `nil`). -/
def responseModeForResponse (L : Library) (fuel : Nat) (g : Generator) (resp : Response) :
    Option (Str × Generator) :=
  if resp.Content.length = 0 then some ("none".toList, g)
  else
    let contentType := firstContentType resp.Content
    let isText := stringsContains (stringsToLower L.unicode contentType) "text/".toList
    match preferredSchema resp.Content with
    | none => if isText then some ("string".toList, g) else some ("json".toList, g)
    | some schemaRef =>
      match resolveInlineSchemaType L fuel g (some schemaRef) true [] with
      | none => none
      | some (typeInfo, g) =>
        let typeName := trimSuffixQ typeInfo.TypeName
        if typeName = "string".toList then some ("string".toList, g)
        else if typeName = "JsonDocument".toList then
          (if isText then some ("string".toList, g) else some ("json-document".toList, g))
        else some ("json".toList, g)

/-- The first of the sorted status codes that begins with `2`, in `resolveResponseMode`. -/
def firstSuccessCode : List Str → Option Str
  | [] => none
  | code :: rest => if hasPrefix2 code then some code else firstSuccessCode rest

/-- `resolveResponseMode` of generator.go. -/
def resolveResponseMode (L : Library) (fuel : Nat) (g : Generator) (op : Operation) :
    Option (Str × Generator) :=
  match op.Responses with
  | none => some ("none".toList, g)
  | some responses =>
    if responses.Codes.length = 0 then some ("none".toList, g)
    else
      match firstSuccessCode (sortStrings (keysFromOldest responses.Codes)) with
      | some code =>
        match getOrZero responses.Codes code with
        | some resp => responseModeForResponse L fuel g resp
        | none => some ("none".toList, g)
      | none =>
        match responses.Default with
        | some resp => responseModeForResponse L fuel g resp
        | none => some ("none".toList, g)

/-- The assignment `g.errorModels[name] = struct{}{}`. -/
def Generator.addErrorModel (g : Generator) (name : Str) : Generator :=
  { g with errorModels := insert name g.errorModels }

/-- `errorResponseForCode` of generator.go (for a response that is not `nil`). -/
def errorResponseForCode (L : Library) (fuel : Nat) (g : Generator) (resp : Response)
    (code clientName methodName : Str) : Option (Option errorResponseTemplateData × Generator) :=
  let statusSuffix := statusCodeSuffix L.unicode code
  let inlineBase := clientName ++ methodName ++ "Error".toList ++ statusSuffix
  match responseTypeForResponse L fuel g resp inlineBase with
  | none => none
  | some (info, g) =>
    if info.TypeName = [] then some (none, g)
    else
      let errorType := trimSuffixQ info.TypeName
      let g := if errorType ≠ [] then g.addErrorModel errorType else g
      let isDefault := equalFold code "default".toList
      let statusLiteral := statusCodeLiteral code
      if !isDefault ∧ statusLiteral = [] then some (none, g)
      else some (some { StatusCodeLiteral := statusLiteral, ErrorType := errorType,
                        IsDefault := isDefault }, g)

/-- `resolveDefaultErrorResponse` of generator.go. -/
def resolveDefaultErrorResponse (L : Library) (fuel : Nat) (g : Generator) (resp : Response)
    (clientName methodName : Str) : Option (List errorResponseTemplateData × Generator) :=
  match errorResponseForCode L fuel g resp "default".toList clientName methodName with
  | none => none
  | some (none, g) => some ([], g)
  | some (some parsed, g) => some ([parsed], g)

/-- The loop of `resolveErrorResponses` over the sorted status codes. -/
def errorResponsesLoop (L : Library) (fuel : Nat) (codesMap : List (Str × Response))
    (clientName methodName : Str) :
    List Str → Generator → List errorResponseTemplateData →
      Option (List errorResponseTemplateData × Generator)
  | [], g, responses => some (responses, g)
  | code :: rest, g, responses =>
    if hasPrefix2 code then
      errorResponsesLoop L fuel codesMap clientName methodName rest g responses
    else
      match getOrZero codesMap code with
      | none => errorResponsesLoop L fuel codesMap clientName methodName rest g responses
      | some resp =>
        match errorResponseForCode L fuel g resp code clientName methodName with
        | none => none
        | some (none, g) =>
          errorResponsesLoop L fuel codesMap clientName methodName rest g responses
        | some (some parsed, g) =>
          errorResponsesLoop L fuel codesMap clientName methodName rest g (responses ++ [parsed])

/-- `resolveErrorResponses` of generator.go. -/
def resolveErrorResponses (L : Library) (fuel : Nat) (g : Generator) (op : Operation)
    (clientName methodName : Str) : Option (List errorResponseTemplateData × Generator) :=
  match op.Responses with
  | none => some ([], g)
  | some responses =>
    if responses.Codes.length = 0 then
      match responses.Default with
      | some resp => resolveDefaultErrorResponse L fuel g resp clientName methodName
      | none => some ([], g)
    else
      match errorResponsesLoop L fuel responses.Codes clientName methodName
          (sortStrings (keysFromOldest responses.Codes)) g [] with
      | none => none
      | some (found, g) =>
        match responses.Default with
        | none => some (found, g)
        | some resp =>
          match resolveDefaultErrorResponse L fuel g resp clientName methodName with
          | none => none
          | some (defaultResponses, g) => some (found ++ defaultResponses, g)

/-- `buildOperation` of generator.go. -/
def buildOperation (L : Library) (fuel : Nat) (g : Generator)
    (path method methodName clientName : Str) (op : Operation) (pathItem : PathItem) :
    Option (operationTemplateData × Generator) :=
  let parameters := mergeParameters pathItem.Parameters op.Parameters
  match collectParameters L fuel g parameters {} with
  | none => none
  | some lists =>
    match buildRequestBody L fuel g clientName methodName op.RequestBody with
    | none => none
    | some (body, g) =>
      match resolveResponseType L fuel g op clientName methodName with
      | none => none
      | some (responseInfo, g) =>
        match resolveResponseMode L fuel g op with
        | none => none
        | some (responseMode, g) =>
          match resolveErrorResponses L fuel g op clientName methodName with
          | none => none
          | some (errorResponses, g) =>
            let bodyParams : List methodParameter :=
              match body with
              | none => []
              | some body =>
                [{ Name := body.ArgName,
                   Signature := body.Signature,
                   Description :=
                     if body.Description = [] then "Request body payload.".toList
                     else body.Description }]
            let allParams :=
              toMethodParameters lists.pathParams ++ toMethodParameters lists.queryParams ++
                toMethodParameters lists.headerParams ++ bodyParams
            let bodyIsCollection :=
              match body with
              | none => false
              | some body => body.IsCollection
            some ({ MethodName := methodName,
                    HttpMethod := method,
                    HttpMethodExpr := httpMethodExpression L.unicode method,
                    Path := path,
                    Summary :=
                      sanitizeText (firstNonEmpty [op.Summary, method ++ " ".toList ++ path]),
                    Description := sanitizeText op.Description,
                    PathParams := lists.pathParams,
                    QueryParams := lists.queryParams,
                    HeaderParams := lists.headerParams,
                    Parameters := allParams,
                    HasParameters := allParams.length > 0,
                    HasRequestBody := body.isSome,
                    Body := body,
                    ResponseType := responseInfo.TypeName,
                    HasBuilder :=
                      lists.pathParams.length + lists.queryParams.length
                        + lists.headerParams.length > 0,
                    HasPathParams := lists.pathParams.length > 0,
                    HasQueryParams := lists.queryParams.length > 0,
                    HasHeaderParams := lists.headerParams.length > 0,
                    UsesCollections :=
                      hasCollections lists.pathParams || hasCollections lists.queryParams ||
                        hasCollections lists.headerParams || bodyIsCollection ||
                        responseInfo.IsCollection,
                    HasErrorResponses := errorResponses.length > 0,
                    ErrorResponses := errorResponses,
                    ResponseMode := responseMode }, g)

/-- The state of the loops of `buildClients`: the generator, `clientMap` (the clients in the
order in which they were first seen) and `nameCounts`. -/
structure clientsState where
  g : Generator
  clientMap : List clientTemplateData
  nameCounts : Str → Nat

/-- The update of the client `clientName` in `clientMap` by one more operation. -/
def addOperation (clientMap : List clientTemplateData) (created : clientTemplateData)
    (method : operationTemplateData) : List clientTemplateData :=
  match clientMap with
  | [] =>
    [{ created with
        Operations := created.Operations ++ [method],
        UsesCollections := created.UsesCollections || method.UsesCollections,
        UsesJson := true,
        UsesErrorResponses := created.UsesErrorResponses || method.HasErrorResponses }]
  | ct :: rest =>
    if ct.ClientName = created.ClientName then
      { ct with
        Operations := ct.Operations ++ [method],
        UsesCollections := ct.UsesCollections || method.UsesCollections,
        UsesJson := true,
        UsesErrorResponses := ct.UsesErrorResponses || method.HasErrorResponses } :: rest
    else ct :: addOperation rest created method

/-- The body of the inner loop of `buildClients`, for one operation of one path item. -/
def buildClientsStep (L : Library) (fuel : Nat) (st : clientsState) (rawPath : Str)
    (pathItem : PathItem) (methodName : Str) (operation : Operation) : Option clientsState :=
  let tag := match operation.Tags with
    | [] => "Core".toList
    | first :: _ => first
  let clientName := PascalIdentifier L.unicode tag
  let created : clientTemplateData :=
    { Namespace := st.g.config.Namespace, ClientName := clientName, PropertyName := clientName }
  let httpMethod := canonicalMethodName L.unicode methodName
  let baseName := operationBaseName L.unicode httpMethod rawPath operation
  let pascalName := PascalIdentifier L.unicode baseName
  let pascalName :=
    if pascalName = [] then generateOperationName L.unicode httpMethod rawPath else pascalName
  let key := clientName ++ ".".toList ++ pascalName
  let count := st.nameCounts key
  let methodNameFinal := if count > 0 then pascalName ++ decimal (count + 1) else pascalName
  match buildOperation L fuel st.g rawPath httpMethod methodNameFinal clientName operation
      pathItem with
  | none => none
  | some (method, g) =>
    some { g := g,
           clientMap := addOperation st.clientMap created method,
           nameCounts := fun k => if k = key then count + 1 else st.nameCounts k }

/-- The inner loop of `buildClients`: the operations of one path item. -/
def buildClientsOperations (L : Library) (fuel : Nat) (rawPath : Str) (pathItem : PathItem) :
    List (Str × Operation) → clientsState → Option clientsState
  | [], st => some st
  | (methodName, operation) :: rest, st =>
    match buildClientsStep L fuel st rawPath pathItem methodName operation with
    | none => none
    | some st => buildClientsOperations L fuel rawPath pathItem rest st

/-- The outer loop of `buildClients`: the path items. -/
def buildClientsPaths (L : Library) (fuel : Nat) :
    List (Str × PathItem) → clientsState → Option clientsState
  | [], st => some st
  | (rawPath, pathItem) :: rest, st =>
    match buildClientsOperations L fuel rawPath pathItem pathItem.Operations st with
    | none => none
    | some st => buildClientsPaths L fuel rest st

/-- Go `sort.Slice(client.Operations, ...)` by `MethodName`, modelled by a stable sort (see
`sortModels`). -/
def sortOperations (ops : List operationTemplateData) : List operationTemplateData :=
  ops.insertionSort (fun a b => a.MethodName ≤ b.MethodName)

/-- Go `sort.Slice(clients, ...)` by `ClientName`; the names are the keys of `clientMap`
and so pairwise distinct. -/
def sortClients (clients : List clientTemplateData) : List clientTemplateData :=
  clients.insertionSort (fun a b => a.ClientName ≤ b.ClientName)

/-- The end of `buildClients`: the operations of every client sorted, then the clients. -/
def finishClients (clientMap : List clientTemplateData) : List clientTemplateData :=
  sortClients (clientMap.map (fun client =>
    { client with Operations := sortOperations client.Operations }))

/-- `buildClients` of generator.go: out of fuel (`none`), the error `spec contains no
paths`, or the clients and the generator afterwards. -/
def buildClients (L : Library) (fuel : Nat) (g : Generator) (doc : Document) :
    Option (Except Str (List clientTemplateData × Generator)) :=
  if doc.PathItems.length = 0 then some (.error "spec contains no paths".toList)
  else
    match buildClientsPaths L fuel doc.PathItems
        { g := g, clientMap := [], nameCounts := fun _ => 0 } with
    | none => none
    | some st => some (.ok (finishClients st.clientMap, st.g))

end SumUp

namespace SumUp

/-- The value of a decimal numeral. -/
def digitsValue (s : Str) : Nat := s.foldl (fun v c => 10 * v + (c.toNat - 48)) 0

/-- The `i`-th name `reserveModelName` tries for a hint, counted from 1: the hint itself,
then the hint followed by the numerals 2, 3, … -/
def candidateName (base : Str) (i : Nat) : Str := if i = 1 then base else base ++ decimal i

end SumUp

/-! ### Concrete documents used as witnesses and failing inputs -/

namespace SumUp

/-- A loader over the ASCII tables that resolves no reference. -/
def plainLibrary : Library := { unicode := asciiTables, schemaOf := fun _ => none }

/-- The generator as `Run` starts it, with output directory `out` and no namespace. -/
def startGenerator : Generator := Generator.start { OutputDir := "out".toList, Namespace := [] }

/-- The schema `{type: object}`. -/
def bareObjectSchema : Schema := .mk ["object".toList] [] none [] [] [] [] .absent .absent []

/-- A document with the two named schemas `foo_bar` and `FooBar`, both `{type: object}`. -/
def collidingDocument : Document :=
  { Schemas := [("foo_bar".toList, .inline bareObjectSchema),
                ("FooBar".toList, .inline bareObjectSchema)],
    PathItems := [], Version := none }

/-- The inline schema `{allOf: [{$ref: '#/components/schemas/A'}]}`. -/
def cyclicInner : Schema :=
  .mk [] [] none [] [] [] [.reference "#/components/schemas/A".toList] .absent .absent []

/-- The schema `A`: `{type: object, properties: {p: {allOf: [{$ref: A}]}}}`. -/
def cyclicSchema : Schema :=
  .mk ["object".toList] [] none [] [("p".toList, .inline cyclicInner)] [] [] .absent .absent []

/-- The loader for `cyclicDocument`: the reference to `A` resolves to the schema `A`. -/
def cyclicLibrary : Library :=
  { unicode := asciiTables,
    schemaOf := fun r => if r = "#/components/schemas/A".toList then some cyclicSchema else none }

/-- A document whose only named schema is the cyclic schema `A`. -/
def cyclicDocument : Document :=
  { Schemas := [("A".toList, .inline cyclicSchema)], PathItems := [], Version := none }

end SumUp

namespace SumUp

/-- A schema with a type and nothing else. -/
def typedSchema (type : Str) : Schema := .mk [type] [] none [] [] [] [] .absent .absent []

/-- The inline schema of an address, with the properties `street` and `city`. -/
def addressSchema₁ : Schema :=
  .mk ["object".toList] [] none []
    [("street".toList, .inline (typedSchema "string".toList)),
     ("city".toList, .inline (typedSchema "string".toList))]
    ["city".toList] [] .absent .absent []

/-- The schema `addressSchema₁` with its properties declared in the other order. -/
def addressSchema₂ : Schema :=
  .mk ["object".toList] [] none []
    [("city".toList, .inline (typedSchema "string".toList)),
     ("street".toList, .inline (typedSchema "string".toList))]
    ["city".toList] [] .absent .absent []

/-- The named schema `pet`, with the properties `name` and `age`. -/
def petSchema₁ : Schema :=
  .mk ["object".toList] [] none []
    [("name".toList, .inline (typedSchema "string".toList)),
     ("age".toList, .inline (typedSchema "integer".toList))]
    ["name".toList] [] .absent .absent []

/-- The schema `petSchema₁` with its properties declared in the other order. -/
def petSchema₂ : Schema :=
  .mk ["object".toList] [] none []
    [("age".toList, .inline (typedSchema "integer".toList)),
     ("name".toList, .inline (typedSchema "string".toList))]
    ["name".toList] [] .absent .absent []

/-- The named schema `owner`: a reference to `pet` and an inline address. -/
def ownerSchema₁ : Schema :=
  .mk ["object".toList] [] none []
    [("pet".toList, .reference "#/components/schemas/pet".toList),
     ("address".toList, .inline addressSchema₁)]
    [] [] .absent .absent []

/-- The schema `ownerSchema₁` with its properties, and those of the address, declared in
the other order. -/
def ownerSchema₂ : Schema :=
  .mk ["object".toList] [] none []
    [("address".toList, .inline addressSchema₂),
     ("pet".toList, .reference "#/components/schemas/pet".toList)]
    [] [] .absent .absent []

/-- A document that declares `pet`, then `owner`. -/
def orderedDocument₁ : Document :=
  { Schemas := [("pet".toList, .inline petSchema₁), ("owner".toList, .inline ownerSchema₁)],
    PathItems := [], Version := none }

/-- The document `orderedDocument₁` with everything declared in the other order. -/
def orderedDocument₂ : Document :=
  { Schemas := [("owner".toList, .inline ownerSchema₂), ("pet".toList, .inline petSchema₂)],
    PathItems := [], Version := none }

/-- The loader of `orderedDocument₁`. -/
def orderedLibrary₁ : Library :=
  { unicode := asciiTables,
    schemaOf := fun r => if r = "#/components/schemas/pet".toList then some petSchema₁ else none }

/-- The loader of `orderedDocument₂`. -/
def orderedLibrary₂ : Library :=
  { unicode := asciiTables,
    schemaOf := fun r => if r = "#/components/schemas/pet".toList then some petSchema₂ else none }

end SumUp

namespace SumUp

/-- An operation with an operation identifier and nothing else. -/
def bareOperation (operationId : Str) : Operation :=
  { Tags := [], OperationId := operationId, Summary := [], Description := [], Parameters := [],
    RequestBody := none, Responses := none, xCodegen := none }

/-- A path item with a single `get` operation. -/
def getPathItem (op : Operation) : PathItem :=
  { Parameters := [], Operations := [("get".toList, op)] }

/-- Two paths whose `get` operations have the operation identifiers `list_items` and
`listItems`, which both normalize to `ListItems`. -/
def collidingPaths₁ : Document :=
  { Schemas := [],
    PathItems := [("/a".toList, getPathItem (bareOperation "list_items".toList)),
                  ("/b".toList, getPathItem (bareOperation "listItems".toList))],
    Version := none }

/-- The document `collidingPaths₁` with its paths declared in the other order. -/
def collidingPaths₂ : Document :=
  { Schemas := [],
    PathItems := [("/b".toList, getPathItem (bareOperation "listItems".toList)),
                  ("/a".toList, getPathItem (bareOperation "list_items".toList))],
    Version := none }

/-- A schema with the single property `name`, of type string. -/
def onePropertySchema (name : Str) : Schema :=
  .mk ["object".toList] [] none [] [(name, .inline (typedSchema "string".toList))] [] []
    .absent .absent []

/-- A schema whose single property `request` has an inline schema with a property. -/
def nestedRequestSchema : Schema :=
  .mk ["object".toList] [] none []
    [("request".toList, .inline (onePropertySchema "a".toList))] [] [] .absent .absent []

/-- The operation `x`, whose response `200` has the inline schema `nestedRequestSchema`. -/
def operationX : Operation :=
  { bareOperation "x".toList with
    Responses := some
      { Codes := [("200".toList,
          { Content := [("application/json".toList,
              { Schema := some (.inline nestedRequestSchema) })] })],
        Default := none } }

/-- The operation `xResponse`, whose request body has an inline schema with a property. -/
def operationXResponse : Operation :=
  { bareOperation "xResponse".toList with
    RequestBody := some
      { Content := [("application/json".toList,
          { Schema := some (.inline (onePropertySchema "b".toList)) })],
        Required := none, Description := [] } }

/-- Two operations with different names whose inline models are given the same hint. -/
def collidingHints₁ : Document :=
  { Schemas := [],
    PathItems := [("/x".toList, getPathItem operationX),
                  ("/y".toList, getPathItem operationXResponse)],
    Version := none }

/-- The document `collidingHints₁` with its paths declared in the other order. -/
def collidingHints₂ : Document :=
  { Schemas := [],
    PathItems := [("/y".toList, getPathItem operationXResponse),
                  ("/x".toList, getPathItem operationX)],
    Version := none }

/-- Two paths whose `get` operations have the operation identifiers `listA` and `listB`. -/
def distinctPaths₁ : Document :=
  { Schemas := [],
    PathItems := [("/b".toList, getPathItem (bareOperation "listB".toList)),
                  ("/a".toList, getPathItem (bareOperation "listA".toList))],
    Version := none }

/-- The document `distinctPaths₁` with its paths declared in the other order. -/
def distinctPaths₂ : Document :=
  { Schemas := [],
    PathItems := [("/a".toList, getPathItem (bareOperation "listA".toList)),
                  ("/b".toList, getPathItem (bareOperation "listB".toList))],
    Version := none }

/-- Of an operation record the method name, the path and the type of the request body. -/
structure operationDigest where
  MethodName : Str
  Path : Str
  BodyType : Option Str
  deriving DecidableEq, Repr

/-- Of a client record its name and the digests of its operations. -/
structure clientDigest where
  ClientName : Str
  Operations : List operationDigest
  deriving DecidableEq, Repr

/-- The digests of the clients `buildClients` returns. -/
def clientsDigest (r : Option (Except Str (List clientTemplateData × Generator))) :
    Option (List clientDigest) :=
  match r with
  | some (.ok (clients, _)) =>
    some (clients.map (fun c =>
      { ClientName := c.ClientName,
        Operations := c.Operations.map (fun o =>
          { MethodName := o.MethodName, Path := o.Path,
            BodyType := o.Body.map (fun b => b.TypeName) }) }))
  | _ => none

end SumUp

/-! ### The same schemas, declared in a different order -/

namespace SumUp

mutual
/-- Two schemas that agree up to the order in which their property maps (their own and
those of the schemas nested in them) were filled.  The keys of a property map are
pairwise distinct. -/
inductive Schema.Reordered : Schema → Schema → Prop
  | mk {type : List Str} {format : Str} {nullable : Option Bool} {enum required : List Str}
      {description : Str} {props₁ mid props₂ : List (Str × SchemaProxy)}
      {allOf₁ allOf₂ : List SchemaProxy} {ap₁ ap₂ items₁ items₂ : DynamicValue} :
      (props₁.map Prod.fst).Nodup → props₁.Perm mid → EntriesReordered mid props₂ →
      ProxiesReordered allOf₁ allOf₂ → DynamicValue.Reordered ap₁ ap₂ →
      DynamicValue.Reordered items₁ items₂ →
      Schema.Reordered
        (.mk type format nullable enum props₁ required allOf₁ ap₁ items₁ description)
        (.mk type format nullable enum props₂ required allOf₂ ap₂ items₂ description)
/-- Two proxies that agree up to the order of property maps. -/
inductive SchemaProxy.Reordered : SchemaProxy → SchemaProxy → Prop
  | inline {s₁ s₂ : Schema} : Schema.Reordered s₁ s₂ →
      SchemaProxy.Reordered (.inline s₁) (.inline s₂)
  | reference (r : Str) : SchemaProxy.Reordered (.reference r) (.reference r)
/-- Two dynamic values that agree up to the order of property maps. -/
inductive DynamicValue.Reordered : DynamicValue → DynamicValue → Prop
  | absent : DynamicValue.Reordered .absent .absent
  | aNil : DynamicValue.Reordered .aNil .aNil
  | a {p₁ p₂ : SchemaProxy} : SchemaProxy.Reordered p₁ p₂ →
      DynamicValue.Reordered (.a p₁) (.a p₂)
  | b (v : Bool) : DynamicValue.Reordered (.b v) (.b v)
/-- Two lists of map entries with the same keys in the same order and proxies that agree
up to the order of property maps. -/
inductive EntriesReordered : List (Str × SchemaProxy) → List (Str × SchemaProxy) → Prop
  | nil : EntriesReordered [] []
  | cons {k : Str} {p₁ p₂ : SchemaProxy} {l₁ l₂ : List (Str × SchemaProxy)} :
      SchemaProxy.Reordered p₁ p₂ → EntriesReordered l₁ l₂ →
      EntriesReordered ((k, p₁) :: l₁) ((k, p₂) :: l₂)
/-- Two lists of proxies that agree, one by one, up to the order of property maps. -/
inductive ProxiesReordered : List SchemaProxy → List SchemaProxy → Prop
  | nil : ProxiesReordered [] []
  | cons {p₁ p₂ : SchemaProxy} {l₁ l₂ : List SchemaProxy} :
      SchemaProxy.Reordered p₁ p₂ → ProxiesReordered l₁ l₂ →
      ProxiesReordered (p₁ :: l₁) (p₂ :: l₂)
end

/-- Two ordered maps of proxies that hold the same keys with proxies that agree up to the
order of property maps, the keys pairwise distinct, in any insertion order. -/
def MapReordered (m₁ m₂ : List (Str × SchemaProxy)) : Prop :=
  (m₁.map Prod.fst).Nodup ∧ ∃ mid, m₁.Perm mid ∧ EntriesReordered mid m₂

/-- Two proxies that may be `nil` and agree up to the order of property maps. -/
def OptionProxyReordered : Option SchemaProxy → Option SchemaProxy → Prop
  | none, none => True
  | some p₁, some p₂ => SchemaProxy.Reordered p₁ p₂
  | _, _ => False

/-- Two schemas that may be `nil` and agree up to the order of property maps. -/
def OptionSchemaReordered : Option Schema → Option Schema → Prop
  | none, none => True
  | some s₁, some s₂ => Schema.Reordered s₁ s₂
  | _, _ => False

/-- Two loaders with the same Unicode tables that resolve every reference to schemas that
agree up to the order of property maps. -/
def Library.Reordered (L₁ L₂ : Library) : Prop :=
  L₁.unicode = L₂.unicode ∧ ∀ r, OptionSchemaReordered (L₁.schemaOf r) (L₂.schemaOf r)

/-- Two table entries that agree but for their schema, which agrees up to the order of
property maps. -/
def schemaTypeInfo.Reordered (i₁ i₂ : schemaTypeInfo) : Prop :=
  i₁.Name = i₂.Name ∧ i₁.TypeName = i₂.TypeName ∧ i₁.Kind = i₂.Kind ∧
    i₁.AliasType = i₂.AliasType ∧ i₁.AliasIsValueType = i₂.AliasIsValueType ∧
    SchemaProxy.Reordered i₁.Schema i₂.Schema

/-- Two generators in the same state, but for the schemas held in `schemaTypes`, which
agree up to the order of property maps. -/
def Generator.Reordered (g₁ g₂ : Generator) : Prop :=
  g₁.config.Namespace = g₂.config.Namespace ∧ g₁.inlineModels = g₂.inlineModels ∧
    g₁.modelNames = g₂.modelNames ∧ g₁.errorModels = g₂.errorModels ∧
    ∀ k, match g₁.schemaTypes k, g₂.schemaTypes k with
      | none, none => True
      | some i₁, some i₂ => schemaTypeInfo.Reordered i₁ i₂
      | _, _ => False

/-- Two results of a step of the generator: both out of fuel, or both a value and a
generator, the values equal and the generators in the same state. -/
def ResultReordered {α : Type} (r₁ r₂ : Option (α × Generator)) : Prop :=
  match r₁, r₂ with
  | none, none => True
  | some (a₁, g₁), some (a₂, g₂) => a₁ = a₂ ∧ Generator.Reordered g₁ g₂
  | _, _ => False

/-- Two resolvers that return equal types and generators in the same state on arguments
that agree up to the order of property maps. -/
def InlineResolver.Reordered (res₁ res₂ : InlineResolver) : Prop :=
  ∀ g₁ g₂ p₁ p₂ required inlineBase, Generator.Reordered g₁ g₂ → OptionProxyReordered p₁ p₂ →
    ResultReordered (res₁ g₁ p₁ required inlineBase) (res₂ g₂ p₂ required inlineBase)

end SumUp

namespace SumUp

/-- Two results of `schemaFromProxy`: both out of fuel, or schemas that agree up to the
order of property maps. -/
def FuelSchemaReordered (r₁ r₂ : Option (Option Schema)) : Prop :=
  match r₁, r₂ with
  | none, none => True
  | some a, some b => OptionSchemaReordered a b
  | _, _ => False

end SumUp

namespace SumUp

/-- Two states of `collectProperties` that agree, the generators being in the same
state. -/
def collectState.Reordered (st₁ st₂ : collectState) : Prop :=
  Generator.Reordered st₁.g st₂.g ∧ st₁.propMap = st₂.propMap ∧
    st₁.usesCollections = st₂.usesCollections ∧ st₁.usesJson = st₂.usesJson

/-- Two results of a loop of `collectProperties`: both out of fuel, or states that agree. -/
def CollectReordered (r₁ r₂ : Option collectState) : Prop :=
  match r₁, r₂ with
  | none, none => True
  | some a, some b => collectState.Reordered a b
  | _, _ => False

end SumUp

namespace SumUp

/-- Two results of a loop of `buildModels`: both out of fuel, or generators in the same
state. -/
def GeneratorResultReordered (r₁ r₂ : Option Generator) : Prop :=
  match r₁, r₂ with
  | none, none => True
  | some a, some b => Generator.Reordered a b
  | _, _ => False

/-- What a run of `buildModels` hands on: the model records, the inline models
synthesized so far and the registry of type names. -/
def modelsOutput (r : Option (List modelTemplateData × Generator)) :
    Option (List modelTemplateData × List modelTemplateData × Finset Str) :=
  r.map (fun r => (r.1, r.2.inlineModels, r.2.modelNames))

end SumUp

/-! ### Operations that synthesize no inline model, in any declaration order -/

namespace SumUp

mutual
/-- A proxy for which `resolveInlineSchemaType` synthesizes no inline model: a reference, or
an inline schema that declares neither properties nor `allOf` branches and whose
`additionalProperties` and `items` schemas are of that kind too. -/
inductive SchemaProxy.Plain : SchemaProxy → Prop
  | reference (r : Str) : SchemaProxy.Plain (.reference r)
  | inline {s : Schema} : schemaDefinesStructuredObject s = false →
      DynamicValue.Plain s.additionalProperties → DynamicValue.Plain s.items →
      SchemaProxy.Plain (.inline s)
/-- A dynamic value whose schema, if it holds one, is plain. -/
inductive DynamicValue.Plain : DynamicValue → Prop
  | absent : DynamicValue.Plain .absent
  | aNil : DynamicValue.Plain .aNil
  | a {p : SchemaProxy} : SchemaProxy.Plain p → DynamicValue.Plain (.a p)
  | b (v : Bool) : DynamicValue.Plain (.b v)
end

/-- A proxy that may be `nil` and is plain otherwise. -/
def OptionProxyPlain : Option SchemaProxy → Prop
  | none => True
  | some p => SchemaProxy.Plain p

/-- A content map whose preferred schema is plain. -/
def ContentPlain (content : List (Str × MediaType)) : Prop :=
  OptionProxyPlain (preferredSchema content)

/-- An operation whose request body and responses have plain schemas: building it
synthesizes no inline model. -/
def Operation.Plain (op : Operation) : Prop :=
  (∀ body, op.RequestBody = some body → ContentPlain body.Content) ∧
  (∀ responses, op.Responses = some responses →
    (∀ entry ∈ responses.Codes, ContentPlain entry.2.Content) ∧
    (∀ resp, responses.Default = some resp → ContentPlain resp.Content))

/-- Two generators with the same configuration and the same table of schema types. -/
def Generator.SameTypes (g₁ g₂ : Generator) : Prop :=
  g₁.config = g₂.config ∧ g₁.schemaTypes = g₂.schemaTypes

/-- Two results of a step of the generator: both out of fuel, or equal values and
generators with the same table of schema types. -/
def SameResult {α : Type} (r₁ r₂ : Option (α × Generator)) : Prop :=
  match r₁, r₂ with
  | none, none => True
  | some (a₁, g₁), some (a₂, g₂) => a₁ = a₂ ∧ Generator.SameTypes g₁ g₂
  | _, _ => False

/-- One unit of work of `buildClients`: path, the parameters of the path item, HTTP method
and operation. -/
structure clientsWork where
  rawPath : Str
  pathParameters : List Parameter
  methodName : Str
  operation : Operation

/-- The units of work of `buildClients` in the order of traversal: path items from the
oldest, and within a path item its operations from the oldest. -/
def clientsWorkList (pathItems : List (Str × PathItem)) : List clientsWork :=
  pathItems.flatMap (fun entry =>
    entry.2.Operations.map (fun mo =>
      { rawPath := entry.1, pathParameters := entry.2.Parameters,
        methodName := mo.1, operation := mo.2 }))

/-- The client name `buildClients` computes for a unit of work. -/
def clientsWork.clientName (L : Library) (w : clientsWork) : Str :=
  PascalIdentifier L.unicode
    (match w.operation.Tags with
      | [] => "Core".toList
      | first :: _ => first)

/-- The normalized operation name `buildClients` computes for a unit of work, before any
collision suffix. -/
def clientsWork.pascalName (L : Library) (w : clientsWork) : Str :=
  let httpMethod := canonicalMethodName L.unicode w.methodName
  let pascalName := PascalIdentifier L.unicode (operationBaseName L.unicode httpMethod w.rawPath w.operation)
  if pascalName = [] then generateOperationName L.unicode httpMethod w.rawPath else pascalName

/-- The key of `nameCounts` that `buildClients` computes for a unit of work. -/
def clientsWork.key (L : Library) (w : clientsWork) : Str :=
  w.clientName L ++ ".".toList ++ w.pascalName L

/-- Two lists of path items that hold the same path items, in a different order and with
the operations of each path item in a different order. -/
def PathsReordered (paths₁ paths₂ : List (Str × PathItem)) : Prop :=
  ∃ mid, paths₁.Perm mid ∧
    List.Forall₂ (fun a b => a.1 = b.1 ∧ a.2.Parameters = b.2.Parameters ∧
      a.2.Operations.Perm b.2.Operations) mid paths₂

/-- What `buildClients` returns, without the generator. -/
def clientsOutput (r : Option (Except Str (List clientTemplateData × Generator))) :
    Option (Except Str (List clientTemplateData)) :=
  r.map (fun e => e.map (fun x => x.1))

end SumUp

namespace SumUp

/-- Two results of a step that leaves the generator as it is: both out of fuel, or the same
value with the generators unchanged. -/
def UnchangedResult {α : Type} (r₁ r₂ : Option (α × Generator)) (g₁ g₂ : Generator) : Prop :=
  ∃ o : Option α, r₁ = o.map (fun a => (a, g₁)) ∧ r₂ = o.map (fun a => (a, g₂))

end SumUp

namespace SumUp

/-- The path item a unit of work stands for, as far as `buildOperation` reads it. -/
def clientsWork.pathItem (w : clientsWork) : PathItem :=
  { Parameters := w.pathParameters, Operations := [] }

/-- The loops of `buildClients`, run over the list of the units of work. -/
def runClientsWork (L : Library) (fuel : Nat) : List clientsWork → clientsState → Option clientsState
  | [], st => some st
  | w :: ws, st =>
    match buildClientsStep L fuel st w.rawPath w.pathItem w.methodName w.operation with
    | none => none
    | some st => runClientsWork L fuel ws st

/-- The client name and the operation record of a unit of work, built by a generator `g`
under the name without collision suffix. -/
def workEntry (L : Library) (fuel : Nat) (g : Generator) (w : clientsWork) :
    Option (Str × operationTemplateData) :=
  match buildOperation L fuel g w.rawPath (canonicalMethodName L.unicode w.methodName)
      (w.pascalName L) (w.clientName L) w.operation w.pathItem with
  | none => none
  | some (method, _) => some (w.clientName L, method)

/-- The entries of all units of work, or `none` when one of them runs out of fuel. -/
def workEntries (L : Library) (fuel : Nat) (g : Generator) :
    List clientsWork → Option (List (Str × operationTemplateData))
  | [] => some []
  | w :: ws =>
    match workEntry L fuel g w, workEntries L fuel g ws with
    | some e, some es => some (e :: es)
    | _, _ => none

/-- The operations entered for the client `c`, in the order of the entries. -/
def operationsFor (c : Str) (es : List (Str × operationTemplateData)) :
    List operationTemplateData :=
  (es.filter (fun e => decide (e.1 = c))).map Prod.snd

/-- The record of the client `c` after the entries `es` have been added to `clientMap`. -/
def clientOf (ns c : Str) (es : List (Str × operationTemplateData)) : clientTemplateData :=
  { Namespace := ns, ClientName := c, PropertyName := c,
    Operations := operationsFor c es,
    UsesCollections := (operationsFor c es).any (fun o => o.UsesCollections),
    UsesJson := true,
    UsesErrorResponses := (operationsFor c es).any (fun o => o.HasErrorResponses) }

/-- The client record with one more operation, as `buildClients` updates it. -/
def clientTemplateData.withOperation (ct : clientTemplateData) (method : operationTemplateData) :
    clientTemplateData :=
  { ct with
    Operations := ct.Operations ++ [method],
    UsesCollections := ct.UsesCollections || method.UsesCollections,
    UsesJson := true,
    UsesErrorResponses := ct.UsesErrorResponses || method.HasErrorResponses }

/-- The map `clientMap` holds, under pairwise distinct names, exactly the records of the
clients named in the entries `es`. -/
def ClientMapHolds (ns : Str) (clientMap : List clientTemplateData)
    (es : List (Str × operationTemplateData)) : Prop :=
  (clientMap.map (fun ct => ct.ClientName)).Nodup ∧
    ∀ ct, ct ∈ clientMap ↔ ∃ c ∈ es.map Prod.fst, ct = clientOf ns c es

/-- The key of `nameCounts` of an entry. -/
def entryKey (e : Str × operationTemplateData) : Str := e.1 ++ ".".toList ++ e.2.MethodName

end SumUp

namespace SumUp

/-- A step of the generator that, when it returns, leaves the configuration and the table
of schema types of the generator `g` as they were. -/
def KeepsTypes {α : Type} (r : Option (α × Generator)) (g : Generator) : Prop :=
  ∀ a g', r = some (a, g') → Generator.SameTypes g' g

end SumUp

namespace SumUp

/-! ### Further concrete inputs -/

/-- The enum schema `{type: string, enum: [a, a, a1]}`. -/
def repeatedEnumSchema : Schema :=
  .mk ["string".toList] [] none ["a".toList, "a".toList, "a1".toList] [] [] []
    .absent .absent []

end SumUp

namespace SumUp

/-- The schema `{type: array, items: {$ref: ref}}`. -/
def arrayOfReference (ref : Str) : Schema :=
  .mk ["array".toList] [] none [] [] [] [] .absent (.a (.reference ref)) []

/-- The named schemas `A: {type: array, items: {$ref: Z}}` and `Z: {type: string}`: the
alias of the collection has the lesser name. -/
def aliasForwardDocument : Document :=
  { Schemas := [("A".toList, .inline (arrayOfReference "#/components/schemas/Z".toList)),
                ("Z".toList, .inline (typedSchema "string".toList))],
    PathItems := [], Version := none }

/-- The loader for `aliasForwardDocument`. -/
def aliasForwardLibrary : Library :=
  { unicode := asciiTables,
    schemaOf := fun r =>
      if r = "#/components/schemas/A".toList then
        some (arrayOfReference "#/components/schemas/Z".toList)
      else if r = "#/components/schemas/Z".toList then some (typedSchema "string".toList)
      else none }

/-- The same two schemas under exchanged names, `Z: {type: array, items: {$ref: A}}` and
`A: {type: string}`: the alias of the collection has the greater name. -/
def aliasBackwardDocument : Document :=
  { Schemas := [("Z".toList, .inline (arrayOfReference "#/components/schemas/A".toList)),
                ("A".toList, .inline (typedSchema "string".toList))],
    PathItems := [], Version := none }

/-- The loader for `aliasBackwardDocument`. -/
def aliasBackwardLibrary : Library :=
  { unicode := asciiTables,
    schemaOf := fun r =>
      if r = "#/components/schemas/Z".toList then
        some (arrayOfReference "#/components/schemas/A".toList)
      else if r = "#/components/schemas/A".toList then some (typedSchema "string".toList)
      else none }

/-- The type `resolveType` returns for the reference `ref` after `buildModels` has run on
a document. -/
def typeAfterBuildModels (L : Library) (fuel : Nat) (doc : Document) (ref : Str) :
    Option typeInfo :=
  match buildModels L fuel startGenerator doc with
  | none => none
  | some (_, g) => resolveType L g fuel (some (.reference ref)) true

end SumUp

namespace SumUp

/-- The schema `{type: array, nullable: true, items: {type: string}}`. -/
def nullableArraySchema : Schema :=
  .mk ["array".toList] [] (some true) [] [] [] [] .absent
    (.a (.inline (typedSchema "string".toList))) []

/-- The schema `{type: object, nullable: true, properties: {a: {type: string}}}`. -/
def nullableObjectSchema : Schema :=
  .mk ["object".toList] [] (some true) []
    [("a".toList, .inline (typedSchema "string".toList))] [] [] .absent .absent []

/-- The schema `{type: object, nullable: true, additionalProperties: true}`. -/
def nullableMapSchema : Schema :=
  .mk ["object".toList] [] (some true) [] [] [] [] (.b true) .absent []

/-- The type name `resolveInlineSchemaType` returns, started from `startGenerator`. -/
def inlineTypeName (fuel : Nat) (schema : Schema) (required : Bool) (inlineBase : Str) :
    Option Str :=
  (resolveInlineSchemaType plainLibrary fuel startGenerator (some (.inline schema)) required
    inlineBase).map (fun r => r.1.TypeName)

end SumUp

namespace SumUp

/-- A schema with a type and a description. -/
def describedSchema (type description : Str) : Schema :=
  .mk [type] [] none [] [] [] [] .absent .absent description

/-- The `allOf` branch of `composedSchema`: it declares `name` (an integer) and `tag`, and
lists `id` and `name` as required. -/
def composedBranch : Schema :=
  .mk ["object".toList] [] none []
    [("name".toList, .inline (describedSchema "integer".toList "branch name".toList)),
     ("tag".toList, .inline (typedSchema "string".toList))]
    ["id".toList, "name".toList] [] .absent .absent []

/-- An object schema that declares `id` and `name` (a string) itself, requires nothing, and
has the `allOf` branch `composedBranch`. -/
def composedSchema : Schema :=
  .mk ["object".toList] [] none []
    [("id".toList, .inline (describedSchema "string".toList "identifier".toList)),
     ("name".toList, .inline (describedSchema "string".toList "own name".toList))]
    [] [.inline composedBranch] .absent .absent []

/-- Of a property record the JSON name, the type name, the required flag and the
description. -/
def propertyDigest (p : modelPropertyTemplateData) : Str × Str × Bool × Str :=
  (p.JsonName, p.TypeName, p.Required, p.Description)

/-- The digests of the property records `collectProperties` returns for the owner
`Owner`, started from `startGenerator`. -/
def collectedDigests (fuel : Nat) (schema : Schema) : Option (List (Str × Str × Bool × Str)) :=
  (collectProperties plainLibrary fuel startGenerator "Owner".toList schema).map
    (fun r => r.1.1.map propertyDigest)

/-- An object schema with the required property `note: {type: string, nullable: true}`. -/
def nullableRequiredSchema : Schema :=
  .mk ["object".toList] [] none []
    [("note".toList,
      .inline (.mk ["string".toList] [] (some true) [] [] [] [] .absent .absent []))]
    ["note".toList] [] .absent .absent []

/-- An object schema with the required properties `note: {type: string}` and
`tags: {type: array, items: {type: string}}`. -/
def plainRequiredSchema : Schema :=
  .mk ["object".toList] [] none []
    [("note".toList, .inline (typedSchema "string".toList)),
     ("tags".toList,
      .inline (.mk ["array".toList] [] none [] [] [] [] .absent
        (.a (.inline (typedSchema "string".toList))) []))]
    ["note".toList, "tags".toList] [] .absent .absent []

end SumUp

namespace SumUp

/-- The schema `{type: array, items: {type: object, properties: {a: {type: string}}}}`:
not structured itself, with structured items. -/
def arrayOfObjectsSchema : Schema :=
  .mk ["array".toList] [] none [] [] [] [] .absent
    (.a (.inline (onePropertySchema "a".toList))) []

end SumUp

namespace SumUp

/-! ### Relations between the generator before and after a step, and the origin of a
property record -/

/-- The name `n` starts with `owner` and is longer. -/
def StrictlyExtends (owner n : Str) : Prop := owner <+: n ∧ owner.length < n.length

/-- The generator `g'` is the generator `g` after inline models were synthesized whose
names satisfy `P`: configuration, table of schema types and error models are the same, no
registered name is lost, and the new inline models stand after the old ones. -/
def Generator.Extends (P : Str → Prop) (g g' : Generator) : Prop :=
  g'.config = g.config ∧ g'.schemaTypes = g.schemaTypes ∧ g'.errorModels = g.errorModels ∧
  g.modelNames ⊆ g'.modelNames ∧
  ∃ added, g'.inlineModels = g.inlineModels ++ added ∧ ∀ m ∈ added, P m.Name

/-- A step that, when it returns, has extended the generator `g` by inline models whose
names satisfy `P`. -/
def ExtendsResult {α : Type} (P : Str → Prop) (r : Option (α × Generator)) (g : Generator) :
    Prop :=
  ∀ a g', r = some (a, g') → Generator.Extends P g g'

/-- The property record the closure `addProps` assembles for the property `name`. -/
def propertyRecord (L : Library) (name : Str) (required : Bool) (info : typeInfo)
    (description : Str) : modelPropertyTemplateData :=
  { PropertyName := PascalIdentifier L.unicode name,
    JsonName := name,
    TypeName := info.TypeName,
    Description := sanitizeText description,
    Required := required,
    NeedsInitializer := required && !info.IsValueType && !hasSuffixQ info.TypeName,
    IsValueType := info.IsValueType,
    IsNullable := hasSuffixQ info.TypeName }

/-- The schemas whose properties `collectProperties` reads, in the order in which it reads
them: the schema itself, then those of its `allOf` branches that resolve to a schema. -/
def propertySources (L : Library) (g : Generator) (fuel : Nat) (schema : Schema) :
    List Schema :=
  schema :: schema.allOf.filterMap (fun branch => (schemaFromProxy L g fuel branch).join)

/-- The record `prop` is the one assembled from the declaration of the property `name` in
the schema `src`: its type is resolved by `resolveInline` from the proxy `src` declares,
with the required flag of `src` and the hint `ownerName` followed by the normalized name,
in a generator that has the configuration and the table of schema types of `g`; its
description is the one of that proxy. -/
def BuiltFrom (L : Library) (fuel : Nat) (resolveInline : InlineResolver) (g : Generator)
    (ownerName : Str) (src : Schema) (name : Str) (prop : modelPropertyTemplateData) : Prop :=
  ∃ (g₁ g₂ : Generator) (info : typeInfo) (description : Str),
    Generator.SameTypes g₁ g ∧
    resolvePropertyTypeWith L resolveInline g₁ ownerName name
        (getOrZero src.properties name) (decide (name ∈ src.required)) = some (info, g₂) ∧
    schemaDescription L g₂ fuel (getOrZero src.properties name) = some description ∧
    prop = propertyRecord L name (decide (name ∈ src.required)) info description

/-- The schema `src` is the last of the sources of `schema` that declares the property
`name`. -/
def LastDeclaring (sources : List Schema) (src : Schema) (name : Str) : Prop :=
  ∃ before after, sources = before ++ src :: after ∧
    name ∈ keysFromOldest src.properties ∧
    ∀ s ∈ after, name ∉ keysFromOldest s.properties

/-- The map `propMap` after the properties of the sources `srcs` were collected: it has
an entry exactly for the names some source declares, and the entry of a name is the record
assembled from the last source that declares it. -/
def SourcesTraced (L : Library) (fuel : Nat) (resolveInline : InlineResolver) (g : Generator)
    (ownerName : Str) (propMap : List (Str × modelPropertyTemplateData))
    (srcs : List Schema) : Prop :=
  (keysFromOldest propMap).Nodup ∧
  (∀ name, getOrZero propMap name = none ↔
    ∀ s ∈ srcs, name ∉ keysFromOldest s.properties) ∧
  (∀ name prop, getOrZero propMap name = some prop →
    ∃ src, LastDeclaring srcs src name ∧
      BuiltFrom L fuel resolveInline g ownerName src name prop)

/-- The type names `resolveType` has for scalars, and `JsonDocument`. -/
def primitiveTypeNames : List Str :=
  (["string", "DateTimeOffset", "DateTime", "Guid", "byte[]", "int", "long", "decimal",
    "float", "double", "bool", "JsonDocument"] : List String).map String.toList

/-- A type name that is a primitive (with or without the nullability marker) or the
descriptor of a collection. -/
def IsDescriptor (n : Str) : Prop :=
  trimSuffixQ n ∈ primitiveTypeNames ∨ "IEnumerable<".toList <+: n ∨
    "IDictionary<string, ".toList <+: n

end SumUp

namespace SumUp

/-! ### Inputs for the resolution of types and for the clients -/

/-- The schema `{type: integer, format: int64}`. -/
def int64Schema : Schema :=
  .mk ["integer".toList] "int64".toList none [] [] [] [] .absent .absent []

/-- The schema `{type: array, items: {type: integer, format: int64}}`. -/
def arrayOfInt64Schema : Schema :=
  .mk ["array".toList] [] none [] [] [] [] .absent (.a (.inline int64Schema)) []

/-- The schema `{additionalProperties: true}`, without a type. -/
def untypedOpenMapSchema : Schema :=
  .mk [] [] none [] [] [] [] (.b true) .absent []

/-- The schema `{type: object, additionalProperties: true}`. -/
def openMapSchema : Schema :=
  .mk ["object".toList] [] none [] [] [] [] (.b true) .absent []

/-- The test that a schema declares none of the scalar types. -/
def hasScalarType (schema : Schema) : Bool :=
  schemaHasType schema "string".toList || schemaHasType schema "integer".toList ||
    schemaHasType schema "number".toList || schemaHasType schema "boolean".toList

/-- The required flag `resolveType` works with: the caller's flag, or `false` for a schema
that is explicitly nullable. -/
def effectiveRequired (schema : Schema) (required : Bool) : Bool :=
  if schema.nullable = some true then false else required

end SumUp

namespace SumUp

/-- The type name `resolveType` returns for an inline schema, started from
`startGenerator`. -/
def resolvedTypeName (fuel : Nat) (schema : Schema) (required : Bool) : Option Str :=
  (resolveType plainLibrary startGenerator fuel (some (.inline schema)) required).map
    (fun t => t.TypeName)

/-- The pairs of key and value of the nodes of a YAML mapping. -/
def mappingPairs : List Str → List (Str × Str)
  | key :: value :: rest => (key, value) :: mappingPairs rest
  | _ => []

/-- A blank string: nothing but white space. -/
def isBlank (value : Str) : Bool := value.all unicodeIsSpace

/-- The `method_name` field of the extension `x-codegen` of an operation, when the extension
has such a field with a value that is not blank. -/
def extensionMethodName (op : Operation) : Option Str :=
  match op.xCodegen with
  | none => none
  | some content =>
    ((mappingPairs content).find?
      (fun kv => decide (kv.1 = "method_name".toList) && !isBlank kv.2)).map Prod.snd

/-- The string with every `{` and `}` removed. -/
def withoutBraces (s : Str) : Str := s.filter (fun c => c ≠ '{' ∧ c ≠ '}')

/-- An operation without tags and identifier that carries the extension
`x-codegen: {method_name: listAll}`. -/
def extensionOperation : Operation :=
  { bareOperation [] with
    xCodegen := some ["group".toList, "users".toList, "method_name".toList, "listAll".toList] }

/-- An object schema with the properties `a` and `B`. -/
def caseOrderSchema : Schema :=
  .mk ["object".toList] [] none []
    [("a".toList, .inline (typedSchema "string".toList)),
     ("B".toList, .inline (typedSchema "string".toList))]
    [] [] .absent .absent []

end SumUp

namespace SumUp

/-! ### The records of the operations in the order of traversal -/

/-- The method name `buildClients` gives to the unit of work `w` after the units `seen`:
the normalized name, followed by the count of its key increased by one when the key was
counted before. -/
def clientsWork.finalName (L : Library) (seen : List clientsWork) (w : clientsWork) : Str :=
  let count := (seen.filter (fun v => decide (v.key L = w.key L))).length
  if count > 0 then w.pascalName L ++ decimal (count + 1) else w.pascalName L

/-- The entry `e` (client name and operation record) is the one of the unit of work `w`
built after the units `seen`. -/
def EntryOf (L : Library) (seen : List clientsWork) (w : clientsWork)
    (e : Str × operationTemplateData) : Prop :=
  e.1 = w.clientName L ∧ e.2.Path = w.rawPath ∧
  e.2.HttpMethod = canonicalMethodName L.unicode w.methodName ∧
  e.2.MethodName = w.finalName L seen

/-- The entries `es` are those of the units of work `ws`, one for one and in order, built
after the units `seen`. -/
def EntriesOf (L : Library) :
    List clientsWork → List clientsWork → List (Str × operationTemplateData) → Prop
  | _, [], es => es = []
  | seen, w :: rest, es =>
    ∃ e tail, es = e :: tail ∧ EntryOf L seen w e ∧ EntriesOf L (seen ++ [w]) rest tail

/-- The map `clientMap` groups the entries `es` by client: its clients have pairwise
distinct names, which are the client names of the entries, and every client holds the
operations entered for its name, in the order of the entries. -/
def ClientMapGroups (clientMap : List clientTemplateData)
    (es : List (Str × operationTemplateData)) : Prop :=
  (clientMap.map (fun ct => ct.ClientName)).Nodup ∧
  (∀ c, c ∈ clientMap.map (fun ct => ct.ClientName) ↔ c ∈ es.map Prod.fst) ∧
  ∀ ct ∈ clientMap, ct.Operations = operationsFor ct.ClientName es

/-- The number of the unit of work `w` among the units of its client with its normalized
name, counted from 1, after the units `seen`. -/
def clientsWork.occurrence (L : Library) (seen : List clientsWork) (w : clientsWork) : Nat :=
  (seen.filter (fun v =>
    decide (v.clientName L = w.clientName L ∧ v.pascalName L = w.pascalName L))).length + 1

/-- For every unit of work, in the order of traversal: its client, its path, its HTTP
method and the method name the specification gives it, the normalized name for the first
occurrence within the client and the normalized name followed by `n` for the `n`-th. -/
def expectedMethodNames (L : Library) :
    List clientsWork → List clientsWork → List (Str × Str × Str × Str)
  | _, [] => []
  | seen, w :: rest =>
    (w.clientName L, w.rawPath, canonicalMethodName L.unicode w.methodName,
      candidateName (w.pascalName L) (w.occurrence L seen))
      :: expectedMethodNames L (seen ++ [w]) rest

/-- Of an entry the client, the path, the HTTP method and the method name. -/
def entryDigest (e : Str × operationTemplateData) : Str × Str × Str × Str :=
  (e.1, e.2.Path, e.2.HttpMethod, e.2.MethodName)

/-- An operation with a tag and an operation identifier. -/
def taggedOperation (tag operationId : Str) : Operation :=
  { bareOperation operationId with Tags := [tag] }

/-- Two operations whose tags and identifiers consist of dots only: the keys
`clientName.pascalName` of the two are the same string `....`. -/
def dottedDocument : Document :=
  { Schemas := [],
    PathItems := [("/a".toList, getPathItem (taggedOperation ".".toList "..".toList)),
                  ("/b".toList, getPathItem (taggedOperation "..".toList ".".toList))],
    Version := none }

/-- Three `get` operations of the client `Pets` that normalize to `List`, and one of the
client `Users`. -/
def repeatedNamesDocument : Document :=
  { Schemas := [],
    PathItems := [("/a".toList, getPathItem (taggedOperation "pets".toList "list".toList)),
                  ("/b".toList, getPathItem (taggedOperation "users".toList "list".toList)),
                  ("/c".toList, getPathItem (taggedOperation "pets".toList "List".toList)),
                  ("/d".toList, getPathItem (taggedOperation "pets".toList "LIST".toList))],
    Version := none }

/-- A document whose only path item declares no operation. -/
def noOperationsDocument : Document :=
  { Schemas := [],
    PathItems := [("/a".toList, { Parameters := [], Operations := [] })],
    Version := none }

/-- Of an operation record the path, the HTTP method and the method name. -/
structure methodDigest where
  Path : Str
  HttpMethod : Str
  MethodName : Str
  deriving DecidableEq, Repr

/-- Of a client record the name and the digests of its operations. -/
structure clientMethods where
  ClientName : Str
  Methods : List methodDigest
  deriving DecidableEq, Repr

/-- Of the clients `buildClients` returns, the names and for every operation the path, the
HTTP method and the method name. -/
def clientsMethods (r : Option (Except Str (List clientTemplateData × Generator))) :
    Option (List clientMethods) :=
  match r with
  | some (.ok (clients, _)) =>
    some (clients.map (fun c =>
      { ClientName := c.ClientName,
        Methods := c.Operations.map (fun o =>
          { Path := o.Path, HttpMethod := o.HttpMethod, MethodName := o.MethodName }) }))
  | _ => none

end SumUp

namespace SumUp

/-! ### Enum members and method names, as the specification numbers them -/

/-- The number of the literals in `seen` that normalize to the same identifier as `str`. -/
def enumOccurrence (L : Library) (seen : List Str) (str : Str) : Nat :=
  (seen.filter (fun s =>
    decide (PascalIdentifier L.unicode s = PascalIdentifier L.unicode str))).length

/-- The member name of the literal `str` that comes after the literals `seen`: its
normalized name, followed by the number of the earlier literals with that normalized name
when there is one. -/
def enumMemberName (L : Library) (seen : List Str) (str : Str) : Str :=
  if enumOccurrence L seen str = 0 then PascalIdentifier L.unicode str
  else PascalIdentifier L.unicode str ++ decimal (enumOccurrence L seen str)

/-- One entry per literal, in the declared order, named by `enumMemberName`. -/
def expectedEnumValues (L : Library) : List Str → List Str → List enumValueTemplateData
  | _, [] => []
  | seen, str :: rest =>
    { Name := enumMemberName L seen str, Value := str } ::
      expectedEnumValues L (seen ++ [str]) rest

/-- Three untagged `get` operations with the identifiers `list`, `list` and `list2`. -/
def suffixClashDocument : Document :=
  { Schemas := [],
    PathItems := [("/a".toList, getPathItem (bareOperation "list".toList)),
                  ("/b".toList, getPathItem (bareOperation "list".toList)),
                  ("/c".toList, getPathItem (bareOperation "list2".toList))],
    Version := none }

end SumUp

namespace SumUp

/-! ### Responses and request bodies: concrete inputs and what the specification expects -/

/-- A media type with the inline schema `schema`. -/
def mediaOf (schema : Schema) : MediaType := { Schema := some (.inline schema) }

/-- A response whose only media type is `application/json`, with the inline schema
`schema`. -/
def jsonResponse (schema : Schema) : Response :=
  { Content := [("application/json".toList, mediaOf schema)] }

/-- A response that declares `text/plain` without a schema before `application/json` with
the inline schema `schema`. -/
def textThenJsonResponse (schema : Schema) : Response :=
  { Content := [("text/plain".toList, { Schema := none }),
                ("application/json".toList, mediaOf schema)] }

/-- The schema `{type: array, items: {type: string}}`. -/
def arrayOfStringsSchema : Schema :=
  .mk ["array".toList] [] none [] [] [] [] .absent
    (.a (.inline (typedSchema "string".toList))) []

/-- An operation whose response `200` has no content and whose response `201` has a JSON
array of strings. -/
def skippedSuccessOperation : Operation :=
  { bareOperation "x".toList with
    Responses := some
      { Codes := [("200".toList, { Content := [] }),
                  ("201".toList, jsonResponse arrayOfStringsSchema)],
        Default := none } }

/-- An operation that declares no status code and a default response with a JSON string. -/
def defaultOnlyOperation : Operation :=
  { bareOperation "x".toList with
    Responses := some
      { Codes := [], Default := some (jsonResponse (typedSchema "string".toList)) } }

/-- An operation with the responses `200` (a JSON string) and `404` (a JSON object with a
property), and no default response. -/
def notFoundOperation : Operation :=
  { bareOperation "x".toList with
    Responses := some
      { Codes := [("404".toList, jsonResponse (onePropertySchema "message".toList)),
                  ("200".toList, jsonResponse (typedSchema "string".toList))],
        Default := none } }

/-- Of an operation record the response type and the response handling mode. -/
def responseDigest (r : Option (operationTemplateData × Generator)) : Option (Str × Str) :=
  r.map (fun p => (p.1.ResponseType, p.1.ResponseMode))

/-- The test `strings.Contains(strings.ToLower(contentType), "text/")` of
`responseModeForResponse`. -/
def isTextContent (L : Library) (contentType : Str) : Bool :=
  stringsContains (stringsToLower L.unicode contentType) "text/".toList

/-- The response handling mode that belongs to a resolved type name: `string` for the type
`string`; for `JsonDocument` the mode `string` when the first declared media type is a text
type and `json-document` otherwise; `json` for every other type. -/
def modeOfType (typeName : Str) (isText : Bool) : Str :=
  if trimSuffixQ typeName = "string".toList then "string".toList
  else if trimSuffixQ typeName = "JsonDocument".toList then
    (if isText then "string".toList else "json-document".toList)
  else "json".toList

/-- A request body whose only media type has the empty name, with a string schema. -/
def unnamedMediaBody : RequestBody :=
  { Content := [([], mediaOf (typedSchema "string".toList))],
    Required := some true, Description := [] }

/-- A required request body that declares `text/plain` with a string schema before
`application/json` with an object schema. -/
def textThenJsonBody : RequestBody :=
  { Content := [("text/plain".toList, mediaOf (typedSchema "string".toList)),
                ("application/json".toList, mediaOf (onePropertySchema "b".toList))],
    Required := some true, Description := [] }

/-- The record `buildRequestBody` assembles from a body, its first media type and the
resolved type. -/
def bodyRecord (body : RequestBody) (info : typeInfo) : bodyTemplateData :=
  { ArgName := "body".toList,
    Signature :=
      if body.Required = some true then info.TypeName ++ " body".toList
      else info.TypeName ++ " body = null".toList,
    Description := sanitizeText body.Description,
    Required := decide (body.Required = some true),
    ContentType := firstContentType body.Content,
    TypeName := info.TypeName,
    IsCollection := info.IsCollection }

end SumUp

namespace SumUp

/-! ### Merged parameters, as the specification describes them -/

/-- The names of a list in the order of their first occurrences, each once. -/
def firstOccurrences : List Str → List Str
  | [] => []
  | n :: rest => n :: (firstOccurrences rest).filter (fun m => decide (m ≠ n))

/-- The last record of `l` that has the name `name`. -/
def lastDefinition (name : Str) (l : List parameterTemplateData) :
    Option parameterTemplateData :=
  (l.filter (fun p => decide (p.Name = name))).getLast?

/-- One record per distinct name of `l`, at the position of the first occurrence of the
name and with the definition of its last occurrence. -/
def mergedByName (l : List parameterTemplateData) : List parameterTemplateData :=
  (firstOccurrences (l.map (fun p => p.Name))).filterMap (fun n => lastDefinition n l)

/-- The merged parameters of one location. -/
def mergedParameters (location : Str) (l : List parameterTemplateData) :
    List parameterTemplateData :=
  mergedByName (l.filter (fun p => decide (p.Location = location)))

/-- The records `convertParameter` returns for a list of parameters, in their order. -/
def convertedParameters (L : Library) (fuel : Nat) (g : Generator) :
    List Parameter → Option (List parameterTemplateData)
  | [] => some []
  | param :: rest =>
    match convertParameter L fuel g param with
    | none => none
    | some c => (convertedParameters L fuel g rest).map (fun cs => c :: cs)

/-- A parameter with a name, a location, a string schema and a description. -/
def stringParameter (name location description : Str) : Parameter :=
  { Name := name, In := location, Required := some true,
    Schema := some (.inline (typedSchema "string".toList)), Description := description }

/-- An operation that declares the query parameters `sort` and `limit`. -/
def overriddenOperation : Operation :=
  { bareOperation "x".toList with
    Parameters := [stringParameter "sort".toList "query".toList "inner".toList,
                   stringParameter "limit".toList "query".toList "inner".toList] }

/-- A path item that declares the query parameters `limit` and `page` and the header
`limit`, with `overriddenOperation` as its `get` operation. -/
def overriddenPathItem : PathItem :=
  { Parameters := [stringParameter "limit".toList "query".toList "outer".toList,
                   stringParameter "page".toList "query".toList "outer".toList,
                   stringParameter "limit".toList "header".toList "outer".toList],
    Operations := [("get".toList, overriddenOperation)] }

/-- Of a parameter record the name and the description. -/
structure parameterDigest where
  Name : Str
  Description : Str
  deriving DecidableEq, Repr

/-- Of an operation record the digests of its path, query and header parameters. -/
structure parametersDigest where
  PathParams : List parameterDigest
  QueryParams : List parameterDigest
  HeaderParams : List parameterDigest
  deriving DecidableEq, Repr

/-- The digests of a list of parameter records. -/
def parameterDigests (l : List parameterTemplateData) : List parameterDigest :=
  l.map (fun p => { Name := p.Name, Description := p.Description })

/-- The digest of the parameters of an operation record. -/
def operationParameters (r : operationTemplateData) : parametersDigest :=
  { PathParams := parameterDigests r.PathParams,
    QueryParams := parameterDigests r.QueryParams,
    HeaderParams := parameterDigests r.HeaderParams }

end SumUp

namespace SumUp

/-! ### Response types and error mappings, as the specification describes them -/

/-- Every entry of the table of schema types has a type name that is not empty, as is the
case for every table `buildModels` registers: the type names are results of
`PascalIdentifier`. -/
def Generator.TypesNamed (g : Generator) : Prop :=
  ∀ k info, g.schemaTypes k = some info → info.TypeName ≠ []

/-- The content schema of the response declared for the status code `code`: the schema
`preferredSchema` chooses from its content. -/
def contentSchema (codesMap : List (Str × Response)) (code : Str) : Option SchemaProxy :=
  (getOrZero codesMap code).bind (fun resp => preferredSchema resp.Content)

/-- The content schema of the first of the status codes `codes` that begins with `2` and
whose response has one. -/
def firstUsableSchema (codesMap : List (Str × Response)) : List Str → Option SchemaProxy
  | [] => none
  | code :: rest =>
    if hasPrefix2 code then
      match contentSchema codesMap code with
      | some s => some s
      | none => firstUsableSchema codesMap rest
    else firstUsableSchema codesMap rest

/-- The response type as the specification describes it: resolved from the first success
code, in ascending order, whose response has a content schema; else from the default
response when that has a content schema; else `JsonDocument`. -/
def expectedResponseType (L : Library) (fuel : Nat) (g : Generator) (op : Operation)
    (clientName methodName : Str) : Option (typeInfo × Generator) :=
  let fallback := nullableType "JsonDocument".toList false true false
  match op.Responses with
  | none => some (fallback, g)
  | some responses =>
    match firstUsableSchema responses.Codes (sortStrings (keysFromOldest responses.Codes)) with
    | some s =>
      resolveInlineSchemaType L fuel g (some s) true
        (clientName ++ methodName ++ "Response".toList)
    | none =>
      match responses.Default.bind (fun resp => preferredSchema resp.Content) with
      | some s =>
        resolveInlineSchemaType L fuel g (some s) true
          (clientName ++ methodName ++ "ResponseDefault".toList)
      | none => some (fallback, g)

/-- The status codes that get an error mapping, in ascending order: the declared codes
that do not begin with `2` and whose response has a content schema. -/
def errorCodes (responses : Responses) : List Str :=
  (sortStrings (keysFromOldest responses.Codes)).filter
    (fun code => !hasPrefix2 code && (contentSchema responses.Codes code).isSome)

/-- The name `errorType` is the type resolved from the content schema of `resp` with the
hint `base`, without a trailing `?`; the resolution takes place in a generator that has
the configuration and the table of schema types of `g`. -/
def ErrorTypeOf (L : Library) (fuel : Nat) (g : Generator) (resp : Response) (base : Str)
    (errorType : Str) : Prop :=
  ∃ (s : SchemaProxy) (g₁ g₂ : Generator) (t : typeInfo),
    preferredSchema resp.Content = some s ∧ Generator.SameTypes g₁ g ∧
    resolveInlineSchemaType L fuel g₁ (some s) true base = some (t, g₂) ∧
    errorType = trimSuffixQ t.TypeName

end SumUp

namespace SumUp

/-! ### The letters and digits of an identifier -/

/-- The identifier `r` keeps the letters and digits of `input`: it is made of an optional
leading underscore, a body of ASCII letters and digits that is, up to letter case, the
sequence of the ASCII letters and digits of `input`, and an optional suffix `Value`. -/
def KeepsLettersAndDigits (input r : Str) : Prop :=
  ∃ pre body suf : Str, r = pre ++ body ++ suf ∧
    (pre = [] ∨ pre = ['_']) ∧ (suf = [] ∨ suf = "Value".toList) ∧
    (∀ c ∈ body, isAlphaNum c = true) ∧
    body.map Char.toLower = (input.filter isAlphaNum).map Char.toLower

end SumUp

namespace SumUp

/-! ## Characters -/

theorem ascii_forall {P : Char → Prop} (h : ∀ n < 128, P (Char.ofNat n)) (c : Char)
    (hc : c.toNat < 128) : P c := by
  have := h c.toNat hc
  simpa using this

theorem isDigit_iff (c : Char) : c.isDigit = true ↔ 48 ≤ c.toNat ∧ c.toNat ≤ 57 := by
  simp only [Char.isDigit, Bool.and_eq_true, decide_eq_true_eq, Char.toNat, ge_iff_le,
    UInt32.le_def, Fin.le_def]
  rfl

theorem isUpper_iff (c : Char) : c.isUpper = true ↔ 65 ≤ c.toNat ∧ c.toNat ≤ 90 := by
  simp only [Char.isUpper, Bool.and_eq_true, decide_eq_true_eq, Char.toNat, ge_iff_le,
    UInt32.le_def, Fin.le_def]
  rfl

theorem isLower_iff (c : Char) : c.isLower = true ↔ 97 ≤ c.toNat ∧ c.toNat ≤ 122 := by
  simp only [Char.isLower, Bool.and_eq_true, decide_eq_true_eq, Char.toNat, ge_iff_le,
    UInt32.le_def, Fin.le_def]
  rfl

theorem isAlphaNum_ascii {c : Char} (h : isAlphaNum c = true) : c.toNat < 128 := by
  simp only [isAlphaNum, Bool.or_eq_true, isDigit_iff, isUpper_iff, isLower_iff] at h
  omega

theorem isLower_ascii {c : Char} (h : c.isLower = true) : c.toNat < 128 := by
  rw [isLower_iff] at h; omega

theorem isUpper_ascii {c : Char} (h : c.isUpper = true) : c.toNat < 128 := by
  rw [isUpper_iff] at h; omega

theorem isDigit_ascii {c : Char} (h : c.isDigit = true) : c.toNat < 128 := by
  rw [isDigit_iff] at h; omega

theorem unicodeIsDigit_ascii (U : UnicodeTables) {c : Char} (h : c.toNat < 128) :
    unicodeIsDigit U c = c.isDigit := by simp [unicodeIsDigit, h]

theorem unicodeIsUpper_ascii (U : UnicodeTables) {c : Char} (h : c.toNat < 128) :
    unicodeIsUpper U c = c.isUpper := by simp [unicodeIsUpper, h]

theorem unicodeIsLower_ascii (U : UnicodeTables) {c : Char} (h : c.toNat < 128) :
    unicodeIsLower U c = c.isLower := by simp [unicodeIsLower, h]

theorem unicodeToUpper_ascii (U : UnicodeTables) {c : Char} (h : c.toNat < 128) :
    unicodeToUpper U c = c.toUpper := by simp [unicodeToUpper, h]

theorem unicodeToLower_ascii (U : UnicodeTables) {c : Char} (h : c.toNat < 128) :
    unicodeToLower U c = c.toLower := by simp [unicodeToLower, h]

theorem runeError_not_ascii : ¬ runeError.toNat < 128 := by decide

theorem unicodeIsDigit_runeError (U : UnicodeTables) : unicodeIsDigit U runeError = false := by
  simp [unicodeIsDigit, runeError_not_ascii]

theorem unicodeToLower_runeError (U : UnicodeTables) : unicodeToLower U runeError = runeError := by
  simp [unicodeToLower, runeError_not_ascii]

set_option maxRecDepth 100000 in
theorem ascii_case_table : ∀ n < 128,
    ((Char.ofNat n).toLower.toNat < 128 ∧ (Char.ofNat n).toUpper.toNat < 128 ∧
     ((Char.ofNat n).isDigit = false → (Char.ofNat n).toLower.isDigit = false) ∧
     ((Char.ofNat n).isLower = true → (Char.ofNat n).toLower = Char.ofNat n) ∧
     ((Char.ofNat n).isLower = true → (Char.ofNat n).toUpper.isUpper = true) ∧
     ((Char.ofNat n).isLower = true → (Char.ofNat n).toUpper.toLower = Char.ofNat n) ∧
     ((Char.ofNat n).isLower = true → (Char.ofNat n).isUpper = false ∧
        (Char.ofNat n).isDigit = false) ∧
     ((Char.ofNat n).isUpper = true → (Char.ofNat n).isLower = false ∧
        (Char.ofNat n).isDigit = false)) := by
  decide

theorem toLower_ascii {c : Char} (h : c.toNat < 128) : c.toLower.toNat < 128 :=
  (ascii_forall (P := fun c => c.toLower.toNat < 128) (fun n hn => (ascii_case_table n hn).1) c h)

theorem toUpper_ascii {c : Char} (h : c.toNat < 128) : c.toUpper.toNat < 128 :=
  (ascii_forall (P := fun c => c.toUpper.toNat < 128) (fun n hn => (ascii_case_table n hn).2.1) c h)

theorem toLower_not_digit {c : Char} (h : c.toNat < 128) (hd : c.isDigit = false) :
    c.toLower.isDigit = false :=
  (ascii_forall (P := fun c => c.isDigit = false → c.toLower.isDigit = false)
    (fun n hn => (ascii_case_table n hn).2.2.1) c h) hd

theorem toLower_of_isLower {c : Char} (hl : c.isLower = true) : c.toLower = c :=
  (ascii_forall (P := fun c => c.isLower = true → c.toLower = c)
    (fun n hn => (ascii_case_table n hn).2.2.2.1) c (isLower_ascii hl)) hl

theorem toUpper_isUpper {c : Char} (hl : c.isLower = true) : c.toUpper.isUpper = true :=
  (ascii_forall (P := fun c => c.isLower = true → c.toUpper.isUpper = true)
    (fun n hn => (ascii_case_table n hn).2.2.2.2.1) c (isLower_ascii hl)) hl

theorem toLower_toUpper {c : Char} (hl : c.isLower = true) : c.toUpper.toLower = c :=
  (ascii_forall (P := fun c => c.isLower = true → c.toUpper.toLower = c)
    (fun n hn => (ascii_case_table n hn).2.2.2.2.2.1) c (isLower_ascii hl)) hl

theorem isLower_not_upper_digit {c : Char} (hl : c.isLower = true) :
    c.isUpper = false ∧ c.isDigit = false :=
  (ascii_forall (P := fun c => c.isLower = true → c.isUpper = false ∧ c.isDigit = false)
    (fun n hn => (ascii_case_table n hn).2.2.2.2.2.2.1) c (isLower_ascii hl)) hl

theorem isUpper_not_lower_digit {c : Char} (hu : c.isUpper = true) :
    c.isLower = false ∧ c.isDigit = false :=
  (ascii_forall (P := fun c => c.isUpper = true → c.isLower = false ∧ c.isDigit = false)
    (fun n hn => (ascii_case_table n hn).2.2.2.2.2.2.2) c (isUpper_ascii hu)) hu

set_option maxRecDepth 100000 in
theorem ascii_case_table2 : ∀ n < 128,
    ((Char.ofNat n).toUpper.isLower = false ∧
     ((Char.ofNat n).isLower = false → (Char.ofNat n).toUpper = Char.ofNat n) ∧
     ((Char.ofNat n).isUpper = false → (Char.ofNat n).toLower = Char.ofNat n)) := by
  decide

theorem toUpper_not_lower {c : Char} (h : c.toNat < 128) : c.toUpper.isLower = false :=
  ascii_forall (P := fun c => c.toUpper.isLower = false)
    (fun n hn => (ascii_case_table2 n hn).1) c h

theorem toUpper_of_not_lower {c : Char} (h : c.toNat < 128) (hl : c.isLower = false) :
    c.toUpper = c :=
  (ascii_forall (P := fun c => c.isLower = false → c.toUpper = c)
    (fun n hn => (ascii_case_table2 n hn).2.1) c h) hl

theorem toLower_of_not_upper {c : Char} (h : c.toNat < 128) (hu : c.isUpper = false) :
    c.toLower = c :=
  (ascii_forall (P := fun c => c.isUpper = false → c.toLower = c)
    (fun n hn => (ascii_case_table2 n hn).2.2) c h) hu

end SumUp

namespace SumUp

/-! ## Safety of the normalizer -/

theorem headPlain_nil : HeadPlain [] := by intro c t h; cases h

theorem headPlain_append {a b : Str} (ha : HeadPlain a) (hb : HeadPlain b) :
    HeadPlain (a ++ b) := by
  intro c t h
  cases a with
  | nil => exact hb c t h
  | cons x xs =>
    simp only [List.cons_append, List.cons.injEq] at h
    rw [← h.1]; exact ha x xs rfl

theorem headPlain_flatten {l : List Str} (h : ∀ x ∈ l, HeadPlain x) : HeadPlain l.flatten := by
  induction l with
  | nil => exact headPlain_nil
  | cons x xs ih =>
    rw [List.flatten_cons]
    exact headPlain_append (h x (List.mem_cons_self _ _))
      (ih (fun y hy => h y (List.mem_cons_of_mem _ hy)))

theorem upperFirstByte_head (U : UnicodeTables) (part : Str) :
    HeadPlain (upperFirstByte U part) := by
  intro c t h
  cases part with
  | nil => simp [upperFirstByte] at h
  | cons x xs =>
    simp only [upperFirstByte] at h
    split at h
    · rename_i hx
      simp only [List.cons.injEq] at h
      rw [← h.1, unicodeToUpper_ascii U hx]
      exact ⟨Or.inl (toUpper_ascii hx), toUpper_not_lower hx⟩
    · simp only [List.cons.injEq] at h
      rw [← h.1]
      exact ⟨Or.inr rfl, by decide⟩

theorem upperFirstByte_ne_nil (U : UnicodeTables) {part : Str} (h : part ≠ []) :
    upperFirstByte U part ≠ [] := by
  cases part with
  | nil => exact absurd rfl h
  | cons x xs => simp only [upperFirstByte]; split <;> simp

theorem pascalPart_head (U : UnicodeTables) (part : Str) : HeadPlain (pascalPart U part) := by
  unfold pascalPart
  split
  · exact headPlain_nil
  · rename_i hp
    intro c t h
    have hne := upperFirstByte_ne_nil U hp
    cases hu : upperFirstByte U part with
    | nil => exact absurd hu hne
    | cons x xs =>
      rw [hu] at h
      simp only [List.cons_append, List.cons.injEq] at h
      rw [← h.1]; exact upperFirstByte_head U part x xs hu

theorem foldl_pascalPart (U : UnicodeTables) (parts : List Str) (acc : Str) :
    parts.foldl (fun builder part => builder ++ pascalPart U part) acc
      = acc ++ (parts.map (pascalPart U)).flatten := by
  induction parts generalizing acc with
  | nil => simp
  | cons p ps ih => simp [ih, List.append_assoc]

theorem foldl_splitCamel (U : UnicodeTables) (fields : List Str) (acc : List Str) :
    fields.foldl (fun result field => result ++ splitCamel U field) acc
      = acc ++ (fields.map (splitCamel U)).flatten := by
  induction fields generalizing acc with
  | nil => simp
  | cons p ps ih => simp [ih, List.append_assoc]

theorem underscore_facts (U : UnicodeTables) :
    unicodeIsDigit U '_' = false ∧ '_'.toNat < 128 := by
  constructor
  · rfl
  · decide

theorem sanitize_spec (U : UnicodeTables) (s : Str) (h : HeadPlain s) :
    sanitizeLeadingCharacter U s ≠ [] ∧ startsWithDigit U (sanitizeLeadingCharacter U s) = false
      ∧ HeadPlain (sanitizeLeadingCharacter U s) := by
  cases s with
  | nil =>
    refine ⟨by simp [sanitizeLeadingCharacter], rfl, ?_⟩
    intro c t hc
    simp only [sanitizeLeadingCharacter] at hc
    have : c = 'V' := by
      have := congrArg List.head? hc
      simpa using this.symm
    rw [this]; exact ⟨Or.inl (by decide), by decide⟩
  | cons x xs =>
    simp only [sanitizeLeadingCharacter]
    by_cases hd : unicodeIsDigit U x = true
    · rw [if_pos hd]
      refine ⟨by simp, (underscore_facts U).1, ?_⟩
      intro c t hc
      simp only [List.cons.injEq] at hc
      rw [← hc.1]; exact ⟨Or.inl (underscore_facts U).2, by decide⟩
    · rw [if_neg hd]
      refine ⟨by simp, by simpa [startsWithDigit] using hd, h⟩

theorem sanitize_of_not_digit (U : UnicodeTables) {s : Str} (hne : s ≠ [])
    (hd : startsWithDigit U s = false) : sanitizeLeadingCharacter U s = s := by
  cases s with
  | nil => exact absurd rfl hne
  | cons x xs =>
    simp only [startsWithDigit] at hd
    simp [sanitizeLeadingCharacter, hd]

theorem PascalCase_spec (U : UnicodeTables) (s : Str) :
    PascalCase U s ≠ [] ∧ startsWithDigit U (PascalCase U s) = false
      ∧ HeadPlain (PascalCase U s) := by
  unfold PascalCase
  simp only
  split
  · refine ⟨by decide, rfl, ?_⟩
    intro c t hc
    have : c = 'V' := by
      have := congrArg List.head? hc
      simpa using this.symm
    rw [this]; exact ⟨Or.inl (by decide), by decide⟩
  · apply sanitize_spec
    rw [foldl_pascalPart, List.nil_append]
    apply headPlain_flatten
    intro x hx
    rw [List.mem_map] at hx
    obtain ⟨p, _, rfl⟩ := hx
    exact pascalPart_head U p

theorem CamelCase_spec (U : UnicodeTables) (s : Str) :
    CamelCase U s ≠ [] ∧ startsWithDigit U (CamelCase U s) = false := by
  obtain ⟨hne, hd, hp⟩ := PascalCase_spec U s
  unfold CamelCase
  cases hP : PascalCase U s with
  | nil => exact absurd hP hne
  | cons r runes =>
    simp only
    refine ⟨by simp, ?_⟩
    rw [hP] at hd
    simp only [startsWithDigit] at hd ⊢
    rcases (hp r runes hP).1 with h | h
    · rw [unicodeToLower_ascii U h, unicodeIsDigit_ascii U (toLower_ascii h)]
      apply toLower_not_digit h
      rw [← unicodeIsDigit_ascii U h]; exact hd
    · rw [h, unicodeToLower_runeError, unicodeIsDigit_runeError]

theorem startsWithDigit_append (U : UnicodeTables) {a : Str} (b : Str) (h : a ≠ []) :
    startsWithDigit U (a ++ b) = startsWithDigit U a := by
  cases a with
  | nil => exact absurd rfl h
  | cons x xs => rfl

theorem ensureNotReserved_eq (U : UnicodeTables) {name : Str} (hne : name ≠ [])
    (hd : startsWithDigit U name = false) :
    ensureNotReserved U name =
      if stringsToLower U name ∈ reserved then name ++ "Value".toList else name := by
  unfold ensureNotReserved
  rw [if_neg hne, sanitize_of_not_digit U hne hd]

theorem ensureNotReserved_spec (U : UnicodeTables) {name : Str} (hne : name ≠ [])
    (hd : startsWithDigit U name = false) :
    ensureNotReserved U name ≠ [] ∧ startsWithDigit U (ensureNotReserved U name) = false := by
  rw [ensureNotReserved_eq U hne hd]
  split
  · exact ⟨by simp [hne], by rw [startsWithDigit_append U _ hne]; exact hd⟩
  · exact ⟨hne, hd⟩

theorem utf8Size_ge_one (c : Char) : 1 ≤ c.utf8Size := by
  rcases Char.utf8Size_eq c with h | h | h | h <;> omega

theorem byteLen_pos {part : Str} (h : part ≠ []) : ¬ byteLen part < 1 := by
  cases part with
  | nil => exact absurd rfl h
  | cons x xs =>
    have := utf8Size_ge_one x
    simp only [byteLen, List.map_cons, List.sum_cons]
    omega

theorem pascalPartRun_eq (U : UnicodeTables) (part : Str) :
    pascalPartRun U part = some (pascalPart U part) := by
  unfold pascalPartRun pascalPart upperFirstByteRun lowerAfterFirstByteRun
  by_cases hp : part = []
  · simp [hp]
  · simp only [if_neg hp, if_neg (byteLen_pos hp)]
    split <;> simp

theorem pascalLoopRun_eq (U : UnicodeTables) (parts : List Str) (builder : Str) :
    pascalLoopRun U builder parts
      = some (parts.foldl (fun builder part => builder ++ pascalPart U part) builder) := by
  induction parts generalizing builder with
  | nil => rfl
  | cons p ps ih => simp only [pascalLoopRun, pascalPartRun_eq, List.foldl_cons, ih]

theorem sanitizeRun_eq (U : UnicodeTables) (input : Str) :
    sanitizeLeadingCharacterRun U input = some (sanitizeLeadingCharacter U input) := by
  cases input with
  | nil => rfl
  | cons x xs =>
    simp only [sanitizeLeadingCharacterRun, sanitizeLeadingCharacter, List.head?_cons]
    by_cases hd : unicodeIsDigit U x = true <;> simp [hd]

theorem PascalCaseRun_eq (U : UnicodeTables) (input : Str) :
    PascalCaseRun U input = some (PascalCase U input) := by
  unfold PascalCaseRun PascalCase
  simp only [pascalLoopRun_eq, sanitizeRun_eq]
  split <;> rfl

theorem CamelCaseRun_eq (U : UnicodeTables) (input : Str) :
    CamelCaseRun U input = some (CamelCase U input) := by
  unfold CamelCaseRun CamelCase
  rw [PascalCaseRun_eq]
  cases PascalCase U input <;> simp

theorem ensureNotReservedRun_eq (U : UnicodeTables) (name : Str) :
    ensureNotReservedRun U name = some (ensureNotReserved U name) := by
  unfold ensureNotReservedRun ensureNotReserved
  rw [sanitizeRun_eq]
  split
  · rfl
  · split <;> rfl

/-- C6: on every input string (the empty one and the ones without any ASCII letter or
digit included) `PascalCase`, `CamelCase`, `Identifier` and `PascalIdentifier` run through
without a slice or index panic, and what they return is not empty and does not start with
a digit. -/
theorem normalizer_total_nonempty_no_leading_digit (U : UnicodeTables) (input : Str) :
    (PascalCaseRun U input = some (PascalCase U input) ∧
      PascalCase U input ≠ [] ∧ startsWithDigit U (PascalCase U input) = false) ∧
    (CamelCaseRun U input = some (CamelCase U input) ∧
      CamelCase U input ≠ [] ∧ startsWithDigit U (CamelCase U input) = false) ∧
    (IdentifierRun U input = some (Identifier U input) ∧
      Identifier U input ≠ [] ∧ startsWithDigit U (Identifier U input) = false) ∧
    (PascalIdentifierRun U input = some (PascalIdentifier U input) ∧
      PascalIdentifier U input ≠ [] ∧
      startsWithDigit U (PascalIdentifier U input) = false) := by
  obtain ⟨hp1, hp2, _⟩ := PascalCase_spec U input
  obtain ⟨hc1, hc2⟩ := CamelCase_spec U input
  refine ⟨⟨PascalCaseRun_eq U input, hp1, hp2⟩, ⟨CamelCaseRun_eq U input, hc1, hc2⟩,
    ⟨?_, ensureNotReserved_spec U hc1 hc2⟩, ⟨?_, ensureNotReserved_spec U hp1 hp2⟩⟩
  · simp only [IdentifierRun, CamelCaseRun_eq, ensureNotReservedRun_eq, Identifier]
  · simp only [PascalIdentifierRun, PascalCaseRun_eq, ensureNotReservedRun_eq, PascalIdentifier]

end SumUp

namespace SumUp

/-! ## Reserved keywords -/

set_option maxRecDepth 100000 in
theorem reserved_lowercase : ∀ r ∈ reserved, ∀ c ∈ r, c.isLower = true := by
  decide

set_option maxRecDepth 100000 in
theorem reserved_value_not_reserved : ∀ r ∈ reserved, r ++ "value".toList ∉ reserved := by
  decide

theorem unicodeToLower_of_isLower (U : UnicodeTables) {c : Char} (h : c.isLower = true) :
    unicodeToLower U c = c := by
  rw [unicodeToLower_ascii U (isLower_ascii h), toLower_of_isLower h]

theorem stringsToLower_of_lowercase (U : UnicodeTables) {s : Str}
    (h : ∀ c ∈ s, c.isLower = true) : stringsToLower U s = s := by
  induction s with
  | nil => rfl
  | cons x xs ih =>
    simp only [stringsToLower, List.map_cons, List.cons.injEq]
    exact ⟨unicodeToLower_of_isLower U (h x (List.mem_cons_self _ _)),
      ih (fun c hc => h c (List.mem_cons_of_mem _ hc))⟩

theorem stringsToLower_reserved (U : UnicodeTables) {r : Str} (h : r ∈ reserved) :
    stringsToLower U r = r :=
  stringsToLower_of_lowercase U (reserved_lowercase r h)

theorem stringsToLower_append_Value (U : UnicodeTables) (name : Str) :
    stringsToLower U (name ++ "Value".toList) = stringsToLower U name ++ "value".toList := by
  simp only [stringsToLower, List.map_append]
  rfl

theorem ensureNotReserved_not_reserved (U : UnicodeTables) {name : Str} (hne : name ≠ [])
    (hd : startsWithDigit U name = false) :
    ensureNotReserved U name ∉ reserved ∧
      stringsToLower U (ensureNotReserved U name) ∉ reserved := by
  rw [ensureNotReserved_eq U hne hd]
  split
  · rename_i hr
    have hlow : stringsToLower U (name ++ "Value".toList) ∉ reserved := by
      rw [stringsToLower_append_Value]
      exact reserved_value_not_reserved _ hr
    refine ⟨fun hmem => hlow ?_, hlow⟩
    rw [stringsToLower_reserved U hmem]; exact hmem
  · rename_i hr
    refine ⟨fun hmem => hr ?_, hr⟩
    rw [stringsToLower_reserved U hmem]; exact hmem

/-- C7: `Identifier` and `PascalIdentifier` never return a reserved keyword (not even up to
letter case): when the lower-cased `CamelCase` (respectively `PascalCase`) form of the input
is a reserved keyword the result is that form followed by `Value`, and otherwise it is that
form unchanged. -/
theorem identifiers_avoid_reserved (U : UnicodeTables) (input : Str) :
    (Identifier U input =
        (if stringsToLower U (CamelCase U input) ∈ reserved
          then CamelCase U input ++ "Value".toList else CamelCase U input) ∧
      Identifier U input ∉ reserved ∧ stringsToLower U (Identifier U input) ∉ reserved) ∧
    (PascalIdentifier U input =
        (if stringsToLower U (PascalCase U input) ∈ reserved
          then PascalCase U input ++ "Value".toList else PascalCase U input) ∧
      PascalIdentifier U input ∉ reserved ∧
      stringsToLower U (PascalIdentifier U input) ∉ reserved) := by
  obtain ⟨hp1, hp2, _⟩ := PascalCase_spec U input
  obtain ⟨hc1, hc2⟩ := CamelCase_spec U input
  exact ⟨⟨ensureNotReserved_eq U hc1 hc2, ensureNotReserved_not_reserved U hc1 hc2⟩,
    ⟨ensureNotReserved_eq U hp1 hp2, ensureNotReserved_not_reserved U hp1 hp2⟩⟩

end SumUp

namespace SumUp

/-! ## Splitting camel humps -/

theorem shouldSplit_lower (U : UnicodeTables) (prev next : Char) {curr : Char}
    (h : curr.isLower = true) : shouldSplit U prev curr next = false := by
  have ha := isLower_ascii h
  obtain ⟨hu, hd⟩ := isLower_not_upper_digit h
  simp [shouldSplit, unicodeIsDigit_ascii U ha, unicodeIsUpper_ascii U ha, hu, hd]

theorem splitCamelLoop_lower (U : UnicodeTables) (prev : Char) (ls cur : Str)
    (h : IsLowerWord ls) : splitCamelLoop U prev ls cur = [cur ++ ls] := by
  induction ls generalizing prev cur with
  | nil => simp [splitCamelLoop]
  | cons x xs ih =>
    have hx : x.isLower = true := h x (List.mem_cons_self _ _)
    rw [splitCamelLoop, shouldSplit_lower U prev _ hx]
    simp only [Bool.false_eq_true, if_false]
    rw [ih x (cur ++ [x]) (fun c hc => h c (List.mem_cons_of_mem _ hc))]
    simp

theorem splitCamel_lower (U : UnicodeTables) {w : Str} (hne : w ≠ []) (h : IsLowerWord w) :
    splitCamel U w = [w] := by
  cases w with
  | nil => exact absurd rfl hne
  | cons c rest =>
    cases rest with
    | nil => rfl
    | cons d rest' =>
      simp only [splitCamel]
      rw [splitCamelLoop_lower U c (d :: rest') [c] (fun x hx => h x (List.mem_cons_of_mem _ hx))]
      rfl

theorem isLower_ne_zero {c : Char} (h : c.isLower = true) : c ≠ Char.ofNat 0 := by
  intro hc
  rw [hc] at h
  exact absurd h (by decide)

theorem shouldSplit_upper_upper_lower (U : UnicodeTables) {prev curr next : Char}
    (hp : prev.isUpper = true) (hc : curr.isUpper = true) (hn : next.isLower = true) :
    shouldSplit U prev curr next = true := by
  simp [shouldSplit, unicodeIsDigit_ascii U (isUpper_ascii hc),
    unicodeIsUpper_ascii U (isUpper_ascii hc), unicodeIsUpper_ascii U (isUpper_ascii hp),
    unicodeIsLower_ascii U (isLower_ascii hn), hp, hc, hn, (isUpper_not_lower_digit hc).2,
    isLower_ne_zero hn]

theorem shouldSplit_upper_upper_upper (U : UnicodeTables) {prev curr next : Char}
    (hp : prev.isUpper = true) (hc : curr.isUpper = true) (hn : next.isUpper = true) :
    shouldSplit U prev curr next = false := by
  simp [shouldSplit, unicodeIsDigit_ascii U (isUpper_ascii hc),
    unicodeIsUpper_ascii U (isUpper_ascii hc), unicodeIsUpper_ascii U (isUpper_ascii hp),
    unicodeIsLower_ascii U (isUpper_ascii hn), hp, hc, (isUpper_not_lower_digit hc).2,
    (isUpper_not_lower_digit hn).1]

theorem splitCamelLoop_upper_run (U : UnicodeTables) (prev : Char) (mid : Str) (z : Char)
    (ls cur : Str) (hp : prev.isUpper = true) (hmid : IsUpperWord mid) (hz : z.isUpper = true)
    (hls : IsLowerWord ls) (hne : ls ≠ []) :
    splitCamelLoop U prev (mid ++ z :: ls) cur = [cur ++ mid, z :: ls] := by
  induction mid generalizing prev cur with
  | nil =>
    cases ls with
    | nil => exact absurd rfl hne
    | cons l ls' =>
      have hl : l.isLower = true := hls l (List.mem_cons_self _ _)
      rw [List.nil_append, splitCamelLoop, List.headD_cons,
        shouldSplit_upper_upper_lower U hp hz hl, if_pos rfl,
        splitCamelLoop_lower U z (l :: ls') [z] hls]
      simp
  | cons m mid' ih =>
    have hm : m.isUpper = true := hmid m (List.mem_cons_self _ _)
    have hmid' : IsUpperWord mid' := fun c hc => hmid c (List.mem_cons_of_mem _ hc)
    have hnext : ((mid' ++ z :: ls).headD (Char.ofNat 0)).isUpper = true := by
      cases mid' with
      | nil => simpa using hz
      | cons a as => simpa using hmid' a (List.mem_cons_self _ _)
    rw [List.cons_append, splitCamelLoop, shouldSplit_upper_upper_upper U hp hm hnext,
      if_neg (by simp), ih m (cur ++ [m]) hm hmid']
    simp

theorem splitCamel_APIClient (U : UnicodeTables) :
    splitCamel U "APIClient".toList = ["API".toList, "Client".toList] := by rfl

theorem PascalIdentifier_APIClient (U : UnicodeTables) :
    PascalIdentifier U "APIClient".toList = "ApiClient".toList := by rfl

/-- C10: a run of at least two uppercase ASCII letters followed by at least one lowercase
ASCII letter is split by `splitCamel` into exactly two words, the uppercase run without
its last letter and that last letter with the lowercase letters; so `APIClient` gives
`API` and `Client`, and `PascalIdentifier` turns it into `ApiClient`. -/
theorem splitCamel_upper_run_then_lower (U : UnicodeTables) (us ls : Str)
    (hus : IsUpperWord us) (hlen : 2 ≤ us.length) (hls : IsLowerWord ls) (hne : ls ≠ [])
    (hus_ne : us ≠ []) :
    splitCamel U (us ++ ls) = [us.dropLast, us.getLast hus_ne :: ls] ∧
    splitCamel U "APIClient".toList = ["API".toList, "Client".toList] ∧
    PascalIdentifier U "APIClient".toList = "ApiClient".toList := by
  refine ⟨?_, splitCamel_APIClient U, PascalIdentifier_APIClient U⟩
  have hz : (us.getLast hus_ne).isUpper = true := hus _ (List.getLast_mem hus_ne)
  have hsplit := List.dropLast_append_getLast hus_ne
  generalize us.getLast hus_ne = z at hz hsplit ⊢
  cases hd : us.dropLast with
  | nil =>
    rw [hd] at hsplit
    rw [← hsplit] at hlen
    simp at hlen
  | cons a mid =>
    rw [hd] at hsplit
    have ha : a.isUpper = true := hus a (by rw [← hsplit]; simp)
    have hmid : IsUpperWord mid := fun c hc => hus c (by rw [← hsplit]; simp [hc])
    rw [← hsplit]
    have : (a :: mid ++ [z]) ++ ls = a :: (mid ++ z :: ls) := by simp
    rw [this]
    have hne' : mid ++ z :: ls ≠ [] := by simp
    cases hrest : mid ++ z :: ls with
    | nil => exact absurd hrest hne'
    | cons r rs =>
      simp only [splitCamel]
      rw [← hrest, splitCamelLoop_upper_run U a mid z ls [a] ha hmid hz hls hne]
      rfl

theorem splitCamel_upper_run_then_lower_witness :
    IsUpperWord "APIC".toList ∧ IsLowerWord "lient".toList ∧
    splitCamel asciiTables ("APIC".toList ++ "lient".toList)
      = ["APIC".toList.dropLast,
         "APIC".toList.getLast (by decide) :: "lient".toList] :=
  ⟨by decide, by decide,
   (splitCamel_upper_run_then_lower asciiTables "APIC".toList "lient".toList
      (by decide) (by decide) (by decide) (by decide) (by decide)).1⟩

end SumUp

namespace SumUp

/-! ## Words joined by a separator -/

theorem isLower_isAlphaNum {c : Char} (h : c.isLower = true) : isAlphaNum c = true := by
  simp [isAlphaNum, h]

theorem isAlphaNum_not_space {c : Char} (h : isAlphaNum c = true) : unicodeIsSpace c = false := by
  simp only [isAlphaNum, Bool.or_eq_true, isDigit_iff, isUpper_iff, isLower_iff] at h
  simp only [unicodeIsSpace, Bool.or_eq_false_iff, Bool.and_eq_false_imp, decide_eq_true_eq,
    decide_eq_false_iff_not]
  omega

theorem replaceNonAlphaNum_word (b : Bool) (w rest : Str) (hw : ∀ c ∈ w, isAlphaNum c = true)
    (hne : w ≠ []) :
    replaceNonAlphaNum b (w ++ rest) = w ++ replaceNonAlphaNum false rest := by
  induction w generalizing b with
  | nil => exact absurd rfl hne
  | cons x xs ih =>
    have hx := hw x (List.mem_cons_self _ _)
    rw [List.cons_append, replaceNonAlphaNum, if_pos hx]
    cases xs with
    | nil => rfl
    | cons y ys =>
      rw [ih false (fun c hc => hw c (List.mem_cons_of_mem _ hc)) (by simp)]
      rfl

theorem replaceNonAlphaNum_alnum (b : Bool) (w : Str) (hw : ∀ c ∈ w, isAlphaNum c = true) :
    replaceNonAlphaNum b w = w := by
  induction w generalizing b with
  | nil => rfl
  | cons x xs ih =>
    rw [replaceNonAlphaNum, if_pos (hw x (List.mem_cons_self _ _)),
      ih false (fun c hc => hw c (List.mem_cons_of_mem _ hc))]

theorem intercalate_cons_cons (sep w w' : Str) (ws : List Str) :
    List.intercalate sep (w :: w' :: ws) = w ++ (sep ++ List.intercalate sep (w' :: ws)) := by
  simp [List.intercalate, List.intersperse]

theorem intercalate_singleton (sep w : Str) : List.intercalate sep [w] = w := by
  simp [List.intercalate, List.intersperse]

theorem replaceNonAlphaNum_intercalate (sep : Char) (hsep : isAlphaNum sep = false)
    (words : List Str) (hw : ∀ w ∈ words, w ≠ [] ∧ ∀ c ∈ w, isAlphaNum c = true) (b : Bool) :
    replaceNonAlphaNum b (List.intercalate [sep] words) = List.intercalate [' '] words := by
  induction words generalizing b with
  | nil => rfl
  | cons w ws ih =>
    obtain ⟨hne, hal⟩ := hw w (List.mem_cons_self _ _)
    cases ws with
    | nil => rw [intercalate_singleton, intercalate_singleton, replaceNonAlphaNum_alnum b w hal]
    | cons w' ws' =>
      rw [intercalate_cons_cons, intercalate_cons_cons, replaceNonAlphaNum_word b w _ hal hne]
      congr 1
      rw [List.singleton_append, replaceNonAlphaNum, if_neg (by simp [hsep])]
      simp only [Bool.false_eq_true, if_false, List.singleton_append, List.cons.injEq, true_and]
      exact ih (fun x hx => hw x (List.mem_cons_of_mem _ hx)) true

theorem fieldsLoop_word (cur w rest : Str) (hw : ∀ c ∈ w, unicodeIsSpace c = false) :
    fieldsLoop cur (w ++ rest) = fieldsLoop (cur ++ w) rest := by
  induction w generalizing cur with
  | nil => simp
  | cons x xs ih =>
    rw [List.cons_append, fieldsLoop, if_neg (by simp [hw x (List.mem_cons_self _ _)]),
      ih (cur ++ [x]) (fun c hc => hw c (List.mem_cons_of_mem _ hc))]
    simp

theorem stringsFields_intercalate (words : List Str)
    (hw : ∀ w ∈ words, w ≠ [] ∧ ∀ c ∈ w, unicodeIsSpace c = false) :
    stringsFields (List.intercalate [' '] words) = words := by
  unfold stringsFields
  induction words with
  | nil => rfl
  | cons w ws ih =>
    obtain ⟨hne, hsp⟩ := hw w (List.mem_cons_self _ _)
    cases ws with
    | nil =>
      rw [intercalate_singleton]
      have := fieldsLoop_word [] w [] hsp
      rw [List.append_nil, List.nil_append] at this
      rw [this, fieldsLoop, if_neg hne]
    | cons w' ws' =>
      rw [intercalate_cons_cons, fieldsLoop_word [] w _ hsp, List.nil_append,
        List.singleton_append, fieldsLoop, if_pos (by decide), if_neg hne,
        ih (fun x hx => hw x (List.mem_cons_of_mem _ hx))]

theorem byteLen_le_one {c : Char} {t : Str} (h : ¬ 1 < byteLen (c :: t)) : t = [] := by
  cases t with
  | nil => rfl
  | cons y ys =>
    exfalso; apply h
    have h1 := utf8Size_ge_one c
    have h2 := utf8Size_ge_one y
    simp only [byteLen, List.map_cons, List.sum_cons]
    omega

theorem pascalPart_lower (U : UnicodeTables) {w : Str} (h : IsLowerWord w) :
    pascalPart U w = upperFirstLetter w := by
  cases w with
  | nil => rfl
  | cons c t =>
    have hc : c.isLower = true := h c (List.mem_cons_self _ _)
    have ht : stringsToLower U t = t :=
      stringsToLower_of_lowercase U (fun x hx => h x (List.mem_cons_of_mem _ hx))
    have ha := isLower_ascii hc
    simp only [pascalPart, upperFirstByte, lowerAfterFirstByte, if_pos ha,
      unicodeToUpper_ascii U ha, ht, upperFirstLetter]
    rw [if_neg (by simp)]
    split
    · rfl
    · rename_i hb
      rw [byteLen_le_one hb]
      rfl

theorem stringsToLower_upperFirstLetter (U : UnicodeTables) {w : Str} (h : IsLowerWord w) :
    stringsToLower U (upperFirstLetter w) = w := by
  cases w with
  | nil => rfl
  | cons c t =>
    have hc : c.isLower = true := h c (List.mem_cons_self _ _)
    have ht : stringsToLower U t = t :=
      stringsToLower_of_lowercase U (fun x hx => h x (List.mem_cons_of_mem _ hx))
    have hup := toUpper_isUpper hc
    simp only [upperFirstLetter, stringsToLower, List.map_cons, List.cons.injEq]
    exact ⟨by rw [unicodeToLower_ascii U (isUpper_ascii hup), toLower_toUpper hc], ht⟩

theorem stringsToLower_flatten (U : UnicodeTables) (l : List Str) :
    stringsToLower U l.flatten = (l.map (stringsToLower U)).flatten := by
  unfold stringsToLower
  rw [List.map_flatten]

theorem map_eq_self_of_forall {α : Type} (f : α → α) (l : List α) (h : ∀ x ∈ l, f x = x) :
    l.map f = l := by
  induction l with
  | nil => rfl
  | cons x xs ih =>
    rw [List.map_cons, h x (List.mem_cons_self _ _),
      ih (fun y hy => h y (List.mem_cons_of_mem _ hy))]

theorem flatten_map_singleton_of_forall {α : Type} (f : α → List α) (l : List α)
    (h : ∀ x ∈ l, f x = [x]) : (l.map f).flatten = l := by
  induction l with
  | nil => rfl
  | cons x xs ih =>
    rw [List.map_cons, List.flatten_cons, h x (List.mem_cons_self _ _),
      ih (fun y hy => h y (List.mem_cons_of_mem _ hy))]
    rfl

theorem map_eq_self_of_forall_gen (U : UnicodeTables) (words : List Str)
    (hw : ∀ w ∈ words, w ≠ [] ∧ IsLowerWord w) :
    words.map (stringsToLower U ∘ upperFirstLetter) = words := by
  induction words with
  | nil => rfl
  | cons x xs ih =>
    rw [List.map_cons, ih (fun y hy => hw y (List.mem_cons_of_mem _ hy))]
    simp only [Function.comp]
    rw [stringsToLower_upperFirstLetter U (hw x (List.mem_cons_self _ _)).2]

theorem splitIntoWords_lower_words (U : UnicodeTables) (sep : Char)
    (hsep : isAlphaNum sep = false) (words : List Str) (hne : words ≠ [])
    (hw : ∀ w ∈ words, w ≠ [] ∧ IsLowerWord w) :
    splitIntoWords U (List.intercalate [sep] words) = words := by
  have hal : ∀ w ∈ words, w ≠ [] ∧ ∀ c ∈ w, isAlphaNum c = true :=
    fun w hm => ⟨(hw w hm).1, fun c hc => isLower_isAlphaNum ((hw w hm).2 c hc)⟩
  have hsp : ∀ w ∈ words, w ≠ [] ∧ ∀ c ∈ w, unicodeIsSpace c = false :=
    fun w hm => ⟨(hw w hm).1, fun c hc => isAlphaNum_not_space ((hal w hm).2 c hc)⟩
  unfold splitIntoWords
  simp only
  rw [replaceNonAlphaNum_intercalate sep hsep words hal false,
    stringsFields_intercalate words hsp, foldl_splitCamel, List.nil_append]
  have hlen : ¬ (words.length = 0 ∧ List.intercalate [sep] words ≠ []) := by
    intro h
    exact hne (List.length_eq_zero.mp h.1)
  rw [if_neg hlen]
  exact flatten_map_singleton_of_forall _ _
    (fun w hm => splitCamel_lower U (hw w hm).1 (hw w hm).2)

theorem PascalCase_lower_words (U : UnicodeTables) (sep : Char)
    (hsep : isAlphaNum sep = false) (words : List Str) (hne : words ≠ [])
    (hw : ∀ w ∈ words, w ≠ [] ∧ IsLowerWord w) :
    PascalCase U (List.intercalate [sep] words) = (words.map upperFirstLetter).flatten := by
  unfold PascalCase
  simp only
  rw [splitIntoWords_lower_words U sep hsep words hne hw, foldl_pascalPart, List.nil_append]
  have hlen : ¬ words.length = 0 := fun h => hne (List.length_eq_zero.mp h)
  rw [if_neg hlen]
  have hmap : words.map (pascalPart U) = words.map upperFirstLetter :=
    List.map_congr_left (fun w hm => pascalPart_lower U (hw w hm).2)
  rw [hmap]
  cases words with
  | nil => exact absurd rfl hne
  | cons w ws =>
    obtain ⟨hwne, hwl⟩ := hw w (List.mem_cons_self _ _)
    cases w with
    | nil => exact absurd rfl hwne
    | cons c t =>
      have hc : c.isLower = true := hwl c (List.mem_cons_self _ _)
      have hup := toUpper_isUpper hc
      apply sanitize_of_not_digit
      · simp [upperFirstLetter]
      · simp only [List.map_cons, List.flatten_cons, upperFirstLetter, List.cons_append,
          startsWithDigit]
        rw [unicodeIsDigit_ascii U (isUpper_ascii hup)]
        exact (isUpper_not_lower_digit hup).2

/-- C9: for a non-empty list of non-empty words of lowercase ASCII letters, joined by `_`
or by `-`, `PascalIdentifier` returns the concatenation of the words, each with its first
letter upper-cased, followed by `Value` exactly when the concatenation of the words
(the lower-cased result) is a reserved keyword; so `get_payment_methods` gives
`GetPaymentMethods` and `checkout-reference` gives `CheckoutReference`. -/
theorem PascalIdentifier_joined_lower_words (U : UnicodeTables) (sep : Char)
    (words : List Str) (hsep : sep = '_' ∨ sep = '-') (hne : words ≠ [])
    (hw : ∀ w ∈ words, w ≠ [] ∧ IsLowerWord w) :
    PascalIdentifier U (List.intercalate [sep] words) =
      (if words.flatten ∈ reserved
        then (words.map upperFirstLetter).flatten ++ "Value".toList
        else (words.map upperFirstLetter).flatten) ∧
    stringsToLower U (words.map upperFirstLetter).flatten = words.flatten := by
  have hsep' : isAlphaNum sep = false := by
    rcases hsep with h | h <;> rw [h] <;> decide
  have hlow : stringsToLower U (words.map upperFirstLetter).flatten = words.flatten := by
    rw [stringsToLower_flatten, List.map_map]
    congr 1
    exact map_eq_self_of_forall_gen U words hw
  refine ⟨?_, hlow⟩
  have hP := PascalCase_lower_words U sep hsep' words hne hw
  obtain ⟨h1, h2, _⟩ := PascalCase_spec U (List.intercalate [sep] words)
  unfold PascalIdentifier
  rw [ensureNotReserved_eq U h1 h2, hP, hlow]

theorem PascalIdentifier_joined_lower_words_witness :
    PascalIdentifier asciiTables
        (List.intercalate ['_'] ["get".toList, "payment".toList, "methods".toList])
      = "GetPaymentMethods".toList ∧
    PascalIdentifier asciiTables (List.intercalate ['-'] ["read".toList, "only".toList])
      = "ReadOnlyValue".toList := by
  constructor
  · have h := (PascalIdentifier_joined_lower_words asciiTables '_'
      ["get".toList, "payment".toList, "methods".toList] (Or.inl rfl) (by decide)
      (by decide)).1
    rw [h]; decide
  · have h := (PascalIdentifier_joined_lower_words asciiTables '-'
      ["read".toList, "only".toList] (Or.inr rfl) (by decide) (by decide)).1
    rw [h]; decide

end SumUp

namespace SumUp

/-! ## Re-normalizing an identifier -/

/-- C8 fails as stated: `aB` is normalized to `AB`, and `AB` is normalized to `Ab`,
whatever the tables say outside ASCII. -/
theorem PascalIdentifier_not_idempotent :
    ¬ ∃ U : UnicodeTables,
      PascalIdentifier U (PascalIdentifier U "aB".toList) = PascalIdentifier U "aB".toList := by
  rintro ⟨U, h⟩
  have h2 : PascalIdentifier U "aB".toList = "AB".toList := by rfl
  have h1 : PascalIdentifier U "AB".toList = "Ab".toList := by rfl
  rw [h2, h1] at h
  exact absurd h (by decide)

theorem pascalPart_fixed (U : UnicodeTables) (h : Char) (tl : Str) (hh : h.toNat < 128)
    (hl : h.isLower = false) (htl : ∀ c ∈ tl, c.toNat < 128 ∧ c.isUpper = false) :
    pascalPart U (h :: tl) = h :: tl := by
  have ht : stringsToLower U tl = tl := by
    unfold stringsToLower
    apply map_eq_self_of_forall
    intro c hc
    rw [unicodeToLower_ascii U (htl c hc).1, toLower_of_not_upper (htl c hc).1 (htl c hc).2]
  simp only [pascalPart, upperFirstByte, lowerAfterFirstByte, if_pos hh,
    unicodeToUpper_ascii U hh, toUpper_of_not_lower hh hl, ht]
  rw [if_neg (by simp)]
  split
  · rfl
  · rename_i hb
    rw [byteLen_le_one hb]
    rfl

theorem shouldSplit_true_not_lower (U : UnicodeTables) {prev curr next : Char}
    (h : shouldSplit U prev curr next = true) :
    curr.isLower = false := by
  by_contra hl
  have hl' : curr.isLower = true := by simpa using hl
  rw [shouldSplit_lower U prev next hl'] at h
  exact absurd h (by simp)

theorem zero_facts : (Char.ofNat 0).toNat < 128 ∧ (Char.ofNat 0).isLower = false := by
  exact ⟨by decide, by decide⟩

theorem shouldSplit_false_upper (U : UnicodeTables) {prev curr next : Char}
    (hp : prev.toNat < 128) (hc : curr.toNat < 128) (hn : next.toNat < 128)
    (h : shouldSplit U prev curr next = false) (hu : curr.isUpper = true) :
    prev.isUpper = true ∧ next.isLower = false := by
  have hd := (isUpper_not_lower_digit hu).2
  simp only [shouldSplit, unicodeIsDigit_ascii U hc, unicodeIsDigit_ascii U hp,
    unicodeIsUpper_ascii U hc, unicodeIsUpper_ascii U hp, unicodeIsLower_ascii U hn, hu, hd,
    Bool.false_and, Bool.true_and, Bool.false_eq_true, if_false] at h
  by_cases hpu : prev.isUpper = true
  · refine ⟨hpu, ?_⟩
    by_contra hnl
    have hnl' : next.isLower = true := by simpa using hnl
    simp [hpu, hnl', isLower_ne_zero hnl'] at h
  · simp [hpu] at h

theorem noBareUpperPair_tail {x : Char} {t : Str} (h : noBareUpperPair (x :: t) = true) :
    noBareUpperPair t = true := by
  cases t with
  | nil => rfl
  | cons y rest =>
    simp only [noBareUpperPair, Bool.and_eq_true] at h
    exact h.2

theorem caps_splitCamelLoop (U : UnicodeTables) (rest : Str) :
    ∀ (prev : Char) (cur : Str), prev.toNat < 128 →
      (∀ c ∈ rest, isAlphaNum c = true) → noBareUpperPair (prev :: rest) = true →
      (∃ h tl, cur = h :: tl ∧ h.toNat < 128 ∧ h.isLower = false ∧
        ∀ c ∈ tl, c.toNat < 128 ∧ c.isUpper = false) →
      ((splitCamelLoop U prev rest cur).map (pascalPart U)).flatten = cur ++ rest := by
  induction rest with
  | nil =>
    intro prev cur _ _ _ hcur
    obtain ⟨h, tl, rfl, hh, hl, htl⟩ := hcur
    simp [splitCamelLoop, pascalPart_fixed U h tl hh hl htl]
  | cons curr rest' ih =>
    intro prev cur hprev hrest hpair hcur
    obtain ⟨h, tl, rfl, hh, hl, htl⟩ := hcur
    have hca : curr.toNat < 128 := isAlphaNum_ascii (hrest curr (List.mem_cons_self _ _))
    have hrest' : ∀ c ∈ rest', isAlphaNum c = true :=
      fun c hc => hrest c (List.mem_cons_of_mem _ hc)
    have hpair' := noBareUpperPair_tail hpair
    rw [splitCamelLoop]
    by_cases hs : shouldSplit U prev curr (rest'.headD (Char.ofNat 0)) = true
    · rw [if_pos hs, List.map_cons, List.flatten_cons, pascalPart_fixed U h tl hh hl htl,
        ih curr [curr] hca hrest' hpair'
          ⟨curr, [], rfl, hca, shouldSplit_true_not_lower U hs, by simp⟩]
      simp
    · rw [if_neg hs]
      have hs' : shouldSplit U prev curr (rest'.headD (Char.ofNat 0)) = false := by
        simpa using hs
      have hnu : curr.isUpper = false := by
        by_contra hcu
        have hcu' : curr.isUpper = true := by simpa using hcu
        have hna : (rest'.headD (Char.ofNat 0)).toNat < 128 := by
          cases rest' with
          | nil => exact zero_facts.1
          | cons z zs => exact isAlphaNum_ascii (hrest' z (List.mem_cons_self _ _))
        obtain ⟨hpu, hnl⟩ := shouldSplit_false_upper U hprev hca hna hs' hcu'
        cases rest' with
        | nil => simp [noBareUpperPair, hpu, hcu'] at hpair
        | cons z zs =>
          simp only [List.headD_cons] at hnl
          simp [noBareUpperPair, hpu, hcu', hnl] at hpair
      rw [ih curr (h :: tl ++ [curr]) hca hrest' hpair'
        ⟨h, tl ++ [curr], rfl, hh, hl, by
          intro c hc
          rcases List.mem_append.mp hc with hc | hc
          · exact htl c hc
          · rw [List.mem_singleton.mp hc]; exact ⟨hca, hnu⟩⟩]
      simp

theorem caps_splitCamel (U : UnicodeTables) (c : Char) (t : Str)
    (hal : ∀ x ∈ c :: t, isAlphaNum x = true) (hl : c.isLower = false)
    (hpair : noBareUpperPair (c :: t) = true) :
    ((splitCamel U (c :: t)).map (pascalPart U)).flatten = c :: t := by
  have hc := isAlphaNum_ascii (hal c (List.mem_cons_self _ _))
  cases t with
  | nil => simp [splitCamel, pascalPart_fixed U c [] hc hl (by simp)]
  | cons d t' =>
    simp only [splitCamel]
    rw [caps_splitCamelLoop U (d :: t') c [c] hc
      (fun x hx => hal x (List.mem_cons_of_mem _ hx)) hpair ⟨c, [], rfl, hc, hl, by simp⟩]
    rfl

theorem stringsFields_alnum {t : Str} (hne : t ≠ []) (hal : ∀ x ∈ t, isAlphaNum x = true) :
    stringsFields t = [t] := by
  have := stringsFields_intercalate [t]
    (by
      intro w hw
      rw [List.mem_singleton.mp hw]
      exact ⟨hne, fun c hc => isAlphaNum_not_space (hal c hc)⟩)
  rwa [intercalate_singleton] at this

theorem splitIntoWords_alnum (U : UnicodeTables) {t : Str} (hne : t ≠ [])
    (hal : ∀ x ∈ t, isAlphaNum x = true) : splitIntoWords U t = splitCamel U t := by
  unfold splitIntoWords
  simp only
  rw [replaceNonAlphaNum_alnum false t hal, stringsFields_alnum hne hal, if_neg (by simp)]
  simp

theorem splitIntoWords_underscore (U : UnicodeTables) {t : Str} (hne : t ≠ [])
    (hal : ∀ x ∈ t, isAlphaNum x = true) : splitIntoWords U ('_' :: t) = splitCamel U t := by
  unfold splitIntoWords
  simp only
  have h1 : replaceNonAlphaNum false ('_' :: t) = ' ' :: t := by
    rw [replaceNonAlphaNum, if_neg (by decide)]
    simp only [Bool.false_eq_true, if_false, List.cons.injEq, true_and]
    exact replaceNonAlphaNum_alnum true t hal
  have h2 : stringsFields (' ' :: t) = [t] := by
    have := stringsFields_alnum hne hal
    unfold stringsFields at this ⊢
    rw [fieldsLoop, if_pos (by decide), if_pos rfl, this]
  rw [h1, h2, if_neg (by simp)]
  simp

theorem PascalCase_settledBody (U : UnicodeTables) (c : Char) (t : Str)
    (hal : ∀ x ∈ c :: t, isAlphaNum x = true) (hl : c.isLower = false)
    (hpair : noBareUpperPair (c :: t) = true) :
    PascalCase U (c :: t) = sanitizeLeadingCharacter U (c :: t) ∧
      PascalCase U ('_' :: c :: t) = sanitizeLeadingCharacter U (c :: t) := by
  have hcaps := caps_splitCamel U c t hal hl hpair
  have hlen : ¬ (splitCamel U (c :: t)).length = 0 := by
    intro h0
    rw [List.length_eq_zero.mp h0] at hcaps
    simp at hcaps
  unfold PascalCase
  simp only
  rw [splitIntoWords_alnum U (by simp) hal, splitIntoWords_underscore U (by simp) hal,
    if_neg hlen, foldl_pascalPart, List.nil_append, hcaps]
  exact ⟨rfl, rfl⟩

theorem all_isAlphaNum {t : Str} (h : t.all isAlphaNum = true) :
    ∀ x ∈ t, isAlphaNum x = true := by
  simpa [List.all_eq_true] using h

theorem PascalCase_of_settled (U : UnicodeTables) (r : Str) (hs : Settled r = true)
    (hd : startsWithDigit U r = false) (hp : HeadPlain r) : PascalCase U r = r := by
  cases r with
  | nil => simp [Settled] at hs
  | cons c t =>
    simp only [Settled] at hs
    by_cases hc : c = '_'
    · rw [hc] at hs ⊢
      rw [if_pos rfl] at hs
      cases t with
      | nil => simp at hs
      | cons d t' =>
        simp only [Bool.and_eq_true, settledBody] at hs
        obtain ⟨hdig, hal, hpair⟩ := hs
        have hdl : d.isLower = false := by
          by_contra hdl
          have hdl' : d.isLower = true := by simpa using hdl
          rw [(isLower_not_upper_digit hdl').2] at hdig
          exact absurd hdig (by simp)
        rw [(PascalCase_settledBody U d t' (all_isAlphaNum hal) hdl hpair).2]
        simp [sanitizeLeadingCharacter, unicodeIsDigit_ascii U (isDigit_ascii hdig), hdig]
    · rw [if_neg hc] at hs
      simp only [Bool.and_eq_true, settledBody] at hs
      obtain ⟨hal, hpair⟩ := hs
      rw [(PascalCase_settledBody U c t (all_isAlphaNum hal) (hp c t rfl).2 hpair).1]
      exact sanitize_of_not_digit U (by simp) hd

/-- C8, amended: re-normalizing the output of `PascalIdentifier` gives that output again
whenever the output is settled, that is, whenever (after the underscore that may stand in
front of a leading digit) it consists of ASCII letters and digits only and none of its
uppercase letters directly follows an uppercase letter without a lowercase letter after
it. -/
theorem PascalIdentifier_idempotent_of_settled (U : UnicodeTables) (s : Str)
    (h : Settled (PascalIdentifier U s) = true) :
    PascalIdentifier U (PascalIdentifier U s) = PascalIdentifier U s := by
  obtain ⟨hp1, hp2, hp3⟩ := PascalCase_spec U s
  obtain ⟨hne, hd⟩ := ensureNotReserved_spec U hp1 hp2
  have hlow := (ensureNotReserved_not_reserved U hp1 hp2).2
  have hplain : HeadPlain (PascalIdentifier U s) := by
    unfold PascalIdentifier
    rw [ensureNotReserved_eq U hp1 hp2]
    split
    · cases hP : PascalCase U s with
      | nil => exact absurd hP hp1
      | cons x xs =>
        intro c t hc
        simp only [List.cons_append, List.cons.injEq] at hc
        rw [← hc.1]
        exact hp3 x xs hP
    · exact hp3
  change ensureNotReserved U (PascalCase U s) ≠ [] at hne
  change startsWithDigit U (ensureNotReserved U (PascalCase U s)) = false at hd
  change stringsToLower U (ensureNotReserved U (PascalCase U s)) ∉ reserved at hlow
  have hfix := PascalCase_of_settled U (PascalIdentifier U s) h hd hplain
  generalize hr : PascalIdentifier U s = r at *
  have hr' : ensureNotReserved U (PascalCase U s) = r := hr
  rw [hr'] at hne hd hlow
  unfold PascalIdentifier
  rw [hfix, ensureNotReserved_eq U hne hd, if_neg hlow]

theorem PascalIdentifier_idempotent_of_settled_witness :
    Settled (PascalIdentifier asciiTables "get_payment_methods".toList) = true ∧
    PascalIdentifier asciiTables (PascalIdentifier asciiTables "get_payment_methods".toList)
      = PascalIdentifier asciiTables "get_payment_methods".toList :=
  ⟨by decide,
   PascalIdentifier_idempotent_of_settled asciiTables "get_payment_methods".toList (by decide)⟩

end SumUp

namespace SumUp

/-! ## Reserving a model name -/

theorem foldl_digitsValue (s : Str) (a : Nat) :
    s.foldl (fun v c => 10 * v + (c.toNat - 48)) a = a * 10 ^ s.length + digitsValue s := by
  induction s generalizing a with
  | nil => simp [digitsValue]
  | cons c t ih =>
    simp only [List.foldl_cons, digitsValue, List.length_cons]
    rw [ih, ih (10 * 0 + (c.toNat - 48))]
    ring

theorem digitsValue_cons (c : Char) (s : Str) :
    digitsValue (c :: s) = (c.toNat - 48) * 10 ^ s.length + digitsValue s := by
  simp only [digitsValue, List.foldl_cons]
  rw [foldl_digitsValue]
  simp [digitsValue]

theorem digitChar_value (m : Nat) (h : m < 10) : (Nat.digitChar m).toNat - 48 = m := by
  interval_cases m <;> rfl

theorem digitsValue_toDigitsCore (fuel : Nat) :
    ∀ (n : Nat) (ds : Str), n < fuel →
      digitsValue (Nat.toDigitsCore 10 fuel n ds) = n * 10 ^ ds.length + digitsValue ds := by
  induction fuel with
  | zero => intro n ds h; omega
  | succ fuel ih =>
    intro n ds h
    simp only [Nat.toDigitsCore]
    split
    · rename_i h0
      rw [digitsValue_cons, digitChar_value _ (Nat.mod_lt _ (by decide))]
      have : n % 10 = n := by omega
      rw [this]
    · rename_i h0
      rw [ih (n / 10) _ (by omega), digitsValue_cons,
        digitChar_value _ (Nat.mod_lt _ (by decide)), List.length_cons, pow_succ]
      have hn : n = 10 * (n / 10) + n % 10 := (Nat.div_add_mod n 10).symm
      generalize 10 ^ ds.length = p at *
      generalize n / 10 = q at *
      generalize n % 10 = r at *
      rw [hn]; ring

theorem digitsValue_decimal (n : Nat) : digitsValue (decimal n) = n := by
  unfold decimal Nat.toDigits
  rw [digitsValue_toDigitsCore (n + 1) n [] (by omega)]
  simp [digitsValue]

theorem decimal_injective {a b : Nat} (h : decimal a = decimal b) : a = b := by
  have := congrArg digitsValue h
  rwa [digitsValue_decimal, digitsValue_decimal] at this

theorem decimal_ne_nil (n : Nat) : decimal n ≠ [] := by
  intro h
  have hl : (decimal n).length = 0 := by rw [h]; rfl
  unfold decimal Nat.toDigits at hl
  simp only [Nat.toDigitsCore] at hl
  split at hl
  · simp at hl
  · rw [Nat.toDigitsCore_lens_eq] at hl
    omega

theorem candidateName_injective (base : Str) {i j : Nat}
    (h : candidateName base i = candidateName base j) : i = j := by
  unfold candidateName at h
  by_cases hi : i = 1 <;> by_cases hj : j = 1
  · rw [hi, hj]
  · rw [if_pos hi, if_neg hj] at h
    exact absurd (List.self_eq_append_right.mp h) (decimal_ne_nil j)
  · rw [if_neg hi, if_pos hj] at h
    exact absurd (List.append_right_eq_self.mp h) (decimal_ne_nil i)
  · rw [if_neg hi, if_neg hj] at h
    exact decimal_injective (List.append_cancel_left h)

theorem exists_free_candidate (names : Finset Str) (base : Str) :
    ∃ k, 1 ≤ k ∧ k ≤ names.card + 1 ∧ candidateName base k ∉ names := by
  by_contra hcon
  have hall : ∀ k ∈ Finset.Icc 1 (names.card + 1), candidateName base k ∈ names := by
    intro k hk
    by_contra hk'
    rw [Finset.mem_Icc] at hk
    exact hcon ⟨k, hk.1, hk.2, hk'⟩
  have hsub : (Finset.Icc 1 (names.card + 1)).image (candidateName base) ⊆ names := by
    intro x hx
    rw [Finset.mem_image] at hx
    obtain ⟨k, hk, rfl⟩ := hx
    exact hall k hk
  have hcard := Finset.card_le_card hsub
  rw [Finset.card_image_of_injective _ (fun _ _ h => candidateName_injective base h)] at hcard
  simp at hcard

theorem reserveModelNameLoop_spec (names : Finset Str) (base : Str) (k : Nat)
    (hfree : candidateName base k ∉ names) (fuel : Nat) :
    ∀ i, 1 ≤ i → i ≤ k → (∀ j, i ≤ j → j < k → candidateName base j ∈ names) →
      k - i < fuel →
      reserveModelNameLoop names base fuel (candidateName base i) (i + 1)
        = some (candidateName base k) := by
  induction fuel with
  | zero => intro i _ _ _ h; omega
  | succ fuel ih =>
    intro i h1 hik hbusy hfuel
    rw [reserveModelNameLoop]
    by_cases hi : i = k
    · rw [hi, if_pos hfree]
    · have hmem := hbusy i (le_refl _) (by omega)
      rw [if_neg (by simpa using hmem)]
      have hnext : base ++ decimal (i + 1) = candidateName base (i + 1) := by
        unfold candidateName
        rw [if_neg (by omega)]
      rw [hnext]
      exact ih (i + 1) (by omega) (by omega) (fun j hj hjk => hbusy j (by omega) hjk) (by omega)

/-- C4: `reserveModelName` returns the hint when the registry does not hold it, and
otherwise the hint followed by the decimal numeral of the least `k ≥ 2` for which that
name is not in the registry.  The name it returns was not in the registry, and afterwards
the registry is the old one plus that name, everything else in the generator unchanged.
Any fuel above the size of the registry is enough for the loop to return. -/
theorem reserveModelName_spec (g : Generator) (base : Str) :
    ∃ name, name ∉ g.modelNames ∧ (g.addModelName name).modelNames = insert name g.modelNames ∧
      (g.addModelName name).schemaTypes = g.schemaTypes ∧
      (g.addModelName name).inlineModels = g.inlineModels ∧
      (∀ fuel, g.modelNames.card < fuel →
        reserveModelName fuel g base
          = some (name, g.addModelName name)) ∧
      (base ∉ g.modelNames → name = base) ∧
      (base ∈ g.modelNames →
        ∃ k, 2 ≤ k ∧ name = base ++ decimal k ∧
          ∀ j, 2 ≤ j → j < k → base ++ decimal j ∈ g.modelNames) := by
  classical
  have hex : ∃ k, 1 ≤ k ∧ candidateName base k ∉ g.modelNames := by
    obtain ⟨k, h1, _, h3⟩ := exists_free_candidate g.modelNames base
    exact ⟨k, h1, h3⟩
  let k := Nat.find hex
  have hk : 1 ≤ k ∧ candidateName base k ∉ g.modelNames := Nat.find_spec hex
  have hmin : ∀ j, 1 ≤ j → j < k → candidateName base j ∈ g.modelNames := by
    intro j hj hjk
    by_contra hjn
    exact Nat.find_min hex hjk ⟨hj, hjn⟩
  have hbound : k ≤ g.modelNames.card + 1 := by
    obtain ⟨k', h1, h2, h3⟩ := exists_free_candidate g.modelNames base
    exact le_trans (Nat.find_min' hex ⟨h1, h3⟩) h2
  have hbase : candidateName base 1 = base := by simp [candidateName]
  refine ⟨candidateName base k, hk.2, rfl, rfl, rfl, ?_, ?_, ?_⟩
  · intro fuel hfuel
    have hloop := reserveModelNameLoop_spec g.modelNames base k hk.2 fuel 1 (le_refl _) hk.1
      (fun j hj hjk => hmin j hj hjk) (by omega)
    rw [hbase] at hloop
    simp only [reserveModelName, hloop]
  · intro hb
    have : k = 1 := by
      by_contra hne
      exact hb (hbase ▸ hmin 1 (le_refl _) (by omega))
    rw [this, hbase]
  · intro hb
    have hk2 : 2 ≤ k := by
      by_contra hlt
      have : k = 1 := by omega
      rw [this, hbase] at hk
      exact hk.2 hb
    refine ⟨k, hk2, ?_, ?_⟩
    · unfold candidateName; rw [if_neg (by omega)]
    · intro j hj hjk
      have := hmin j (by omega) hjk
      unfold candidateName at this
      rwa [if_neg (by omega)] at this

end SumUp

namespace SumUp

/-! ## Named schemas with one normalized name, and a cyclic schema -/

set_option maxRecDepth 100000 in
/-- C3 (the code at the failing input): the named schemas `foo_bar` and `FooBar` both
normalize to `FooBar`, and `buildModels` returns two model records with that name. -/
theorem buildModels_duplicate_type_name :
    (buildModels plainLibrary 4 startGenerator collidingDocument).map
        (fun r => (r.1.map (fun m => m.Name), r.2.inlineModels.length))
      = some (["FooBar".toList, "FooBar".toList], 0) := by
  decide

theorem schemaFromProxy_inline (L : Library) (g : Generator) (fuel : Nat) (s : Schema) :
    schemaFromProxy L g (fuel + 1) (.inline s) = some (some s) := by
  simp [schemaFromProxy, SchemaProxy.schema]

theorem addProps_cyclicSchema_none (fuel : Nat) (res : InlineResolver) (owner : Str)
    (st : collectState)
    (hres : ∀ g req base, base ≠ [] → res g (some (.inline cyclicInner)) req base = none) :
    addProps cyclicLibrary fuel res owner cyclicSchema st = none := by
  have hkeys : sortStrings (keysFromOldest cyclicSchema.properties) = ["p".toList] := by decide
  have hget : getOrZero cyclicSchema.properties "p".toList = some (.inline cyclicInner) := by
    rfl
  have hne : owner ++ PascalIdentifier cyclicLibrary.unicode "p".toList ≠ [] := by
    intro h
    have := (List.append_eq_nil.mp h).2
    exact absurd this (by decide)
  unfold addProps
  rw [hkeys, addPropsLoop, hget]
  simp only [resolvePropertyTypeWith, hres _ _ _ hne]

theorem resolveInline_cyclicInner_none (fuel : Nat) :
    ∀ (g : Generator) (req : Bool) (base : Str), base ≠ [] →
      resolveInlineSchemaType cyclicLibrary fuel g (some (.inline cyclicInner)) req base
        = none := by
  induction fuel with
  | zero => intro g req base _; rfl
  | succ fuel ih =>
    intro g req base hbase
    rw [resolveInlineSchemaType]
    unfold resolveInlineStep
    simp only
    have hcond : base ≠ [] ∧ (SchemaProxy.inline cyclicInner).isReference = false :=
      ⟨hbase, rfl⟩
    rw [if_pos hcond]
    cases fuel with
    | zero => rfl
    | succ f =>
      rw [schemaFromProxy_inline]
      have hstruct : schemaDefinesStructuredObject cyclicInner = true := by decide
      simp only [hstruct, if_true]
      have hcreate : createInlineModelWith cyclicLibrary (f + 1)
          (resolveInlineSchemaType cyclicLibrary (f + 1)) g base cyclicInner = none := by
        unfold createInlineModelWith
        cases hr : reserveModelName (f + 1) g base with
        | none => rfl
        | some r =>
          obtain ⟨typeName, g1⟩ := r
          simp only
          have hbuild : buildClassModelWith cyclicLibrary (f + 1)
              (resolveInlineSchemaType cyclicLibrary (f + 1)) g1 typeName cyclicInner = none := by
            unfold buildClassModelWith collectPropertiesWith
            have hown : addProps cyclicLibrary (f + 1)
                (resolveInlineSchemaType cyclicLibrary (f + 1)) typeName cyclicInner
                { g := g1, propMap := [], usesCollections := false, usesJson := false }
                = some { g := g1, propMap := [], usesCollections := false, usesJson := false } := by
              rfl
            rw [hown]
            simp only
            have hall : allOfLoop cyclicLibrary (f + 1)
                (resolveInlineSchemaType cyclicLibrary (f + 1)) typeName cyclicInner.allOf
                { g := g1, propMap := [], usesCollections := false, usesJson := false }
                = none := by
              have hallof : cyclicInner.allOf
                  = [SchemaProxy.reference "#/components/schemas/A".toList] := rfl
              rw [hallof, allOfLoop]
              have hsch : schemaFromProxy cyclicLibrary g1 (f + 1)
                  (SchemaProxy.reference "#/components/schemas/A".toList)
                  = some (some cyclicSchema) := by
                simp [schemaFromProxy, SchemaProxy.schema, cyclicLibrary]
              rw [hsch]
              simp only
              rw [addProps_cyclicSchema_none (f + 1) _ typeName _ (ih)]
            rw [hall]
          rw [hbuild]
      rw [hcreate]

/-- C5 (the code at the failing input): on the document whose schema `A` has a property
with the inline schema `allOf: [$ref A]`, `buildModels` never returns, whatever fuel it is
given: every level of the recursion `collectProperties → resolveInlineSchemaType →
createInlineModel → buildClassModel → collectProperties` calls the next one. -/
theorem buildModels_cyclic_never_returns :
    ∀ fuel, buildModels cyclicLibrary fuel startGenerator cyclicDocument = none := by
  intro fuel
  cases fuel with
  | zero => rfl
  | succ f =>
    have hbuild : ∀ (g : Generator) (typeName : Str),
        buildClassModel cyclicLibrary (f + 1) g typeName cyclicSchema = none := by
      intro g typeName
      unfold buildClassModel buildClassModelWith collectPropertiesWith
      rw [addProps_cyclicSchema_none (f + 1) _ _ _ (resolveInline_cyclicInner_none (f + 1))]
    unfold buildModels
    simp only
    rw [if_neg (by decide)]
    have hnames : sortStrings (keysFromOldest cyclicDocument.Schemas) = ["A".toList] := by
      decide
    rw [hnames]
    simp only [cyclicDocument, registerSchemas, classifyLoop, Generator.setSchemaType,
      Generator.addModelName, if_true, schemaFromProxy_inline, aliasLoop]
    have hkind : classifySchema cyclicSchema = schemaKind.schemaKindObject := by decide
    simp only [hkind, modelLoop, if_true, schemaFromProxy_inline, ne_eq, reduceCtorEq,
      not_false_eq_true, hbuild]

end SumUp

namespace SumUp

/-! ## Independence of the declaration order: schemas -/

theorem schemaReordered_scalars {s₁ s₂ : Schema} (h : Schema.Reordered s₁ s₂) :
    s₁.type = s₂.type ∧ s₁.format = s₂.format ∧ s₁.nullable = s₂.nullable ∧
      s₁.enum = s₂.enum ∧ s₁.required = s₂.required ∧ s₁.description = s₂.description := by
  cases h
  exact ⟨rfl, rfl, rfl, rfl, rfl, rfl⟩

theorem schemaReordered_props {s₁ s₂ : Schema} (h : Schema.Reordered s₁ s₂) :
    MapReordered s₁.properties s₂.properties := by
  cases h with
  | mk hn hp he _ _ _ => exact ⟨hn, _, hp, he⟩

theorem schemaReordered_allOf {s₁ s₂ : Schema} (h : Schema.Reordered s₁ s₂) :
    ProxiesReordered s₁.allOf s₂.allOf := by
  cases h with
  | mk _ _ _ ha _ _ => exact ha

theorem schemaReordered_additionalProperties {s₁ s₂ : Schema} (h : Schema.Reordered s₁ s₂) :
    DynamicValue.Reordered s₁.additionalProperties s₂.additionalProperties := by
  cases h with
  | mk _ _ _ _ hap _ => exact hap

theorem schemaReordered_items {s₁ s₂ : Schema} (h : Schema.Reordered s₁ s₂) :
    DynamicValue.Reordered s₁.items s₂.items := by
  cases h with
  | mk _ _ _ _ _ hi => exact hi

theorem dynamicValueReordered_facts {d₁ d₂ : DynamicValue} (h : DynamicValue.Reordered d₁ d₂) :
    OptionProxyReordered d₁.schemaA d₂.schemaA ∧ d₁.isA = d₂.isA ∧ d₁.isTrueB = d₂.isTrueB := by
  cases h with
  | absent => exact ⟨trivial, rfl, rfl⟩
  | aNil => exact ⟨trivial, rfl, rfl⟩
  | a hp => exact ⟨hp, rfl, rfl⟩
  | b v => exact ⟨trivial, rfl, rfl⟩

theorem entriesReordered_keys {l₁ l₂ : List (Str × SchemaProxy)} (h : EntriesReordered l₁ l₂) :
    l₁.map Prod.fst = l₂.map Prod.fst := by
  induction l₁ generalizing l₂ with
  | nil => cases h; rfl
  | cons x xs ih =>
    cases h with
    | cons hp hl => simp [ih hl]

theorem entriesReordered_get {l₁ l₂ : List (Str × SchemaProxy)} (h : EntriesReordered l₁ l₂)
    (key : Str) : OptionProxyReordered (getOrZero l₁ key) (getOrZero l₂ key) := by
  induction l₁ generalizing l₂ with
  | nil => cases h; trivial
  | cons x xs ih =>
    cases h with
    | cons hp hl =>
      simp only [getOrZero]
      split
      · exact hp
      · exact ih hl

theorem proxiesReordered_length {l₁ l₂ : List SchemaProxy} (h : ProxiesReordered l₁ l₂) :
    l₁.length = l₂.length := by
  induction l₁ generalizing l₂ with
  | nil => cases h; rfl
  | cons x xs ih =>
    cases h with
    | cons hp hl => simp [ih hl]

theorem getOrZero_eq_none {β : Type} {m : List (Str × β)} {key : Str}
    (h : key ∉ m.map Prod.fst) : getOrZero m key = none := by
  induction m with
  | nil => rfl
  | cons x xs ih =>
    obtain ⟨k, v⟩ := x
    simp only [List.map_cons, List.mem_cons, not_or] at h
    simp only [getOrZero]
    rw [if_neg (fun hk => h.1 hk.symm)]
    exact ih h.2

theorem getOrZero_perm {β : Type} {m₁ m₂ : List (Str × β)} (hp : m₁.Perm m₂)
    (hn : (m₁.map Prod.fst).Nodup) (key : Str) : getOrZero m₁ key = getOrZero m₂ key := by
  induction hp with
  | nil => rfl
  | cons x _ ih =>
    obtain ⟨k, v⟩ := x
    simp only [getOrZero]
    rw [ih (List.nodup_cons.mp hn).2]
  | swap x y l =>
    obtain ⟨k₁, v₁⟩ := x
    obtain ⟨k₂, v₂⟩ := y
    simp only [List.map_cons, List.nodup_cons, List.mem_cons, not_or] at hn
    simp only [getOrZero]
    by_cases h1 : k₁ = key <;> by_cases h2 : k₂ = key
    · exact absurd (h2.trans h1.symm) hn.1.1
    · simp [h1, h2]
    · simp [h1, h2]
    · simp [h1, h2]
  | trans h₁ _ ih₁ ih₂ =>
    rw [ih₁ hn, ih₂ ((h₁.map Prod.fst).nodup_iff.mp hn)]

theorem sortStrings_perm {l₁ l₂ : List Str} (h : l₁.Perm l₂) :
    sortStrings l₁ = sortStrings l₂ := by
  unfold sortStrings
  apply List.eq_of_perm_of_sorted (r := (· ≤ ·))
  · exact ((List.perm_insertionSort _ l₁).trans h).trans (List.perm_insertionSort _ l₂).symm
  · exact List.sorted_insertionSort _ _
  · exact List.sorted_insertionSort _ _

theorem mapReordered_keys_perm {m₁ m₂ : List (Str × SchemaProxy)} (h : MapReordered m₁ m₂) :
    (keysFromOldest m₁).Perm (keysFromOldest m₂) := by
  obtain ⟨_, mid, hp, he⟩ := h
  unfold keysFromOldest
  rw [← entriesReordered_keys he]
  exact hp.map _

theorem mapReordered_sorted_keys {m₁ m₂ : List (Str × SchemaProxy)} (h : MapReordered m₁ m₂) :
    sortStrings (keysFromOldest m₁) = sortStrings (keysFromOldest m₂) :=
  sortStrings_perm (mapReordered_keys_perm h)

theorem mapReordered_length {m₁ m₂ : List (Str × SchemaProxy)} (h : MapReordered m₁ m₂) :
    m₁.length = m₂.length := by
  have := (mapReordered_keys_perm h).length_eq
  simpa [keysFromOldest] using this

theorem mapReordered_get {m₁ m₂ : List (Str × SchemaProxy)} (h : MapReordered m₁ m₂)
    (key : Str) : OptionProxyReordered (getOrZero m₁ key) (getOrZero m₂ key) := by
  obtain ⟨hn, mid, hp, he⟩ := h
  rw [getOrZero_perm hp hn key]
  exact entriesReordered_get he key

theorem schemaHasType_reordered {s₁ s₂ : Schema} (h : Schema.Reordered s₁ s₂) (target : Str) :
    schemaHasType s₁ target = schemaHasType s₂ target := by
  unfold schemaHasType
  rw [(schemaReordered_scalars h).1]

theorem classifySchema_reordered {s₁ s₂ : Schema} (h : Schema.Reordered s₁ s₂) :
    classifySchema s₁ = classifySchema s₂ := by
  have hopt : s₁.additionalProperties.schemaA.isSome = s₂.additionalProperties.schemaA.isSome := by
    have := (dynamicValueReordered_facts (schemaReordered_additionalProperties h)).1
    cases h1 : s₁.additionalProperties.schemaA <;> cases h2 : s₂.additionalProperties.schemaA <;>
      simp_all [OptionProxyReordered]
  unfold classifySchema
  rw [(schemaReordered_scalars h).2.2.2.1, mapReordered_length (schemaReordered_props h), proxiesReordered_length (schemaReordered_allOf h),
    schemaHasType_reordered h, hopt]

theorem schemaDefinesStructuredObject_reordered {s₁ s₂ : Schema}
    (h : Schema.Reordered s₁ s₂) :
    schemaDefinesStructuredObject s₁ = schemaDefinesStructuredObject s₂ := by
  unfold schemaDefinesStructuredObject
  rw [mapReordered_length (schemaReordered_props h), proxiesReordered_length (schemaReordered_allOf h)]

theorem schemaFromProxy_reordered {L₁ L₂ : Library} {g₁ g₂ : Generator}
    (hL : Library.Reordered L₁ L₂) (hg : Generator.Reordered g₁ g₂) (fuel : Nat) :
    ∀ p₁ p₂, SchemaProxy.Reordered p₁ p₂ →
      FuelSchemaReordered (schemaFromProxy L₁ g₁ fuel p₁) (schemaFromProxy L₂ g₂ fuel p₂) := by
  induction fuel with
  | zero => intro p₁ p₂ _; trivial
  | succ fuel ih =>
    intro p₁ p₂ hp
    cases hp with
    | inline hs => simpa [schemaFromProxy, SchemaProxy.schema, FuelSchemaReordered] using hs
    | reference r =>
      have hr := hL.2 r
      have hk := hg.2.2.2.2 (componentName r)
      simp only [schemaFromProxy, SchemaProxy.schema, SchemaProxy.isReference,
        SchemaProxy.getReference, if_true]
      cases h1 : L₁.schemaOf r <;> cases h2 : L₂.schemaOf r <;>
        simp only [h1, h2, OptionSchemaReordered] at hr
      · cases h3 : g₁.schemaTypes (componentName r) <;>
          cases h4 : g₂.schemaTypes (componentName r) <;> simp only [h3, h4] at hk
        · trivial
        · exact ih _ _ hk.2.2.2.2.2
      · exact hr

theorem schemaDescription_reordered {L₁ L₂ : Library} {g₁ g₂ : Generator}
    (hL : Library.Reordered L₁ L₂) (hg : Generator.Reordered g₁ g₂) (fuel : Nat)
    {p₁ p₂ : Option SchemaProxy} (hp : OptionProxyReordered p₁ p₂) :
    schemaDescription L₁ g₁ fuel p₁ = schemaDescription L₂ g₂ fuel p₂ := by
  cases p₁ <;> cases p₂ <;> simp only [OptionProxyReordered] at hp
  · rfl
  · rename_i a b
    have h := schemaFromProxy_reordered hL hg fuel a b hp
    cases h1 : schemaFromProxy L₁ g₁ fuel a <;> cases h2 : schemaFromProxy L₂ g₂ fuel b <;>
      simp only [h1, h2, FuelSchemaReordered] at h
    · simp only [schemaDescription, h1, h2]
    · rename_i x y
      cases x <;> cases y <;> simp only [OptionSchemaReordered] at h
      · simp only [schemaDescription, h1, h2]
      · simp only [schemaDescription, h1, h2, (schemaReordered_scalars h).2.2.2.2.2]

theorem resolveTypeViaTable_reordered {g₁ g₂ : Generator} (hg : Generator.Reordered g₁ g₂)
    {p₁ p₂ : SchemaProxy} (hp : SchemaProxy.Reordered p₁ p₂) (required : Bool) :
    resolveTypeViaTable g₁ p₁ required = resolveTypeViaTable g₂ p₂ required := by
  cases hp with
  | inline hs => rfl
  | reference r =>
    have hk := hg.2.2.2.2 (componentName r)
    simp only [resolveTypeViaTable, SchemaProxy.isReference, SchemaProxy.getReference, if_true]
    cases h3 : g₁.schemaTypes (componentName r) <;>
      cases h4 : g₂.schemaTypes (componentName r) <;> simp only [h3, h4] at hk
    · rfl
    · obtain ⟨_, h2, h3', h4', h5, _⟩ := hk
      simp only [h2, h3', h4', h5]

theorem resolveSchemaType_reordered
    {res₁ res₂ : Option SchemaProxy → Bool → Option typeInfo}
    (hres : ∀ p₁ p₂ req, OptionProxyReordered p₁ p₂ → res₁ p₁ req = res₂ p₂ req)
    {s₁ s₂ : Schema} (hs : Schema.Reordered s₁ s₂) (required : Bool) :
    resolveSchemaType res₁ s₁ required = resolveSchemaType res₂ s₂ required := by
  obtain ⟨_, hfmt, hnul, _, _, _⟩ := (schemaReordered_scalars hs)
  obtain ⟨hiA, hiIsA, _⟩ := dynamicValueReordered_facts (schemaReordered_items hs)
  obtain ⟨haA, _, haB⟩ := dynamicValueReordered_facts (schemaReordered_additionalProperties hs)
  have hitems := hres _ _ true hiA
  unfold resolveSchemaType
  simp only [schemaHasType_reordered hs, hfmt, hnul, hiIsA, haB, hitems]
  cases h1 : s₁.additionalProperties.schemaA <;> cases h2 : s₂.additionalProperties.schemaA <;>
    simp only [h1, h2, OptionProxyReordered] at haA
  · rfl
  · rename_i a b
    have hv := hres (some a) (some b) true haA
    simp only [hv]

theorem resolveType_reordered {L₁ L₂ : Library} {g₁ g₂ : Generator}
    (hL : Library.Reordered L₁ L₂) (hg : Generator.Reordered g₁ g₂) (fuel : Nat) :
    ∀ p₁ p₂ required, OptionProxyReordered p₁ p₂ →
      resolveType L₁ g₁ fuel p₁ required = resolveType L₂ g₂ fuel p₂ required := by
  induction fuel with
  | zero => intro _ _ _ _; rfl
  | succ fuel ih =>
    intro p₁ p₂ required hp
    simp only [resolveType, resolveTypeStep]
    cases p₁ <;> cases p₂ <;> simp only [OptionProxyReordered] at hp
    · rfl
    · rename_i a b
      simp only [resolveTypeViaTable_reordered hg hp required]
      cases resolveTypeViaTable g₂ b required with
      | some t => rfl
      | none =>
        simp only
        have h := schemaFromProxy_reordered hL hg fuel a b hp
        cases h1 : schemaFromProxy L₁ g₁ fuel a <;> cases h2 : schemaFromProxy L₂ g₂ fuel b <;>
          simp only [h1, h2, FuelSchemaReordered] at h
        · rfl
        · rename_i x y
          cases x <;> cases y <;> simp only [OptionSchemaReordered] at h
          · rfl
          · exact resolveSchemaType_reordered ih h required

end SumUp

namespace SumUp

/-! ## Independence of the declaration order: model assembly -/

theorem reserveModelName_reordered {g₁ g₂ : Generator} (hg : Generator.Reordered g₁ g₂)
    (fuel : Nat) (base : Str) :
    ResultReordered (reserveModelName fuel g₁ base) (reserveModelName fuel g₂ base) := by
  obtain ⟨h1, h2, h3, h4, h5⟩ := hg
  unfold reserveModelName
  rw [h3]
  cases reserveModelNameLoop g₂.modelNames base fuel base 2 with
  | none => trivial
  | some name => exact ⟨rfl, h1, h2, by simp only [Generator.addModelName, h3], h4, h5⟩

theorem addPropsLoop_reordered {L₁ L₂ : Library} (hL : Library.Reordered L₁ L₂) (fuel : Nat)
    {res₁ res₂ : InlineResolver} (hres : InlineResolver.Reordered res₁ res₂) (owner : Str)
    {src₁ src₂ : Schema} (hs : Schema.Reordered src₁ src₂) (names : List Str) :
    ∀ st₁ st₂, collectState.Reordered st₁ st₂ →
      CollectReordered (addPropsLoop L₁ fuel res₁ owner src₁ names st₁)
        (addPropsLoop L₂ fuel res₂ owner src₂ names st₂) := by
  induction names with
  | nil => intro st₁ st₂ hst; exact hst
  | cons name rest ih =>
    intro st₁ st₂ hst
    obtain ⟨hg, hpm, huc, huj⟩ := hst
    have hget := mapReordered_get (schemaReordered_props hs) name
    have hreq := (schemaReordered_scalars hs).2.2.2.2.1
    have hr := hres st₁.g st₂.g _ _ (decide (name ∈ src₁.required))
      (owner ++ PascalIdentifier L₁.unicode name) hg hget
    simp only [addPropsLoop, resolvePropertyTypeWith, ← hL.1, ← hreq]
    rcases h1 : res₁ st₁.g (getOrZero src₁.properties name) (decide (name ∈ src₁.required))
        (owner ++ PascalIdentifier L₁.unicode name) with _ | ⟨t₁, g₁'⟩ <;>
      rcases h2 : res₂ st₂.g (getOrZero src₂.properties name) (decide (name ∈ src₁.required))
        (owner ++ PascalIdentifier L₁.unicode name) with _ | ⟨t₂, g₂'⟩ <;>
      simp only [h1, h2, ResultReordered] at hr
    · trivial
    · obtain ⟨ht, hg'⟩ := hr
      subst ht
      simp only
      rw [schemaDescription_reordered hL hg' fuel hget]
      cases schemaDescription L₂ g₂' fuel (getOrZero src₂.properties name) with
      | none => trivial
      | some d =>
        simp only
        apply ih
        exact ⟨hg', by simp only [hpm], by simp only [huc], by simp only [huj]⟩

theorem addProps_reordered {L₁ L₂ : Library} (hL : Library.Reordered L₁ L₂) (fuel : Nat)
    {res₁ res₂ : InlineResolver} (hres : InlineResolver.Reordered res₁ res₂) (owner : Str)
    {src₁ src₂ : Schema} (hs : Schema.Reordered src₁ src₂)
    (st₁ st₂ : collectState) (hst : collectState.Reordered st₁ st₂) :
    CollectReordered (addProps L₁ fuel res₁ owner src₁ st₁)
      (addProps L₂ fuel res₂ owner src₂ st₂) := by
  unfold addProps
  rw [mapReordered_sorted_keys (schemaReordered_props hs)]
  exact addPropsLoop_reordered hL fuel hres owner hs _ st₁ st₂ hst

theorem allOfLoop_reordered {L₁ L₂ : Library} (hL : Library.Reordered L₁ L₂) (fuel : Nat)
    {res₁ res₂ : InlineResolver} (hres : InlineResolver.Reordered res₁ res₂) (owner : Str)
    (l₁ : List SchemaProxy) :
    ∀ l₂, ProxiesReordered l₁ l₂ → ∀ st₁ st₂, collectState.Reordered st₁ st₂ →
      CollectReordered (allOfLoop L₁ fuel res₁ owner l₁ st₁)
        (allOfLoop L₂ fuel res₂ owner l₂ st₂) := by
  induction l₁ with
  | nil => intro l₂ hl st₁ st₂ hst; cases hl; exact hst
  | cons p₁ rest ih =>
    intro l₂ hl st₁ st₂ hst
    cases hl with
    | cons hp hrest =>
      rename_i p₂ rest₂
      have h := schemaFromProxy_reordered hL hst.1 fuel p₁ p₂ hp
      simp only [allOfLoop]
      rcases h1 : schemaFromProxy L₁ st₁.g fuel p₁ with _ | x <;>
        rcases h2 : schemaFromProxy L₂ st₂.g fuel p₂ with _ | y <;>
        simp only [h1, h2, FuelSchemaReordered] at h
      · trivial
      · cases x <;> cases y <;> simp only [OptionSchemaReordered] at h
        · exact ih _ hrest st₁ st₂ hst
        · rename_i s₁ s₂
          have ha := addProps_reordered hL fuel hres owner h st₁ st₂ hst
          simp only
          rcases h3 : addProps L₁ fuel res₁ owner s₁ st₁ with _ | st₁' <;>
            rcases h4 : addProps L₂ fuel res₂ owner s₂ st₂ with _ | st₂' <;>
            simp only [h3, h4, CollectReordered] at ha
          · trivial
          · exact ih _ hrest st₁' st₂' ha

theorem collectPropertiesWith_reordered {L₁ L₂ : Library} (hL : Library.Reordered L₁ L₂)
    (fuel : Nat) {res₁ res₂ : InlineResolver} (hres : InlineResolver.Reordered res₁ res₂)
    {g₁ g₂ : Generator} (hg : Generator.Reordered g₁ g₂) (owner : Str)
    {s₁ s₂ : Schema} (hs : Schema.Reordered s₁ s₂) :
    ResultReordered (collectPropertiesWith L₁ fuel res₁ g₁ owner s₁)
      (collectPropertiesWith L₂ fuel res₂ g₂ owner s₂) := by
  have ha := addProps_reordered hL fuel hres owner hs
    { g := g₁, propMap := [], usesCollections := false, usesJson := false }
    { g := g₂, propMap := [], usesCollections := false, usesJson := false }
    ⟨hg, rfl, rfl, rfl⟩
  unfold collectPropertiesWith
  rcases h1 : addProps L₁ fuel res₁ owner s₁
      { g := g₁, propMap := [], usesCollections := false, usesJson := false } with _ | st₁ <;>
    rcases h2 : addProps L₂ fuel res₂ owner s₂
      { g := g₂, propMap := [], usesCollections := false, usesJson := false } with _ | st₂ <;>
    simp only [h1, h2, CollectReordered] at ha
  · trivial
  · have hb := allOfLoop_reordered hL fuel hres owner s₁.allOf s₂.allOf (schemaReordered_allOf hs) st₁ st₂ ha
    simp only
    rcases h3 : allOfLoop L₁ fuel res₁ owner s₁.allOf st₁ with _ | st₁' <;>
      rcases h4 : allOfLoop L₂ fuel res₂ owner s₂.allOf st₂ with _ | st₂' <;>
      simp only [h3, h4, CollectReordered] at hb
    · trivial
    · obtain ⟨hg', hpm, huc, huj⟩ := hb
      simp only [ResultReordered, hpm, huc, huj]
      exact ⟨trivial, hg'⟩

theorem buildClassModelWith_reordered {L₁ L₂ : Library} (hL : Library.Reordered L₁ L₂)
    (fuel : Nat) {res₁ res₂ : InlineResolver} (hres : InlineResolver.Reordered res₁ res₂)
    {g₁ g₂ : Generator} (hg : Generator.Reordered g₁ g₂) (typeName : Str)
    {s₁ s₂ : Schema} (hs : Schema.Reordered s₁ s₂) :
    ResultReordered (buildClassModelWith L₁ fuel res₁ g₁ typeName s₁)
      (buildClassModelWith L₂ fuel res₂ g₂ typeName s₂) := by
  have hc := collectPropertiesWith_reordered hL fuel hres hg typeName hs
  unfold buildClassModelWith
  rcases h1 : collectPropertiesWith L₁ fuel res₁ g₁ typeName s₁ with _ | ⟨⟨pr₁, uc₁, uj₁⟩, g₁'⟩ <;>
    rcases h2 : collectPropertiesWith L₂ fuel res₂ g₂ typeName s₂
      with _ | ⟨⟨pr₂, uc₂, uj₂⟩, g₂'⟩ <;>
    simp only [h1, h2, ResultReordered] at hc
  · trivial
  · obtain ⟨heq, hg'⟩ := hc
    simp only [Prod.mk.injEq] at heq
    obtain ⟨hpr, huc, huj⟩ := heq
    subst hpr huc huj
    obtain ⟨haA, _, haB⟩ := dynamicValueReordered_facts (schemaReordered_additionalProperties hs)
    simp only [haB, (schemaReordered_scalars hs).2.2.2.2.2]
    cases h3 : s₁.additionalProperties.schemaA <;>
      cases h4 : s₂.additionalProperties.schemaA <;>
      simp only [h3, h4, OptionProxyReordered] at haA
    · cases hB : s₂.additionalProperties.isTrueB
      · simp only [Bool.false_eq_true, if_false]
        exact ⟨by simp only [hg'.1], hg'⟩
      · simp only [if_true]
        exact ⟨by simp only [hg'.1], hg'⟩
    · rename_i a b
      simp only [resolveType_reordered hL hg' fuel (some a) (some b) true haA]
      cases resolveType L₂ g₂' fuel (some b) true with
      | none => trivial
      | some val => exact ⟨by simp only [hg'.1], hg'⟩

theorem createInlineModelWith_reordered {L₁ L₂ : Library} (hL : Library.Reordered L₁ L₂)
    (fuel : Nat) {res₁ res₂ : InlineResolver} (hres : InlineResolver.Reordered res₁ res₂)
    {g₁ g₂ : Generator} (hg : Generator.Reordered g₁ g₂) (baseName : Str)
    {s₁ s₂ : Schema} (hs : Schema.Reordered s₁ s₂) :
    ResultReordered (createInlineModelWith L₁ fuel res₁ g₁ baseName s₁)
      (createInlineModelWith L₂ fuel res₂ g₂ baseName s₂) := by
  have hr := reserveModelName_reordered hg fuel baseName
  unfold createInlineModelWith
  rcases h1 : reserveModelName fuel g₁ baseName with _ | ⟨n₁, g₁'⟩ <;>
    rcases h2 : reserveModelName fuel g₂ baseName with _ | ⟨n₂, g₂'⟩ <;>
    simp only [h1, h2, ResultReordered] at hr
  · trivial
  · obtain ⟨hn, hg'⟩ := hr
    subst hn
    have hb := buildClassModelWith_reordered hL fuel hres hg' n₁ hs
    simp only
    rcases h3 : buildClassModelWith L₁ fuel res₁ g₁' n₁ s₁ with _ | ⟨m₁, g₁''⟩ <;>
      rcases h4 : buildClassModelWith L₂ fuel res₂ g₂' n₁ s₂ with _ | ⟨m₂, g₂''⟩ <;>
      simp only [h3, h4, ResultReordered] at hb
    · trivial
    · obtain ⟨hm, hg''⟩ := hb
      subst hm
      obtain ⟨k1, k2, k3, k4, k5⟩ := hg''
      exact ⟨rfl, k1, by simp only [k2], k3, k4, k5⟩

theorem resolveType_result_reordered {L₁ L₂ : Library} (hL : Library.Reordered L₁ L₂)
    {g₁ g₂ : Generator} (hg : Generator.Reordered g₁ g₂) (fuel : Nat)
    (p₁ p₂ : Option SchemaProxy) (hp : OptionProxyReordered p₁ p₂) (required : Bool) :
    ResultReordered
      (match resolveType L₁ g₁ fuel p₁ required with
        | none => none
        | some t => some (t, g₁))
      (match resolveType L₂ g₂ fuel p₂ required with
        | none => none
        | some t => some (t, g₂)) := by
  rw [resolveType_reordered hL hg fuel p₁ p₂ required hp]
  cases resolveType L₂ g₂ fuel p₂ required with
  | none => trivial
  | some t => exact ⟨rfl, hg⟩

theorem resolveInlineStep_reordered {L₁ L₂ : Library} (hL : Library.Reordered L₁ L₂)
    (fuel : Nat) {res₁ res₂ : InlineResolver} (hres : InlineResolver.Reordered res₁ res₂) :
    InlineResolver.Reordered (resolveInlineStep L₁ fuel res₁) (resolveInlineStep L₂ fuel res₂) := by
  intro g₁ g₂ p₁ p₂ required inlineBase hg hp
  cases p₁ <;> cases p₂ <;> simp only [OptionProxyReordered] at hp
  · exact ⟨rfl, hg⟩
  · rename_i a b
    have hisref : a.isReference = b.isReference := by
      cases hp <;> rfl
    simp only [resolveInlineStep, hisref]
    split
    · have h := schemaFromProxy_reordered hL hg fuel a b hp
      rcases h1 : schemaFromProxy L₁ g₁ fuel a with _ | x <;>
        rcases h2 : schemaFromProxy L₂ g₂ fuel b with _ | y <;>
        simp only [h1, h2, FuelSchemaReordered] at h
      · trivial
      · cases x <;> cases y <;> simp only [OptionSchemaReordered] at h
        · exact ⟨rfl, hg⟩
        · rename_i s₁ s₂
          obtain ⟨hiA, hiIsA, _⟩ := dynamicValueReordered_facts (schemaReordered_items h)
          obtain ⟨haA, _, haB⟩ := dynamicValueReordered_facts (schemaReordered_additionalProperties h)
          simp only [schemaDefinesStructuredObject_reordered h, haB, hiIsA]
          split
          · have hc := createInlineModelWith_reordered hL fuel hres hg inlineBase h
            rcases h3 : createInlineModelWith L₁ fuel res₁ g₁ inlineBase s₁
                with _ | ⟨n₁, g₁'⟩ <;>
              rcases h4 : createInlineModelWith L₂ fuel res₂ g₂ inlineBase s₂
                with _ | ⟨n₂, g₂'⟩ <;>
              simp only [h3, h4, ResultReordered] at hc
            · trivial
            · exact ⟨by rw [hc.1], hc.2⟩
          · cases h5 : s₁.additionalProperties.schemaA <;>
              cases h6 : s₂.additionalProperties.schemaA <;>
              simp only [h5, h6, OptionProxyReordered] at haA
            · simp only
              split
              · exact ⟨rfl, hg⟩
              · split
                · have hi := hres g₁ g₂ _ _ true (inlineBase ++ "Item".toList) hg hiA
                  rcases h7 : res₁ g₁ s₁.items.schemaA true (inlineBase ++ "Item".toList)
                      with _ | ⟨t₁, g₁'⟩ <;>
                    rcases h8 : res₂ g₂ s₂.items.schemaA true (inlineBase ++ "Item".toList)
                      with _ | ⟨t₂, g₂'⟩ <;>
                    simp only [h7, h8, ResultReordered] at hi
                  · trivial
                  · exact ⟨by rw [hi.1], hi.2⟩
                · exact resolveType_result_reordered hL hg fuel
                    (some a) (some b) hp required
            · rename_i va vb
              have hv := hres g₁ g₂ (some va) (some vb) true (inlineBase ++ "Value".toList)
                hg haA
              simp only
              rcases h7 : res₁ g₁ (some va) true (inlineBase ++ "Value".toList)
                  with _ | ⟨t₁, g₁'⟩ <;>
                rcases h8 : res₂ g₂ (some vb) true (inlineBase ++ "Value".toList)
                  with _ | ⟨t₂, g₂'⟩ <;>
                simp only [h7, h8, ResultReordered] at hv
              · trivial
              · exact ⟨by rw [hv.1], hv.2⟩
    · exact resolveType_result_reordered hL hg fuel (some a) (some b) hp required

theorem resolveInlineSchemaType_reordered {L₁ L₂ : Library} (hL : Library.Reordered L₁ L₂)
    (fuel : Nat) :
    InlineResolver.Reordered (resolveInlineSchemaType L₁ fuel)
      (resolveInlineSchemaType L₂ fuel) := by
  induction fuel with
  | zero => intro _ _ _ _ _ _ _ _; trivial
  | succ fuel ih => exact resolveInlineStep_reordered hL fuel ih

theorem buildClassModel_reordered {L₁ L₂ : Library} (hL : Library.Reordered L₁ L₂)
    (fuel : Nat) {g₁ g₂ : Generator} (hg : Generator.Reordered g₁ g₂) (typeName : Str)
    {s₁ s₂ : Schema} (hs : Schema.Reordered s₁ s₂) :
    ResultReordered (buildClassModel L₁ fuel g₁ typeName s₁)
      (buildClassModel L₂ fuel g₂ typeName s₂) :=
  buildClassModelWith_reordered hL fuel (resolveInlineSchemaType_reordered hL fuel) hg
    typeName hs

end SumUp

namespace SumUp

/-! ## Independence of the declaration order: `buildModels` -/

theorem setSchemaType_reordered {g₁ g₂ : Generator} (hg : Generator.Reordered g₁ g₂)
    (name : Str) {i₁ i₂ : schemaTypeInfo} (hi : schemaTypeInfo.Reordered i₁ i₂) :
    Generator.Reordered (g₁.setSchemaType name i₁) (g₂.setSchemaType name i₂) := by
  obtain ⟨h1, h2, h3, h4, h5⟩ := hg
  refine ⟨h1, h2, h3, h4, ?_⟩
  intro k
  simp only [Generator.setSchemaType]
  by_cases hk : k = name
  · simp only [hk, if_true]; exact hi
  · simp only [hk, if_false]; exact h5 k

theorem registerSchemas_fields (L : Library) (t : List (Str × SchemaProxy)) :
    ∀ g, (registerSchemas L t g).config = g.config ∧
      (registerSchemas L t g).inlineModels = g.inlineModels ∧
      (registerSchemas L t g).errorModels = g.errorModels ∧
      (registerSchemas L t g).modelNames
        = g.modelNames ∪ ((keysFromOldest t).map (PascalIdentifier L.unicode)).toFinset := by
  induction t with
  | nil => intro g; simp [registerSchemas, keysFromOldest]
  | cons x xs ih =>
    intro g
    obtain ⟨name, proxy⟩ := x
    simp only [registerSchemas]
    obtain ⟨h1, h2, h3, h4⟩ := ih
      ((g.setSchemaType name
          { Name := name, TypeName := PascalIdentifier L.unicode name, Schema := proxy }).addModelName
        (PascalIdentifier L.unicode name))
    refine ⟨h1.trans rfl, h2.trans rfl, h3.trans rfl, ?_⟩
    rw [h4]
    ext y
    simp only [Generator.setSchemaType, Generator.addModelName, keysFromOldest, List.map_cons,
      List.toFinset_cons, Finset.mem_union, Finset.mem_insert]
    tauto

theorem registerSchemas_schemaTypes (L : Library) (t : List (Str × SchemaProxy)) :
    ∀ g, (t.map Prod.fst).Nodup → ∀ k,
      (registerSchemas L t g).schemaTypes k =
        match getOrZero t k with
        | some p => some { Name := k, TypeName := PascalIdentifier L.unicode k, Schema := p }
        | none => g.schemaTypes k := by
  induction t with
  | nil => intro g _ k; rfl
  | cons x xs ih =>
    intro g hn k
    obtain ⟨name, proxy⟩ := x
    simp only [List.map_cons, List.nodup_cons] at hn
    simp only [registerSchemas, getOrZero]
    rw [ih _ hn.2 k]
    by_cases hk : name = k
    · subst hk
      rw [getOrZero_eq_none hn.1]
      simp [Generator.setSchemaType, Generator.addModelName]
    · rw [if_neg hk]
      cases getOrZero xs k with
      | some p => rfl
      | none => simp [Generator.setSchemaType, Generator.addModelName, Ne.symm hk]

theorem registerSchemas_reordered {L₁ L₂ : Library} (hL : Library.Reordered L₁ L₂)
    {t₁ t₂ : List (Str × SchemaProxy)} (ht : MapReordered t₁ t₂)
    {g₁ g₂ : Generator} (hg : Generator.Reordered g₁ g₂) :
    Generator.Reordered (registerSchemas L₁ t₁ g₁) (registerSchemas L₂ t₂ g₂) := by
  obtain ⟨a1, a2, a3, a4⟩ := registerSchemas_fields L₁ t₁ g₁
  obtain ⟨b1, b2, b3, b4⟩ := registerSchemas_fields L₂ t₂ g₂
  obtain ⟨h1, h2, h3, h4, h5⟩ := hg
  have hn₁ := ht.1
  have hkeys := (mapReordered_keys_perm ht)
  have hn₂ : (t₂.map Prod.fst).Nodup := hkeys.nodup_iff.mp hn₁
  refine ⟨by rw [a1, b1]; exact h1, by rw [a2, b2]; exact h2, ?_, by rw [a3, b3]; exact h4, ?_⟩
  · rw [a4, b4, h3, hL.1]
    congr 1
    exact List.toFinset_eq_of_perm _ _ (hkeys.map _)
  · intro k
    rw [registerSchemas_schemaTypes L₁ t₁ g₁ hn₁ k, registerSchemas_schemaTypes L₂ t₂ g₂ hn₂ k]
    have hget := mapReordered_get ht k
    cases e1 : getOrZero t₁ k <;> cases e2 : getOrZero t₂ k <;>
      simp only [e1, e2, OptionProxyReordered] at hget
    · exact h5 k
    · exact ⟨rfl, by simp only [hL.1], rfl, rfl, rfl, hget⟩

theorem classifyLoop_reordered {L₁ L₂ : Library} (hL : Library.Reordered L₁ L₂) (fuel : Nat)
    (names : List Str) :
    ∀ g₁ g₂, Generator.Reordered g₁ g₂ →
      GeneratorResultReordered (classifyLoop L₁ fuel names g₁) (classifyLoop L₂ fuel names g₂) := by
  induction names with
  | nil => intro g₁ g₂ hg; exact hg
  | cons name rest ih =>
    intro g₁ g₂ hg
    have hk := hg.2.2.2.2 name
    simp only [classifyLoop]
    rcases e1 : g₁.schemaTypes name with _ | i₁ <;>
      rcases e2 : g₂.schemaTypes name with _ | i₂ <;> simp only [e1, e2] at hk
    · exact ih g₁ g₂ hg
    · have h := schemaFromProxy_reordered hL hg fuel i₁.Schema i₂.Schema hk.2.2.2.2.2
      simp only
      rcases h1 : schemaFromProxy L₁ g₁ fuel i₁.Schema with _ | x <;>
        rcases h2 : schemaFromProxy L₂ g₂ fuel i₂.Schema with _ | y <;>
        simp only [h1, h2, FuelSchemaReordered] at h
      · trivial
      · cases x <;> cases y <;> simp only [OptionSchemaReordered] at h
        · exact ih g₁ g₂ hg
        · simp only [classifySchema_reordered h]
          apply ih
          apply setSchemaType_reordered hg
          obtain ⟨k1, k2, _, k4, k5, k6⟩ := hk
          exact ⟨k1, k2, rfl, k4, k5, k6⟩

theorem aliasLoop_reordered {L₁ L₂ : Library} (hL : Library.Reordered L₁ L₂) (fuel : Nat)
    (names : List Str) :
    ∀ g₁ g₂, Generator.Reordered g₁ g₂ →
      GeneratorResultReordered (aliasLoop L₁ fuel names g₁) (aliasLoop L₂ fuel names g₂) := by
  induction names with
  | nil => intro g₁ g₂ hg; exact hg
  | cons name rest ih =>
    intro g₁ g₂ hg
    have hk := hg.2.2.2.2 name
    simp only [aliasLoop]
    rcases e1 : g₁.schemaTypes name with _ | i₁ <;>
      rcases e2 : g₂.schemaTypes name with _ | i₂ <;> simp only [e1, e2] at hk
    · exact ih g₁ g₂ hg
    · obtain ⟨k1, k2, k3, k4, k5, k6⟩ := hk
      simp only [k3]
      by_cases hkind : i₂.Kind ≠ schemaKind.schemaKindAlias
      · simp only [if_pos hkind]
        exact ih g₁ g₂ hg
      · simp only [if_neg hkind]
        have h := schemaFromProxy_reordered hL hg fuel i₁.Schema i₂.Schema k6
        rcases h1 : schemaFromProxy L₁ g₁ fuel i₁.Schema with _ | x <;>
          rcases h2 : schemaFromProxy L₂ g₂ fuel i₂.Schema with _ | y <;>
          simp only [h1, h2, FuelSchemaReordered] at h
        · trivial
        · cases x <;> cases y <;> simp only [OptionSchemaReordered] at h
          · exact ih g₁ g₂ hg
          · rename_i s₁ s₂
            have hr := resolveType_reordered hL hg fuel (some (.inline s₁))
              (some (.inline s₂)) true (SchemaProxy.Reordered.inline h)
            simp only [hr]
            cases resolveType L₂ g₂ fuel (some (.inline s₂)) true with
            | none => trivial
            | some t =>
              simp only
              apply ih
              apply setSchemaType_reordered hg
              exact ⟨k1, k2, rfl, rfl, rfl, k6⟩

theorem buildEnumValues_reordered {L₁ L₂ : Library} (hL : Library.Reordered L₁ L₂)
    {s₁ s₂ : Schema} (hs : Schema.Reordered s₁ s₂) :
    buildEnumValues L₁ s₁ = buildEnumValues L₂ s₂ := by
  have hloop : ∀ (l : List Str) names values,
      buildEnumValuesLoop L₁ l names values = buildEnumValuesLoop L₂ l names values := by
    intro l
    induction l with
    | nil => intro _ _; rfl
    | cons x xs ih =>
      intro names values
      simp only [buildEnumValuesLoop, hL.1]
      cases names (PascalIdentifier L₂.unicode x) with
      | none => exact ih _ _
      | some c => exact ih _ _
  unfold buildEnumValues
  rw [(schemaReordered_scalars hs).2.2.2.1, hloop]

theorem modelLoop_reordered {L₁ L₂ : Library} (hL : Library.Reordered L₁ L₂) (fuel : Nat)
    (names : List Str) :
    ∀ g₁ g₂ models, Generator.Reordered g₁ g₂ →
      ResultReordered (modelLoop L₁ fuel names g₁ models) (modelLoop L₂ fuel names g₂ models) := by
  induction names with
  | nil => intro g₁ g₂ models hg; exact ⟨rfl, hg⟩
  | cons name rest ih =>
    intro g₁ g₂ models hg
    have hk := hg.2.2.2.2 name
    simp only [modelLoop]
    rcases e1 : g₁.schemaTypes name with _ | i₁ <;>
      rcases e2 : g₂.schemaTypes name with _ | i₂ <;> simp only [e1, e2] at hk
    · exact ih g₁ g₂ models hg
    · obtain ⟨k1, k2, k3, k4, k5, k6⟩ := hk
      have h := schemaFromProxy_reordered hL hg fuel i₁.Schema i₂.Schema k6
      simp only
      rcases h1 : schemaFromProxy L₁ g₁ fuel i₁.Schema with _ | x <;>
        rcases h2 : schemaFromProxy L₂ g₂ fuel i₂.Schema with _ | y <;>
        simp only [h1, h2, FuelSchemaReordered] at h
      · trivial
      · cases x <;> cases y <;> simp only [OptionSchemaReordered] at h
        · exact ih g₁ g₂ models hg
        · rename_i s₁ s₂
          simp only [k3]
          cases hkind : i₂.Kind with
          | schemaKindAlias => exact ih g₁ g₂ models hg
          | schemaKindEnum =>
            simp only [k2, hg.1, (schemaReordered_scalars h).2.2.2.2.2, buildEnumValues_reordered hL h]
            apply ih
            apply setSchemaType_reordered hg
            exact ⟨k1, rfl, rfl, rfl, rfl, k6⟩
          | schemaKindObject =>
            have hb := buildClassModel_reordered hL fuel hg i₂.TypeName h
            simp only [k2]
            rcases h3 : buildClassModel L₁ fuel g₁ i₂.TypeName s₁ with _ | ⟨m₁, g₁'⟩ <;>
              rcases h4 : buildClassModel L₂ fuel g₂ i₂.TypeName s₂ with _ | ⟨m₂, g₂'⟩ <;>
              simp only [h3, h4, ResultReordered] at hb
            · trivial
            · obtain ⟨hm, hg'⟩ := hb
              subst hm
              simp only
              apply ih
              apply setSchemaType_reordered hg'
              exact ⟨k1, rfl, rfl, rfl, rfl, k6⟩

theorem buildModels_reordered {L₁ L₂ : Library} (hL : Library.Reordered L₁ L₂) (fuel : Nat)
    {g₁ g₂ : Generator} (hg : Generator.Reordered g₁ g₂) (doc₁ doc₂ : Document)
    (ht : MapReordered doc₁.Schemas doc₂.Schemas) :
    ResultReordered (buildModels L₁ fuel g₁ doc₁) (buildModels L₂ fuel g₂ doc₂) := by
  have hg0 : Generator.Reordered { g₁ with schemaTypes := fun _ => none }
      { g₂ with schemaTypes := fun _ => none } := by
    obtain ⟨h1, h2, h3, h4, _⟩ := hg
    exact ⟨h1, h2, h3, h4, fun _ => trivial⟩
  unfold buildModels
  simp only [mapReordered_length ht, mapReordered_sorted_keys ht]
  split
  · exact ⟨rfl, hg0⟩
  · have hr := registerSchemas_reordered hL ht hg0
    have hc := classifyLoop_reordered hL fuel
      (sortStrings (keysFromOldest doc₂.Schemas)) _ _ hr
    rcases h1 : classifyLoop L₁ fuel (sortStrings (keysFromOldest doc₂.Schemas))
        (registerSchemas L₁ doc₁.Schemas { g₁ with schemaTypes := fun _ => none })
        with _ | c₁ <;>
      rcases h2 : classifyLoop L₂ fuel (sortStrings (keysFromOldest doc₂.Schemas))
        (registerSchemas L₂ doc₂.Schemas { g₂ with schemaTypes := fun _ => none })
        with _ | c₂ <;>
      simp only [h1, h2, GeneratorResultReordered] at hc
    · trivial
    · have ha := aliasLoop_reordered hL fuel
        (sortStrings (keysFromOldest doc₂.Schemas)) c₁ c₂ hc
      simp only
      rcases h3 : aliasLoop L₁ fuel (sortStrings (keysFromOldest doc₂.Schemas)) c₁
          with _ | a₁ <;>
        rcases h4 : aliasLoop L₂ fuel (sortStrings (keysFromOldest doc₂.Schemas)) c₂
          with _ | a₂ <;>
        simp only [h3, h4, GeneratorResultReordered] at ha
      · trivial
      · have hm := modelLoop_reordered hL fuel
          (sortStrings (keysFromOldest doc₂.Schemas)) a₁ a₂ [] ha
        simp only
        rcases h5 : modelLoop L₁ fuel (sortStrings (keysFromOldest doc₂.Schemas)) a₁ []
            with _ | ⟨m₁, f₁⟩ <;>
          rcases h6 : modelLoop L₂ fuel (sortStrings (keysFromOldest doc₂.Schemas)) a₂ []
            with _ | ⟨m₂, f₂⟩ <;>
          simp only [h5, h6, ResultReordered] at hm
        · trivial
        · exact ⟨by rw [hm.1], hm.2⟩

/-- C1: `buildModels` does not depend on the order of declaration.  Take two tables of
named schemas that hold the same schemas in a different insertion order, the property maps
of the schemas (and of the schemas nested in them) filled in a different order too, with
loaders that resolve every reference accordingly, and let the normalized type names of the
table be pairwise distinct.  Then, for every fuel, the two runs from the same generator
either both run out of fuel or return the same sequence of model records, the same
synthesized inline models (hence with the same names) and the same registry of names. -/
theorem buildModels_order_independent (L₁ L₂ : Library) (hL : Library.Reordered L₁ L₂)
    (g : Generator) (doc₁ doc₂ : Document)
    (hdistinct : ((keysFromOldest doc₁.Schemas).map (PascalIdentifier L₁.unicode)).Nodup)
    (hsame : ∃ mid, doc₁.Schemas.Perm mid ∧ EntriesReordered mid doc₂.Schemas)
    (fuel : Nat) :
    modelsOutput (buildModels L₁ fuel g doc₁) = modelsOutput (buildModels L₂ fuel g doc₂) := by
  have hkeys : (doc₁.Schemas.map Prod.fst).Nodup := List.Nodup.of_map _ hdistinct
  have hg : Generator.Reordered { g with schemaTypes := fun _ => none }
      { g with schemaTypes := fun _ => none } :=
    ⟨rfl, rfl, rfl, rfl, fun _ => trivial⟩
  have h := buildModels_reordered hL fuel hg doc₁ doc₂ ⟨hkeys, hsame⟩
  have e1 : buildModels L₁ fuel { g with schemaTypes := fun _ => none } doc₁
      = buildModels L₁ fuel g doc₁ := rfl
  have e2 : buildModels L₂ fuel { g with schemaTypes := fun _ => none } doc₂
      = buildModels L₂ fuel g doc₂ := rfl
  rw [e1, e2] at h
  rcases h1 : buildModels L₁ fuel g doc₁ with _ | ⟨m₁, f₁⟩ <;>
    rcases h2 : buildModels L₂ fuel g doc₂ with _ | ⟨m₂, f₂⟩ <;>
    simp only [h1, h2, ResultReordered] at h
  · rfl
  · obtain ⟨hm, _, hi, hn, _⟩ := h
    simp only [modelsOutput, Option.map_some', hm, hi, hn]

end SumUp

namespace SumUp

theorem typedSchema_reordered (type : Str) :
    Schema.Reordered (typedSchema type) (typedSchema type) :=
  Schema.Reordered.mk List.nodup_nil (List.Perm.refl _) EntriesReordered.nil
    ProxiesReordered.nil DynamicValue.Reordered.absent DynamicValue.Reordered.absent

theorem addressSchema_reordered : Schema.Reordered addressSchema₁ addressSchema₂ :=
  Schema.Reordered.mk (by decide) (List.Perm.swap _ _ _)
    (EntriesReordered.cons (SchemaProxy.Reordered.inline (typedSchema_reordered _))
      (EntriesReordered.cons (SchemaProxy.Reordered.inline (typedSchema_reordered _))
        EntriesReordered.nil))
    ProxiesReordered.nil DynamicValue.Reordered.absent DynamicValue.Reordered.absent

theorem petSchema_reordered : Schema.Reordered petSchema₁ petSchema₂ :=
  Schema.Reordered.mk (by decide) (List.Perm.swap _ _ _)
    (EntriesReordered.cons (SchemaProxy.Reordered.inline (typedSchema_reordered _))
      (EntriesReordered.cons (SchemaProxy.Reordered.inline (typedSchema_reordered _))
        EntriesReordered.nil))
    ProxiesReordered.nil DynamicValue.Reordered.absent DynamicValue.Reordered.absent

theorem ownerSchema_reordered : Schema.Reordered ownerSchema₁ ownerSchema₂ :=
  Schema.Reordered.mk (by decide) (List.Perm.swap _ _ _)
    (EntriesReordered.cons (SchemaProxy.Reordered.inline addressSchema_reordered)
      (EntriesReordered.cons (SchemaProxy.Reordered.reference _) EntriesReordered.nil))
    ProxiesReordered.nil DynamicValue.Reordered.absent DynamicValue.Reordered.absent

theorem orderedLibrary_reordered : Library.Reordered orderedLibrary₁ orderedLibrary₂ := by
  refine ⟨rfl, fun r => ?_⟩
  simp only [orderedLibrary₁, orderedLibrary₂]
  split
  · exact petSchema_reordered
  · trivial

set_option maxRecDepth 100000 in
theorem buildModels_order_independent_witness :
    keysFromOldest orderedDocument₁.Schemas ≠ keysFromOldest orderedDocument₂.Schemas ∧
    modelsOutput (buildModels orderedLibrary₁ 6 startGenerator orderedDocument₁)
      = modelsOutput (buildModels orderedLibrary₂ 6 startGenerator orderedDocument₂) ∧
    (modelsOutput (buildModels orderedLibrary₁ 6 startGenerator orderedDocument₁)).map
        (fun r => (r.1.map (fun m => m.Name), r.2.1.map (fun m => m.Name)))
      = some (["Owner".toList, "Pet".toList], ["OwnerAddress".toList]) :=
  ⟨by decide,
   buildModels_order_independent orderedLibrary₁ orderedLibrary₂ orderedLibrary_reordered
     startGenerator orderedDocument₁ orderedDocument₂ (by decide)
     ⟨_, List.Perm.swap _ _ _,
       EntriesReordered.cons (SchemaProxy.Reordered.inline ownerSchema_reordered)
         (EntriesReordered.cons (SchemaProxy.Reordered.inline petSchema_reordered)
           EntriesReordered.nil)⟩ 6,
   by decide⟩

end SumUp

namespace SumUp

/-! ## Independence of the declaration order: operations without inline models -/

theorem schemaFromProxy_sameTypes (L : Library) {g₁ g₂ : Generator}
    (hg : Generator.SameTypes g₁ g₂) (fuel : Nat) :
    ∀ p, schemaFromProxy L g₁ fuel p = schemaFromProxy L g₂ fuel p := by
  induction fuel with
  | zero => intro p; rfl
  | succ fuel ih =>
    intro p
    simp only [schemaFromProxy, hg.2]
    cases p.schema L with
    | some s => rfl
    | none =>
      simp only
      split
      · cases g₂.schemaTypes (componentName p.getReference) with
        | none => rfl
        | some info => exact ih _
      · rfl

theorem resolveType_sameTypes (L : Library) {g₁ g₂ : Generator}
    (hg : Generator.SameTypes g₁ g₂) (fuel : Nat) :
    resolveType L g₁ fuel = resolveType L g₂ fuel := by
  induction fuel with
  | zero => rfl
  | succ fuel ih =>
    funext p required
    simp only [resolveType, resolveTypeStep, ih, schemaFromProxy_sameTypes L hg,
      resolveTypeViaTable, hg.2]

theorem schemaFromProxy_inline_eq (L : Library) (g : Generator) (fuel : Nat) (s : Schema)
    {x : Option Schema} (h : schemaFromProxy L g fuel (.inline s) = some x) : x = some s := by
  cases fuel with
  | zero => simp [schemaFromProxy] at h
  | succ f =>
    rw [schemaFromProxy_inline] at h
    exact (Option.some.inj h).symm

theorem unchanged_of_resolveType (L : Library) {g₁ g₂ : Generator}
    (hg : Generator.SameTypes g₁ g₂) (fuel : Nat) (p : Option SchemaProxy) (required : Bool) :
    UnchangedResult
      (match resolveType L g₁ fuel p required with
        | none => none
        | some t => some (t, g₁))
      (match resolveType L g₂ fuel p required with
        | none => none
        | some t => some (t, g₂)) g₁ g₂ := by
  refine ⟨resolveType L g₂ fuel p required, ?_, ?_⟩
  · rw [resolveType_sameTypes L hg fuel]
    cases resolveType L g₂ fuel p required <;> rfl
  · cases resolveType L g₂ fuel p required <;> rfl

theorem plain_schemaA {d : DynamicValue} (h : DynamicValue.Plain d) :
    OptionProxyPlain d.schemaA := by
  cases h with
  | absent => trivial
  | aNil => trivial
  | a hp => exact hp
  | b v => trivial

theorem plain_inline {s : Schema} (h : SchemaProxy.Plain (.inline s)) :
    schemaDefinesStructuredObject s = false ∧ OptionProxyPlain s.additionalProperties.schemaA ∧
      OptionProxyPlain s.items.schemaA := by
  cases h with
  | inline hs hap hit => exact ⟨hs, plain_schemaA hap, plain_schemaA hit⟩

theorem resolveInline_plain (L : Library) (fuel : Nat) :
    ∀ (p : Option SchemaProxy), OptionProxyPlain p →
      ∀ (g₁ g₂ : Generator) (required : Bool) (inlineBase : Str), Generator.SameTypes g₁ g₂ →
        UnchangedResult (resolveInlineSchemaType L fuel g₁ p required inlineBase)
          (resolveInlineSchemaType L fuel g₂ p required inlineBase) g₁ g₂ := by
  induction fuel with
  | zero => intro p _ g₁ g₂ _ _ _; exact ⟨none, rfl, rfl⟩
  | succ fuel ih =>
    intro p hp g₁ g₂ required inlineBase hg
    cases p with
    | none => exact ⟨some (nullableType "JsonDocument".toList false required false), rfl, rfl⟩
    | some p =>
      simp only [resolveInlineSchemaType, resolveInlineStep]
      by_cases hc : inlineBase ≠ [] ∧ p.isReference = false
      · simp only [if_pos hc]
        cases p with
        | reference r => exact absurd hc.2 (by simp [SchemaProxy.isReference])
        | inline s =>
          obtain ⟨hs, hap, hit⟩ := plain_inline hp
          rw [schemaFromProxy_sameTypes L hg fuel]
          cases hx : schemaFromProxy L g₂ fuel (.inline s) with
          | none => exact ⟨none, rfl, rfl⟩
          | some x =>
            have := schemaFromProxy_inline_eq L g₂ fuel s hx
            subst this
            simp only [hs, Bool.false_eq_true, if_false]
            cases hA : s.additionalProperties.schemaA with
            | some p' =>
              rw [hA] at hap
              simp only
              obtain ⟨o, h1, h2⟩ := ih (some p') hap g₁ g₂ true
                (inlineBase ++ "Value".toList) hg
              rw [h1, h2]
              refine ⟨o.map (fun valueInfo => nullableType
                ("IDictionary<string, ".toList ++ trimSuffixQ valueInfo.TypeName ++ ">".toList)
                false required true), ?_, ?_⟩ <;> cases o <;> rfl
            | none =>
              simp only
              cases s.additionalProperties.isTrueB with
              | true => exact ⟨some _, rfl, rfl⟩
              | false =>
                simp only [Bool.false_eq_true, if_false]
                cases s.items.isA with
                | true =>
                  simp only [if_true]
                  obtain ⟨o, h1, h2⟩ := ih s.items.schemaA hit g₁ g₂ true
                    (inlineBase ++ "Item".toList) hg
                  rw [h1, h2]
                  refine ⟨o.map (fun itemInfo => nullableType
                    ("IEnumerable<".toList ++ trimSuffixQ itemInfo.TypeName ++ ">".toList)
                    false required true), ?_, ?_⟩ <;> cases o <;> rfl
                | false =>
                  simp only [Bool.false_eq_true, if_false]
                  exact unchanged_of_resolveType L hg fuel _ required
      · simp only [if_neg hc]
        exact unchanged_of_resolveType L hg fuel _ required

end SumUp

namespace SumUp

theorem collectParameters_sameTypes (L : Library) {g₁ g₂ : Generator}
    (hg : Generator.SameTypes g₁ g₂) (fuel : Nat) (params : List Parameter) :
    ∀ acc, collectParameters L fuel g₁ params acc = collectParameters L fuel g₂ params acc := by
  induction params with
  | nil => intro acc; rfl
  | cons p rest ih =>
    intro acc
    simp only [collectParameters, convertParameter, resolveType_sameTypes L hg fuel, ih]

theorem getOrZero_mem {β : Type} {m : List (Str × β)} {key : Str} {v : β}
    (h : getOrZero m key = some v) : (key, v) ∈ m := by
  induction m with
  | nil => simp [getOrZero] at h
  | cons x xs ih =>
    obtain ⟨k, w⟩ := x
    simp only [getOrZero] at h
    by_cases hk : k = key
    · rw [if_pos hk] at h
      rw [← hk, Option.some.inj h]
      exact List.mem_cons_self _ _
    · rw [if_neg hk] at h
      exact List.mem_cons_of_mem _ (ih h)

theorem sameTypes_refl (g : Generator) : Generator.SameTypes g g := ⟨rfl, rfl⟩

theorem buildRequestBody_plain (L : Library) (fuel : Nat) {g₁ g₂ : Generator}
    (hg : Generator.SameTypes g₁ g₂) (clientName methodName : Str) (body : Option RequestBody)
    (hp : ∀ b, body = some b → ContentPlain b.Content) :
    UnchangedResult (buildRequestBody L fuel g₁ clientName methodName body)
      (buildRequestBody L fuel g₂ clientName methodName body) g₁ g₂ := by
  cases body with
  | none => exact ⟨some none, rfl, rfl⟩
  | some b =>
    have hb := hp b rfl
    simp only [buildRequestBody]
    by_cases hct : firstContentType b.Content = []
    · simp only [if_pos hct]
      exact ⟨some none, rfl, rfl⟩
    · simp only [if_neg hct]
      unfold ContentPlain at hb
      cases hps : preferredSchema b.Content with
      | none => exact ⟨some none, rfl, rfl⟩
      | some schemaRef =>
        rw [hps] at hb
        obtain ⟨o, h1, h2⟩ := resolveInline_plain L fuel (some schemaRef) hb g₁ g₂
          (decide (b.Required = some true))
          (clientName ++ methodName ++ "Request".toList) hg
        simp only [resolveRequestBodyType, h1, h2]
        cases o with
        | none => exact ⟨none, rfl, rfl⟩
        | some t => exact ⟨some _, rfl, rfl⟩

theorem responseTypeForResponse_plain (L : Library) (fuel : Nat) {g₁ g₂ : Generator}
    (hg : Generator.SameTypes g₁ g₂) (resp : Response) (inlineBase : Str)
    (hp : ContentPlain resp.Content) :
    UnchangedResult (responseTypeForResponse L fuel g₁ resp inlineBase)
      (responseTypeForResponse L fuel g₂ resp inlineBase) g₁ g₂ := by
  simp only [responseTypeForResponse]
  split
  · exact ⟨some typeInfo.zero, rfl, rfl⟩
  · unfold ContentPlain at hp
    cases hps : preferredSchema resp.Content with
    | none => exact ⟨some typeInfo.zero, rfl, rfl⟩
    | some schemaRef =>
      rw [hps] at hp
      exact resolveInline_plain L fuel (some schemaRef) hp g₁ g₂ true inlineBase hg

theorem responseTypeLoop_plain (L : Library) (fuel : Nat) {g₁ g₂ : Generator}
    (hg : Generator.SameTypes g₁ g₂) (codesMap : List (Str × Response)) (inlineBase : Str)
    (hp : ∀ entry ∈ codesMap, ContentPlain entry.2.Content) (codes : List Str) :
    UnchangedResult (responseTypeLoop L fuel codesMap inlineBase codes g₁)
      (responseTypeLoop L fuel codesMap inlineBase codes g₂) g₁ g₂ := by
  induction codes with
  | nil => exact ⟨some none, rfl, rfl⟩
  | cons code rest ih =>
    simp only [responseTypeLoop]
    split
    · exact ih
    · cases hget : getOrZero codesMap code with
      | none => exact ih
      | some resp =>
        obtain ⟨o, h1, h2⟩ := responseTypeForResponse_plain L fuel hg resp inlineBase
          (hp _ (getOrZero_mem hget))
        simp only [h1, h2]
        cases o with
        | none => exact ⟨none, rfl, rfl⟩
        | some info =>
          simp only [Option.map_some']
          split
          · exact ⟨some (some info), rfl, rfl⟩
          · exact ih

theorem resolveResponseType_plain (L : Library) (fuel : Nat) {g₁ g₂ : Generator}
    (hg : Generator.SameTypes g₁ g₂) (op : Operation) (clientName methodName : Str)
    (hp : Operation.Plain op) :
    UnchangedResult (resolveResponseType L fuel g₁ op clientName methodName)
      (resolveResponseType L fuel g₂ op clientName methodName) g₁ g₂ := by
  simp only [resolveResponseType]
  cases hr : op.Responses with
  | none => exact ⟨some _, rfl, rfl⟩
  | some responses =>
    obtain ⟨hcodes, hdef⟩ := hp.2 responses hr
    simp only
    split
    · exact ⟨some _, rfl, rfl⟩
    · obtain ⟨o, h1, h2⟩ := responseTypeLoop_plain L fuel hg responses.Codes
        (clientName ++ methodName ++ "Response".toList) hcodes
        (sortStrings (keysFromOldest responses.Codes))
      simp only [h1, h2]
      cases o with
      | none => exact ⟨none, rfl, rfl⟩
      | some found =>
        cases found with
        | some info => exact ⟨some info, rfl, rfl⟩
        | none =>
          simp only [Option.map_some']
          cases hd : responses.Default with
          | none => exact ⟨some _, rfl, rfl⟩
          | some resp =>
            obtain ⟨o', h3, h4⟩ := responseTypeForResponse_plain L fuel hg resp
              (clientName ++ methodName ++ "ResponseDefault".toList) (hdef resp hd)
            simp only [h3, h4]
            cases o' with
            | none => exact ⟨none, rfl, rfl⟩
            | some info =>
              simp only [Option.map_some']
              split
              · exact ⟨some info, rfl, rfl⟩
              · exact ⟨some _, rfl, rfl⟩

theorem resolveInline_emptyBase (L : Library) (fuel : Nat) {g₁ g₂ : Generator}
    (hg : Generator.SameTypes g₁ g₂) (p : Option SchemaProxy) (required : Bool) :
    UnchangedResult (resolveInlineSchemaType L fuel g₁ p required [])
      (resolveInlineSchemaType L fuel g₂ p required []) g₁ g₂ := by
  cases fuel with
  | zero => exact ⟨none, rfl, rfl⟩
  | succ fuel =>
    cases p with
    | none => exact ⟨some _, rfl, rfl⟩
    | some p =>
      simp only [resolveInlineSchemaType, resolveInlineStep]
      rw [if_neg (by simp)]
      exact unchanged_of_resolveType L hg fuel _ required

theorem responseModeForResponse_unchanged (L : Library) (fuel : Nat) {g₁ g₂ : Generator}
    (hg : Generator.SameTypes g₁ g₂) (resp : Response) :
    UnchangedResult (responseModeForResponse L fuel g₁ resp)
      (responseModeForResponse L fuel g₂ resp) g₁ g₂ := by
  simp only [responseModeForResponse]
  split
  · exact ⟨some _, rfl, rfl⟩
  · cases preferredSchema resp.Content with
    | none =>
      simp only
      split
      · exact ⟨some _, rfl, rfl⟩
      · exact ⟨some _, rfl, rfl⟩
    | some schemaRef =>
      obtain ⟨o, h1, h2⟩ := resolveInline_emptyBase L fuel hg (some schemaRef) true
      simp only [h1, h2]
      cases o with
      | none => exact ⟨none, rfl, rfl⟩
      | some t =>
        simp only [Option.map_some']
        split
        · exact ⟨some _, rfl, rfl⟩
        · split
          · split
            · exact ⟨some _, rfl, rfl⟩
            · exact ⟨some _, rfl, rfl⟩
          · exact ⟨some _, rfl, rfl⟩

theorem resolveResponseMode_unchanged (L : Library) (fuel : Nat) {g₁ g₂ : Generator}
    (hg : Generator.SameTypes g₁ g₂) (op : Operation) :
    UnchangedResult (resolveResponseMode L fuel g₁ op) (resolveResponseMode L fuel g₂ op)
      g₁ g₂ := by
  simp only [resolveResponseMode]
  cases op.Responses with
  | none => exact ⟨some _, rfl, rfl⟩
  | some responses =>
    simp only
    split
    · exact ⟨some _, rfl, rfl⟩
    · cases firstSuccessCode (sortStrings (keysFromOldest responses.Codes)) with
      | some code =>
        simp only
        cases getOrZero responses.Codes code with
        | some resp => exact responseModeForResponse_unchanged L fuel hg resp
        | none => exact ⟨some _, rfl, rfl⟩
      | none =>
        simp only
        cases responses.Default with
        | some resp => exact responseModeForResponse_unchanged L fuel hg resp
        | none => exact ⟨some _, rfl, rfl⟩

theorem sameResult_of_unchanged {α : Type} {r₁ r₂ : Option (α × Generator)}
    {g₁ g₂ : Generator} (hg : Generator.SameTypes g₁ g₂) (h : UnchangedResult r₁ r₂ g₁ g₂) :
    SameResult r₁ r₂ := by
  obtain ⟨o, h1, h2⟩ := h
  rw [h1, h2]
  cases o with
  | none => trivial
  | some a => exact ⟨rfl, hg⟩

theorem addErrorModel_sameTypes {g₁ g₂ : Generator} (hg : Generator.SameTypes g₁ g₂)
    (name : Str) : Generator.SameTypes (g₁.addErrorModel name) (g₂.addErrorModel name) :=
  ⟨hg.1, hg.2⟩

theorem errorResponseForCode_plain (L : Library) (fuel : Nat) {g₁ g₂ : Generator}
    (hg : Generator.SameTypes g₁ g₂) (resp : Response) (code clientName methodName : Str)
    (hp : ContentPlain resp.Content) :
    SameResult (errorResponseForCode L fuel g₁ resp code clientName methodName)
      (errorResponseForCode L fuel g₂ resp code clientName methodName) := by
  obtain ⟨o, h1, h2⟩ := responseTypeForResponse_plain L fuel hg resp
    (clientName ++ methodName ++ "Error".toList ++ statusCodeSuffix L.unicode code) hp
  simp only [errorResponseForCode, h1, h2]
  cases o with
  | none => trivial
  | some info =>
    simp only [Option.map_some']
    split
    · exact ⟨rfl, hg⟩
    · have hg' : Generator.SameTypes
          (if trimSuffixQ info.TypeName ≠ [] then g₁.addErrorModel (trimSuffixQ info.TypeName)
            else g₁)
          (if trimSuffixQ info.TypeName ≠ [] then g₂.addErrorModel (trimSuffixQ info.TypeName)
            else g₂) := by
        split
        · exact addErrorModel_sameTypes hg _
        · exact hg
      split
      · exact ⟨rfl, hg'⟩
      · exact ⟨rfl, hg'⟩

theorem resolveDefaultErrorResponse_plain (L : Library) (fuel : Nat) {g₁ g₂ : Generator}
    (hg : Generator.SameTypes g₁ g₂) (resp : Response) (clientName methodName : Str)
    (hp : ContentPlain resp.Content) :
    SameResult (resolveDefaultErrorResponse L fuel g₁ resp clientName methodName)
      (resolveDefaultErrorResponse L fuel g₂ resp clientName methodName) := by
  have h := errorResponseForCode_plain L fuel hg resp "default".toList clientName methodName hp
  simp only [resolveDefaultErrorResponse]
  rcases h1 : errorResponseForCode L fuel g₁ resp "default".toList clientName methodName
      with _ | ⟨a₁, g₁'⟩ <;>
    rcases h2 : errorResponseForCode L fuel g₂ resp "default".toList clientName methodName
      with _ | ⟨a₂, g₂'⟩ <;>
    simp only [h1, h2, SameResult] at h
  · trivial
  · obtain ⟨ha, hg'⟩ := h
    subst ha
    cases a₁ with
    | none => exact ⟨rfl, hg'⟩
    | some parsed => exact ⟨rfl, hg'⟩

theorem errorResponsesLoop_plain (L : Library) (fuel : Nat) (codesMap : List (Str × Response))
    (clientName methodName : Str) (hp : ∀ entry ∈ codesMap, ContentPlain entry.2.Content)
    (codes : List Str) :
    ∀ (g₁ g₂ : Generator) responses, Generator.SameTypes g₁ g₂ →
      SameResult (errorResponsesLoop L fuel codesMap clientName methodName codes g₁ responses)
        (errorResponsesLoop L fuel codesMap clientName methodName codes g₂ responses) := by
  induction codes with
  | nil => intro g₁ g₂ responses hg; exact ⟨rfl, hg⟩
  | cons code rest ih =>
    intro g₁ g₂ responses hg
    simp only [errorResponsesLoop]
    split
    · exact ih g₁ g₂ responses hg
    · cases hget : getOrZero codesMap code with
      | none => exact ih g₁ g₂ responses hg
      | some resp =>
        have h := errorResponseForCode_plain L fuel hg resp code clientName methodName
          (hp _ (getOrZero_mem hget))
        simp only
        rcases h1 : errorResponseForCode L fuel g₁ resp code clientName methodName
            with _ | ⟨a₁, g₁'⟩ <;>
          rcases h2 : errorResponseForCode L fuel g₂ resp code clientName methodName
            with _ | ⟨a₂, g₂'⟩ <;>
          simp only [h1, h2, SameResult] at h
        · trivial
        · obtain ⟨ha, hg'⟩ := h
          subst ha
          cases a₁ with
          | none => exact ih g₁' g₂' responses hg'
          | some parsed => exact ih g₁' g₂' _ hg'

theorem resolveErrorResponses_plain (L : Library) (fuel : Nat) {g₁ g₂ : Generator}
    (hg : Generator.SameTypes g₁ g₂) (op : Operation) (clientName methodName : Str)
    (hp : Operation.Plain op) :
    SameResult (resolveErrorResponses L fuel g₁ op clientName methodName)
      (resolveErrorResponses L fuel g₂ op clientName methodName) := by
  simp only [resolveErrorResponses]
  cases hr : op.Responses with
  | none => exact ⟨rfl, hg⟩
  | some responses =>
    obtain ⟨hcodes, hdef⟩ := hp.2 responses hr
    simp only
    split
    · cases hd : responses.Default with
      | none => exact ⟨rfl, hg⟩
      | some resp =>
        exact resolveDefaultErrorResponse_plain L fuel hg resp clientName methodName
          (hdef resp hd)
    · have h := errorResponsesLoop_plain L fuel responses.Codes clientName methodName hcodes
        (sortStrings (keysFromOldest responses.Codes)) g₁ g₂ [] hg
      rcases h1 : errorResponsesLoop L fuel responses.Codes clientName methodName
          (sortStrings (keysFromOldest responses.Codes)) g₁ [] with _ | ⟨a₁, g₁'⟩ <;>
        rcases h2 : errorResponsesLoop L fuel responses.Codes clientName methodName
          (sortStrings (keysFromOldest responses.Codes)) g₂ [] with _ | ⟨a₂, g₂'⟩ <;>
        simp only [h1, h2, SameResult] at h
      · trivial
      · obtain ⟨ha, hg'⟩ := h
        subst ha
        simp only
        cases hd : responses.Default with
        | none => exact ⟨rfl, hg'⟩
        | some resp =>
          have h' := resolveDefaultErrorResponse_plain L fuel hg' resp clientName methodName
            (hdef resp hd)
          simp only
          rcases h3 : resolveDefaultErrorResponse L fuel g₁' resp clientName methodName
              with _ | ⟨b₁, g₁''⟩ <;>
            rcases h4 : resolveDefaultErrorResponse L fuel g₂' resp clientName methodName
              with _ | ⟨b₂, g₂''⟩ <;>
            simp only [h3, h4, SameResult] at h'
          · trivial
          · exact ⟨by rw [h'.1], h'.2⟩

theorem buildOperation_plain (L : Library) (fuel : Nat) {g₁ g₂ : Generator}
    (hg : Generator.SameTypes g₁ g₂) (path method methodName clientName : Str)
    (op : Operation) (pathItem : PathItem) (hp : Operation.Plain op) :
    SameResult (buildOperation L fuel g₁ path method methodName clientName op pathItem)
      (buildOperation L fuel g₂ path method methodName clientName op pathItem) := by
  simp only [buildOperation, collectParameters_sameTypes L hg fuel]
  cases collectParameters L fuel g₂ (mergeParameters pathItem.Parameters op.Parameters) {} with
  | none => trivial
  | some lists =>
    obtain ⟨ob, b1, b2⟩ := buildRequestBody_plain L fuel hg clientName methodName
      op.RequestBody hp.1
    simp only [b1, b2]
    cases ob with
    | none => trivial
    | some body =>
      obtain ⟨ot, t1, t2⟩ := resolveResponseType_plain L fuel hg op clientName methodName hp
      simp only [Option.map_some', t1, t2]
      cases ot with
      | none => trivial
      | some responseInfo =>
        obtain ⟨om, m1, m2⟩ := resolveResponseMode_unchanged L fuel hg op
        simp only [Option.map_some', m1, m2]
        cases om with
        | none => trivial
        | some responseMode =>
          have he := resolveErrorResponses_plain L fuel hg op clientName methodName hp
          simp only [Option.map_some']
          rcases e1 : resolveErrorResponses L fuel g₁ op clientName methodName
              with _ | ⟨a₁, g₁'⟩ <;>
            rcases e2 : resolveErrorResponses L fuel g₂ op clientName methodName
              with _ | ⟨a₂, g₂'⟩ <;>
            simp only [e1, e2, SameResult] at he
          · trivial
          · obtain ⟨ha, hg'⟩ := he
            subst ha
            exact ⟨rfl, hg'⟩

end SumUp

namespace SumUp

/-! ## Independence of the declaration order: `buildClients` -/

theorem runClientsWork_append (L : Library) (fuel : Nat) (ws₁ ws₂ : List clientsWork) :
    ∀ st, runClientsWork L fuel (ws₁ ++ ws₂) st =
      match runClientsWork L fuel ws₁ st with
      | none => none
      | some st => runClientsWork L fuel ws₂ st := by
  induction ws₁ with
  | nil => intro st; rfl
  | cons w ws ih =>
    intro st
    simp only [List.cons_append, runClientsWork]
    cases buildClientsStep L fuel st w.rawPath w.pathItem w.methodName w.operation with
    | none => rfl
    | some st' => exact ih st'

theorem buildClientsOperations_eq (L : Library) (fuel : Nat) (rawPath : Str)
    (pathItem : PathItem) (ops : List (Str × Operation)) :
    ∀ st, buildClientsOperations L fuel rawPath pathItem ops st =
      runClientsWork L fuel
        (ops.map (fun mo =>
          { rawPath := rawPath, pathParameters := pathItem.Parameters,
            methodName := mo.1, operation := mo.2 })) st := by
  induction ops with
  | nil => intro st; rfl
  | cons mo rest ih =>
    intro st
    obtain ⟨m, op⟩ := mo
    simp only [buildClientsOperations, List.map_cons, runClientsWork]
    have hstep : buildClientsStep L fuel st rawPath pathItem m op
        = buildClientsStep L fuel st rawPath
            (clientsWork.pathItem
              { rawPath := rawPath, pathParameters := pathItem.Parameters,
                methodName := m, operation := op }) m op := rfl
    rw [← hstep]
    cases buildClientsStep L fuel st rawPath pathItem m op with
    | none => rfl
    | some st' => exact ih st'

theorem buildClientsPaths_eq (L : Library) (fuel : Nat) (paths : List (Str × PathItem)) :
    ∀ st, buildClientsPaths L fuel paths st
      = runClientsWork L fuel (clientsWorkList paths) st := by
  induction paths with
  | nil => intro st; rfl
  | cons entry rest ih =>
    intro st
    obtain ⟨rawPath, pathItem⟩ := entry
    simp only [buildClientsPaths, clientsWorkList, List.flatMap_cons]
    rw [runClientsWork_append, buildClientsOperations_eq]
    cases runClientsWork L fuel _ st with
    | none => rfl
    | some st' => exact ih st'

theorem clientsWorkList_perm {paths₁ paths₂ : List (Str × PathItem)}
    (h : PathsReordered paths₁ paths₂) :
    (clientsWorkList paths₁).Perm (clientsWorkList paths₂) := by
  obtain ⟨mid, hp, hf⟩ := h
  refine (List.Perm.flatMap_right _ hp).trans ?_
  clear hp
  induction hf with
  | nil => exact List.Perm.refl _
  | cons hab _ ih =>
    rename_i a b l₁ l₂
    obtain ⟨h1, h2, h3⟩ := hab
    simp only [List.flatMap_cons]
    refine List.Perm.append ?_ ih
    rw [h1, h2]
    exact h3.map _

theorem pathsReordered_length {paths₁ paths₂ : List (Str × PathItem)}
    (h : PathsReordered paths₁ paths₂) : paths₁.length = paths₂.length := by
  obtain ⟨mid, hp, hf⟩ := h
  rw [hp.length_eq, hf.length_eq]

theorem workEntries_perm (L : Library) (fuel : Nat) (g : Generator)
    {ws₁ ws₂ : List clientsWork} (h : ws₁.Perm ws₂) :
    match workEntries L fuel g ws₁, workEntries L fuel g ws₂ with
    | none, none => True
    | some es₁, some es₂ => es₁.Perm es₂
    | _, _ => False := by
  induction h with
  | nil => exact List.Perm.refl _
  | cons w _ ih =>
    rename_i l₁ l₂ _
    simp only [workEntries]
    cases workEntry L fuel g w with
    | none => trivial
    | some e =>
      cases h1 : workEntries L fuel g l₁ <;> cases h2 : workEntries L fuel g l₂ <;>
        simp only [h1, h2] at ih
      · trivial
      · exact ih.cons e
  | swap a b l =>
    simp only [workEntries]
    cases workEntry L fuel g a <;> cases workEntry L fuel g b <;>
      cases workEntries L fuel g l <;> simp only
    exact List.Perm.swap _ _ _
  | trans _ _ ih₁ ih₂ =>
    rename_i l₁ l₂ l₃ _ _
    cases h1 : workEntries L fuel g l₁ <;> cases h2 : workEntries L fuel g l₂ <;>
      cases h3 : workEntries L fuel g l₃ <;> simp only [h1, h2, h3] at ih₁ ih₂ ⊢
    exact ih₁.trans ih₂

end SumUp

namespace SumUp

/-! ### The map of clients -/

theorem insertionSort_eq_of_perm_key {α : Type} (key : α → Str) {l₁ l₂ : List α}
    (h : l₁.Perm l₂) (hn : (l₁.map key).Nodup) :
    l₁.insertionSort (fun a b => key a ≤ key b)
      = l₂.insertionSort (fun a b => key a ≤ key b) := by
  haveI : IsTotal α (fun a b => key a ≤ key b) := ⟨fun a b => le_total (key a) (key b)⟩
  haveI : IsTrans α (fun a b => key a ≤ key b) := ⟨fun _ _ _ h₁ h₂ => le_trans h₁ h₂⟩
  haveI : IsAntisymm α (fun a b => key a < key b) :=
    ⟨fun _ _ h₁ h₂ => absurd h₁ (lt_asymm h₂)⟩
  have hs : ∀ l : List α, (l.map key).Nodup →
      List.Sorted (fun a b => key a < key b)
        (l.insertionSort (fun a b => key a ≤ key b)) := by
    intro l hl
    have h1 := List.sorted_insertionSort (fun a b => key a ≤ key b) l
    have h2 : ((l.insertionSort (fun a b => key a ≤ key b)).map key).Nodup :=
      ((List.perm_insertionSort _ l).map key).nodup_iff.mpr hl
    rw [List.Nodup, List.pairwise_map] at h2
    exact (List.Pairwise.and h1 h2).imp (fun hab => lt_of_le_of_ne hab.1 hab.2)
  exact List.eq_of_perm_of_sorted
    (((List.perm_insertionSort _ l₁).trans h).trans (List.perm_insertionSort _ l₂).symm)
    (hs l₁ hn) (hs l₂ ((h.map key).nodup_iff.mp hn))

theorem addOperation_nil (created : clientTemplateData) (method : operationTemplateData) :
    addOperation [] created method = [created.withOperation method] := rfl

theorem addOperation_cons (ct : clientTemplateData) (rest : List clientTemplateData)
    (created : clientTemplateData) (method : operationTemplateData) :
    addOperation (ct :: rest) created method
      = if ct.ClientName = created.ClientName then ct.withOperation method :: rest
        else ct :: addOperation rest created method := rfl

theorem withOperation_ClientName (ct : clientTemplateData) (method : operationTemplateData) :
    (ct.withOperation method).ClientName = ct.ClientName := rfl

theorem addOperation_names (created : clientTemplateData) (method : operationTemplateData) :
    ∀ clientMap : List clientTemplateData,
      (addOperation clientMap created method).map (fun ct => ct.ClientName)
        = if created.ClientName ∈ clientMap.map (fun ct => ct.ClientName)
          then clientMap.map (fun ct => ct.ClientName)
          else clientMap.map (fun ct => ct.ClientName) ++ [created.ClientName] := by
  intro clientMap
  induction clientMap with
  | nil => simp [addOperation_nil, withOperation_ClientName]
  | cons ct rest ih =>
    rw [addOperation_cons]
    by_cases h : ct.ClientName = created.ClientName
    · simp [h, withOperation_ClientName]
    · rw [if_neg h, List.map_cons, ih]
      have h' : ¬ created.ClientName = ct.ClientName := fun e => h e.symm
      by_cases hm : created.ClientName ∈ rest.map (fun ct => ct.ClientName)
      · simp only [List.map_cons, List.mem_cons, hm, or_true, if_true]
      · simp only [List.map_cons, List.mem_cons, hm, h', or_self, if_false, List.cons_append]

theorem addOperation_nodup (created : clientTemplateData) (method : operationTemplateData)
    (clientMap : List clientTemplateData)
    (h : (clientMap.map (fun ct => ct.ClientName)).Nodup) :
    ((addOperation clientMap created method).map (fun ct => ct.ClientName)).Nodup := by
  rw [addOperation_names]
  split
  · exact h
  · rename_i hm
    exact List.Nodup.append h (List.nodup_singleton _) (by simpa using hm)

theorem mem_addOperation (created : clientTemplateData) (method : operationTemplateData) :
    ∀ clientMap : List clientTemplateData,
      (clientMap.map (fun ct => ct.ClientName)).Nodup → ∀ x,
      (x ∈ addOperation clientMap created method ↔
        (∃ ct ∈ clientMap, ct.ClientName = created.ClientName ∧ x = ct.withOperation method) ∨
        (x ∈ clientMap ∧ x.ClientName ≠ created.ClientName) ∨
        ((∀ ct ∈ clientMap, ct.ClientName ≠ created.ClientName) ∧
          x = created.withOperation method)) := by
  intro clientMap
  induction clientMap with
  | nil => intro _ x; simp [addOperation_nil]
  | cons ct rest ih =>
    intro hn x
    rw [List.map_cons, List.nodup_cons] at hn
    rw [addOperation_cons]
    by_cases h : ct.ClientName = created.ClientName
    · rw [if_pos h]
      have hrest : ∀ y ∈ rest, y.ClientName ≠ created.ClientName := by
        intro y hy e
        exact hn.1 (List.mem_map.mpr ⟨y, hy, e.trans h.symm⟩)
      constructor
      · intro hx
        rcases List.mem_cons.mp hx with hx | hx
        · exact Or.inl ⟨ct, List.mem_cons_self _ _, h, hx⟩
        · exact Or.inr (Or.inl ⟨List.mem_cons_of_mem _ hx, hrest x hx⟩)
      · rintro (⟨y, hy, hyc, rfl⟩ | ⟨hx, hxc⟩ | ⟨hall, _⟩)
        · rcases List.mem_cons.mp hy with hy | hy
          · subst hy; exact List.mem_cons_self _ _
          · exact absurd hyc (hrest y hy)
        · rcases List.mem_cons.mp hx with hx | hx
          · subst hx; exact absurd h hxc
          · exact List.mem_cons_of_mem _ hx
        · exact absurd h (hall ct (List.mem_cons_self _ _))
    · rw [if_neg h, List.mem_cons, ih hn.2 x]
      constructor
      · rintro (rfl | ⟨y, hy, hyc, rfl⟩ | ⟨hx, hxc⟩ | ⟨hall, rfl⟩)
        · exact Or.inr (Or.inl ⟨List.mem_cons_self _ _, h⟩)
        · exact Or.inl ⟨y, List.mem_cons_of_mem _ hy, hyc, rfl⟩
        · exact Or.inr (Or.inl ⟨List.mem_cons_of_mem _ hx, hxc⟩)
        · refine Or.inr (Or.inr ⟨?_, rfl⟩)
          intro y hy
          rcases List.mem_cons.mp hy with hy | hy
          · subst hy; exact h
          · exact hall y hy
      · rintro (⟨y, hy, hyc, rfl⟩ | ⟨hx, hxc⟩ | ⟨hall, rfl⟩)
        · rcases List.mem_cons.mp hy with hy | hy
          · subst hy; exact absurd hyc h
          · exact Or.inr (Or.inl ⟨y, hy, hyc, rfl⟩)
        · rcases List.mem_cons.mp hx with hx | hx
          · exact Or.inl hx
          · exact Or.inr (Or.inr (Or.inl ⟨hx, hxc⟩))
        · exact Or.inr (Or.inr (Or.inr
            ⟨fun y hy => hall y (List.mem_cons_of_mem _ hy), rfl⟩))

theorem operationsFor_append_ne {c c' : Str} (h : c' ≠ c)
    (es : List (Str × operationTemplateData)) (method : operationTemplateData) :
    operationsFor c' (es ++ [(c, method)]) = operationsFor c' es := by
  have h' : ¬ c = c' := fun e => h e.symm
  simp [operationsFor, List.filter_append, List.filter_cons, h']

theorem operationsFor_append_self (c : Str)
    (es : List (Str × operationTemplateData)) (method : operationTemplateData) :
    operationsFor c (es ++ [(c, method)]) = operationsFor c es ++ [method] := by
  simp [operationsFor, List.filter_append, List.filter_cons]

theorem operationsFor_of_not_mem {c : Str} {es : List (Str × operationTemplateData)}
    (h : c ∉ es.map Prod.fst) : operationsFor c es = [] := by
  unfold operationsFor
  rw [List.map_eq_nil_iff, List.filter_eq_nil_iff]
  intro e he hc
  exact h (List.mem_map.mpr ⟨e, he, of_decide_eq_true hc⟩)

theorem clientOf_append_ne (ns : Str) {c c' : Str} (h : c' ≠ c)
    (es : List (Str × operationTemplateData)) (method : operationTemplateData) :
    clientOf ns c' (es ++ [(c, method)]) = clientOf ns c' es := by
  unfold clientOf
  rw [operationsFor_append_ne h]

theorem clientOf_append_self (ns c : Str)
    (es : List (Str × operationTemplateData)) (method : operationTemplateData) :
    clientOf ns c (es ++ [(c, method)]) = (clientOf ns c es).withOperation method := by
  unfold clientOf clientTemplateData.withOperation
  rw [operationsFor_append_self]
  simp [List.any_append]

theorem clientOf_ClientName (ns c : Str) (es : List (Str × operationTemplateData)) :
    (clientOf ns c es).ClientName = c := rfl

theorem created_withOperation (ns : Str) {c : Str}
    {es : List (Str × operationTemplateData)} (h : c ∉ es.map Prod.fst)
    (method : operationTemplateData) :
    clientTemplateData.withOperation
        { Namespace := ns, ClientName := c, PropertyName := c } method
      = (clientOf ns c es).withOperation method := by
  unfold clientOf clientTemplateData.withOperation
  rw [operationsFor_of_not_mem h]
  rfl

theorem clientMapHolds_nil (ns : Str) : ClientMapHolds ns [] [] := by
  refine ⟨List.nodup_nil, ?_⟩
  intro ct
  simp

theorem clientMapHolds_add (ns c : Str) {clientMap : List clientTemplateData}
    {es : List (Str × operationTemplateData)} (method : operationTemplateData)
    (h : ClientMapHolds ns clientMap es) :
    ClientMapHolds ns
      (addOperation clientMap { Namespace := ns, ClientName := c, PropertyName := c } method)
      (es ++ [(c, method)]) := by
  obtain ⟨hn, hm⟩ := h
  refine ⟨addOperation_nodup _ _ _ hn, ?_⟩
  intro x
  rw [mem_addOperation _ _ _ hn]
  have hkeys : ∀ c', c' ∈ (es ++ [(c, method)]).map Prod.fst ↔ (c' ∈ es.map Prod.fst ∨ c' = c) := by
    intro c'
    rw [List.map_append, List.mem_append, List.map_cons, List.map_nil, List.mem_singleton]
  have hnone : c ∉ es.map Prod.fst → ∀ ct ∈ clientMap, ct.ClientName ≠ c := by
    intro hc ct hct e
    obtain ⟨c', hc', rfl⟩ := (hm ct).mp hct
    rw [clientOf_ClientName] at e
    exact hc (e ▸ hc')
  constructor
  · rintro (⟨ct, hct, hname, rfl⟩ | ⟨hx, hxc⟩ | ⟨hall, rfl⟩)
    · obtain ⟨c', _, rfl⟩ := (hm ct).mp hct
      have e : c' = c := hname
      subst e
      exact ⟨c', (hkeys c').mpr (Or.inr rfl), (clientOf_append_self ns c' es method).symm⟩
    · obtain ⟨c', hc', rfl⟩ := (hm x).mp hx
      have e : c' ≠ c := hxc
      exact ⟨c', (hkeys c').mpr (Or.inl hc'), (clientOf_append_ne ns e es method).symm⟩
    · have hc : c ∉ es.map Prod.fst := by
        intro hc
        exact hall (clientOf ns c es) ((hm _).mpr ⟨c, hc, rfl⟩) rfl
      refine ⟨c, (hkeys c).mpr (Or.inr rfl), ?_⟩
      rw [clientOf_append_self, created_withOperation ns hc]
  · rintro ⟨c', hc', rfl⟩
    by_cases e : c' = c
    · subst e
      rw [clientOf_append_self]
      by_cases hc : c' ∈ es.map Prod.fst
      · exact Or.inl ⟨clientOf ns c' es, (hm _).mpr ⟨c', hc, rfl⟩, rfl, rfl⟩
      · exact Or.inr (Or.inr ⟨hnone hc, (created_withOperation ns hc method).symm⟩)
    · rcases (hkeys c').mp hc' with hc | hc
      · rw [clientOf_append_ne ns e]
        exact Or.inr (Or.inl ⟨(hm _).mpr ⟨c', hc, rfl⟩, e⟩)
      · exact absurd hc e

end SumUp

namespace SumUp

/-! ### The loops of `buildClients` over operations without inline models -/

theorem buildOperation_MethodName (L : Library) (fuel : Nat) (g : Generator)
    (path method methodName clientName : Str) (op : Operation) (pathItem : PathItem)
    {r : operationTemplateData} {g' : Generator}
    (h : buildOperation L fuel g path method methodName clientName op pathItem = some (r, g')) :
    r.MethodName = methodName := by
  unfold buildOperation at h
  dsimp only at h
  split at h
  · cases h
  split at h
  · cases h
  split at h
  · cases h
  split at h
  · cases h
  split at h
  · cases h
  simp only [Option.some.injEq, Prod.mk.injEq] at h
  rw [← h.1]

theorem workEntry_key (L : Library) (fuel : Nat) (g : Generator) (w : clientsWork)
    {e : Str × operationTemplateData} (h : workEntry L fuel g w = some e) :
    entryKey e = w.key L := by
  unfold workEntry at h
  split at h
  · cases h
  · rename_i method g' hb
    simp only [Option.some.injEq] at h
    subst h
    simp only [entryKey, clientsWork.key]
    rw [buildOperation_MethodName L fuel g _ _ _ _ _ _ hb]

theorem workEntries_keys (L : Library) (fuel : Nat) (g : Generator) :
    ∀ (ws : List clientsWork) (es : List (Str × operationTemplateData)),
      workEntries L fuel g ws = some es → es.map entryKey = ws.map (clientsWork.key L) := by
  intro ws
  induction ws with
  | nil =>
    intro es h
    simp only [workEntries, Option.some.injEq] at h
    subst h
    rfl
  | cons w ws ih =>
    intro es h
    simp only [workEntries] at h
    cases h1 : workEntry L fuel g w with
    | none => simp only [h1] at h; cases h
    | some e =>
      cases h2 : workEntries L fuel g ws with
      | none => simp only [h1, h2] at h; cases h
      | some es' =>
        simp only [h1, h2, Option.some.injEq] at h
        subst h
        simp only [List.map_cons]
        rw [workEntry_key L fuel g w h1, ih es' h2]

theorem keepsTypes_some {α : Type} {a : α} {g' g : Generator}
    (h : Generator.SameTypes g' g) : KeepsTypes (some (a, g')) g := by
  intro b g'' e
  simp only [Option.some.injEq, Prod.mk.injEq] at e
  rw [← e.2]
  exact h

theorem keepsTypes_none {α : Type} (g : Generator) :
    KeepsTypes (none : Option (α × Generator)) g := by
  intro b g'' e
  cases e

theorem keepsTypes_trans {α : Type} {r : Option (α × Generator)} {g' g : Generator}
    (h : KeepsTypes r g') (hg : Generator.SameTypes g' g) : KeepsTypes r g :=
  fun a g'' e => ⟨(h a g'' e).1.trans hg.1, (h a g'' e).2.trans hg.2⟩

theorem errorResponseForCode_keeps (L : Library) (fuel : Nat) (g : Generator)
    (resp : Response) (code clientName methodName : Str) (hp : ContentPlain resp.Content) :
    KeepsTypes (errorResponseForCode L fuel g resp code clientName methodName) g := by
  obtain ⟨o, h1, _⟩ := responseTypeForResponse_plain L fuel (sameTypes_refl g) resp
    (clientName ++ methodName ++ "Error".toList ++ statusCodeSuffix L.unicode code) hp
  simp only [errorResponseForCode, h1]
  cases o with
  | none => exact keepsTypes_none g
  | some info =>
    simp only [Option.map_some']
    split
    · exact keepsTypes_some (sameTypes_refl g)
    · have hg' : Generator.SameTypes
          (if trimSuffixQ info.TypeName ≠ [] then g.addErrorModel (trimSuffixQ info.TypeName)
            else g) g := by
        split
        · exact ⟨rfl, rfl⟩
        · exact sameTypes_refl g
      split
      · exact keepsTypes_some hg'
      · exact keepsTypes_some hg'

theorem resolveDefaultErrorResponse_keeps (L : Library) (fuel : Nat) (g : Generator)
    (resp : Response) (clientName methodName : Str) (hp : ContentPlain resp.Content) :
    KeepsTypes (resolveDefaultErrorResponse L fuel g resp clientName methodName) g := by
  have h := errorResponseForCode_keeps L fuel g resp "default".toList clientName methodName hp
  simp only [resolveDefaultErrorResponse]
  rcases h1 : errorResponseForCode L fuel g resp "default".toList clientName methodName
      with _ | ⟨a, g'⟩
  · exact keepsTypes_none g
  · cases a with
    | none => exact keepsTypes_some (h _ _ h1)
    | some parsed => exact keepsTypes_some (h _ _ h1)

theorem errorResponsesLoop_keeps (L : Library) (fuel : Nat) (codesMap : List (Str × Response))
    (clientName methodName : Str) (hp : ∀ entry ∈ codesMap, ContentPlain entry.2.Content)
    (codes : List Str) :
    ∀ (g : Generator) responses,
      KeepsTypes (errorResponsesLoop L fuel codesMap clientName methodName codes g responses)
        g := by
  induction codes with
  | nil => intro g responses; exact keepsTypes_some (sameTypes_refl g)
  | cons code rest ih =>
    intro g responses
    simp only [errorResponsesLoop]
    split
    · exact ih g responses
    · cases hget : getOrZero codesMap code with
      | none => exact ih g responses
      | some resp =>
        have h := errorResponseForCode_keeps L fuel g resp code clientName methodName
          (hp _ (getOrZero_mem hget))
        simp only
        rcases h1 : errorResponseForCode L fuel g resp code clientName methodName
            with _ | ⟨a, g'⟩
        · exact keepsTypes_none g
        · cases a with
          | none => exact keepsTypes_trans (ih g' responses) (h _ _ h1)
          | some parsed => exact keepsTypes_trans (ih g' _) (h _ _ h1)

theorem resolveErrorResponses_keeps (L : Library) (fuel : Nat) (g : Generator)
    (op : Operation) (clientName methodName : Str) (hp : Operation.Plain op) :
    KeepsTypes (resolveErrorResponses L fuel g op clientName methodName) g := by
  simp only [resolveErrorResponses]
  cases hr : op.Responses with
  | none => exact keepsTypes_some (sameTypes_refl g)
  | some responses =>
    obtain ⟨hcodes, hdef⟩ := hp.2 responses hr
    simp only
    split
    · cases hd : responses.Default with
      | none => exact keepsTypes_some (sameTypes_refl g)
      | some resp =>
        exact resolveDefaultErrorResponse_keeps L fuel g resp clientName methodName
          (hdef resp hd)
    · have h := errorResponsesLoop_keeps L fuel responses.Codes clientName methodName hcodes
        (sortStrings (keysFromOldest responses.Codes)) g []
      rcases h1 : errorResponsesLoop L fuel responses.Codes clientName methodName
          (sortStrings (keysFromOldest responses.Codes)) g [] with _ | ⟨a, g'⟩
      · exact keepsTypes_none g
      · simp only
        cases hd : responses.Default with
        | none => exact keepsTypes_some (h _ _ h1)
        | some resp =>
          have h' := resolveDefaultErrorResponse_keeps L fuel g' resp clientName methodName
            (hdef resp hd)
          simp only
          rcases h3 : resolveDefaultErrorResponse L fuel g' resp clientName methodName
              with _ | ⟨b, g''⟩
          · exact keepsTypes_none g
          · exact keepsTypes_trans (keepsTypes_some (h' _ _ h3)) (h _ _ h1)

theorem buildOperation_keeps (L : Library) (fuel : Nat) (g : Generator)
    (path method methodName clientName : Str) (op : Operation) (pathItem : PathItem)
    (hp : Operation.Plain op) :
    KeepsTypes (buildOperation L fuel g path method methodName clientName op pathItem) g := by
  simp only [buildOperation]
  cases collectParameters L fuel g (mergeParameters pathItem.Parameters op.Parameters) {} with
  | none => exact keepsTypes_none g
  | some lists =>
    obtain ⟨ob, b1, _⟩ := buildRequestBody_plain L fuel (sameTypes_refl g) clientName
      methodName op.RequestBody hp.1
    simp only [b1]
    cases ob with
    | none => exact keepsTypes_none g
    | some body =>
      obtain ⟨ot, t1, _⟩ := resolveResponseType_plain L fuel (sameTypes_refl g) op clientName
        methodName hp
      simp only [Option.map_some', t1]
      cases ot with
      | none => exact keepsTypes_none g
      | some responseInfo =>
        obtain ⟨om, m1, _⟩ := resolveResponseMode_unchanged L fuel (sameTypes_refl g) op
        simp only [Option.map_some', m1]
        cases om with
        | none => exact keepsTypes_none g
        | some responseMode =>
          have he := resolveErrorResponses_keeps L fuel g op clientName methodName hp
          simp only [Option.map_some']
          rcases e1 : resolveErrorResponses L fuel g op clientName methodName
              with _ | ⟨a, g'⟩
          · exact keepsTypes_none g
          · exact keepsTypes_some (he _ _ e1)

theorem buildClientsStep_plain (L : Library) (fuel : Nat) (g₀ : Generator) (st : clientsState)
    (done : List Str) (es : List (Str × operationTemplateData)) (w : clientsWork)
    (hg : Generator.SameTypes st.g g₀)
    (hc : ∀ k, st.nameCounts k ≠ 0 → k ∈ done)
    (hm : ClientMapHolds g₀.config.Namespace st.clientMap es)
    (hk : w.key L ∉ done) (hp : Operation.Plain w.operation) :
    match buildClientsStep L fuel st w.rawPath w.pathItem w.methodName w.operation,
        workEntry L fuel g₀ w with
    | none, none => True
    | some st', some e =>
      Generator.SameTypes st'.g g₀ ∧ (∀ k, st'.nameCounts k ≠ 0 → k ∈ w.key L :: done) ∧
        ClientMapHolds g₀.config.Namespace st'.clientMap (es ++ [e])
    | _, _ => False := by
  have h0 : st.nameCounts (w.key L) = 0 := by
    by_contra hne
    exact hk (hc _ hne)
  have hstep : buildClientsStep L fuel st w.rawPath w.pathItem w.methodName w.operation =
      match buildOperation L fuel st.g w.rawPath (canonicalMethodName L.unicode w.methodName)
          (if st.nameCounts (w.key L) > 0
            then w.pascalName L ++ decimal (st.nameCounts (w.key L) + 1)
            else w.pascalName L)
          (w.clientName L) w.operation w.pathItem with
      | none => none
      | some (method, g) =>
        some { g := g,
               clientMap := addOperation st.clientMap
                 { Namespace := st.g.config.Namespace, ClientName := w.clientName L,
                   PropertyName := w.clientName L } method,
               nameCounts := fun k =>
                 if k = w.key L then st.nameCounts (w.key L) + 1 else st.nameCounts k } := rfl
  rw [hstep, h0, if_neg (Nat.lt_irrefl 0)]
  have hs := buildOperation_plain L fuel hg w.rawPath
    (canonicalMethodName L.unicode w.methodName) (w.pascalName L) (w.clientName L)
    w.operation w.pathItem hp
  unfold workEntry
  rcases h1 : buildOperation L fuel st.g w.rawPath (canonicalMethodName L.unicode w.methodName)
      (w.pascalName L) (w.clientName L) w.operation w.pathItem with _ | ⟨r₁, g₁⟩ <;>
    rcases h2 : buildOperation L fuel g₀ w.rawPath (canonicalMethodName L.unicode w.methodName)
      (w.pascalName L) (w.clientName L) w.operation w.pathItem with _ | ⟨r₂, g₂⟩ <;>
    simp only [h1, h2, SameResult] at hs ⊢
  obtain ⟨hr, hg'⟩ := hs
  subst hr
  have hkeep := buildOperation_keeps L fuel g₀ w.rawPath
    (canonicalMethodName L.unicode w.methodName) (w.pascalName L) (w.clientName L)
    w.operation w.pathItem hp r₁ g₂ h2
  refine ⟨⟨hg'.1.trans hkeep.1, hg'.2.trans hkeep.2⟩, ?_, ?_⟩
  · intro k hk'
    by_cases e : k = w.key L
    · exact e ▸ List.mem_cons_self _ _
    · simp only [if_neg e] at hk'
      exact List.mem_cons_of_mem _ (hc k hk')
  · rw [hg.1]
    exact clientMapHolds_add _ _ r₁ hm

end SumUp

namespace SumUp

theorem runClientsWork_plain (L : Library) (fuel : Nat) (g₀ : Generator) :
    ∀ (ws : List clientsWork) (st : clientsState) (done : List Str)
      (es : List (Str × operationTemplateData)),
      Generator.SameTypes st.g g₀ →
      (∀ k, st.nameCounts k ≠ 0 → k ∈ done) →
      ClientMapHolds g₀.config.Namespace st.clientMap es →
      (ws.map (clientsWork.key L)).Nodup →
      (∀ w ∈ ws, w.key L ∉ done) →
      (∀ w ∈ ws, Operation.Plain w.operation) →
      match runClientsWork L fuel ws st, workEntries L fuel g₀ ws with
      | none, none => True
      | some st', some es' => ClientMapHolds g₀.config.Namespace st'.clientMap (es ++ es')
      | _, _ => False := by
  intro ws
  induction ws with
  | nil =>
    intro st done es _ _ hm _ _ _
    simp only [runClientsWork, workEntries, List.append_nil]
    exact hm
  | cons w ws ih =>
    intro st done es hg hc hm hn hd hp
    rw [List.map_cons, List.nodup_cons] at hn
    have hstep := buildClientsStep_plain L fuel g₀ st done es w hg hc hm
      (hd w (List.mem_cons_self _ _)) (hp w (List.mem_cons_self _ _))
    simp only [runClientsWork, workEntries]
    rcases h1 : buildClientsStep L fuel st w.rawPath w.pathItem w.methodName w.operation
        with _ | st' <;>
      rcases h2 : workEntry L fuel g₀ w with _ | e <;>
      simp only [h1, h2] at hstep
    · trivial
    · obtain ⟨hg', hc', hm'⟩ := hstep
      have hrest := ih st' (w.key L :: done) (es ++ [e]) hg' hc' hm' hn.2
        (by
          intro w' hw' hmem
          rcases List.mem_cons.mp hmem with hmem | hmem
          · exact hn.1 (List.mem_map.mpr ⟨w', hw', hmem⟩)
          · exact hd w' (List.mem_cons_of_mem _ hw') hmem)
        (fun w' hw' => hp w' (List.mem_cons_of_mem _ hw'))
      rcases h3 : runClientsWork L fuel ws st' with _ | st'' <;>
        rcases h4 : workEntries L fuel g₀ ws with _ | es' <;>
        simp only [h3, h4] at hrest ⊢
      rw [List.append_assoc] at hrest
      exact hrest

theorem any_eq_of_perm {α : Type} (f : α → Bool) {l₁ l₂ : List α} (h : l₁.Perm l₂) :
    l₁.any f = l₂.any f := by
  rw [Bool.eq_iff_iff, List.any_eq_true, List.any_eq_true]
  constructor
  · rintro ⟨x, hx, hf⟩
    exact ⟨x, h.mem_iff.mp hx, hf⟩
  · rintro ⟨x, hx, hf⟩
    exact ⟨x, h.mem_iff.mpr hx, hf⟩

theorem operationsFor_perm (c : Str) {es₁ es₂ : List (Str × operationTemplateData)}
    (h : es₁.Perm es₂) : (operationsFor c es₁).Perm (operationsFor c es₂) :=
  (h.filter _).map _

theorem operationsFor_nodup (c : Str) {es : List (Str × operationTemplateData)}
    (hn : (es.map entryKey).Nodup) :
    ((operationsFor c es).map (fun o => o.MethodName)).Nodup := by
  have h1 : ((es.filter (fun e => decide (e.1 = c))).map entryKey).Nodup :=
    hn.sublist ((List.filter_sublist es).map entryKey)
  have h2 : (es.filter (fun e => decide (e.1 = c))).map entryKey
      = ((operationsFor c es).map (fun o => o.MethodName)).map
          (fun m => c ++ ".".toList ++ m) := by
    unfold operationsFor
    rw [List.map_map, List.map_map]
    apply List.map_congr_left
    intro e he
    have hc : e.1 = c := of_decide_eq_true (List.mem_filter.mp he).2
    simp only [entryKey, Function.comp, hc]
  rw [h2] at h1
  exact List.Nodup.of_map _ h1

theorem sortedClient_eq (ns c : Str) {es₁ es₂ : List (Str × operationTemplateData)}
    (hp : es₁.Perm es₂) (hn : (es₁.map entryKey).Nodup) :
    ({ clientOf ns c es₁ with Operations := sortOperations (clientOf ns c es₁).Operations }
        : clientTemplateData)
      = { clientOf ns c es₂ with
          Operations := sortOperations (clientOf ns c es₂).Operations } := by
  have ho := operationsFor_perm c hp
  have hs : sortOperations (operationsFor c es₁) = sortOperations (operationsFor c es₂) :=
    insertionSort_eq_of_perm_key (fun o : operationTemplateData => o.MethodName) ho
      (operationsFor_nodup c hn)
  simp only [clientOf, hs, any_eq_of_perm _ ho]

theorem finishClients_eq (ns : Str) {clientMap₁ clientMap₂ : List clientTemplateData}
    {es₁ es₂ : List (Str × operationTemplateData)}
    (h₁ : ClientMapHolds ns clientMap₁ es₁) (h₂ : ClientMapHolds ns clientMap₂ es₂)
    (hp : es₁.Perm es₂) (hn : (es₁.map entryKey).Nodup) :
    finishClients clientMap₁ = finishClients clientMap₂ := by
  have hnd : ∀ (clientMap : List clientTemplateData),
      (clientMap.map (fun ct => ct.ClientName)).Nodup →
      ((clientMap.map (fun client : clientTemplateData =>
        ({ client with Operations := sortOperations client.Operations }
          : clientTemplateData))).map (fun ct => ct.ClientName)).Nodup := by
    intro clientMap h
    rw [List.map_map]
    exact h
  have hperm : (clientMap₁.map (fun client : clientTemplateData =>
        ({ client with Operations := sortOperations client.Operations }
          : clientTemplateData))).Perm
      (clientMap₂.map (fun client : clientTemplateData =>
        ({ client with Operations := sortOperations client.Operations }
          : clientTemplateData))) := by
    rw [List.perm_ext_iff_of_nodup (List.Nodup.of_map _ (hnd _ h₁.1))
      (List.Nodup.of_map _ (hnd _ h₂.1))]
    intro x
    simp only [List.mem_map]
    constructor
    · rintro ⟨ct, hct, rfl⟩
      obtain ⟨c, hc, rfl⟩ := (h₁.2 ct).mp hct
      refine ⟨clientOf ns c es₂,
        (h₂.2 _).mpr ⟨c, (hp.map Prod.fst).mem_iff.mp hc, rfl⟩, ?_⟩
      exact (sortedClient_eq ns c hp hn).symm
    · rintro ⟨ct, hct, rfl⟩
      obtain ⟨c, hc, rfl⟩ := (h₂.2 ct).mp hct
      refine ⟨clientOf ns c es₁,
        (h₁.2 _).mpr ⟨c, (hp.map Prod.fst).mem_iff.mpr hc, rfl⟩, ?_⟩
      exact sortedClient_eq ns c hp hn
  unfold finishClients sortClients
  exact insertionSort_eq_of_perm_key (fun ct : clientTemplateData => ct.ClientName) hperm
    (hnd _ h₁.1)

/-- C2, amended: `buildClients` returns the same clients for two documents that declare the
same path items and operations in a different order, provided that no two operations of a
client normalize to the same method name (so that no collision suffix is assigned) and that
no request body, response or error response declares an inline structured schema (so that
no inline model name is reserved). This holds for every fuel and every generator, and also
says that the two runs return together. -/
theorem buildClients_order_independent (L : Library) (fuel : Nat) (g : Generator)
    (doc₁ doc₂ : Document) (hr : PathsReordered doc₁.PathItems doc₂.PathItems)
    (hk : ((clientsWorkList doc₁.PathItems).map (clientsWork.key L)).Nodup)
    (hp : ∀ w ∈ clientsWorkList doc₁.PathItems, Operation.Plain w.operation) :
    clientsOutput (buildClients L fuel g doc₁) = clientsOutput (buildClients L fuel g doc₂) := by
  have hlen := pathsReordered_length hr
  have hperm := clientsWorkList_perm hr
  unfold buildClients
  rw [← hlen]
  by_cases h0 : doc₁.PathItems.length = 0
  · rw [if_pos h0, if_pos h0]
  · rw [if_neg h0, if_neg h0, buildClientsPaths_eq, buildClientsPaths_eq]
    have hrun₁ := runClientsWork_plain L fuel g (clientsWorkList doc₁.PathItems)
      { g := g, clientMap := [], nameCounts := fun _ => 0 } [] []
      (sameTypes_refl g) (fun k hne => absurd rfl hne) (clientMapHolds_nil _) hk
      (fun _ _ => List.not_mem_nil _) hp
    have hrun₂ := runClientsWork_plain L fuel g (clientsWorkList doc₂.PathItems)
      { g := g, clientMap := [], nameCounts := fun _ => 0 } [] []
      (sameTypes_refl g) (fun k hne => absurd rfl hne) (clientMapHolds_nil _)
      ((hperm.map _).nodup_iff.mp hk)
      (fun _ _ => List.not_mem_nil _) (fun w hw => hp w (hperm.mem_iff.mpr hw))
    have hes := workEntries_perm L fuel g hperm
    rcases r1 : runClientsWork L fuel (clientsWorkList doc₁.PathItems)
        { g := g, clientMap := [], nameCounts := fun _ => 0 } with _ | st₁ <;>
      rcases r2 : runClientsWork L fuel (clientsWorkList doc₂.PathItems)
        { g := g, clientMap := [], nameCounts := fun _ => 0 } with _ | st₂ <;>
      rcases e1 : workEntries L fuel g (clientsWorkList doc₁.PathItems) with _ | es₁ <;>
      rcases e2 : workEntries L fuel g (clientsWorkList doc₂.PathItems) with _ | es₂ <;>
      simp only [r1, r2, e1, e2] at hrun₁ hrun₂ hes ⊢
    simp only [List.nil_append] at hrun₁ hrun₂
    have hkeys : (es₁.map entryKey).Nodup := by
      rw [workEntries_keys L fuel g _ _ e1]
      exact hk
    simp only [clientsOutput, Option.map_some', Except.map,
      finishClients_eq g.config.Namespace hrun₁ hrun₂ hes hkeys]

end SumUp

namespace SumUp

theorem clientsDigest_of_output
    {r₁ r₂ : Option (Except Str (List clientTemplateData × Generator))}
    (h : clientsOutput r₁ = clientsOutput r₂) : clientsDigest r₁ = clientsDigest r₂ := by
  rcases r₁ with _ | (e₁ | ⟨c₁, g₁⟩) <;> rcases r₂ with _ | (e₂ | ⟨c₂, g₂⟩) <;>
    simp [clientsOutput, Except.map] at h <;> try rfl
  subst h
  rfl

theorem pathsReordered_swap (a b : Str × PathItem) : PathsReordered [a, b] [b, a] :=
  ⟨[b, a], List.Perm.swap _ _ _,
    List.Forall₂.cons ⟨rfl, rfl, List.Perm.refl _⟩
      (List.Forall₂.cons ⟨rfl, rfl, List.Perm.refl _⟩ List.Forall₂.nil)⟩

theorem bareOperation_plain (operationId : Str) : Operation.Plain (bareOperation operationId) :=
  ⟨fun _ h => (by cases h), fun _ h => (by cases h)⟩

theorem collidingPaths₁_digest :
    clientsDigest (buildClients plainLibrary 5 startGenerator collidingPaths₁)
      = some [{ ClientName := "Core".toList,
                Operations := [{ MethodName := "ListItems".toList, Path := "/a".toList,
                                 BodyType := none },
                               { MethodName := "ListItems2".toList, Path := "/b".toList,
                                 BodyType := none }] }] := by
  decide!

theorem collidingPaths₂_digest :
    clientsDigest (buildClients plainLibrary 5 startGenerator collidingPaths₂)
      = some [{ ClientName := "Core".toList,
                Operations := [{ MethodName := "ListItems".toList, Path := "/b".toList,
                                 BodyType := none },
                               { MethodName := "ListItems2".toList, Path := "/a".toList,
                                 BodyType := none }] }] := by
  decide!

theorem collidingHints₁_digest :
    clientsDigest (buildClients plainLibrary 8 startGenerator collidingHints₁)
      = some [{ ClientName := "Core".toList,
                Operations := [{ MethodName := "X".toList, Path := "/x".toList,
                                 BodyType := none },
                               { MethodName := "XResponse".toList, Path := "/y".toList,
                                 BodyType := some "CoreXResponseRequest2?".toList }] }] := by
  decide!

theorem collidingHints₂_digest :
    clientsDigest (buildClients plainLibrary 8 startGenerator collidingHints₂)
      = some [{ ClientName := "Core".toList,
                Operations := [{ MethodName := "X".toList, Path := "/x".toList,
                                 BodyType := none },
                               { MethodName := "XResponse".toList, Path := "/y".toList,
                                 BodyType := some "CoreXResponseRequest?".toList }] }] := by
  decide!

/-- C2, counterexample: `buildClients` depends on the order of declaration. The documents
`collidingPaths₁` and `collidingPaths₂` hold the same two path items in a different order;
the operation identifiers `list_items` and `listItems` both normalize to the method name
`ListItems`, and the suffix `2` goes to the operation that is traversed second, `/b` in one
run and `/a` in the other. The documents
`collidingHints₁` and `collidingHints₂` have distinct method names, and the inline model of
the request body of `xResponse` is named `CoreXResponseRequest2` or `CoreXResponseRequest`
according to whether `x` was built before it. -/
theorem buildClients_depends_on_order :
    (PathsReordered collidingPaths₁.PathItems collidingPaths₂.PathItems ∧
      clientsOutput (buildClients plainLibrary 5 startGenerator collidingPaths₁)
        ≠ clientsOutput (buildClients plainLibrary 5 startGenerator collidingPaths₂)) ∧
    (PathsReordered collidingHints₁.PathItems collidingHints₂.PathItems ∧
      ((clientsWorkList collidingHints₁.PathItems).map (clientsWork.key plainLibrary)).Nodup ∧
      clientsOutput (buildClients plainLibrary 8 startGenerator collidingHints₁)
        ≠ clientsOutput (buildClients plainLibrary 8 startGenerator collidingHints₂)) := by
  refine ⟨⟨pathsReordered_swap _ _, ?_⟩, pathsReordered_swap _ _, by decide!, ?_⟩
  · intro h
    have hd := clientsDigest_of_output h
    rw [collidingPaths₁_digest, collidingPaths₂_digest] at hd
    exact absurd hd (by decide)
  · intro h
    have hd := clientsDigest_of_output h
    rw [collidingHints₁_digest, collidingHints₂_digest] at hd
    exact absurd hd (by decide)

theorem distinctPaths₁_digest :
    clientsDigest (buildClients plainLibrary 5 startGenerator distinctPaths₁)
      = some [{ ClientName := "Core".toList,
                Operations := [{ MethodName := "ListA".toList, Path := "/a".toList,
                                 BodyType := none },
                               { MethodName := "ListB".toList, Path := "/b".toList,
                                 BodyType := none }] }] := by
  decide!

theorem buildClients_order_independent_witness :
    distinctPaths₁.PathItems ≠ distinctPaths₂.PathItems ∧
    clientsOutput (buildClients plainLibrary 5 startGenerator distinctPaths₁)
      = clientsOutput (buildClients plainLibrary 5 startGenerator distinctPaths₂) ∧
    clientsDigest (buildClients plainLibrary 5 startGenerator distinctPaths₁)
      = some [{ ClientName := "Core".toList,
                Operations := [{ MethodName := "ListA".toList, Path := "/a".toList,
                                 BodyType := none },
                               { MethodName := "ListB".toList, Path := "/b".toList,
                                 BodyType := none }] }] :=
  ⟨fun h => absurd (congrArg (fun l => l.map Prod.fst) h) (by decide),
   buildClients_order_independent plainLibrary 5 startGenerator distinctPaths₁ distinctPaths₂
     (pathsReordered_swap _ _) (by decide!)
     (by
       intro w hw
       simp only [distinctPaths₁, clientsWorkList, getPathItem, List.flatMap_cons,
         List.flatMap_nil, List.map_cons, List.map_nil, List.append_nil, List.singleton_append,
         List.mem_cons, List.mem_singleton, List.not_mem_nil, or_false] at hw
       rcases hw with rfl | rfl <;> exact bareOperation_plain _),
   distinctPaths₁_digest⟩

end SumUp

namespace SumUp

/-! ## Nullability markers -/

theorem hasSuffixQ_append_q (n : Str) : hasSuffixQ (n ++ ['?']) = true := by
  simp [hasSuffixQ]

theorem hasSuffixQ_of_suffix_qq {n : Str} (h : ['?', '?'] <:+ n ++ ['?']) :
    hasSuffixQ n = true := by
  obtain ⟨t, ht⟩ := h
  have h1 : (t ++ ['?']) ++ ['?'] = n ++ ['?'] := by
    rw [← ht, List.append_assoc]
    rfl
  have h2 : t ++ ['?'] = n := List.append_cancel_right h1
  rw [← h2]
  exact hasSuffixQ_append_q t

theorem nullableType_TypeName (n : Str) (v required c : Bool) :
    (nullableType n v required c).TypeName
      = if !required && !hasSuffixQ n then n ++ ['?'] else n := rfl

theorem nullableType_IsValueType (n : Str) (v required c : Bool) :
    (nullableType n v required c).IsValueType = v := rfl

theorem nullableType_required (n : Str) (v c : Bool) :
    (nullableType n v true c).TypeName = n := by
  simp [nullableType_TypeName]

theorem nullableType_optional (n : Str) (v c : Bool) :
    (nullableType n v false c).TypeName = if hasSuffixQ n = true then n else n ++ ['?'] := by
  rw [nullableType_TypeName]
  cases hasSuffixQ n <;> simp

theorem nullableType_optional_suffix (n : Str) (v c : Bool) :
    hasSuffixQ (nullableType n v false c).TypeName = true := by
  rw [nullableType_optional]
  split
  · assumption
  · exact hasSuffixQ_append_q n

/-- C20: `nullableType` encodes nullability once. With `required = true` the type name is
returned unchanged; with `required = false` it is returned unchanged when it ends with `?`
and followed by a single `?` otherwise. The result for `required = false` ends with `?`,
applying `nullableType` with `required = false` to it leaves it unchanged, and a result
ends with `??` only if the argument already did. -/
theorem nullableType_encodes_once (n : Str) (isValueType collection : Bool) :
    (nullableType n isValueType true collection).TypeName = n ∧
    (nullableType n isValueType false collection).TypeName
      = (if hasSuffixQ n = true then n else n ++ ['?']) ∧
    hasSuffixQ (nullableType n isValueType false collection).TypeName = true ∧
    (∀ v c : Bool,
      (nullableType (nullableType n isValueType false collection).TypeName v false c).TypeName
        = (nullableType n isValueType false collection).TypeName) ∧
    (∀ required : Bool,
      ['?', '?'] <:+ (nullableType n isValueType required collection).TypeName →
        ['?', '?'] <:+ n) := by
  refine ⟨nullableType_required n _ _, nullableType_optional n _ _,
    nullableType_optional_suffix n _ _, ?_, ?_⟩
  · intro v c
    rw [nullableType_optional _ v c, if_pos (nullableType_optional_suffix n _ _)]
  · intro required h
    cases required with
    | true => rwa [nullableType_required] at h
    | false =>
      rw [nullableType_optional] at h
      split at h
      · exact h
      · rename_i hq
        exact absurd (hasSuffixQ_of_suffix_qq h) hq

end SumUp

namespace SumUp

/-! ## The splitting rule -/

/-- C11 fails as stated: after the digit `1` the uppercase letter `A` starts a new word,
although `1` is not a lowercase letter, `A` is not a digit and `1` is not an uppercase
letter; so `x1A` is split into `x`, `1` and `A`. -/
theorem shouldSplit_upper_after_digit :
    shouldSplit asciiTables '1' 'A' 'B' = true ∧
    unicodeIsLower asciiTables '1' = false ∧ unicodeIsDigit asciiTables 'A' = false ∧
    unicodeIsUpper asciiTables '1' = false ∧
    splitCamel asciiTables "x1A".toList = ["x".toList, "1".toList, "A".toList] :=
  ⟨rfl, rfl, rfl, rfl, rfl⟩

theorem unicodeIsLower_ne_zero (U : UnicodeTables) {c : Char}
    (h : unicodeIsLower U c = true) : (c != Char.ofNat 0) = true := by
  rw [bne_iff_ne]
  intro e
  rw [e] at h
  exact absurd h (by simp [unicodeIsLower])

theorem not_upper_of_alphaNum (U : UnicodeTables) {c : Char} (h : isAlphaNum c = true) :
    unicodeIsUpper U c = false ↔ (unicodeIsLower U c = true ∨ unicodeIsDigit U c = true) := by
  have ha := isAlphaNum_ascii h
  rw [unicodeIsUpper_ascii U ha, unicodeIsLower_ascii U ha, unicodeIsDigit_ascii U ha]
  exact ascii_forall (P := fun c => isAlphaNum c = true →
    (c.isUpper = false ↔ (c.isLower = true ∨ c.isDigit = true))) (by decide) c ha h

/-- C11, amended: `shouldSplit(prev, curr, next)` is true exactly when `curr` is an
uppercase letter and `prev` is not an uppercase letter, or `curr` is a digit and `prev` is
not a digit, or `curr` and `prev` are uppercase letters and `next` is a lowercase letter.
Inside an alphanumeric run a `prev` that is not an uppercase letter is a lowercase letter
or a digit: an uppercase letter also starts a new word after a digit. -/
theorem shouldSplit_spec (U : UnicodeTables) (prev curr next : Char) :
    (shouldSplit U prev curr next = true ↔
      (unicodeIsUpper U curr = true ∧ unicodeIsUpper U prev = false) ∨
      (unicodeIsDigit U curr = true ∧ unicodeIsDigit U prev = false) ∨
      (unicodeIsUpper U curr = true ∧ unicodeIsUpper U prev = true ∧
        unicodeIsLower U next = true)) ∧
    (isAlphaNum prev = true →
      (unicodeIsUpper U prev = false ↔
        (unicodeIsLower U prev = true ∨ unicodeIsDigit U prev = true))) := by
  refine ⟨?_, not_upper_of_alphaNum U⟩
  unfold shouldSplit
  cases hd : unicodeIsDigit U curr <;> cases hd' : unicodeIsDigit U prev <;>
    cases hu : unicodeIsUpper U curr <;> cases hu' : unicodeIsUpper U prev <;>
    cases hl : unicodeIsLower U next <;>
    simp [unicodeIsLower_ne_zero U, hl]

theorem shouldSplit_spec_witness :
    (shouldSplit asciiTables '1' 'A' 'b' = true ↔
      (unicodeIsUpper asciiTables 'A' = true ∧ unicodeIsUpper asciiTables '1' = false) ∨
      (unicodeIsDigit asciiTables 'A' = true ∧ unicodeIsDigit asciiTables '1' = false) ∨
      (unicodeIsUpper asciiTables 'A' = true ∧ unicodeIsUpper asciiTables '1' = true ∧
        unicodeIsLower asciiTables 'b' = true)) ∧
    (unicodeIsUpper asciiTables '1' = false ↔
      (unicodeIsLower asciiTables '1' = true ∨ unicodeIsDigit asciiTables '1' = true)) :=
  ⟨(shouldSplit_spec asciiTables '1' 'A' 'b').1,
   (shouldSplit_spec asciiTables '1' 'A' 'b').2 (by decide)⟩

end SumUp

namespace SumUp

/-! ## Inputs without letters and digits -/

/-- C12 fails as stated: for the input `-`, which holds no letter and no digit,
`splitIntoWords` returns the input itself as the only word, and both `PascalCase` and
`CamelCase` return `-`, not the placeholder. -/
theorem PascalCase_of_separator :
    splitIntoWords asciiTables "-".toList = ["-".toList] ∧
    PascalCase asciiTables "-".toList = "-".toList ∧
    CamelCase asciiTables "-".toList = "-".toList ∧
    PascalCase asciiTables "-".toList ≠ "Value".toList ∧
    CamelCase asciiTables "-".toList ≠ "value".toList := by
  decide

theorem replaceNonAlphaNum_of_none (s : Str) (h : ∀ c ∈ s, isAlphaNum c = false) :
    replaceNonAlphaNum true s = [] ∧ (s ≠ [] → replaceNonAlphaNum false s = [' ']) := by
  induction s with
  | nil => exact ⟨rfl, fun hne => absurd rfl hne⟩
  | cons c rest ih =>
    have hc := h c (List.mem_cons_self _ _)
    have hrest := (ih (fun x hx => h x (List.mem_cons_of_mem _ hx))).1
    constructor
    · simp [replaceNonAlphaNum, hc, hrest]
    · intro _
      simp [replaceNonAlphaNum, hc, hrest]

theorem splitIntoWords_of_none (U : UnicodeTables) {s : Str} (hne : s ≠ [])
    (h : ∀ c ∈ s, isAlphaNum c = false) : splitIntoWords U s = [s] := by
  have hclean := (replaceNonAlphaNum_of_none s h).2 hne
  have hfields : stringsFields [' '] = [] := by decide
  simp only [splitIntoWords, hclean, hfields]
  rw [if_pos ⟨rfl, hne⟩]

theorem not_alphaNum_parts {c : Char} (h : isAlphaNum c = false) :
    c.isDigit = false ∧ c.isUpper = false ∧ c.isLower = false := by
  simp only [isAlphaNum, Bool.or_eq_false_iff] at h
  exact ⟨h.1.1, h.1.2, h.2⟩

/-- C12, amended: for the empty string `PascalCase` returns the placeholder `Value` and
`CamelCase` returns `value`. For a non-empty input of ASCII characters none of which is a
letter or a digit (separators, blanks, punctuation) both return the input unchanged. -/
theorem PascalCase_without_letters (U : UnicodeTables) (s : Str)
    (h : ∀ c ∈ s, c.toNat < 128 ∧ isAlphaNum c = false) :
    (s = [] → PascalCase U s = "Value".toList ∧ CamelCase U s = "value".toList) ∧
    (s ≠ [] → PascalCase U s = s ∧ CamelCase U s = s) := by
  constructor
  · intro hs
    subst hs
    exact ⟨rfl, rfl⟩
  · intro hne
    have hwords := splitIntoWords_of_none U hne (fun c hc => (h c hc).2)
    cases s with
    | nil => exact absurd rfl hne
    | cons c rest =>
      have hc := h c (List.mem_cons_self _ _)
      have hparts := not_alphaNum_parts hc.2
      have hpart : pascalPart U (c :: rest) = c :: rest :=
        pascalPart_fixed U c rest hc.1 hparts.2.2
          (fun x hx => ⟨(h x (List.mem_cons_of_mem _ hx)).1,
            (not_alphaNum_parts (h x (List.mem_cons_of_mem _ hx)).2).2.1⟩)
      have hpascal : PascalCase U (c :: rest) = c :: rest := by
        simp only [PascalCase, hwords, List.length_singleton, List.foldl_cons, List.foldl_nil,
          List.nil_append, hpart]
        rw [if_neg (by decide)]
        simp [sanitizeLeadingCharacter, unicodeIsDigit_ascii U hc.1, hparts.1]
      refine ⟨hpascal, ?_⟩
      simp only [CamelCase, hpascal]
      rw [unicodeToLower_ascii U hc.1, toLower_of_not_upper hc.1 hparts.2.1]

theorem PascalCase_without_letters_witness :
    PascalCase asciiTables "- -".toList = "- -".toList ∧
    CamelCase asciiTables "- -".toList = "- -".toList :=
  (PascalCase_without_letters asciiTables "- -".toList (by decide)).2 (by decide)

end SumUp

namespace SumUp

/-! ## Enum members -/

/-- C13 (the code at the failing input): for the literals `a`, `a`, `a1` the second `a`
is given the suffix `1`, and the literal `a1` normalizes to the same name `A1`, which
`names` does not hold because only unsuffixed names are entered into it; the member names
are `A`, `A1`, `A1`. -/
theorem buildEnumValues_duplicate_member_name (L : Library) :
    (buildEnumValues L repeatedEnumSchema).map (fun v => (v.Name, v.Value))
      = [("A".toList, "a".toList), ("A1".toList, "a".toList), ("A1".toList, "a1".toList)] ∧
    ¬ ((buildEnumValues L repeatedEnumSchema).map (fun v => v.Name)).Nodup := by
  have h : buildEnumValues L repeatedEnumSchema
      = [{ Name := "A".toList, Value := "a".toList },
         { Name := "A1".toList, Value := "a".toList },
         { Name := "A1".toList, Value := "a1".toList }] := by
    have p1 : PascalIdentifier L.unicode "a".toList = "A".toList := rfl
    have p2 : PascalIdentifier L.unicode "a1".toList = "A1".toList := rfl
    simp only [buildEnumValues, repeatedEnumSchema, Schema.enum, buildEnumValuesLoop, p1, p2]
    decide
  rw [h]
  exact ⟨rfl, by decide⟩

end SumUp

namespace SumUp

/-! ## What a step changes in the generator -/

theorem extends_refl (P : Str → Prop) (g : Generator) : Generator.Extends P g g :=
  ⟨rfl, rfl, rfl, Finset.Subset.refl _, [], (List.append_nil _).symm,
    fun _ h => absurd h (List.not_mem_nil _)⟩

theorem extends_trans {P : Str → Prop} {g₁ g₂ g₃ : Generator}
    (h₁ : Generator.Extends P g₁ g₂) (h₂ : Generator.Extends P g₂ g₃) :
    Generator.Extends P g₁ g₃ := by
  obtain ⟨a1, a2, a3, a4, added₁, a5, a6⟩ := h₁
  obtain ⟨b1, b2, b3, b4, added₂, b5, b6⟩ := h₂
  refine ⟨b1.trans a1, b2.trans a2, b3.trans a3, a4.trans b4, added₁ ++ added₂, ?_, ?_⟩
  · rw [b5, a5, List.append_assoc]
  · intro m hm
    rcases List.mem_append.mp hm with hm | hm
    · exact a6 m hm
    · exact b6 m hm

theorem extends_mono {P Q : Str → Prop} (hPQ : ∀ n, P n → Q n) {g g' : Generator}
    (h : Generator.Extends P g g') : Generator.Extends Q g g' := by
  obtain ⟨a1, a2, a3, a4, added, a5, a6⟩ := h
  exact ⟨a1, a2, a3, a4, added, a5, fun m hm => hPQ _ (a6 m hm)⟩

theorem extends_sameTypes {P : Str → Prop} {g g' : Generator}
    (h : Generator.Extends P g g') : Generator.SameTypes g' g := ⟨h.1, h.2.1⟩

theorem extendsResult_none {α : Type} (P : Str → Prop) (g : Generator) :
    ExtendsResult P (none : Option (α × Generator)) g := by
  intro a g' h
  cases h

theorem extendsResult_some {α : Type} {P : Str → Prop} {a : α} {g g' : Generator}
    (h : Generator.Extends P g g') : ExtendsResult P (some (a, g')) g := by
  intro b g'' e
  simp only [Option.some.injEq, Prod.mk.injEq] at e
  rw [← e.2]
  exact h

theorem PascalIdentifier_ne_nil (U : UnicodeTables) (s : Str) : PascalIdentifier U s ≠ [] :=
  (ensureNotReserved_spec U (PascalCase_spec U s).1 (PascalCase_spec U s).2.1).1

theorem strictlyExtends_of_prefix (U : UnicodeTables) (owner name : Str) {n : Str}
    (h : owner ++ PascalIdentifier U name <+: n) : StrictlyExtends owner n := by
  refine ⟨(List.prefix_append owner _).trans h, ?_⟩
  have hl := h.length_le
  have hp : 0 < (PascalIdentifier U name).length :=
    List.length_pos.mpr (PascalIdentifier_ne_nil U name)
  rw [List.length_append] at hl
  omega

theorem candidateName_prefix (base : Str) (k : Nat) : base <+: candidateName base k := by
  unfold candidateName
  split
  · exact List.prefix_refl _
  · exact List.prefix_append _ _

theorem candidateName_succ (base : Str) (i : Nat) (h : 1 ≤ i) :
    base ++ decimal (i + 1) = candidateName base (i + 1) := by
  unfold candidateName
  rw [if_neg (by omega)]

theorem reserveModelNameLoop_sound (names : Finset Str) (base : Str) (fuel : Nat) :
    ∀ (i : Nat) (name : Str), 1 ≤ i →
      reserveModelNameLoop names base fuel (candidateName base i) (i + 1) = some name →
      (∀ j, 1 ≤ j → j < i → candidateName base j ∈ names) →
      ∃ k, 1 ≤ k ∧ name = candidateName base k ∧ name ∉ names ∧
        ∀ j, 1 ≤ j → j < k → candidateName base j ∈ names := by
  induction fuel with
  | zero => intro i name _ h _; cases h
  | succ fuel ih =>
    intro i name hi h hbusy
    rw [reserveModelNameLoop] at h
    by_cases hmem : candidateName base i ∈ names
    · rw [if_neg (by simpa using hmem), candidateName_succ base i hi] at h
      refine ih (i + 1) name (by omega) h ?_
      intro j hj hji
      by_cases hjeq : j = i
      · rw [hjeq]; exact hmem
      · exact hbusy j hj (by omega)
    · rw [if_pos hmem] at h
      simp only [Option.some.injEq] at h
      exact ⟨i, hi, h.symm, h ▸ hmem, hbusy⟩

theorem reserveModelName_sound {fuel : Nat} {g g' : Generator} {base name : Str}
    (h : reserveModelName fuel g base = some (name, g')) :
    g' = g.addModelName name ∧
    ∃ k, 1 ≤ k ∧ name = candidateName base k ∧ name ∉ g.modelNames ∧
      ∀ j, 1 ≤ j → j < k → candidateName base j ∈ g.modelNames := by
  unfold reserveModelName at h
  cases hl : reserveModelNameLoop g.modelNames base fuel base 2 with
  | none => rw [hl] at h; cases h
  | some n =>
    rw [hl] at h
    simp only [Option.some.injEq, Prod.mk.injEq] at h
    obtain ⟨h1, h2⟩ := h
    subst h1
    refine ⟨h2.symm, ?_⟩
    have hb : base = candidateName base 1 := by simp [candidateName]
    have hl' : reserveModelNameLoop g.modelNames base fuel (candidateName base 1) (1 + 1)
        = some n := by
      rw [← hb]; exact hl
    exact reserveModelNameLoop_sound g.modelNames base fuel 1 n (le_refl 1) hl'
      (fun j hj hj1 => by omega)

theorem addModelName_extends (P : Str → Prop) (g : Generator) (name : Str) :
    Generator.Extends P g (g.addModelName name) :=
  ⟨rfl, rfl, rfl, Finset.subset_insert _ _, [], (List.append_nil _).symm,
    fun _ h => absurd h (List.not_mem_nil _)⟩

theorem resolvePropertyTypeWith_extends (L : Library) (R : InlineResolver)
    (hR : ∀ g ref req base, ExtendsResult (fun n => base <+: n) (R g ref req base) g)
    (g : Generator) (owner name : Str) (ref : Option SchemaProxy) (req : Bool) :
    ExtendsResult (StrictlyExtends owner)
      (resolvePropertyTypeWith L R g owner name ref req) g := by
  intro a g' h
  exact extends_mono (fun n hn => strictlyExtends_of_prefix L.unicode owner name hn)
    (hR g ref req _ a g' h)

theorem addPropsLoop_extends (L : Library) (fuel : Nat) (R : InlineResolver)
    (hR : ∀ g ref req base, ExtendsResult (fun n => base <+: n) (R g ref req base) g)
    (owner : Str) (src : Schema) (names : List Str) :
    ∀ st st', addPropsLoop L fuel R owner src names st = some st' →
      Generator.Extends (StrictlyExtends owner) st.g st'.g := by
  induction names with
  | nil =>
    intro st st' h
    simp only [addPropsLoop, Option.some.injEq] at h
    rw [← h]
    exact extends_refl _ _
  | cons name rest ih =>
    intro st st' h
    simp only [addPropsLoop] at h
    rcases hr : resolvePropertyTypeWith L R st.g owner name (getOrZero src.properties name)
        (decide (name ∈ src.required)) with _ | ⟨info, g₁⟩
    · rw [hr] at h; cases h
    · rw [hr] at h
      simp only at h
      cases hd : schemaDescription L g₁ fuel (getOrZero src.properties name) with
      | none => rw [hd] at h; cases h
      | some description =>
        rw [hd] at h
        have h1 := resolvePropertyTypeWith_extends L R hR st.g owner name _ _ info g₁ hr
        exact extends_trans h1 (ih _ st' h)

theorem addProps_extends (L : Library) (fuel : Nat) (R : InlineResolver)
    (hR : ∀ g ref req base, ExtendsResult (fun n => base <+: n) (R g ref req base) g)
    (owner : Str) (src : Schema) (st st' : collectState)
    (h : addProps L fuel R owner src st = some st') :
    Generator.Extends (StrictlyExtends owner) st.g st'.g :=
  addPropsLoop_extends L fuel R hR owner src _ st st' h

theorem allOfLoop_extends (L : Library) (fuel : Nat) (R : InlineResolver)
    (hR : ∀ g ref req base, ExtendsResult (fun n => base <+: n) (R g ref req base) g)
    (owner : Str) (branches : List SchemaProxy) :
    ∀ st st', allOfLoop L fuel R owner branches st = some st' →
      Generator.Extends (StrictlyExtends owner) st.g st'.g := by
  induction branches with
  | nil =>
    intro st st' h
    simp only [allOfLoop, Option.some.injEq] at h
    rw [← h]
    exact extends_refl _ _
  | cons branch rest ih =>
    intro st st' h
    simp only [allOfLoop] at h
    rcases hs : schemaFromProxy L st.g fuel branch with _ | _ | sub
    · rw [hs] at h; cases h
    · rw [hs] at h; exact ih st st' h
    · rw [hs] at h
      simp only at h
      cases ha : addProps L fuel R owner sub st with
      | none => rw [ha] at h; cases h
      | some st₁ =>
        rw [ha] at h
        exact extends_trans (addProps_extends L fuel R hR owner sub st st₁ ha) (ih st₁ st' h)

theorem collectPropertiesWith_extends (L : Library) (fuel : Nat) (R : InlineResolver)
    (hR : ∀ g ref req base, ExtendsResult (fun n => base <+: n) (R g ref req base) g)
    (g : Generator) (owner : Str) (schema : Schema) :
    ExtendsResult (StrictlyExtends owner) (collectPropertiesWith L fuel R g owner schema) g := by
  intro a g' h
  simp only [collectPropertiesWith] at h
  cases h1 : addProps L fuel R owner schema
      { g := g, propMap := [], usesCollections := false, usesJson := false } with
  | none => rw [h1] at h; cases h
  | some st₁ =>
    rw [h1] at h
    simp only at h
    cases h2 : allOfLoop L fuel R owner schema.allOf st₁ with
    | none => rw [h2] at h; cases h
    | some st₂ =>
      rw [h2] at h
      simp only [Option.some.injEq, Prod.mk.injEq] at h
      rw [← h.2]
      exact extends_trans (addProps_extends L fuel R hR owner schema _ st₁ h1)
        (allOfLoop_extends L fuel R hR owner schema.allOf st₁ st₂ h2)

theorem buildClassModelWith_extends (L : Library) (fuel : Nat) (R : InlineResolver)
    (hR : ∀ g ref req base, ExtendsResult (fun n => base <+: n) (R g ref req base) g)
    (g : Generator) (typeName : Str) (schema : Schema) {model : modelTemplateData}
    {g' : Generator} (h : buildClassModelWith L fuel R g typeName schema = some (model, g')) :
    Generator.Extends (StrictlyExtends typeName) g g' ∧ model.Name = typeName := by
  simp only [buildClassModelWith] at h
  rcases hc : collectPropertiesWith L fuel R g typeName schema with _ | ⟨⟨props, uc, uj⟩, g₁⟩
  · rw [hc] at h; cases h
  · rw [hc] at h
    simp only at h
    have he := collectPropertiesWith_extends L fuel R hR g typeName schema _ g₁ hc
    split at h
    · cases h
    · simp only [Option.some.injEq, Prod.mk.injEq] at h
      rw [← h.2, ← h.1]
      exact ⟨he, rfl⟩

theorem createInlineModelWith_extends (L : Library) (fuel : Nat) (R : InlineResolver)
    (hR : ∀ g ref req base, ExtendsResult (fun n => base <+: n) (R g ref req base) g)
    (g : Generator) (base : Str) (schema : Schema) :
    ExtendsResult (fun n => base <+: n) (createInlineModelWith L fuel R g base schema) g := by
  intro a g' h
  simp only [createInlineModelWith] at h
  rcases hr : reserveModelName fuel g base with _ | ⟨typeName, g₁⟩
  · rw [hr] at h; cases h
  · rw [hr] at h
    simp only at h
    rcases hb : buildClassModelWith L fuel R g₁ typeName schema with _ | ⟨model, g₂⟩
    · rw [hb] at h; cases h
    · rw [hb] at h
      simp only [Option.some.injEq, Prod.mk.injEq] at h
      obtain ⟨hg₁, k, _, hname, _, _⟩ := reserveModelName_sound hr
      obtain ⟨he, hmodel⟩ := buildClassModelWith_extends L fuel R hR g₁ typeName schema hb
      have hpre : base <+: typeName := hname ▸ candidateName_prefix base k
      have he' : Generator.Extends (fun n => base <+: n) g g₂ := by
        refine extends_trans ?_ (extends_mono (fun n hn => hpre.trans hn.1) he)
        rw [hg₁]
        exact addModelName_extends _ g typeName
      rw [← h.2]
      obtain ⟨a1, a2, a3, a4, added, a5, a6⟩ := he'
      refine ⟨a1, a2, a3, a4, added ++ [model], ?_, ?_⟩
      · simp only [a5, List.append_assoc]
      · intro m hm
        rcases List.mem_append.mp hm with hm | hm
        · exact a6 m hm
        · rw [List.mem_singleton.mp hm, hmodel]
          exact hpre

theorem resolveInlineStep_extends (L : Library) (fuel : Nat) (R : InlineResolver)
    (hR : ∀ g ref req base, ExtendsResult (fun n => base <+: n) (R g ref req base) g)
    (g : Generator) (ref : Option SchemaProxy) (req : Bool) (base : Str) :
    ExtendsResult (fun n => base <+: n) (resolveInlineStep L fuel R g ref req base) g := by
  have hsame : ∀ (o : Option typeInfo),
      ExtendsResult (fun n => base <+: n)
        (match o with
          | none => none
          | some t => some (t, g)) g := by
    intro o
    cases o with
    | none => exact extendsResult_none _ _
    | some t => exact extendsResult_some (extends_refl _ _)
  unfold resolveInlineStep
  cases ref with
  | none => exact extendsResult_some (extends_refl _ _)
  | some p =>
    simp only
    split
    · rcases schemaFromProxy L g fuel p with _ | _ | schema
      · exact extendsResult_none _ _
      · exact extendsResult_some (extends_refl _ _)
      · simp only
        split
        · have hc := createInlineModelWith_extends L fuel R hR g base schema
          rcases hcr : createInlineModelWith L fuel R g base schema with _ | ⟨typeName, g₁⟩
          · exact extendsResult_none _ _
          · exact extendsResult_some (hc _ _ hcr)
        · cases schema.additionalProperties.schemaA with
          | some valueSchema =>
            simp only
            rcases hv : R g (some valueSchema) true (base ++ "Value".toList)
                with _ | ⟨valueInfo, g₁⟩
            · exact extendsResult_none _ _
            · exact extendsResult_some
                (extends_mono (fun n hn => (List.prefix_append base _).trans hn)
                  (hR _ _ _ _ _ _ hv))
          | none =>
            simp only
            split
            · exact extendsResult_some (extends_refl _ _)
            · split
              · rcases hv : R g schema.items.schemaA true (base ++ "Item".toList)
                    with _ | ⟨itemInfo, g₁⟩
                · exact extendsResult_none _ _
                · exact extendsResult_some
                    (extends_mono (fun n hn => (List.prefix_append base _).trans hn)
                      (hR _ _ _ _ _ _ hv))
              · exact hsame _
    · exact hsame _

theorem resolveInlineSchemaType_extends (L : Library) (fuel : Nat) :
    ∀ g ref req base,
      ExtendsResult (fun n => base <+: n) (resolveInlineSchemaType L fuel g ref req base) g := by
  induction fuel with
  | zero => intro g ref req base; exact extendsResult_none _ _
  | succ fuel ih =>
    intro g ref req base
    exact resolveInlineStep_extends L fuel _ ih g ref req base

end SumUp

namespace SumUp

/-! ## Where the entries of `propMap` come from -/

theorem getOrZero_propMapSet (m : List (Str × modelPropertyTemplateData)) (name : Str)
    (prop : modelPropertyTemplateData) (k : Str) :
    getOrZero (propMapSet m name prop) k = if k = name then some prop else getOrZero m k := by
  induction m with
  | nil =>
    simp only [propMapSet, getOrZero]
    by_cases h : k = name
    · rw [if_pos h, if_pos h.symm]
    · rw [if_neg h, if_neg (fun e => h e.symm)]
  | cons x rest ih =>
    obtain ⟨k', v⟩ := x
    simp only [propMapSet]
    by_cases hk : k' = name
    · rw [if_pos hk]
      simp only [getOrZero]
      by_cases h : k = name
      · rw [if_pos h, if_pos (hk.trans h.symm)]
      · rw [if_neg h, if_neg (fun e => h (e.symm.trans hk)), if_neg (fun e => h (e.symm.trans hk))]
    · rw [if_neg hk]
      simp only [getOrZero]
      by_cases hkk : k' = k
      · rw [if_pos hkk, if_pos hkk, if_neg (fun e => hk (hkk.trans e))]
      · rw [if_neg hkk, if_neg hkk, ih]

theorem propMapSet_keys (m : List (Str × modelPropertyTemplateData)) (name : Str)
    (prop : modelPropertyTemplateData) :
    keysFromOldest (propMapSet m name prop)
      = if name ∈ keysFromOldest m then keysFromOldest m else keysFromOldest m ++ [name] := by
  induction m with
  | nil =>
    have hn : name ∉ keysFromOldest ([] : List (Str × modelPropertyTemplateData)) :=
      List.not_mem_nil _
    rw [if_neg hn]
    rfl
  | cons x rest ih =>
    obtain ⟨k', v⟩ := x
    simp only [propMapSet]
    by_cases hk : k' = name
    · rw [if_pos hk]
      have hm : name ∈ keysFromOldest ((k', v) :: rest) := hk ▸ List.mem_cons_self _ _
      rw [if_pos hm]
      rfl
    · rw [if_neg hk]
      simp only [keysFromOldest, List.map_cons, List.mem_cons] at ih ⊢
      rw [ih]
      have hk' : ¬ name = k' := fun e => hk e.symm
      by_cases hm : name ∈ rest.map Prod.fst
      · simp only [hm, or_true, if_true]
      · simp only [hm, hk', or_self, if_false, List.cons_append]

theorem propMapSet_nodup (m : List (Str × modelPropertyTemplateData)) (name : Str)
    (prop : modelPropertyTemplateData) (h : (keysFromOldest m).Nodup) :
    (keysFromOldest (propMapSet m name prop)).Nodup := by
  rw [propMapSet_keys]
  split
  · exact h
  · rename_i hm
    exact List.Nodup.append h (List.nodup_singleton _) (by simpa using hm)

theorem getOrZero_of_mem_keys {β : Type} {m : List (Str × β)} {key : Str}
    (h : key ∈ keysFromOldest m) : ∃ v, getOrZero m key = some v := by
  induction m with
  | nil => exact absurd h (List.not_mem_nil _)
  | cons x rest ih =>
    obtain ⟨k, v⟩ := x
    simp only [getOrZero]
    by_cases hk : k = key
    · exact ⟨v, by rw [if_pos hk]⟩
    · rw [if_neg hk]
      simp only [keysFromOldest, List.map_cons, List.mem_cons] at h
      rcases h with h | h
      · exact absurd h.symm hk
      · exact ih h

theorem mem_keys_iff_getOrZero {β : Type} (m : List (Str × β)) (key : Str) :
    key ∈ keysFromOldest m ↔ getOrZero m key ≠ none := by
  constructor
  · intro h
    obtain ⟨v, hv⟩ := getOrZero_of_mem_keys h
    rw [hv]
    exact fun e => by cases e
  · intro h
    by_contra hk
    exact h (getOrZero_eq_none hk)

theorem mem_sortStrings (l : List Str) (k : Str) : k ∈ sortStrings l ↔ k ∈ l :=
  (List.perm_insertionSort _ l).mem_iff

theorem addPropsLoop_trace (L : Library) (fuel : Nat) (R : InlineResolver)
    (hR : ∀ g ref req base, ExtendsResult (fun n => base <+: n) (R g ref req base) g)
    (g₀ : Generator) (owner : Str) (src : Schema) (names : List Str) :
    ∀ st st', Generator.SameTypes st.g g₀ →
      addPropsLoop L fuel R owner src names st = some st' →
      (∀ k, k ∈ names →
        ∃ prop, getOrZero st'.propMap k = some prop ∧ BuiltFrom L fuel R g₀ owner src k prop) ∧
      (∀ k, k ∉ names → getOrZero st'.propMap k = getOrZero st.propMap k) ∧
      ((keysFromOldest st.propMap).Nodup → (keysFromOldest st'.propMap).Nodup) := by
  induction names with
  | nil =>
    intro st st' _ h
    simp only [addPropsLoop, Option.some.injEq] at h
    rw [← h]
    exact ⟨fun k hk => absurd hk (List.not_mem_nil _), fun _ _ => rfl, fun hn => hn⟩
  | cons name rest ih =>
    intro st st' hg h
    simp only [addPropsLoop] at h
    rcases hr : resolvePropertyTypeWith L R st.g owner name (getOrZero src.properties name)
        (decide (name ∈ src.required)) with _ | ⟨info, g₁⟩
    · rw [hr] at h; cases h
    · rw [hr] at h
      simp only at h
      cases hd : schemaDescription L g₁ fuel (getOrZero src.properties name) with
      | none => rw [hd] at h; cases h
      | some description =>
        rw [hd] at h
        have he := resolvePropertyTypeWith_extends L R hR st.g owner name _ _ info g₁ hr
        have hg₁ : Generator.SameTypes g₁ g₀ :=
          ⟨(extends_sameTypes he).1.trans hg.1, (extends_sameTypes he).2.trans hg.2⟩
        obtain ⟨ih1, ih2, ih3⟩ := ih _ st' hg₁ h
        refine ⟨?_, ?_, ?_⟩
        · intro k hk
          by_cases hkr : k ∈ rest
          · exact ih1 k hkr
          · have hkn : k = name := by
              rcases List.mem_cons.mp hk with e | e
              · exact e
              · exact absurd e hkr
            subst hkn
            refine ⟨_, ?_, st.g, g₁, info, description, hg, hr, hd, rfl⟩
            rw [ih2 k hkr, getOrZero_propMapSet, if_pos rfl]
            rfl
        · intro k hk
          have hkn : k ≠ name := fun e => hk (e ▸ List.mem_cons_self _ _)
          have hkr : k ∉ rest := fun e => hk (List.mem_cons_of_mem _ e)
          rw [ih2 k hkr, getOrZero_propMapSet, if_neg hkn]
        · intro hn
          exact ih3 (propMapSet_nodup _ _ _ hn)

theorem lastDeclaring_append_self (srcs : List Schema) (src : Schema) {name : Str}
    (h : name ∈ keysFromOldest src.properties) : LastDeclaring (srcs ++ [src]) src name :=
  ⟨srcs, [], rfl, h, fun _ hs => absurd hs (List.not_mem_nil _)⟩

theorem lastDeclaring_append_other {srcs : List Schema} {s : Schema} (src : Schema)
    {name : Str} (h : LastDeclaring srcs s name)
    (hn : name ∉ keysFromOldest src.properties) : LastDeclaring (srcs ++ [src]) s name := by
  obtain ⟨before, after, h1, h2, h3⟩ := h
  refine ⟨before, after ++ [src], ?_, h2, ?_⟩
  · rw [h1, List.append_assoc, List.cons_append]
  · intro t ht
    rcases List.mem_append.mp ht with ht | ht
    · exact h3 t ht
    · rw [List.mem_singleton.mp ht]
      exact hn

theorem addProps_sources (L : Library) (fuel : Nat) (R : InlineResolver)
    (hR : ∀ g ref req base, ExtendsResult (fun n => base <+: n) (R g ref req base) g)
    (g₀ : Generator) (owner : Str) (src : Schema) (srcs : List Schema)
    (st st' : collectState) (hg : Generator.SameTypes st.g g₀)
    (hs : SourcesTraced L fuel R g₀ owner st.propMap srcs)
    (h : addProps L fuel R owner src st = some st') :
    SourcesTraced L fuel R g₀ owner st'.propMap (srcs ++ [src]) := by
  obtain ⟨t1, t2, t3⟩ := addPropsLoop_trace L fuel R hR g₀ owner src _ st st' hg h
  obtain ⟨s1, s2, s3⟩ := hs
  refine ⟨t3 s1, ?_, ?_⟩
  · intro name
    by_cases hn : name ∈ keysFromOldest src.properties
    · obtain ⟨prop, hp, _⟩ := t1 name ((mem_sortStrings _ _).mpr hn)
      rw [hp]
      constructor
      · intro e; cases e
      · intro hall
        exact absurd hn (hall src (List.mem_append_right _ (List.mem_singleton_self _)))
    · rw [t2 name (fun e => hn ((mem_sortStrings _ _).mp e)), s2 name]
      constructor
      · intro hall s hs
        rcases List.mem_append.mp hs with hs | hs
        · exact hall s hs
        · rw [List.mem_singleton.mp hs]; exact hn
      · intro hall s hs
        exact hall s (List.mem_append_left _ hs)
  · intro name prop hget
    by_cases hn : name ∈ keysFromOldest src.properties
    · obtain ⟨prop', hp, hb⟩ := t1 name ((mem_sortStrings _ _).mpr hn)
      rw [hp] at hget
      simp only [Option.some.injEq] at hget
      subst hget
      exact ⟨src, lastDeclaring_append_self srcs src hn, hb⟩
    · rw [t2 name (fun e => hn ((mem_sortStrings _ _).mp e))] at hget
      obtain ⟨s, hl, hb⟩ := s3 name prop hget
      exact ⟨s, lastDeclaring_append_other src hl hn, hb⟩

theorem allOfLoop_sources (L : Library) (fuel : Nat) (R : InlineResolver)
    (hR : ∀ g ref req base, ExtendsResult (fun n => base <+: n) (R g ref req base) g)
    (g₀ : Generator) (owner : Str) (branches : List SchemaProxy) :
    ∀ (srcs : List Schema) (st st' : collectState), Generator.SameTypes st.g g₀ →
      SourcesTraced L fuel R g₀ owner st.propMap srcs →
      allOfLoop L fuel R owner branches st = some st' →
      SourcesTraced L fuel R g₀ owner st'.propMap
        (srcs ++ branches.filterMap (fun branch => (schemaFromProxy L g₀ fuel branch).join)) := by
  induction branches with
  | nil =>
    intro srcs st st' _ hs h
    simp only [allOfLoop, Option.some.injEq] at h
    rw [← h, List.filterMap_nil, List.append_nil]
    exact hs
  | cons branch rest ih =>
    intro srcs st st' hg hs h
    simp only [allOfLoop] at h
    have hsame := schemaFromProxy_sameTypes L hg fuel branch
    rcases hb : schemaFromProxy L st.g fuel branch with _ | _ | sub
    · rw [hb] at h; cases h
    · rw [hb] at h
      rw [hb] at hsame
      rw [List.filterMap_cons, ← hsame]
      exact ih srcs st st' hg hs h
    · rw [hb] at h
      rw [hb] at hsame
      simp only at h
      cases ha : addProps L fuel R owner sub st with
      | none => rw [ha] at h; cases h
      | some st₁ =>
        rw [ha] at h
        have he := addProps_extends L fuel R hR owner sub st st₁ ha
        have hg₁ : Generator.SameTypes st₁.g g₀ :=
          ⟨(extends_sameTypes he).1.trans hg.1, (extends_sameTypes he).2.trans hg.2⟩
        have hs₁ := addProps_sources L fuel R hR g₀ owner sub srcs st st₁ hg hs ha
        have := ih (srcs ++ [sub]) st₁ st' hg₁ hs₁ h
        rw [List.filterMap_cons, ← hsame]
        simpa [List.append_assoc] using this

theorem filterMap_JsonName (f : Str → Option modelPropertyTemplateData) :
    ∀ l : List Str, (∀ k ∈ l, ∃ prop, f k = some prop ∧ prop.JsonName = k) →
      (l.filterMap f).map (fun p => p.JsonName) = l := by
  intro l
  induction l with
  | nil => intro _; rfl
  | cons k rest ih =>
    intro h
    obtain ⟨prop, hp, hj⟩ := h k (List.mem_cons_self _ _)
    rw [List.filterMap_cons, hp]
    simp only [List.map_cons, hj]
    rw [ih (fun k' hk' => h k' (List.mem_cons_of_mem _ hk'))]

theorem builtFrom_JsonName {L : Library} {fuel : Nat} {R : InlineResolver} {g : Generator}
    {owner : Str} {src : Schema} {name : Str} {prop : modelPropertyTemplateData}
    (h : BuiltFrom L fuel R g owner src name prop) : prop.JsonName = name := by
  obtain ⟨_, _, _, _, _, _, _, rfl⟩ := h
  rfl

theorem collectPropertiesWith_trace (L : Library) (fuel : Nat) (R : InlineResolver)
    (hR : ∀ g ref req base, ExtendsResult (fun n => base <+: n) (R g ref req base) g)
    (g : Generator) (owner : Str) (schema : Schema)
    {props : List modelPropertyTemplateData} {uc uj : Bool} {g' : Generator}
    (h : collectPropertiesWith L fuel R g owner schema = some ((props, uc, uj), g')) :
    (props.map (fun p => p.JsonName)).Nodup ∧
    (∀ name, name ∈ props.map (fun p => p.JsonName) ↔
      ∃ src ∈ propertySources L g fuel schema, name ∈ keysFromOldest src.properties) ∧
    (∀ p ∈ props, ∃ src, LastDeclaring (propertySources L g fuel schema) src p.JsonName ∧
      BuiltFrom L fuel R g owner src p.JsonName p) := by
  simp only [collectPropertiesWith] at h
  cases h1 : addProps L fuel R owner schema
      { g := g, propMap := [], usesCollections := false, usesJson := false } with
  | none => rw [h1] at h; cases h
  | some st₁ =>
    rw [h1] at h
    simp only at h
    cases h2 : allOfLoop L fuel R owner schema.allOf st₁ with
    | none => rw [h2] at h; cases h
    | some st₂ =>
      rw [h2] at h
      simp only [Option.some.injEq, Prod.mk.injEq] at h
      obtain ⟨⟨hprops, _, _⟩, _⟩ := h
      have hnil : SourcesTraced L fuel R g owner [] [] := by
        refine ⟨List.nodup_nil, ?_, ?_⟩
        · intro name
          simp [getOrZero]
        · intro name prop hget
          cases hget
      have hs₁ := addProps_sources L fuel R hR g owner schema [] _ st₁ (sameTypes_refl g)
        hnil h1
      have he₁ := addProps_extends L fuel R hR owner schema _ st₁ h1
      have hs₂ := allOfLoop_sources L fuel R hR g owner schema.allOf _ st₁ st₂
        (extends_sameTypes he₁) hs₁ h2
      have hsrc : [] ++ [schema] ++ schema.allOf.filterMap
          (fun branch => (schemaFromProxy L g fuel branch).join)
          = propertySources L g fuel schema := rfl
      rw [hsrc] at hs₂
      obtain ⟨s1, s2, s3⟩ := hs₂
      have hkeys : ∀ k ∈ sortStrings (keysFromOldest st₂.propMap),
          ∃ prop, getOrZero st₂.propMap k = some prop ∧ prop.JsonName = k := by
        intro k hk
        obtain ⟨prop, hp⟩ := getOrZero_of_mem_keys ((mem_sortStrings _ _).mp hk)
        obtain ⟨src, _, hb⟩ := s3 k prop hp
        exact ⟨prop, hp, builtFrom_JsonName hb⟩
      have hnames : props.map (fun p => p.JsonName) = sortStrings (keysFromOldest st₂.propMap) := by
        rw [← hprops]
        exact filterMap_JsonName _ _ hkeys
      refine ⟨?_, ?_, ?_⟩
      · rw [hnames]
        exact (List.perm_insertionSort _ _).nodup_iff.mpr s1
      · intro name
        rw [hnames, mem_sortStrings, mem_keys_iff_getOrZero, Ne, s2 name]
        constructor
        · intro hne
          by_contra hcon
          exact hne (fun s hs hn => hcon ⟨s, hs, hn⟩)
        · rintro ⟨s, hs, hn⟩ hall
          exact hall s hs hn
      · intro p hp
        rw [← hprops, List.mem_filterMap] at hp
        obtain ⟨k, _, hget⟩ := hp
        obtain ⟨src, hl, hb⟩ := s3 k p hget
        rw [builtFrom_JsonName hb]
        exact ⟨src, hl, hb⟩

end SumUp

namespace SumUp

/-! ## The assembled property list -/

theorem lastDeclaring_mem {srcs : List Schema} {src : Schema} {name : Str}
    (h : LastDeclaring srcs src name) : src ∈ srcs := by
  obtain ⟨before, after, h1, _, _⟩ := h
  rw [h1]
  exact List.mem_append_right _ (List.mem_cons_self _ _)

theorem collectProperties_trace (L : Library) (fuel : Nat) (g : Generator) (owner : Str)
    (schema : Schema) {props : List modelPropertyTemplateData} {uc uj : Bool} {g' : Generator}
    (h : collectProperties L fuel g owner schema = some ((props, uc, uj), g')) :
    (props.map (fun p => p.JsonName)).Nodup ∧
    (∀ name, name ∈ props.map (fun p => p.JsonName) ↔
      ∃ src ∈ propertySources L g fuel schema, name ∈ keysFromOldest src.properties) ∧
    (∀ p ∈ props, ∃ src, LastDeclaring (propertySources L g fuel schema) src p.JsonName ∧
      BuiltFrom L fuel (resolveInlineSchemaType L fuel) g owner src p.JsonName p) :=
  collectPropertiesWith_trace L fuel _ (resolveInlineSchemaType_extends L fuel) g owner schema h

theorem composedSchema_digests :
    collectedDigests 5 composedSchema
      = some [("id".toList, "string?".toList, false, "identifier".toList),
              ("name".toList, "int".toList, true, "branch name".toList),
              ("tag".toList, "string?".toList, false, [])] := by
  decide!

/-- C14 fails as stated: `composedSchema` declares `name` itself, as an optional string
with the description `own name`, and its `allOf` branch declares `name` again, as a
required integer with the description `branch name`. The assembled property is the one of
the branch, the later declaration: `propMap[name] = prop` overwrites the earlier entry. -/
theorem collectProperties_later_branch_overrides :
    (collectedDigests 5 composedSchema).map
        (fun l => l.filter (fun d => decide (d.1 = "name".toList)))
      = some [("name".toList, "int".toList, true, "branch name".toList)] ∧
    getOrZero composedSchema.properties "name".toList
      = some (.inline (describedSchema "string".toList "own name".toList)) ∧
    decide ("name".toList ∈ composedSchema.required) = false ∧
    (resolvePropertyType plainLibrary 5 startGenerator "Owner".toList "name".toList
        (getOrZero composedSchema.properties "name".toList) false).map
      (fun r => r.1.TypeName) = some "string?".toList := by
  refine ⟨?_, rfl, by decide, by decide!⟩
  rw [composedSchema_digests]
  decide

/-- C14, amended: when a property name is declared more than once across an object
schema's own properties and its `allOf` branches, the assembled property is the last
declaration in the order own schema, then branches in declared order. Every record
`collectProperties` returns was assembled from the last source that declares its name: its
type was resolved from the proxy that source declares, with the required flag of that
source, and its description is the one of that proxy. -/
theorem collectProperties_last_declaration_wins (L : Library) (fuel : Nat) (g : Generator)
    (owner : Str) (schema : Schema) (props : List modelPropertyTemplateData) (uc uj : Bool)
    (g' : Generator)
    (h : collectProperties L fuel g owner schema = some ((props, uc, uj), g')) :
    ∀ p ∈ props, ∃ src, LastDeclaring (propertySources L g fuel schema) src p.JsonName ∧
      ∃ (g₁ g₂ : Generator) (info : typeInfo) (description : Str),
        Generator.SameTypes g₁ g ∧
        resolvePropertyType L fuel g₁ owner p.JsonName
            (getOrZero src.properties p.JsonName) (decide (p.JsonName ∈ src.required))
          = some (info, g₂) ∧
        schemaDescription L g₂ fuel (getOrZero src.properties p.JsonName) = some description ∧
        p.TypeName = info.TypeName ∧ p.IsValueType = info.IsValueType ∧
        p.Required = decide (p.JsonName ∈ src.required) ∧
        p.Description = sanitizeText description := by
  intro p hp
  obtain ⟨src, hl, g₁, g₂, info, description, h1, h2, h3, h4⟩ :=
    (collectProperties_trace L fuel g owner schema h).2.2 p hp
  refine ⟨src, hl, g₁, g₂, info, description, h1, h2, h3, ?_⟩
  rw [h4]
  exact ⟨rfl, rfl, rfl, rfl⟩

theorem collectProperties_last_declaration_wins_witness :
    ∃ props uc uj g',
      collectProperties plainLibrary 5 startGenerator "Owner".toList composedSchema
        = some ((props, uc, uj), g') ∧
      props.map propertyDigest
        = [("id".toList, "string?".toList, false, "identifier".toList),
           ("name".toList, "int".toList, true, "branch name".toList),
           ("tag".toList, "string?".toList, false, [])] ∧
      ∀ p ∈ props, ∃ src,
        LastDeclaring (propertySources plainLibrary startGenerator 5 composedSchema) src
          p.JsonName ∧
        ∃ (g₁ g₂ : Generator) (info : typeInfo) (description : Str),
          Generator.SameTypes g₁ startGenerator ∧
          resolvePropertyType plainLibrary 5 g₁ "Owner".toList p.JsonName
              (getOrZero src.properties p.JsonName) (decide (p.JsonName ∈ src.required))
            = some (info, g₂) ∧
          schemaDescription plainLibrary g₂ 5 (getOrZero src.properties p.JsonName)
            = some description ∧
          p.TypeName = info.TypeName ∧ p.IsValueType = info.IsValueType ∧
          p.Required = decide (p.JsonName ∈ src.required) ∧
          p.Description = sanitizeText description := by
  have hd := composedSchema_digests
  unfold collectedDigests at hd
  rcases hc : collectProperties plainLibrary 5 startGenerator "Owner".toList composedSchema
      with _ | ⟨⟨props, uc, uj⟩, g'⟩
  · rw [hc] at hd
    cases hd
  · rw [hc] at hd
    simp only [Option.map_some', Option.some.injEq] at hd
    exact ⟨props, uc, uj, g', rfl, hd,
      collectProperties_last_declaration_wins plainLibrary 5 startGenerator "Owner".toList
        composedSchema props uc uj g' hc⟩

/-- C15: the list `collectProperties` returns has exactly one entry for each property name
that the schema itself or one of its resolved `allOf` branches declares (the branches of a
branch are not read), and no other entry. The `Required` flag of an entry is true exactly
when its name is in the required list of the source that supplied the entry, which is the
last source that declares the name; the required list of another source does not count. -/
theorem collectProperties_one_entry_per_name (L : Library) (fuel : Nat) (g : Generator)
    (owner : Str) (schema : Schema) (props : List modelPropertyTemplateData) (uc uj : Bool)
    (g' : Generator)
    (h : collectProperties L fuel g owner schema = some ((props, uc, uj), g')) :
    (props.map (fun p => p.JsonName)).Nodup ∧
    (∀ name, name ∈ props.map (fun p => p.JsonName) ↔
      ∃ src ∈ propertySources L g fuel schema, name ∈ keysFromOldest src.properties) ∧
    (∀ p ∈ props, ∃ src, LastDeclaring (propertySources L g fuel schema) src p.JsonName ∧
      p.Required = decide (p.JsonName ∈ src.required)) := by
  obtain ⟨h1, h2, h3⟩ := collectProperties_trace L fuel g owner schema h
  refine ⟨h1, h2, ?_⟩
  intro p hp
  obtain ⟨src, hl, _, _, _, _, _, _, _, h4⟩ := h3 p hp
  refine ⟨src, hl, ?_⟩
  rw [h4]
  rfl

theorem collectProperties_one_entry_per_name_witness :
    ∃ props uc uj g',
      collectProperties plainLibrary 5 startGenerator "Owner".toList composedSchema
        = some ((props, uc, uj), g') ∧
      props.map (fun p => (p.JsonName, p.Required))
        = [("id".toList, false), ("name".toList, true), ("tag".toList, false)] ∧
      propertySources plainLibrary startGenerator 5 composedSchema
        = [composedSchema, composedBranch] ∧
      composedSchema.required = [] ∧
      composedBranch.required = ["id".toList, "name".toList] ∧
      (props.map (fun p => p.JsonName)).Nodup ∧
      (∀ name, name ∈ props.map (fun p => p.JsonName) ↔
        ∃ src ∈ propertySources plainLibrary startGenerator 5 composedSchema,
          name ∈ keysFromOldest src.properties) ∧
      (∀ p ∈ props, ∃ src,
        LastDeclaring (propertySources plainLibrary startGenerator 5 composedSchema) src
          p.JsonName ∧
        p.Required = decide (p.JsonName ∈ src.required)) := by
  have hd := composedSchema_digests
  unfold collectedDigests at hd
  rcases hc : collectProperties plainLibrary 5 startGenerator "Owner".toList composedSchema
      with _ | ⟨⟨props, uc, uj⟩, g'⟩
  · rw [hc] at hd
    cases hd
  · rw [hc] at hd
    simp only [Option.map_some', Option.some.injEq] at hd
    have hreq : props.map (fun p => (p.JsonName, p.Required))
        = [("id".toList, false), ("name".toList, true), ("tag".toList, false)] := by
      have := congrArg (fun l => l.map (fun d : Str × Str × Bool × Str => (d.1, d.2.2.1))) hd
      simpa [List.map_map, propertyDigest, Function.comp] using this
    have hall := collectProperties_one_entry_per_name plainLibrary 5 startGenerator
      "Owner".toList composedSchema props uc uj g' hc
    exact ⟨props, uc, uj, g', rfl, hreq, rfl, rfl, rfl, hall.1, hall.2.1, hall.2.2⟩

end SumUp

namespace SumUp

/-! ## Required properties and the nullability marker -/

theorem digitChar_isDigit (m : Nat) (h : m < 10) : (Nat.digitChar m).isDigit = true := by
  interval_cases m <;> rfl

theorem toDigitsCore_all_digits (fuel : Nat) :
    ∀ (n : Nat) (ds : Str), (∀ c ∈ ds, c.isDigit = true) →
      ∀ c ∈ Nat.toDigitsCore 10 fuel n ds, c.isDigit = true := by
  induction fuel with
  | zero => intro n ds h c hc; exact h c hc
  | succ fuel ih =>
    intro n ds h c hc
    simp only [Nat.toDigitsCore] at hc
    have hcons : ∀ x ∈ Nat.digitChar (n % 10) :: ds, x.isDigit = true := by
      intro x hx
      rcases List.mem_cons.mp hx with e | e
      · rw [e]
        exact digitChar_isDigit _ (Nat.mod_lt _ (by decide))
      · exact h x e
    split at hc
    · exact hcons c hc
    · exact ih _ _ hcons c hc

theorem decimal_all_digits (n : Nat) : ∀ c ∈ decimal n, c.isDigit = true :=
  toDigitsCore_all_digits _ n [] (fun _ h => absurd h (List.not_mem_nil _))

theorem hasSuffixQ_append_of_ne_nil (a : Str) {b : Str} (hb : b ≠ []) :
    hasSuffixQ (a ++ b) = hasSuffixQ b := by
  unfold hasSuffixQ
  rw [List.getLast?_append_of_ne_nil _ hb]

theorem hasSuffixQ_of_all_digits {d : Str} (h : ∀ c ∈ d, c.isDigit = true) :
    hasSuffixQ d = false := by
  unfold hasSuffixQ
  rw [decide_eq_false_iff_not]
  intro e
  have hm : '?' ∈ d := List.mem_of_getLast?_eq_some e
  exact absurd (h _ hm) (by decide)

theorem hasSuffixQ_candidateName {base : Str} (hb : hasSuffixQ base = false) (k : Nat) :
    hasSuffixQ (candidateName base k) = false := by
  unfold candidateName
  split
  · exact hb
  · rw [hasSuffixQ_append_of_ne_nil _ (decimal_ne_nil k)]
    exact hasSuffixQ_of_all_digits (decimal_all_digits k)

theorem hasSuffixQ_append_gt (x : Str) : hasSuffixQ (x ++ ">".toList) = false := by
  rw [hasSuffixQ_append_of_ne_nil _ (by decide)]
  decide

theorem resolveSchemaType_required (resolve : Option SchemaProxy → Bool → Option typeInfo)
    (schema : Schema) (hn : schema.nullable ≠ some true) {t : typeInfo}
    (h : resolveSchemaType resolve schema true = some t) : hasSuffixQ t.TypeName = false := by
  unfold resolveSchemaType at h
  simp only [if_neg hn] at h
  repeat' split at h
  all_goals first
    | (cases h; done)
    | (simp only [Option.some.injEq] at h
       rw [← h, nullableType_required]
       first
         | exact hasSuffixQ_append_gt _
         | decide
         | (unfold stringTypeName
            repeat' split
            all_goals decide))

theorem resolveType_required (L : Library) (g : Generator)
    (htable : ∀ k info, g.schemaTypes k = some info →
      hasSuffixQ info.TypeName = false ∧ hasSuffixQ info.AliasType = false)
    (fuel : Nat) (ref : Option SchemaProxy)
    (hnull : ∀ p, ref = some p → ∀ fuel' s,
      schemaFromProxy L g fuel' p = some (some s) → s.nullable ≠ some true)
    {t : typeInfo} (h : resolveType L g fuel ref true = some t) :
    hasSuffixQ t.TypeName = false := by
  cases fuel with
  | zero => cases h
  | succ fuel =>
    rw [resolveType] at h
    unfold resolveTypeStep at h
    cases ref with
    | none =>
      simp only [Option.some.injEq] at h
      rw [← h, nullableType_required]
      decide
    | some p =>
      simp only at h
      cases hv : resolveTypeViaTable g p true with
      | some t' =>
        rw [hv] at h
        simp only [Option.some.injEq] at h
        subst h
        unfold resolveTypeViaTable at hv
        split at hv
        · cases hi : g.schemaTypes (componentName p.getReference) with
          | none => rw [hi] at hv; cases hv
          | some info =>
            rw [hi] at hv
            simp only [Option.some.injEq] at hv
            rw [← hv, nullableType_required]
            have ht := htable _ info hi
            split
            · exact ht.2
            · exact ht.1
        · cases hv
      | none =>
        rw [hv] at h
        simp only at h
        rcases hs : schemaFromProxy L g fuel p with _ | _ | schema
        · rw [hs] at h; cases h
        · rw [hs] at h
          simp only [Option.some.injEq] at h
          rw [← h, nullableType_required]
          decide
        · rw [hs] at h
          exact resolveSchemaType_required _ schema (hnull p rfl fuel schema hs) h

theorem createInlineModelWith_name {L : Library} {fuel : Nat} {R : InlineResolver}
    {g g' : Generator} {base typeName : Str} {schema : Schema}
    (h : createInlineModelWith L fuel R g base schema = some (typeName, g')) :
    ∃ k, 1 ≤ k ∧ typeName = candidateName base k := by
  simp only [createInlineModelWith] at h
  rcases hr : reserveModelName fuel g base with _ | ⟨name, g₁⟩
  · rw [hr] at h; cases h
  · rw [hr] at h
    simp only at h
    rcases hb : buildClassModelWith L fuel R g₁ name schema with _ | ⟨model, g₂⟩
    · rw [hb] at h; cases h
    · rw [hb] at h
      simp only [Option.some.injEq, Prod.mk.injEq] at h
      obtain ⟨_, k, hk, hname, _⟩ := reserveModelName_sound hr
      exact ⟨k, hk, h.1 ▸ hname⟩

theorem resolveInlineSchemaType_required (L : Library) (g : Generator)
    (htable : ∀ k info, g.schemaTypes k = some info →
      hasSuffixQ info.TypeName = false ∧ hasSuffixQ info.AliasType = false)
    (fuel : Nat) (ref : Option SchemaProxy) (base : Str) (hbase : hasSuffixQ base = false)
    (hnull : ∀ p, ref = some p → ∀ fuel' s,
      schemaFromProxy L g fuel' p = some (some s) → s.nullable ≠ some true)
    {t : typeInfo} {g' : Generator}
    (h : resolveInlineSchemaType L fuel g ref true base = some (t, g')) :
    hasSuffixQ t.TypeName = false := by
  cases fuel with
  | zero => cases h
  | succ fuel =>
    rw [resolveInlineSchemaType] at h
    unfold resolveInlineStep at h
    have hplain : ∀ {o : Option (typeInfo × Generator)},
        (match resolveType L g fuel ref true with
          | none => none
          | some t => some (t, g)) = o → o = some (t, g') → hasSuffixQ t.TypeName = false := by
      intro o ho hres
      cases hr : resolveType L g fuel ref true with
      | none => rw [hr] at ho; rw [← ho] at hres; cases hres
      | some t' =>
        rw [hr] at ho
        rw [← ho] at hres
        simp only [Option.some.injEq, Prod.mk.injEq] at hres
        rw [← hres.1]
        exact resolveType_required L g htable fuel ref hnull hr
    cases ref with
    | none =>
      simp only [Option.some.injEq, Prod.mk.injEq] at h
      rw [← h.1, nullableType_required]
      decide
    | some p =>
      simp only at h
      split at h
      · rcases hs : schemaFromProxy L g fuel p with _ | _ | schema
        · rw [hs] at h; cases h
        · rw [hs] at h
          simp only [Option.some.injEq, Prod.mk.injEq] at h
          rw [← h.1, nullableType_required]
          decide
        · rw [hs] at h
          simp only at h
          split at h
          · rcases hc : createInlineModelWith L fuel (resolveInlineSchemaType L fuel) g base
                schema with _ | ⟨typeName, g₁⟩
            · rw [hc] at h; cases h
            · rw [hc] at h
              simp only [Option.some.injEq, Prod.mk.injEq] at h
              obtain ⟨k, _, hk⟩ := createInlineModelWith_name hc
              rw [← h.1, nullableType_required, hk]
              exact hasSuffixQ_candidateName hbase k
          · cases hap : schema.additionalProperties.schemaA with
            | some valueSchema =>
              rw [hap] at h
              simp only at h
              split at h
              · cases h
              · simp only [Option.some.injEq, Prod.mk.injEq] at h
                rw [← h.1, nullableType_required]
                exact hasSuffixQ_append_gt _
            | none =>
              rw [hap] at h
              simp only at h
              split at h
              · simp only [Option.some.injEq, Prod.mk.injEq] at h
                rw [← h.1, nullableType_required]
                decide
              · split at h
                · split at h
                  · cases h
                  · simp only [Option.some.injEq, Prod.mk.injEq] at h
                    rw [← h.1, nullableType_required]
                    exact hasSuffixQ_append_gt _
                · exact hplain rfl h
      · exact hplain rfl h

/-- C16 fails as stated: the property `note` of `nullableRequiredSchema` is required, its
type `string` is not a value type, and its schema is explicitly nullable; `resolveType`
then drops the required flag, and the record has the type name `string?` and is marked
nullable. -/
theorem required_property_marked_nullable :
    (collectProperties plainLibrary 5 startGenerator "Owner".toList nullableRequiredSchema).map
        (fun r => r.1.1.map
          (fun p => (p.JsonName, p.TypeName, p.Required, p.IsValueType, p.IsNullable)))
      = some [("note".toList, "string?".toList, true, false, true)] := by
  decide!

/-- C16, amended: a required property is never marked nullable, whether its type is a
value type or not, provided that its schema is not explicitly nullable, that no type name
in the table of schema types ends with `?`, and that the normalized property name (the end
of the hint for an inline model) does not end with `?`. Then `IsNullable` is false, the
type name does not end with `?`, and a property of a reference type needs an initializer. -/
theorem required_property_not_nullable (L : Library) (fuel : Nat) (g : Generator)
    (owner : Str) (schema : Schema) (props : List modelPropertyTemplateData) (uc uj : Bool)
    (g' : Generator)
    (h : collectProperties L fuel g owner schema = some ((props, uc, uj), g'))
    (htable : ∀ k info, g.schemaTypes k = some info →
      hasSuffixQ info.TypeName = false ∧ hasSuffixQ info.AliasType = false)
    (hnames : ∀ src ∈ propertySources L g fuel schema, ∀ name ∈ keysFromOldest src.properties,
      hasSuffixQ (PascalIdentifier L.unicode name) = false)
    (hnull : ∀ src ∈ propertySources L g fuel schema, ∀ name p,
      getOrZero src.properties name = some p → ∀ fuel' s,
        schemaFromProxy L g fuel' p = some (some s) → s.nullable ≠ some true) :
    ∀ p ∈ props, p.Required = true →
      p.IsNullable = false ∧ hasSuffixQ p.TypeName = false ∧
        (p.IsValueType = false → p.NeedsInitializer = true) := by
  intro p hp hreq
  obtain ⟨src, hl, g₁, g₂, info, description, hsame, hres, _, hrec⟩ :=
    (collectProperties_trace L fuel g owner schema h).2.2 p hp
  have hsrc := lastDeclaring_mem hl
  have hdecl : p.JsonName ∈ keysFromOldest src.properties := by
    obtain ⟨_, _, _, hd, _⟩ := hl
    exact hd
  have hR : p.Required = decide (p.JsonName ∈ src.required) :=
    congrArg modelPropertyTemplateData.Required hrec
  have hT : p.TypeName = info.TypeName := congrArg modelPropertyTemplateData.TypeName hrec
  have hN : p.IsNullable = hasSuffixQ info.TypeName :=
    congrArg modelPropertyTemplateData.IsNullable hrec
  have hV : p.IsValueType = info.IsValueType :=
    congrArg modelPropertyTemplateData.IsValueType hrec
  have hI : p.NeedsInitializer
      = (decide (p.JsonName ∈ src.required) && !info.IsValueType && !hasSuffixQ info.TypeName) :=
    congrArg modelPropertyTemplateData.NeedsInitializer hrec
  rw [hreq] at hR
  rw [← hR] at hres hI
  have htable₁ : ∀ k info, g₁.schemaTypes k = some info →
      hasSuffixQ info.TypeName = false ∧ hasSuffixQ info.AliasType = false := by
    intro k i hk
    rw [hsame.2] at hk
    exact htable k i hk
  have hbase : hasSuffixQ (owner ++ PascalIdentifier L.unicode p.JsonName) = false := by
    rw [hasSuffixQ_append_of_ne_nil _ (PascalIdentifier_ne_nil _ _)]
    exact hnames src hsrc _ hdecl
  have hq : hasSuffixQ info.TypeName = false := by
    refine resolveInlineSchemaType_required L g₁ htable₁ fuel _ _ hbase ?_ hres
    intro q hq fuel' s hs
    rw [schemaFromProxy_sameTypes L hsame fuel' q] at hs
    exact hnull src hsrc _ q hq fuel' s hs
  refine ⟨hN.trans hq, hT ▸ hq, ?_⟩
  intro hv
  rw [hV] at hv
  rw [hI, hv, hq]
  rfl

theorem required_property_not_nullable_witness :
    ∃ props uc uj g',
      collectProperties plainLibrary 5 startGenerator "Owner".toList plainRequiredSchema
        = some ((props, uc, uj), g') ∧
      props.map (fun p => (p.JsonName, p.TypeName, p.Required, p.IsValueType, p.IsNullable))
        = [("note".toList, "string".toList, true, false, false),
           ("tags".toList, "IEnumerable<string>".toList, true, false, false)] ∧
      ∀ p ∈ props, p.Required = true →
        p.IsNullable = false ∧ hasSuffixQ p.TypeName = false ∧
          (p.IsValueType = false → p.NeedsInitializer = true) := by
  have hd : (collectProperties plainLibrary 5 startGenerator "Owner".toList
        plainRequiredSchema).map
      (fun r => r.1.1.map
        (fun p => (p.JsonName, p.TypeName, p.Required, p.IsValueType, p.IsNullable)))
      = some [("note".toList, "string".toList, true, false, false),
              ("tags".toList, "IEnumerable<string>".toList, true, false, false)] := by
    decide!
  rcases hc : collectProperties plainLibrary 5 startGenerator "Owner".toList plainRequiredSchema
      with _ | ⟨⟨props, uc, uj⟩, g'⟩
  · rw [hc] at hd
    cases hd
  · rw [hc] at hd
    simp only [Option.map_some', Option.some.injEq] at hd
    have hsources : propertySources plainLibrary startGenerator 5 plainRequiredSchema
        = [plainRequiredSchema] := rfl
    refine ⟨props, uc, uj, g', rfl, hd,
      required_property_not_nullable plainLibrary 5 startGenerator "Owner".toList
        plainRequiredSchema props uc uj g' hc ?_ ?_ ?_⟩
    · intro k info hk
      cases hk
    · intro src hsrc name hname
      rw [hsources, List.mem_singleton] at hsrc
      subst hsrc
      have hkeys : keysFromOldest plainRequiredSchema.properties
          = ["note".toList, "tags".toList] := rfl
      rw [hkeys] at hname
      simp only [List.mem_cons, List.mem_singleton, List.not_mem_nil, or_false] at hname
      rcases hname with rfl | rfl <;> decide
    · intro src hsrc name p hget fuel' s hs
      rw [hsources, List.mem_singleton] at hsrc
      subst hsrc
      have hprops : plainRequiredSchema.properties
          = [("note".toList, .inline (typedSchema "string".toList)),
             ("tags".toList,
              .inline (.mk ["array".toList] [] none [] [] [] [] .absent
                (.a (.inline (typedSchema "string".toList))) []))] := rfl
      rw [hprops] at hget
      simp only [getOrZero] at hget
      split at hget
      · simp only [Option.some.injEq] at hget
        subst hget
        have := schemaFromProxy_inline_eq _ _ _ _ hs
        simp only [Option.some.injEq] at this
        subst this
        decide
      · split at hget
        · simp only [Option.some.injEq] at hget
          subst hget
          have := schemaFromProxy_inline_eq _ _ _ _ hs
          simp only [Option.some.injEq] at this
          subst this
          decide
        · cases hget

end SumUp

namespace SumUp

/-! ## Promotion of inline schemas to models -/

theorem not_candidate_of_prefix (base : Str) {c : Char} (rest : Str)
    (hc : c.isDigit = false) {n : Str} (h : base ++ c :: rest <+: n) (k : Nat) :
    n ≠ candidateName base k := by
  intro e
  rw [e] at h
  unfold candidateName at h
  split at h
  · have hl := h.length_le
    simp only [List.length_append, List.length_cons] at hl
    omega
  · have h' : c :: rest <+: decimal k := (List.prefix_append_right_inj base).mp h
    obtain ⟨t, ht⟩ := h'
    have hm : c ∈ decimal k := by
      rw [← ht]
      exact List.mem_cons_self _ _
    have := decimal_all_digits k c hm
    rw [hc] at this
    cases this

theorem not_candidate_of_strictlyExtends {base : Str} {k : Nat} {n : Str}
    (h : StrictlyExtends (candidateName base k) n) : n ≠ candidateName base k := by
  intro e
  have := h.2
  rw [e] at this
  exact absurd this (lt_irrefl _)

theorem prefix_nullableType {P n : Str} (h : P <+: n) (v r c : Bool) :
    P <+: (nullableType n v r c).TypeName := by
  rw [nullableType_TypeName]
  split
  · exact h.trans (List.prefix_append _ _)
  · exact h

theorem trimSuffixQ_nullableType (n : Str) (v r c : Bool) (h : hasSuffixQ n = false) :
    trimSuffixQ (nullableType n v r c).TypeName = n := by
  cases r with
  | true =>
    rw [nullableType_required]
    simp [trimSuffixQ, h]
  | false =>
    rw [nullableType_optional, if_neg (by simp [h])]
    simp [trimSuffixQ, hasSuffixQ_append_q]

theorem primitiveTypeNames_no_marker : ∀ n ∈ primitiveTypeNames, hasSuffixQ n = false := by
  decide

theorem isDescriptor_primitive {n : Str} (hm : n ∈ primitiveTypeNames) (v r c : Bool) :
    IsDescriptor (nullableType n v r c).TypeName := by
  refine Or.inl ?_
  rw [trimSuffixQ_nullableType n v r c (primitiveTypeNames_no_marker n hm)]
  exact hm

theorem isDescriptor_enumerable (x : Str) (v r c : Bool) :
    IsDescriptor (nullableType ("IEnumerable<".toList ++ x) v r c).TypeName :=
  Or.inr (Or.inl (prefix_nullableType (List.prefix_append _ _) v r c))

theorem isDescriptor_dictionary (x : Str) (v r c : Bool) :
    IsDescriptor (nullableType ("IDictionary<string, ".toList ++ x) v r c).TypeName :=
  Or.inr (Or.inr (prefix_nullableType (List.prefix_append _ _) v r c))

theorem resolveSchemaType_descriptor (resolve : Option SchemaProxy → Bool → Option typeInfo)
    (schema : Schema) (required : Bool) {t : typeInfo}
    (h : resolveSchemaType resolve schema required = some t) : IsDescriptor t.TypeName := by
  unfold resolveSchemaType at h
  simp only at h
  generalize (if schema.nullable = some true then false else required) = r at h
  repeat' split at h
  all_goals first
    | (cases h; done)
    | (simp only [Option.some.injEq] at h
       rw [← h]
       first
         | exact isDescriptor_primitive (by decide) _ _ _
         | (rw [List.append_assoc]; exact isDescriptor_enumerable _ _ _ _)
         | (rw [List.append_assoc]; exact isDescriptor_dictionary _ _ _ _)
         | exact isDescriptor_enumerable "JsonDocument>".toList _ _ _
         | exact isDescriptor_dictionary "JsonElement>".toList _ _ _
         | (unfold stringTypeName
            repeat' split
            all_goals exact isDescriptor_primitive (by decide) _ _ _))

theorem resolveType_inline_descriptor (L : Library) (g : Generator) (fuel : Nat)
    (schema : Schema) (required : Bool) {t : typeInfo}
    (h : resolveType L g fuel (some (.inline schema)) required = some t) :
    IsDescriptor t.TypeName := by
  cases fuel with
  | zero => cases h
  | succ fuel =>
    rw [resolveType] at h
    unfold resolveTypeStep at h
    have hv : resolveTypeViaTable g (.inline schema) required = none := rfl
    simp only [hv] at h
    rcases hs : schemaFromProxy L g fuel (.inline schema) with _ | x
    · rw [hs] at h; cases h
    · have hx := schemaFromProxy_inline_eq L g fuel schema hs
      subst hx
      rw [hs] at h
      exact resolveSchemaType_descriptor _ schema required h

/-- C17: for an inline schema and a non-empty hint, `resolveInlineSchemaType` promotes the
schema itself to a named model exactly when the schema declares a property or an `allOf`
branch. In that case the name is the first free candidate for the hint (the hint, or the
hint followed by 2, 3, …), it is registered, the model of that name is the last of the
inline models added (the ones before it belong to nested schemas and have longer names),
and the type returned is that name, with the marker `?` when the caller did not require
it. Otherwise the type returned is a primitive or the descriptor of a collection, and no
inline model added is named by a candidate for the hint. -/
theorem resolveInlineSchemaType_promotes_iff_structured (L : Library) (fuel : Nat)
    (g : Generator) (schema : Schema) (required : Bool) (base : Str) (t : typeInfo)
    (g' : Generator) (hbase : base ≠ [])
    (h : resolveInlineSchemaType L fuel g (some (.inline schema)) required base
      = some (t, g')) :
    (schemaDefinesStructuredObject schema = true →
      ∃ (k : Nat) (nested : List modelTemplateData) (model : modelTemplateData),
        1 ≤ k ∧ candidateName base k ∉ g.modelNames ∧
        (∀ j, 1 ≤ j → j < k → candidateName base j ∈ g.modelNames) ∧
        candidateName base k ∈ g'.modelNames ∧
        g'.inlineModels = g.inlineModels ++ nested ++ [model] ∧
        model.Name = candidateName base k ∧
        (∀ m ∈ nested, m.Name ≠ candidateName base k) ∧
        t = nullableType (candidateName base k) false required false) ∧
    (schemaDefinesStructuredObject schema = false →
      IsDescriptor t.TypeName ∧
      ∃ added, g'.inlineModels = g.inlineModels ++ added ∧
        ∀ m ∈ added, ∀ k, m.Name ≠ candidateName base k) := by
  cases fuel with
  | zero => cases h
  | succ fuel =>
    rw [resolveInlineSchemaType] at h
    unfold resolveInlineStep at h
    have hcond : base ≠ [] ∧ (SchemaProxy.inline schema).isReference = false := ⟨hbase, rfl⟩
    simp only [if_pos hcond] at h
    rcases hs : schemaFromProxy L g fuel (.inline schema) with _ | x
    · rw [hs] at h; cases h
    · have hx := schemaFromProxy_inline_eq L g fuel schema hs
      subst hx
      rw [hs] at h
      simp only at h
      have hR := resolveInlineSchemaType_extends L fuel
      cases hst : schemaDefinesStructuredObject schema with
      | true =>
        refine ⟨fun _ => ?_, fun hf => (by cases hf)⟩
        rw [hst] at h
        simp only [if_true] at h
        rcases hc : createInlineModelWith L fuel (resolveInlineSchemaType L fuel) g base schema
            with _ | ⟨typeName, g₁⟩
        · rw [hc] at h; cases h
        · rw [hc] at h
          simp only [Option.some.injEq, Prod.mk.injEq] at h
          obtain ⟨ht, hg'⟩ := h
          subst hg'
          simp only [createInlineModelWith] at hc
          rcases hr : reserveModelName fuel g base with _ | ⟨name, ga⟩
          · rw [hr] at hc; cases hc
          · rw [hr] at hc
            simp only at hc
            rcases hb : buildClassModelWith L fuel (resolveInlineSchemaType L fuel) ga name
                schema with _ | ⟨model, gb⟩
            · rw [hb] at hc; cases hc
            · rw [hb] at hc
              simp only [Option.some.injEq, Prod.mk.injEq] at hc
              obtain ⟨hname, hg₁⟩ := hc
              subst hname
              obtain ⟨hga, k, hk, hcand, hfree, hbusy⟩ := reserveModelName_sound hr
              obtain ⟨⟨_, _, _, hsub, nested, hnested, hnames⟩, hmodel⟩ :=
                buildClassModelWith_extends L fuel _ hR ga name schema hb
              subst hcand
              refine ⟨k, nested, model, hk, hfree, hbusy, ?_, ?_, hmodel, ?_, ht.symm⟩
              · rw [← hg₁]
                apply hsub
                rw [hga]
                exact Finset.mem_insert_self _ _
              · rw [← hg₁]
                simp only [hnested, hga, Generator.addModelName]
              · intro m hm
                exact not_candidate_of_strictlyExtends (hnames m hm)
      | false =>
        refine ⟨fun hf => (by cases hf), fun _ => ?_⟩
        rw [hst] at h
        simp only [Bool.false_eq_true, if_false] at h
        cases hap : schema.additionalProperties.schemaA with
        | some valueSchema =>
          rw [hap] at h
          simp only at h
          rcases hv : resolveInlineSchemaType L fuel g (some valueSchema) true
              (base ++ "Value".toList) with _ | ⟨valueInfo, g₁⟩
          · rw [hv] at h; cases h
          · rw [hv] at h
            simp only [Option.some.injEq, Prod.mk.injEq] at h
            obtain ⟨ht, hg'⟩ := h
            subst hg'
            obtain ⟨_, _, _, _, added, hadded, hnames⟩ := hR _ _ _ _ _ _ hv
            refine ⟨?_, added, hadded, ?_⟩
            · rw [← ht, List.append_assoc]
              exact isDescriptor_dictionary _ _ _ _
            · intro m hm k
              exact not_candidate_of_prefix base "alue".toList (by decide) (hnames m hm) k
        | none =>
          rw [hap] at h
          simp only at h
          split at h
          · simp only [Option.some.injEq, Prod.mk.injEq] at h
            obtain ⟨ht, hg'⟩ := h
            subst hg'
            refine ⟨?_, [], (List.append_nil _).symm, fun m hm => absurd hm (List.not_mem_nil _)⟩
            rw [← ht]
            exact isDescriptor_dictionary "JsonElement>".toList _ _ _
          · split at h
            · rcases hv : resolveInlineSchemaType L fuel g schema.items.schemaA true
                  (base ++ "Item".toList) with _ | ⟨itemInfo, g₁⟩
              · rw [hv] at h; cases h
              · rw [hv] at h
                simp only [Option.some.injEq, Prod.mk.injEq] at h
                obtain ⟨ht, hg'⟩ := h
                subst hg'
                obtain ⟨_, _, _, _, added, hadded, hnames⟩ := hR _ _ _ _ _ _ hv
                refine ⟨?_, added, hadded, ?_⟩
                · rw [← ht, List.append_assoc]
                  exact isDescriptor_enumerable _ _ _ _
                · intro m hm k
                  exact not_candidate_of_prefix base "tem".toList (by decide) (hnames m hm) k
            · rcases hv : resolveType L g fuel (some (.inline schema)) required with _ | t'
              · rw [hv] at h; cases h
              · rw [hv] at h
                simp only [Option.some.injEq, Prod.mk.injEq] at h
                obtain ⟨ht, hg'⟩ := h
                subst hg'
                subst ht
                exact ⟨resolveType_inline_descriptor L g fuel schema required hv, [],
                  (List.append_nil _).symm, fun m hm => absurd hm (List.not_mem_nil _)⟩

theorem resolveInlineSchemaType_promotes_iff_structured_witness :
    (∃ t g',
      resolveInlineSchemaType plainLibrary 5 startGenerator
          (some (.inline (onePropertySchema "a".toList))) true "OwnerHome".toList
        = some (t, g') ∧
      t.TypeName = "OwnerHome".toList ∧
      g'.inlineModels.map (fun m => m.Name) = ["OwnerHome".toList] ∧
      ∃ (k : Nat) (nested : List modelTemplateData) (model : modelTemplateData),
        1 ≤ k ∧ candidateName "OwnerHome".toList k ∉ startGenerator.modelNames ∧
        (∀ j, 1 ≤ j → j < k → candidateName "OwnerHome".toList j ∈ startGenerator.modelNames) ∧
        candidateName "OwnerHome".toList k ∈ g'.modelNames ∧
        g'.inlineModels = startGenerator.inlineModels ++ nested ++ [model] ∧
        model.Name = candidateName "OwnerHome".toList k ∧
        (∀ m ∈ nested, m.Name ≠ candidateName "OwnerHome".toList k) ∧
        t = nullableType (candidateName "OwnerHome".toList k) false true false) ∧
    (∃ t g',
      resolveInlineSchemaType plainLibrary 5 startGenerator
          (some (.inline arrayOfObjectsSchema)) true "OwnerHomes".toList
        = some (t, g') ∧
      t.TypeName = "IEnumerable<OwnerHomesItem>".toList ∧
      g'.inlineModels.map (fun m => m.Name) = ["OwnerHomesItem".toList] ∧
      IsDescriptor t.TypeName ∧
      ∃ added, g'.inlineModels = startGenerator.inlineModels ++ added ∧
        ∀ m ∈ added, ∀ k, m.Name ≠ candidateName "OwnerHomes".toList k) := by
  constructor
  · have hd : (resolveInlineSchemaType plainLibrary 5 startGenerator
          (some (.inline (onePropertySchema "a".toList))) true "OwnerHome".toList).map
        (fun r => (r.1.TypeName, r.2.inlineModels.map (fun m => m.Name)))
        = some ("OwnerHome".toList, ["OwnerHome".toList]) := by
      decide!
    rcases hc : resolveInlineSchemaType plainLibrary 5 startGenerator
        (some (.inline (onePropertySchema "a".toList))) true "OwnerHome".toList
        with _ | ⟨t, g'⟩
    · rw [hc] at hd; cases hd
    · rw [hc] at hd
      simp only [Option.map_some', Option.some.injEq, Prod.mk.injEq] at hd
      exact ⟨t, g', rfl, hd.1, hd.2,
        (resolveInlineSchemaType_promotes_iff_structured plainLibrary 5 startGenerator
          (onePropertySchema "a".toList) true "OwnerHome".toList t g' (by decide) hc).1
          (by decide)⟩
  · have hd : (resolveInlineSchemaType plainLibrary 5 startGenerator
          (some (.inline arrayOfObjectsSchema)) true "OwnerHomes".toList).map
        (fun r => (r.1.TypeName, r.2.inlineModels.map (fun m => m.Name)))
        = some ("IEnumerable<OwnerHomesItem>".toList, ["OwnerHomesItem".toList]) := by
      decide!
    rcases hc : resolveInlineSchemaType plainLibrary 5 startGenerator
        (some (.inline arrayOfObjectsSchema)) true "OwnerHomes".toList with _ | ⟨t, g'⟩
    · rw [hc] at hd; cases hd
    · rw [hc] at hd
      simp only [Option.map_some', Option.some.injEq, Prod.mk.injEq] at hd
      obtain ⟨h1, h2⟩ :=
        (resolveInlineSchemaType_promotes_iff_structured plainLibrary 5 startGenerator
          arrayOfObjectsSchema true "OwnerHomes".toList t g' (by decide) hc).2 (by decide)
      exact ⟨t, g', rfl, hd.1, hd.2, h1, h2⟩

end SumUp

namespace SumUp

/-! ## Aliases of aliases -/

/-- C18 (the code at the failing input): with `A: {type: array, items: {$ref: Z}}` and
`Z: {type: string}` the alias loop of `buildModels` visits `A` before `Z`, while the alias
type of `Z` is still empty, and records `IEnumerable<Z>` for `A`; a reference to `A` then
resolves to `IEnumerable<Z>`, which names a type for which no model is emitted. With the
two names exchanged the same pair of schemas resolves to `IEnumerable<string>`. -/
theorem resolveType_alias_depends_on_names :
    typeAfterBuildModels aliasForwardLibrary 5 aliasForwardDocument
        "#/components/schemas/A".toList
      = some { TypeName := "IEnumerable<Z>".toList, IsCollection := true,
               IsValueType := false } ∧
    typeAfterBuildModels aliasBackwardLibrary 5 aliasBackwardDocument
        "#/components/schemas/Z".toList
      = some { TypeName := "IEnumerable<string>".toList, IsCollection := true,
               IsValueType := false } ∧
    (buildModels aliasForwardLibrary 5 startGenerator aliasForwardDocument).map
        (fun r => r.1.map (fun m => m.Name)) = some [] := by
  refine ⟨?_, ?_, ?_⟩ <;> decide!

end SumUp

namespace SumUp

/-! ## Explicitly nullable inline schemas -/

/-- C19 (the code at the failing input): for the required inline schema
`{type: array, nullable: true, items: {type: string}}` and the hint `OwnerTags`,
`resolveInlineSchemaType` returns `IEnumerable<string>` without the marker: the branches
for structured objects, maps and arrays return before `resolveType` is reached, which is
where `Nullable` is read. `resolveType` on the same schema, and `resolveInlineSchemaType`
without a hint, return `IEnumerable<string>?`. The nullable object and the nullable open
map lose the marker in the same way. -/
theorem resolveInlineSchemaType_drops_nullable :
    inlineTypeName 5 nullableArraySchema true "OwnerTags".toList
      = some "IEnumerable<string>".toList ∧
    (resolveType plainLibrary startGenerator 5 (some (.inline nullableArraySchema)) true).map
        (fun t => t.TypeName) = some "IEnumerable<string>?".toList ∧
    inlineTypeName 5 nullableArraySchema true [] = some "IEnumerable<string>?".toList ∧
    inlineTypeName 5 nullableObjectSchema true "OwnerHome".toList = some "OwnerHome".toList ∧
    inlineTypeName 5 nullableMapSchema true "OwnerTags".toList
      = some "IDictionary<string, JsonElement>".toList ∧
    nullableArraySchema.nullable = some true ∧ nullableObjectSchema.nullable = some true ∧
    nullableMapSchema.nullable = some true := by
  refine ⟨?_, ?_, ?_, ?_, ?_, rfl, rfl, rfl⟩ <;> decide!

end SumUp

namespace SumUp

/-! ## The type of an inline schema -/

theorem resolveType_inline_succ (L : Library) (g : Generator) (fuel : Nat) (schema : Schema)
    (required : Bool) :
    resolveType L g (fuel + 2) (some (.inline schema)) required
      = resolveSchemaType (resolveType L g (fuel + 1)) schema required := by
  rw [resolveType]
  unfold resolveTypeStep
  have hv : resolveTypeViaTable g (.inline schema) required = none := rfl
  simp only [hv, schemaFromProxy_inline]

theorem not_collection_of_primitive :
    ∀ n ∈ primitiveTypeNames, ∀ v r : Bool,
      (nullableType n v r false).IsCollection = false := by
  decide

/-- C21: for an inline schema that is not explicitly nullable and declares exactly one
type, `resolveType` with `required = true` returns (for every fuel of at least 2): for
`string` the name `DateTimeOffset`, `DateTime`, `Guid` or `byte[]` for the formats
`date-time`, `date`, `uuid` and `byte`/`binary`, and `string` for every other format,
never as a value type; for `integer` the name `long` for the format `int64` and `int`
otherwise, as a value type; for `number` the name `float` or `double` for the format of
that name and `decimal` otherwise, as a value type; for `boolean` the value type `bool`.
None of them is a collection. -/
theorem resolveType_scalar (L : Library) (g : Generator) (fuel : Nat) (schema : Schema)
    (hn : schema.nullable ≠ some true) :
    (schema.type = ["string".toList] →
      ∃ t, resolveType L g (fuel + 2) (some (.inline schema)) true = some t ∧
        t.IsValueType = false ∧ t.IsCollection = false ∧
        (schema.format = "date-time".toList → t.TypeName = "DateTimeOffset".toList) ∧
        (schema.format = "date".toList → t.TypeName = "DateTime".toList) ∧
        (schema.format = "uuid".toList → t.TypeName = "Guid".toList) ∧
        (schema.format = "byte".toList ∨ schema.format = "binary".toList →
          t.TypeName = "byte[]".toList) ∧
        (schema.format ∉ ["date-time".toList, "date".toList, "uuid".toList, "byte".toList,
            "binary".toList] → t.TypeName = "string".toList)) ∧
    (schema.type = ["integer".toList] →
      ∃ t, resolveType L g (fuel + 2) (some (.inline schema)) true = some t ∧
        t.IsValueType = true ∧ t.IsCollection = false ∧
        (schema.format = "int64".toList → t.TypeName = "long".toList) ∧
        (schema.format ≠ "int64".toList → t.TypeName = "int".toList)) ∧
    (schema.type = ["number".toList] →
      ∃ t, resolveType L g (fuel + 2) (some (.inline schema)) true = some t ∧
        t.IsValueType = true ∧ t.IsCollection = false ∧
        (schema.format = "float".toList → t.TypeName = "float".toList) ∧
        (schema.format = "double".toList → t.TypeName = "double".toList) ∧
        (schema.format ≠ "float".toList → schema.format ≠ "double".toList →
          t.TypeName = "decimal".toList)) ∧
    (schema.type = ["boolean".toList] →
      resolveType L g (fuel + 2) (some (.inline schema)) true
        = some { TypeName := "bool".toList, IsCollection := false, IsValueType := true }) := by
  refine ⟨?_, ?_, ?_, ?_⟩
  · intro ht
    have hs : schemaHasType schema "string".toList = true := by
      rw [schemaHasType, ht]; decide
    refine ⟨nullableType (stringTypeName schema.format) false true false, ?_, rfl, ?_, ?_⟩
    · rw [resolveType_inline_succ]
      simp only [resolveSchemaType, if_neg hn, hs, if_true]
    · apply not_collection_of_primitive
      unfold stringTypeName
      repeat' split
      all_goals decide
    · rw [nullableType_required]
      refine ⟨?_, ?_, ?_, ?_, ?_⟩
      · intro hf
        rw [hf]; decide
      · intro hf
        rw [hf]; decide
      · intro hf
        rw [hf]; decide
      · rintro (hf | hf) <;> rw [hf] <;> decide
      · intro hf
        simp only [List.mem_cons, List.mem_singleton, List.not_mem_nil, or_false, not_or] at hf
        unfold stringTypeName
        rw [if_neg hf.1, if_neg hf.2.1, if_neg hf.2.2.1, if_neg (not_or.mpr hf.2.2.2)]
  · intro ht
    have hs : schemaHasType schema "string".toList = false := by
      rw [schemaHasType, ht]; decide
    have hi : schemaHasType schema "integer".toList = true := by
      rw [schemaHasType, ht]; decide
    refine ⟨nullableType (if schema.format = "int64".toList then "long".toList
      else "int".toList) true true false, ?_, rfl, ?_, ?_⟩
    · rw [resolveType_inline_succ]
      simp only [resolveSchemaType, if_neg hn, hs, hi, if_true, Bool.false_eq_true, if_false]
    · apply not_collection_of_primitive
      split <;> decide
    · rw [nullableType_required]
      exact ⟨fun hf => by rw [if_pos hf], fun hf => by rw [if_neg hf]⟩
  · intro ht
    have hs : schemaHasType schema "string".toList = false := by
      rw [schemaHasType, ht]; decide
    have hi : schemaHasType schema "integer".toList = false := by
      rw [schemaHasType, ht]; decide
    have hnum : schemaHasType schema "number".toList = true := by
      rw [schemaHasType, ht]; decide
    refine ⟨nullableType
      (if schema.format = "double".toList then "double".toList
        else if schema.format = "float".toList then "float".toList else "decimal".toList)
      true true false, ?_, rfl, ?_, ?_⟩
    · rw [resolveType_inline_succ]
      simp only [resolveSchemaType, if_neg hn, hs, hi, hnum, if_true, Bool.false_eq_true,
        if_false]
    · apply not_collection_of_primitive
      repeat' split
      all_goals decide
    · rw [nullableType_required]
      refine ⟨?_, ?_, ?_⟩
      · intro hf
        rw [hf]
        decide
      · intro hf
        rw [if_pos hf]
      · intro hf hd
        rw [if_neg hd, if_neg hf]
  · intro ht
    have hs : schemaHasType schema "string".toList = false := by
      rw [schemaHasType, ht]; decide
    have hi : schemaHasType schema "integer".toList = false := by
      rw [schemaHasType, ht]; decide
    have hnum : schemaHasType schema "number".toList = false := by
      rw [schemaHasType, ht]; decide
    have hb : schemaHasType schema "boolean".toList = true := by
      rw [schemaHasType, ht]; decide
    rw [resolveType_inline_succ]
    simp only [resolveSchemaType, if_neg hn, hs, hi, hnum, hb, if_true, Bool.false_eq_true,
      if_false]
    rfl

end SumUp

namespace SumUp

theorem resolveType_scalar_witness :
    ∃ t, resolveType plainLibrary startGenerator 2 (some (.inline int64Schema)) true = some t ∧
      t.IsValueType = true ∧ t.IsCollection = false ∧
      (int64Schema.format = "int64".toList → t.TypeName = "long".toList) ∧
      (int64Schema.format ≠ "int64".toList → t.TypeName = "int".toList) :=
  (resolveType_scalar plainLibrary startGenerator 0 int64Schema (by decide)).2.1 rfl

theorem resolveSchemaType_composite (resolve : Option SchemaProxy → Bool → Option typeInfo)
    (schema : Schema) (required : Bool) (hs : hasScalarType schema = false) :
    resolveSchemaType resolve schema required =
      if schemaHasType schema "array".toList || schema.items.isA then
        if schema.items.isA then
          (resolve schema.items.schemaA true).map (fun elem =>
            nullableType ("IEnumerable<".toList ++ trimSuffixQ elem.TypeName ++ ">".toList)
              false (effectiveRequired schema required) true)
        else some (nullableType "IEnumerable<JsonDocument>".toList false
          (effectiveRequired schema required) true)
      else if schemaHasType schema "object".toList then
        match schema.additionalProperties.schemaA with
        | some valueSchema =>
          (resolve (some valueSchema) true).map (fun valueType =>
            nullableType
              ("IDictionary<string, ".toList ++ trimSuffixQ valueType.TypeName ++ ">".toList)
              false (effectiveRequired schema required) true)
        | none =>
          if schema.additionalProperties.isTrueB then
            some (nullableType "IDictionary<string, JsonElement>".toList false
              (effectiveRequired schema required) true)
          else some (nullableType "JsonDocument".toList false
            (effectiveRequired schema required) false)
      else some (nullableType "JsonDocument".toList false
        (effectiveRequired schema required) false) := by
  simp only [hasScalarType, Bool.or_eq_false_iff] at hs
  obtain ⟨⟨⟨h1, h2⟩, h3⟩, h4⟩ := hs
  simp only [resolveSchemaType, effectiveRequired, h1, h2, h3, h4, Bool.false_eq_true, if_false]
  split
  · split
    · cases resolve schema.items.schemaA true <;> rfl
    · rfl
  · split
    · cases schema.additionalProperties.schemaA with
      | none => rfl
      | some valueSchema =>
        simp only
        cases resolve (some valueSchema) true <;> rfl
    · rfl

/-- C22: for an inline schema without a scalar type, `resolveType` resolves composites
structurally (for every fuel of at least 2; `r` is the caller's required flag, or `false`
when the schema is explicitly nullable, and decides about the marker `?`). An array with
the item schema `S` gives `IEnumerable<T>`, where `T` is the type name of
`resolveType(S, true)` without a trailing `?`, and returns exactly when that call returns;
an array without items gives `IEnumerable<JsonDocument>`; an object whose
`additionalProperties` is the schema `V` gives `IDictionary<string, T>` in the same way; an
object without `additionalProperties` gives `JsonDocument`. Arrays and maps are flagged as
collections, and no result is a value type. -/
theorem resolveType_composite (L : Library) (g : Generator) (fuel : Nat) (schema : Schema)
    (required : Bool) (hs : hasScalarType schema = false) :
    (∀ S, schema.items = .a S →
      resolveType L g (fuel + 2) (some (.inline schema)) required
        = (resolveType L g (fuel + 1) (some S) true).map (fun elem =>
            nullableType ("IEnumerable<".toList ++ trimSuffixQ elem.TypeName ++ ">".toList)
              false (effectiveRequired schema required) true)) ∧
    (schemaHasType schema "array".toList = true → schema.items.isA = false →
      resolveType L g (fuel + 2) (some (.inline schema)) required
        = some (nullableType "IEnumerable<JsonDocument>".toList false
            (effectiveRequired schema required) true)) ∧
    (schemaHasType schema "array".toList = false → schema.items.isA = false →
      schemaHasType schema "object".toList = true →
      (∀ V, schema.additionalProperties = .a V →
        resolveType L g (fuel + 2) (some (.inline schema)) required
          = (resolveType L g (fuel + 1) (some V) true).map (fun valueType =>
              nullableType
                ("IDictionary<string, ".toList ++ trimSuffixQ valueType.TypeName ++ ">".toList)
                false (effectiveRequired schema required) true)) ∧
      (schema.additionalProperties = .absent →
        resolveType L g (fuel + 2) (some (.inline schema)) required
          = some (nullableType "JsonDocument".toList false
              (effectiveRequired schema required) false))) ∧
    (∀ (n : Str) (r c : Bool), (nullableType n false r c).IsValueType = false ∧
      (nullableType n false r true).IsCollection = true ∧
      (nullableType "JsonDocument".toList false r false).IsCollection = false) := by
  have hkey := resolveSchemaType_composite (resolveType L g (fuel + 1)) schema required hs
  rw [← resolveType_inline_succ] at hkey
  refine ⟨?_, ?_, ?_, ?_⟩
  · intro S hS
    have hisA : schema.items.isA = true := by rw [hS]; rfl
    have hA : schema.items.schemaA = some S := by rw [hS]; rfl
    rw [hkey, hisA, hA]
    simp only [Bool.or_true, if_true]
  · intro harr hitems
    rw [hkey, harr, hitems]
    simp only [Bool.or_false, if_true, Bool.false_eq_true, if_false]
  · intro harr hitems hobj
    constructor
    · intro V hV
      have hA : schema.additionalProperties.schemaA = some V := by rw [hV]; rfl
      rw [hkey, harr, hitems, hobj, hA]
      simp only [Bool.or_false, Bool.false_eq_true, if_false, if_true]
    · intro hV
      have hA : schema.additionalProperties.schemaA = none := by rw [hV]; rfl
      have hB : schema.additionalProperties.isTrueB = false := by rw [hV]; rfl
      rw [hkey, harr, hitems, hobj, hA, hB]
      simp only [Bool.or_false, Bool.false_eq_true, if_false, if_true]
  · intro n r c
    refine ⟨rfl, rfl, ?_⟩
    cases r <;> decide

theorem resolveType_composite_witness :
    resolveType plainLibrary startGenerator 3 (some (.inline arrayOfInt64Schema)) true
      = (resolveType plainLibrary startGenerator 2 (some (.inline int64Schema)) true).map
          (fun elem =>
            nullableType ("IEnumerable<".toList ++ trimSuffixQ elem.TypeName ++ ">".toList)
              false (effectiveRequired arrayOfInt64Schema true) true) ∧
    resolveType plainLibrary startGenerator 3 (some (.inline arrayOfInt64Schema)) true
      = some { TypeName := "IEnumerable<long>".toList, IsCollection := true,
               IsValueType := false } :=
  ⟨(resolveType_composite plainLibrary startGenerator 1 arrayOfInt64Schema true
      (by decide)).1 (.inline int64Schema) rfl, by decide⟩

end SumUp

namespace SumUp

/-! ## Open maps and unresolved references -/

/-- C23 fails as stated: for the schema `{additionalProperties: true}` without a type,
which declares no property and no composition, `resolveType` returns `JsonDocument`,
because the open map is recognized only in the case `type: object`; and for
`{type: object, nullable: true, additionalProperties: true}` the marker `?` is appended
although the caller requires the value. -/
theorem resolveType_open_map_needs_object_type :
    resolvedTypeName 5 untypedOpenMapSchema true = some "JsonDocument".toList ∧
    untypedOpenMapSchema.additionalProperties = .b true ∧
    untypedOpenMapSchema.properties = [] ∧ untypedOpenMapSchema.allOf = [] ∧
    resolvedTypeName 5 nullableMapSchema true
      = some "IDictionary<string, JsonElement>?".toList := by
  refine ⟨?_, rfl, rfl, rfl, ?_⟩ <;> decide

theorem buildClassModelWith_open_map (L : Library) (fuel : Nat) (R : InlineResolver)
    (g : Generator) (typeName : Str) (schema : Schema)
    (hap : schema.additionalProperties = .b true) (hp : schema.properties = [])
    (ha : schema.allOf = []) :
    buildClassModelWith L fuel R g typeName schema
      = some ({ Namespace := g.config.Namespace,
                Name := typeName,
                Description := sanitizeText schema.description,
                Properties := [],
                Kind := schemaKind.schemaKindObject,
                HasProperties := false,
                UsesCollections := true,
                UsesJson := true,
                HasExtensionData := true,
                ExtensionDataValueType := "JsonElement".toList }, g) := by
  have hc : collectPropertiesWith L fuel R g typeName schema
      = some (([], false, false), g) := by
    simp only [collectPropertiesWith, addProps, hp, ha, keysFromOldest, List.map_nil]
    have hsort : sortStrings [] = [] := rfl
    simp only [hsort, addPropsLoop, allOfLoop, List.map_nil, List.filterMap_nil]
  have hA : schema.additionalProperties.schemaA = none := by rw [hap]; rfl
  have hB : schema.additionalProperties.isTrueB = true := by rw [hap]; rfl
  simp only [buildClassModelWith, hc, hA, hB, if_true]
  rfl

/-- C23, amended: for an inline schema of type `object` (and of no scalar or array type)
that sets `additionalProperties` to `true`, `resolveType` returns
`IDictionary<string, JsonElement>`, flagged as a collection and not a value type, for every
fuel of at least 2; the marker `?` is appended exactly when the caller does not require the
value or the schema is explicitly nullable. `buildClassModel` on a schema that sets
`additionalProperties` to `true` and declares no properties and no composition returns,
for every fuel, a model with `HasExtensionData` and the extension value type `JsonElement`,
whatever the type of the schema. -/
theorem resolveType_open_map (L : Library) (g : Generator) (fuel : Nat) (schema : Schema)
    (required : Bool) (hs : hasScalarType schema = false)
    (harr : schemaHasType schema "array".toList = false) (hitems : schema.items.isA = false)
    (hobj : schemaHasType schema "object".toList = true)
    (hap : schema.additionalProperties = .b true) :
    resolveType L g (fuel + 2) (some (.inline schema)) required
      = some { TypeName :=
                 if effectiveRequired schema required = true then
                   "IDictionary<string, JsonElement>".toList
                 else "IDictionary<string, JsonElement>?".toList,
               IsCollection := true, IsValueType := false } ∧
    (schema.properties = [] → schema.allOf = [] →
      ∀ (fuel' : Nat) (typeName : Str), ∃ model,
        buildClassModel L fuel' g typeName schema = some (model, g) ∧
        model.HasExtensionData = true ∧
        model.ExtensionDataValueType = "JsonElement".toList) := by
  constructor
  · have hA : schema.additionalProperties.schemaA = none := by rw [hap]; rfl
    have hB : schema.additionalProperties.isTrueB = true := by rw [hap]; rfl
    rw [resolveType_inline_succ, resolveSchemaType_composite _ _ _ hs, harr, hitems, hobj,
      hA, hB]
    simp only [Bool.or_false, Bool.false_eq_true, if_false, if_true]
    cases effectiveRequired schema required <;> rfl
  · intro hp ha fuel' typeName
    exact ⟨_, buildClassModelWith_open_map L fuel' _ g typeName schema hap hp ha, rfl, rfl⟩

theorem resolveType_open_map_witness :
    resolveType plainLibrary startGenerator 2 (some (.inline openMapSchema)) false
      = some { TypeName :=
                 if effectiveRequired openMapSchema false = true then
                   "IDictionary<string, JsonElement>".toList
                 else "IDictionary<string, JsonElement>?".toList,
               IsCollection := true, IsValueType := false } ∧
    ∃ model,
      buildClassModel plainLibrary 0 startGenerator "Metadata".toList openMapSchema
        = some (model, startGenerator) ∧
      model.HasExtensionData = true ∧ model.ExtensionDataValueType = "JsonElement".toList :=
  ⟨(resolveType_open_map plainLibrary startGenerator 0 openMapSchema false (by decide)
      (by decide) (by decide) (by decide) rfl).1,
   (resolveType_open_map plainLibrary startGenerator 0 openMapSchema false (by decide)
      (by decide) (by decide) (by decide) rfl).2 rfl rfl 0 "Metadata".toList⟩

theorem schemaFromProxy_unresolved (L : Library) (g : Generator) (fuel : Nat) (ref : Str)
    (hl : L.schemaOf ref = none) (ht : g.schemaTypes (componentName ref) = none) :
    schemaFromProxy L g (fuel + 1) (.reference ref) = some none := by
  simp [schemaFromProxy, SchemaProxy.schema, SchemaProxy.isReference,
    SchemaProxy.getReference, hl, ht]

/-- C24: an unresolved reference degrades instead of failing. For a reference whose
component name is not in the table of schema types and which the loader cannot resolve,
`resolveType` (with any fuel of at least 2) and `resolveInlineSchemaType` (with any fuel of
at least 3, whatever the hint) return the descriptor `JsonDocument`, with the marker `?`
when the value is not required, not a value type and not a collection;
`resolveInlineSchemaType` leaves the generator as it is. -/
theorem unresolved_reference_degrades (L : Library) (g : Generator) (fuel : Nat) (ref : Str)
    (required : Bool) (base : Str)
    (hl : L.schemaOf ref = none) (ht : g.schemaTypes (componentName ref) = none) :
    resolveType L g (fuel + 2) (some (.reference ref)) required
      = some { TypeName := if required = true then "JsonDocument".toList
                 else "JsonDocument?".toList,
               IsCollection := false, IsValueType := false } ∧
    resolveInlineSchemaType L (fuel + 3) g (some (.reference ref)) required base
      = some ({ TypeName := if required = true then "JsonDocument".toList
                  else "JsonDocument?".toList,
                IsCollection := false, IsValueType := false }, g) := by
  have hv : resolveTypeViaTable g (.reference ref) required = none := by
    simp [resolveTypeViaTable, SchemaProxy.isReference, SchemaProxy.getReference, ht]
  have h1 : ∀ f, resolveType L g (f + 2) (some (.reference ref)) required
      = some { TypeName := if required = true then "JsonDocument".toList
                 else "JsonDocument?".toList,
               IsCollection := false, IsValueType := false } := by
    intro f
    rw [resolveType]
    unfold resolveTypeStep
    simp only [hv, schemaFromProxy_unresolved L g f ref hl ht]
    cases required <;> rfl
  refine ⟨h1 fuel, ?_⟩
  rw [resolveInlineSchemaType]
  unfold resolveInlineStep
  have hcond : ¬ (base ≠ [] ∧ (SchemaProxy.reference ref).isReference = false) := by
    intro h
    have h2 : true = false := h.2
    cases h2
  simp only [if_neg hcond, h1 fuel]

theorem unresolved_reference_degrades_witness :
    resolveType plainLibrary startGenerator 2
        (some (.reference "#/components/schemas/Missing".toList)) true
      = some { TypeName := if true = true then "JsonDocument".toList
                 else "JsonDocument?".toList,
               IsCollection := false, IsValueType := false } ∧
    resolveInlineSchemaType plainLibrary 3 startGenerator
        (some (.reference "#/components/schemas/Missing".toList)) true "OwnerPet".toList
      = some ({ TypeName := if true = true then "JsonDocument".toList
                  else "JsonDocument?".toList,
                IsCollection := false, IsValueType := false }, startGenerator) :=
  unresolved_reference_degrades plainLibrary startGenerator 0
    "#/components/schemas/Missing".toList true "OwnerPet".toList rfl rfl

end SumUp

namespace SumUp

/-! ## Classification of schemas, and the base name of an operation -/

open schemaKind

theorem length_pos_iff_ne_nil {α : Type} (l : List α) : (decide (l.length > 0)) = true ↔ l ≠ [] := by
  cases l <;> simp

/-- C25: `classifySchema` is the specified classification. A schema is an `Enum` exactly
when it enumerates at least one literal value, whatever else it declares; it is an
`Object` exactly when it enumerates none and declares at least one property, or at least
one `allOf` branch, or has the type `object`, or has a schema as `additionalProperties`; it
is an `Alias` in every other case. -/
theorem classifySchema_spec (schema : Schema) :
    (classifySchema schema = schemaKindEnum ↔ schema.enum ≠ []) ∧
    (classifySchema schema = schemaKindObject ↔
      schema.enum = [] ∧
        (schema.properties ≠ [] ∨ schema.allOf ≠ [] ∨
          schemaHasType schema "object".toList = true ∨
          ∃ p, schema.additionalProperties = .a p)) ∧
    (classifySchema schema = schemaKindAlias ↔
      schema.enum = [] ∧ schema.properties = [] ∧ schema.allOf = [] ∧
        schemaHasType schema "object".toList = false ∧
        ∀ p, schema.additionalProperties ≠ .a p) := by
  have hA : schema.additionalProperties.schemaA.isSome = true ↔
      ∃ p, schema.additionalProperties = .a p := by
    cases schema.additionalProperties <;> simp [DynamicValue.schemaA]
  have hA' : schema.additionalProperties.schemaA.isSome = false ↔
      ∀ p, schema.additionalProperties ≠ .a p := by
    cases schema.additionalProperties <;> simp [DynamicValue.schemaA]
  unfold classifySchema
  cases he : schema.enum with
  | cons e es => simp
  | nil =>
    cases hp : schema.properties with
    | cons p ps => simp
    | nil =>
      cases hall : schema.allOf with
      | cons a as => simp
      | nil =>
        cases ho : schemaHasType schema "object".toList with
        | true => simp
        | false =>
          cases hs : schema.additionalProperties.schemaA.isSome with
          | true =>
            have := hA.mp hs
            simp [hs, this]
          | false =>
            have := hA'.mp hs
            simp [hs, this]

theorem dropWhile_eq_nil_iff_all (p : Char → Bool) (s : Str) :
    s.dropWhile p = [] ↔ s.all p = true := by
  induction s with
  | nil => simp
  | cons c rest ih =>
    rw [List.dropWhile_cons, List.all_cons]
    cases hc : p c with
    | true =>
      rw [if_pos rfl, Bool.true_and]
      exact ih
    | false =>
      rw [if_neg (by simp), Bool.false_and]
      constructor
      · intro h; cases h
      · intro h; cases h

theorem trimSpace_eq_nil_iff (s : Str) : trimSpace s = [] ↔ isBlank s = true := by
  unfold trimSpace isBlank
  rw [List.reverse_eq_nil_iff, dropWhile_eq_nil_iff_all, List.all_reverse]
  constructor
  · intro h
    by_contra hne
    have hd : s.dropWhile unicodeIsSpace ≠ [] := fun e =>
      hne ((dropWhile_eq_nil_iff_all _ _).mp e)
    obtain ⟨c, rest, hcr⟩ := List.exists_cons_of_ne_nil hd
    have hc : unicodeIsSpace c = false := by
      have := List.head_dropWhile_not unicodeIsSpace s hd
      simp only [hcr, List.head_cons] at this
      simpa using this
    rw [hcr] at h
    simp only [List.all_cons, hc, Bool.false_and] at h
    cases h
  · intro h
    rw [(dropWhile_eq_nil_iff_all _ _).mpr h]
    rfl

theorem methodNameFromContent_eq (content : List Str) :
    methodNameFromContent content
      = (((mappingPairs content).find?
          (fun kv => decide (kv.1 = "method_name".toList) && !isBlank kv.2)).map
            Prod.snd).getD [] := by
  induction content using methodNameFromContent.induct with
  | case1 key value rest h =>
    rw [methodNameFromContent, if_pos h, mappingPairs, List.find?_cons]
    have hb : isBlank value = false := by
      cases hbl : isBlank value with
      | false => rfl
      | true => exact absurd ((trimSpace_eq_nil_iff value).mpr hbl) h.2
    simp [h.1, hb]
  | case2 key value rest h ih =>
    rw [methodNameFromContent, if_neg h, mappingPairs, List.find?_cons, ih]
    have hcond : (decide (key = "method_name".toList) && !isBlank value) = false := by
      by_cases hk : key = "method_name".toList
      · have hb : isBlank value = true := by
          cases hbl : isBlank value with
          | true => rfl
          | false =>
            exfalso
            apply h
            refine ⟨hk, fun e => ?_⟩
            rw [(trimSpace_eq_nil_iff value).mp e] at hbl
            cases hbl
        rw [hb]
        simp
      · rw [decide_eq_false hk]
        rfl
    simp only [hcond]
  | case3 content h =>
    have hm : mappingPairs content = [] := by
      cases content with
      | nil => rfl
      | cons a t =>
        cases t with
        | nil => rfl
        | cons b t' => exact absurd rfl (h a b t')
    have hc : methodNameFromContent content = [] := by
      cases content with
      | nil => rfl
      | cons a t =>
        cases t with
        | nil => rfl
        | cons b t' => exact absurd rfl (h a b t')
    rw [hc, hm]
    rfl

theorem find_not_blank_ne_nil (pairs : List (Str × Str)) {kv : Str × Str}
    (h : pairs.find? (fun kv => decide (kv.1 = "method_name".toList) && !isBlank kv.2)
      = some kv) : kv.2 ≠ [] := by
  have := List.find?_some h
  simp only [Bool.and_eq_true, Bool.not_eq_true', decide_eq_true_eq] at this
  intro e
  rw [e] at this
  exact absurd this.2 (by decide)

theorem generateOperationName_example (U : UnicodeTables) :
    generateOperationName U "Get".toList "/users/{id}".toList = "GetUsersId".toList := by
  have hw : (("Get".toList ++ "_".toList ++ "/users/{id}".toList).filter
      (fun c => c ≠ Char.ofNat 123)).filter (fun c => c ≠ Char.ofNat 125)
      = "Get_/users/id".toList := by decide
  have h1 : splitIntoWords U "Get_/users/id".toList
      = ["Get".toList, "users".toList, "id".toList] := rfl
  have h2 : pascalPart U "Get".toList = "Get".toList := rfl
  have h3 : pascalPart U "users".toList = "Users".toList := rfl
  have h4 : pascalPart U "id".toList = "Id".toList := rfl
  have h5 : PascalCase U "Get_/users/id".toList = "GetUsersId".toList := by
    simp only [PascalCase, h1, List.foldl_cons, List.foldl_nil, List.nil_append, h2, h3, h4]
    rfl
  have h6 : stringsToLower U "GetUsersId".toList = "getusersid".toList := rfl
  have hp : PascalIdentifier U "Get_/users/id".toList = "GetUsersId".toList := by
    simp only [PascalIdentifier, h5, ensureNotReserved, h6]
    rw [if_neg (by decide), if_neg (by decide)]
    rfl
  unfold generateOperationName
  simp only [hw, hp]

theorem withoutBraces_eq (s : Str) :
    (s.filter (fun c => c ≠ Char.ofNat 123)).filter (fun c => c ≠ Char.ofNat 125)
      = withoutBraces s := by
  unfold withoutBraces
  rw [List.filter_filter]
  congr 1
  funext c
  have h1 : Char.ofNat 123 = '{' := rfl
  have h2 : Char.ofNat 125 = '}' := rfl
  rw [h1, h2]
  by_cases ha : c = '{' <;> by_cases hb : c = '}' <;> simp [ha, hb]

/-- C29: `operationBaseName` returns the `method_name` field of the extension `x-codegen`
when the operation has that field with a value that is not blank; otherwise the operation
identifier when it is not empty; otherwise `generateOperationName(method, path)`, which is
`PascalIdentifier` of the method, an underscore and the path, with every `{` and `}`
removed. `Get` and `/users/{id}` give `GetUsersId`. -/
theorem operationBaseName_spec (U : UnicodeTables) (method path : Str) (op : Operation) :
    (∀ name, extensionMethodName op = some name →
      operationBaseName U method path op = name) ∧
    (extensionMethodName op = none → op.OperationId ≠ [] →
      operationBaseName U method path op = op.OperationId) ∧
    (extensionMethodName op = none → op.OperationId = [] →
      operationBaseName U method path op = generateOperationName U method path) ∧
    generateOperationName U method path
      = PascalIdentifier U (withoutBraces (method ++ "_".toList ++ path)) ∧
    generateOperationName U "Get".toList "/users/{id}".toList = "GetUsersId".toList := by
  have hext : methodNameFromExtension op = (extensionMethodName op).getD [] := by
    unfold methodNameFromExtension extensionMethodName
    cases op.xCodegen with
    | none => rfl
    | some content => exact methodNameFromContent_eq content
  have hne : ∀ name, extensionMethodName op = some name → name ≠ [] := by
    intro name hname
    unfold extensionMethodName at hname
    cases hx : op.xCodegen with
    | none => rw [hx] at hname; cases hname
    | some content =>
      rw [hx] at hname
      simp only [Option.map_eq_some'] at hname
      obtain ⟨kv, hfind, hkv⟩ := hname
      rw [← hkv]
      exact find_not_blank_ne_nil _ hfind
  refine ⟨?_, ?_, ?_, ?_, generateOperationName_example U⟩
  · intro name hname
    unfold operationBaseName
    rw [hext, hname]
    simp only [Option.getD_some]
    rw [if_pos (hne name hname)]
  · intro hnone hid
    unfold operationBaseName
    rw [hext, hnone]
    simp only [Option.getD_none, ne_eq, not_true_eq_false, if_false]
    rw [if_pos hid]
  · intro hnone hid
    unfold operationBaseName
    rw [hext, hnone]
    simp only [Option.getD_none, ne_eq, not_true_eq_false, if_false]
    rw [if_neg (by simpa using hid)]
  · unfold generateOperationName
    simp only
    rw [withoutBraces_eq]

theorem operationBaseName_spec_witness :
    extensionMethodName extensionOperation = some "listAll".toList ∧
    operationBaseName asciiTables "Get".toList "/users".toList extensionOperation
      = "listAll".toList ∧
    operationBaseName asciiTables "Get".toList "/users".toList
        (bareOperation "listUsers".toList) = "listUsers".toList ∧
    operationBaseName asciiTables "Get".toList "/users/{id}".toList (bareOperation [])
      = "GetUsersId".toList :=
  ⟨by decide,
   (operationBaseName_spec asciiTables "Get".toList "/users".toList extensionOperation).1
     "listAll".toList (by decide),
   (operationBaseName_spec asciiTables "Get".toList "/users".toList
     (bareOperation "listUsers".toList)).2.1 (by decide) (by decide),
   ((operationBaseName_spec asciiTables "Get".toList "/users/{id}".toList
     (bareOperation [])).2.2.1 (by decide) rfl).trans (by decide)⟩

end SumUp

namespace SumUp

/-! ## The order of the properties of a model -/

/-- C26 fails as stated: for the properties `a` and `B` the model lists `B` before `a`,
the order of the JSON names, while their normalized names `A` and `B` are in the other
order: the keys of `propMap`, which `collectProperties` sorts, are the JSON names. -/
theorem properties_not_sorted_by_PropertyName :
    (buildClassModel plainLibrary 5 startGenerator "Owner".toList caseOrderSchema).map
        (fun r => r.1.Properties.map (fun p => (p.PropertyName, p.JsonName)))
      = some [("B".toList, "B".toList), ("A".toList, "a".toList)] ∧
    ¬ List.Sorted (fun a b : Str => a ≤ b) ["B".toList, "A".toList] := by
  constructor
  · decide!
  · decide

theorem collectPropertiesWith_sorted (L : Library) (fuel : Nat) (R : InlineResolver)
    (hR : ∀ g ref req base, ExtendsResult (fun n => base <+: n) (R g ref req base) g)
    (g : Generator) (owner : Str) (schema : Schema)
    {props : List modelPropertyTemplateData} {uc uj : Bool} {g' : Generator}
    (h : collectPropertiesWith L fuel R g owner schema = some ((props, uc, uj), g')) :
    List.Sorted (fun a b : Str => a < b) (props.map (fun p => p.JsonName)) := by
  have hnodup := (collectPropertiesWith_trace L fuel R hR g owner schema h).1
  simp only [collectPropertiesWith] at h
  cases h1 : addProps L fuel R owner schema
      { g := g, propMap := [], usesCollections := false, usesJson := false } with
  | none => rw [h1] at h; cases h
  | some st₁ =>
    rw [h1] at h
    simp only at h
    cases h2 : allOfLoop L fuel R owner schema.allOf st₁ with
    | none => rw [h2] at h; cases h
    | some st₂ =>
      rw [h2] at h
      simp only [Option.some.injEq, Prod.mk.injEq] at h
      obtain ⟨⟨hprops, _, _⟩, _⟩ := h
      have hnil : SourcesTraced L fuel R g owner [] [] := by
        refine ⟨List.nodup_nil, ?_, ?_⟩
        · intro name
          simp [getOrZero]
        · intro name prop hget
          cases hget
      have hs₁ := addProps_sources L fuel R hR g owner schema [] _ st₁ (sameTypes_refl g)
        hnil h1
      have he₁ := addProps_extends L fuel R hR owner schema _ st₁ h1
      have hs₂ := allOfLoop_sources L fuel R hR g owner schema.allOf _ st₁ st₂
        (extends_sameTypes he₁) hs₁ h2
      obtain ⟨_, _, s3⟩ := hs₂
      have hkeys : ∀ k ∈ sortStrings (keysFromOldest st₂.propMap),
          ∃ prop, getOrZero st₂.propMap k = some prop ∧ prop.JsonName = k := by
        intro k hk
        obtain ⟨prop, hp⟩ := getOrZero_of_mem_keys ((mem_sortStrings _ _).mp hk)
        obtain ⟨src, _, hb⟩ := s3 k prop hp
        exact ⟨prop, hp, builtFrom_JsonName hb⟩
      have hnames : props.map (fun p => p.JsonName)
          = sortStrings (keysFromOldest st₂.propMap) := by
        rw [← hprops]
        exact filterMap_JsonName _ _ hkeys
      have hsorted : List.Sorted (fun a b : Str => a ≤ b) (props.map (fun p => p.JsonName)) := by
        rw [hnames]
        exact List.sorted_insertionSort _ _
      rw [List.Nodup] at hnodup
      exact (List.Pairwise.and hsorted hnodup).imp (fun hab => lt_of_le_of_ne hab.1 hab.2)

/-- C26, amended: in every model `buildClassModel` assembles, the properties are in the
strictly ascending order of their JSON names (the keys of `propMap`), not of their
normalized names; and the names are exactly those the schema or one of its resolved `allOf`
branches declares, so that the list of names does not depend on the order of declaration. -/
theorem buildClassModel_properties_sorted (L : Library) (fuel : Nat) (g : Generator)
    (typeName : Str) (schema : Schema) (model : modelTemplateData) (g' : Generator)
    (h : buildClassModel L fuel g typeName schema = some (model, g')) :
    List.Sorted (fun a b : Str => a < b) (model.Properties.map (fun p => p.JsonName)) ∧
    (∀ name, name ∈ model.Properties.map (fun p => p.JsonName) ↔
      ∃ src ∈ propertySources L g fuel schema, name ∈ keysFromOldest src.properties) := by
  unfold buildClassModel at h
  simp only [buildClassModelWith] at h
  rcases hc : collectPropertiesWith L fuel (resolveInlineSchemaType L fuel) g typeName schema
      with _ | ⟨⟨props, uc, uj⟩, g₁⟩
  · rw [hc] at h; cases h
  · rw [hc] at h
    simp only at h
    have hR := resolveInlineSchemaType_extends L fuel
    have hsorted := collectPropertiesWith_sorted L fuel _ hR g typeName schema hc
    have hmem := (collectPropertiesWith_trace L fuel _ hR g typeName schema hc).2.1
    split at h
    · cases h
    · simp only [Option.some.injEq, Prod.mk.injEq] at h
      rw [← h.1]
      exact ⟨hsorted, hmem⟩

theorem buildClassModel_properties_sorted_witness :
    ∃ model g',
      buildClassModel plainLibrary 5 startGenerator "Owner".toList caseOrderSchema
        = some (model, g') ∧
      model.Properties.map (fun p => p.JsonName) = ["B".toList, "a".toList] ∧
      List.Sorted (fun a b : Str => a < b) (model.Properties.map (fun p => p.JsonName)) ∧
      (∀ name, name ∈ model.Properties.map (fun p => p.JsonName) ↔
        ∃ src ∈ propertySources plainLibrary startGenerator 5 caseOrderSchema,
          name ∈ keysFromOldest src.properties) := by
  have hd : (buildClassModel plainLibrary 5 startGenerator "Owner".toList caseOrderSchema).map
      (fun r => r.1.Properties.map (fun p => p.JsonName))
      = some ["B".toList, "a".toList] := by
    decide!
  rcases hc : buildClassModel plainLibrary 5 startGenerator "Owner".toList caseOrderSchema
      with _ | ⟨model, g'⟩
  · rw [hc] at hd; cases hd
  · rw [hc] at hd
    simp only [Option.map_some', Option.some.injEq] at hd
    have hall := buildClassModel_properties_sorted plainLibrary 5 startGenerator
      "Owner".toList caseOrderSchema model g' hc
    exact ⟨model, g', rfl, hd, hall.1, hall.2⟩

end SumUp

namespace SumUp

/-! ## The clients and their operations -/

theorem buildOperation_fields (L : Library) (fuel : Nat) (g : Generator)
    (path method methodName clientName : Str) (op : Operation) (pathItem : PathItem)
    {r : operationTemplateData} {g' : Generator}
    (h : buildOperation L fuel g path method methodName clientName op pathItem = some (r, g')) :
    r.MethodName = methodName ∧ r.HttpMethod = method ∧ r.Path = path := by
  unfold buildOperation at h
  dsimp only at h
  split at h
  · cases h
  split at h
  · cases h
  split at h
  · cases h
  split at h
  · cases h
  split at h
  · cases h
  simp only [Option.some.injEq, Prod.mk.injEq] at h
  rw [← h.1]
  exact ⟨rfl, rfl, rfl⟩

theorem clientMapGroups_nil : ClientMapGroups [] [] :=
  ⟨List.nodup_nil, fun _ => Iff.rfl, fun _ h => absurd h (List.not_mem_nil _)⟩

theorem clientMapGroups_add {clientMap : List clientTemplateData}
    {es : List (Str × operationTemplateData)} (created : clientTemplateData)
    (method : operationTemplateData) (hc : created.Operations = [])
    (h : ClientMapGroups clientMap es) :
    ClientMapGroups (addOperation clientMap created method)
      (es ++ [(created.ClientName, method)]) := by
  obtain ⟨hn, hkeys, hops⟩ := h
  have hkeys' : ∀ c, c ∈ (es ++ [(created.ClientName, method)]).map Prod.fst ↔
      (c ∈ es.map Prod.fst ∨ c = created.ClientName) := by
    intro c
    rw [List.map_append, List.mem_append, List.map_cons, List.map_nil, List.mem_singleton]
  refine ⟨addOperation_nodup _ _ _ hn, ?_, ?_⟩
  · intro c
    rw [addOperation_names, hkeys']
    split
    · rename_i hm
      rw [hkeys c]
      constructor
      · exact Or.inl
      · rintro (h | h)
        · exact h
        · rw [h]; exact (hkeys _).mp hm
    · rw [List.mem_append, List.mem_singleton, hkeys c]
  · intro x hx
    rcases (mem_addOperation created method clientMap hn x).mp hx with
      ⟨ct, hct, hname, rfl⟩ | ⟨hxm, hxc⟩ | ⟨hall, rfl⟩
    · rw [withOperation_ClientName, hname, operationsFor_append_self, ← hname, ← hops ct hct]
      rfl
    · rw [operationsFor_append_ne hxc]
      exact hops x hxm
    · have hnot : created.ClientName ∉ es.map Prod.fst := by
        intro hm
        obtain ⟨ct, hct, hcn⟩ := List.mem_map.mp ((hkeys _).mpr hm)
        exact hall ct hct hcn
      rw [withOperation_ClientName, operationsFor_append_self, operationsFor_of_not_mem hnot]
      show created.Operations ++ [method] = [] ++ [method]
      rw [hc]

theorem buildClientsStep_entry (L : Library) (fuel : Nat) (st st' : clientsState)
    (seen : List clientsWork) (es : List (Str × operationTemplateData)) (w : clientsWork)
    (hcount : ∀ k, st.nameCounts k = (seen.filter (fun v => decide (v.key L = k))).length)
    (hm : ClientMapGroups st.clientMap es)
    (h : buildClientsStep L fuel st w.rawPath w.pathItem w.methodName w.operation = some st') :
    ∃ e, EntryOf L seen w e ∧ ClientMapGroups st'.clientMap (es ++ [e]) ∧
      ∀ k, st'.nameCounts k = ((seen ++ [w]).filter (fun v => decide (v.key L = k))).length := by
  have hstep : buildClientsStep L fuel st w.rawPath w.pathItem w.methodName w.operation =
      match buildOperation L fuel st.g w.rawPath (canonicalMethodName L.unicode w.methodName)
          (if st.nameCounts (w.key L) > 0
            then w.pascalName L ++ decimal (st.nameCounts (w.key L) + 1)
            else w.pascalName L)
          (w.clientName L) w.operation w.pathItem with
      | none => none
      | some (method, g) =>
        some { g := g,
               clientMap := addOperation st.clientMap
                 { Namespace := st.g.config.Namespace, ClientName := w.clientName L,
                   PropertyName := w.clientName L } method,
               nameCounts := fun k =>
                 if k = w.key L then st.nameCounts (w.key L) + 1 else st.nameCounts k } := rfl
  rw [hstep] at h
  rcases hb : buildOperation L fuel st.g w.rawPath (canonicalMethodName L.unicode w.methodName)
      (if st.nameCounts (w.key L) > 0
        then w.pascalName L ++ decimal (st.nameCounts (w.key L) + 1)
        else w.pascalName L)
      (w.clientName L) w.operation w.pathItem with _ | ⟨r, g₁⟩
  · rw [hb] at h; cases h
  · rw [hb] at h
    simp only [Option.some.injEq] at h
    obtain ⟨f1, f2, f3⟩ := buildOperation_fields L fuel st.g _ _ _ _ _ _ hb
    refine ⟨(w.clientName L, r), ⟨rfl, f3, f2, ?_⟩, ?_, ?_⟩
    · rw [f1, hcount]
      rfl
    · rw [← h]
      exact clientMapGroups_add
        { Namespace := st.g.config.Namespace, ClientName := w.clientName L,
          PropertyName := w.clientName L } r rfl hm
    · intro k
      rw [← h]
      simp only [List.filter_append, List.length_append, List.filter_cons, List.filter_nil]
      by_cases hk : k = w.key L
      · rw [if_pos hk, hcount, hk]
        simp
      · rw [if_neg hk, hcount]
        have : ¬ w.key L = k := fun e => hk e.symm
        simp [this]

theorem runClientsWork_entries (L : Library) (fuel : Nat) :
    ∀ (ws : List clientsWork) (st st' : clientsState) (seen : List clientsWork)
      (es : List (Str × operationTemplateData)),
      (∀ k, st.nameCounts k = (seen.filter (fun v => decide (v.key L = k))).length) →
      ClientMapGroups st.clientMap es →
      runClientsWork L fuel ws st = some st' →
      ∃ es', EntriesOf L seen ws es' ∧ ClientMapGroups st'.clientMap (es ++ es') := by
  intro ws
  induction ws with
  | nil =>
    intro st st' seen es _ hm h
    simp only [runClientsWork, Option.some.injEq] at h
    rw [← h]
    exact ⟨[], rfl, by rw [List.append_nil]; exact hm⟩
  | cons w rest ih =>
    intro st st' seen es hcount hm h
    simp only [runClientsWork] at h
    cases hs : buildClientsStep L fuel st w.rawPath w.pathItem w.methodName w.operation with
    | none => rw [hs] at h; cases h
    | some st₁ =>
      rw [hs] at h
      obtain ⟨e, he, hm₁, hcount₁⟩ := buildClientsStep_entry L fuel st st₁ seen es w hcount hm hs
      obtain ⟨tail, ht, hm'⟩ := ih st₁ st' (seen ++ [w]) (es ++ [e]) hcount₁ hm₁ h
      refine ⟨e :: tail, ⟨e, tail, rfl, he, ht⟩, ?_⟩
      rw [List.append_assoc] at hm'
      exact hm'

theorem entriesOf_length (L : Library) :
    ∀ (ws seen : List clientsWork) (es : List (Str × operationTemplateData)),
      EntriesOf L seen ws es → es.length = ws.length := by
  intro ws
  induction ws with
  | nil =>
    intro seen es h
    rw [show es = [] from h]
    rfl
  | cons w rest ih =>
    intro seen es h
    obtain ⟨e, tail, rfl, _, ht⟩ := h
    rw [List.length_cons, List.length_cons, ih _ _ ht]

theorem entriesOf_clients (L : Library) :
    ∀ (ws seen : List clientsWork) (es : List (Str × operationTemplateData)),
      EntriesOf L seen ws es →
      es.map (fun e => (e.1, e.2.Path, e.2.HttpMethod))
        = ws.map (fun w =>
            (w.clientName L, w.rawPath, canonicalMethodName L.unicode w.methodName)) := by
  intro ws
  induction ws with
  | nil =>
    intro seen es h
    rw [show es = [] from h]
    rfl
  | cons w rest ih =>
    intro seen es h
    obtain ⟨e, tail, rfl, he, ht⟩ := h
    rw [List.map_cons, List.map_cons, ih _ _ ht, he.1, he.2.1, he.2.2.1]

theorem finishClients_groups {clientMap : List clientTemplateData}
    {es : List (Str × operationTemplateData)} (h : ClientMapGroups clientMap es) :
    ((finishClients clientMap).map (fun c => c.ClientName)).Nodup ∧
    (∀ c, c ∈ (finishClients clientMap).map (fun c => c.ClientName) ↔ c ∈ es.map Prod.fst) ∧
    (∀ c ∈ finishClients clientMap,
      c.Operations.Perm (operationsFor c.ClientName es)) := by
  obtain ⟨hn, hkeys, hops⟩ := h
  have hperm : (finishClients clientMap).Perm
      (clientMap.map (fun client : clientTemplateData =>
        ({ client with Operations := sortOperations client.Operations }
          : clientTemplateData))) := List.perm_insertionSort _ _
  have hnames : ((finishClients clientMap).map (fun c => c.ClientName)).Perm
      (clientMap.map (fun ct => ct.ClientName)) := by
    have := hperm.map (fun c : clientTemplateData => c.ClientName)
    rwa [List.map_map] at this
  refine ⟨hnames.nodup_iff.mpr hn, ?_, ?_⟩
  · intro c
    rw [hnames.mem_iff, hkeys]
  · intro c hc
    obtain ⟨ct, hct, rfl⟩ := List.mem_map.mp (hperm.mem_iff.mp hc)
    show (sortOperations ct.Operations).Perm (operationsFor ct.ClientName es)
    rw [← hops ct hct]
    exact List.perm_insertionSort _ _

theorem buildClients_entries (L : Library) (fuel : Nat) (g : Generator) (doc : Document)
    {clients : List clientTemplateData} {g' : Generator}
    (h : buildClients L fuel g doc = some (.ok (clients, g'))) :
    ∃ es, EntriesOf L [] (clientsWorkList doc.PathItems) es ∧
      (clients.map (fun c => c.ClientName)).Nodup ∧
      (∀ c, c ∈ clients.map (fun c => c.ClientName) ↔ c ∈ es.map Prod.fst) ∧
      (∀ c ∈ clients, c.Operations.Perm (operationsFor c.ClientName es)) := by
  unfold buildClients at h
  split at h
  · cases h
  · rw [buildClientsPaths_eq] at h
    cases hr : runClientsWork L fuel (clientsWorkList doc.PathItems)
        { g := g, clientMap := [], nameCounts := fun _ => 0 } with
    | none => rw [hr] at h; cases h
    | some st =>
      rw [hr] at h
      simp only [Option.some.injEq, Except.ok.injEq, Prod.mk.injEq] at h
      obtain ⟨es, he, hm⟩ := runClientsWork_entries L fuel _ _ st [] []
        (fun _ => rfl) clientMapGroups_nil hr
      rw [List.nil_append] at hm
      rw [← h.1]
      exact ⟨es, he, finishClients_groups hm⟩

end SumUp

namespace SumUp

/-! ### Failure without paths, grouping by tag, numbering of repeated names -/

/-- C27 fails as stated: for a specification whose only path item declares no operation
`buildClients` returns the empty list of clients and no error; the error is raised for a
specification without path items only. -/
theorem buildClients_without_operations_succeeds :
    clientsMethods (buildClients plainLibrary 0 startGenerator noOperationsDocument) = some [] ∧
    clientsWorkList noOperationsDocument.PathItems = [] ∧
    noOperationsDocument.PathItems ≠ [] := by
  refine ⟨by decide, rfl, ?_⟩
  intro h
  cases h

theorem entriesOf_nil_iff (L : Library) (ws seen : List clientsWork)
    (es : List (Str × operationTemplateData)) (h : EntriesOf L seen ws es) :
    es = [] ↔ ws = [] := by
  have hl := entriesOf_length L ws seen es h
  constructor
  · intro e
    rw [e] at hl
    exact List.length_eq_zero.mp hl.symm
  · intro e
    rw [e] at hl
    exact List.length_eq_zero.mp hl

/-- C27, amended: `buildClients` fails exactly when the specification has no path items,
with the error `spec contains no paths`. For a specification with path items none of which
declares an operation it returns the empty list of clients without error, for every fuel;
and whenever it returns for a specification with path items, it returns client records
without error, at least one if an operation is declared. -/
theorem buildClients_fails_iff_no_paths (L : Library) (fuel : Nat) (g : Generator)
    (doc : Document) :
    (doc.PathItems = [] →
      buildClients L fuel g doc = some (.error "spec contains no paths".toList)) ∧
    (doc.PathItems ≠ [] → clientsWorkList doc.PathItems = [] →
      buildClients L fuel g doc = some (.ok ([], g))) ∧
    (doc.PathItems ≠ [] → ∀ r, buildClients L fuel g doc = some r →
      ∃ clients g', r = .ok (clients, g') ∧
        (clients = [] ↔ clientsWorkList doc.PathItems = [])) := by
  refine ⟨?_, ?_, ?_⟩
  · intro h
    unfold buildClients
    rw [h]
    rfl
  · intro hne hws
    have hlen : ¬ doc.PathItems.length = 0 := fun e => hne (List.length_eq_zero.mp e)
    unfold buildClients
    rw [if_neg hlen, buildClientsPaths_eq, hws]
    rfl
  · intro hne r hr
    have hlen : ¬ doc.PathItems.length = 0 := fun e => hne (List.length_eq_zero.mp e)
    have hr' := hr
    unfold buildClients at hr'
    rw [if_neg hlen] at hr'
    cases hp : buildClientsPaths L fuel doc.PathItems
        { g := g, clientMap := [], nameCounts := fun _ => 0 } with
    | none => rw [hp] at hr'; cases hr'
    | some st =>
      rw [hp] at hr'
      simp only [Option.some.injEq] at hr'
      refine ⟨finishClients st.clientMap, st.g, hr'.symm, ?_⟩
      rw [← hr'] at hr
      obtain ⟨es, he, _, hkeys, _⟩ := buildClients_entries L fuel g doc hr
      rw [← entriesOf_nil_iff L _ _ es he]
      constructor
      · intro hc
        cases es with
        | nil => rfl
        | cons e tail =>
          have hm : e.1 ∈ (finishClients st.clientMap).map (fun c => c.ClientName) :=
            (hkeys e.1).mpr (List.mem_map.mpr ⟨e, List.mem_cons_self _ _, rfl⟩)
          rw [hc] at hm
          exact absurd hm (List.not_mem_nil _)
      · intro hes
        cases hcl : finishClients st.clientMap with
        | nil => rfl
        | cons c tail =>
          have hm : c.ClientName ∈ es.map Prod.fst :=
            (hkeys c.ClientName).mp
              (List.mem_map.mpr ⟨c, by rw [hcl]; exact List.mem_cons_self _ _, rfl⟩)
          rw [hes] at hm
          exact absurd hm (List.not_mem_nil _)

theorem buildClients_fails_iff_no_paths_witness :
    buildClients plainLibrary 0 startGenerator collidingDocument
      = some (.error "spec contains no paths".toList) ∧
    buildClients plainLibrary 0 startGenerator noOperationsDocument
      = some (.ok ([], startGenerator)) :=
  ⟨(buildClients_fails_iff_no_paths plainLibrary 0 startGenerator collidingDocument).1 rfl,
   (buildClients_fails_iff_no_paths plainLibrary 0 startGenerator noOperationsDocument).2.1
     (fun h => by cases h) rfl⟩

theorem filter_map_of_map_eq {α β γ : Type} (c : Str) (a : α → Str) (fa : α → γ)
    (b : β → Str) (fb : β → γ) :
    ∀ (l₁ : List α) (l₂ : List β),
      l₁.map (fun x => (a x, fa x)) = l₂.map (fun y => (b y, fb y)) →
      (l₁.filter (fun x => decide (a x = c))).map fa
        = (l₂.filter (fun y => decide (b y = c))).map fb := by
  intro l₁
  induction l₁ with
  | nil =>
    intro l₂ h
    cases l₂ with
    | nil => rfl
    | cons y t => cases h
  | cons x t ih =>
    intro l₂ h
    cases l₂ with
    | nil => cases h
    | cons y t' =>
      simp only [List.map_cons, List.cons.injEq, Prod.mk.injEq] at h
      obtain ⟨⟨h1, h2⟩, h3⟩ := h
      simp only [List.filter_cons, h1]
      split
      · simp only [List.map_cons, h2, ih t' h3]
      · exact ih t' h3

theorem sum_indicator_of_not_mem (names : List Str) (a : Str) (h : a ∉ names) :
    (names.map (fun c => if a = c then 1 else 0)).sum = 0 := by
  induction names with
  | nil => rfl
  | cons n rest ih =>
    rw [List.map_cons, List.sum_cons, ih (fun e => h (List.mem_cons_of_mem _ e)),
      if_neg (fun e => h (by rw [e]; exact List.mem_cons_self _ _))]

theorem sum_indicator_of_mem (names : List Str) (hn : names.Nodup) (a : Str) (h : a ∈ names) :
    (names.map (fun c => if a = c then 1 else 0)).sum = 1 := by
  induction names with
  | nil => exact absurd h (List.not_mem_nil _)
  | cons n rest ih =>
    rw [List.nodup_cons] at hn
    rw [List.map_cons, List.sum_cons]
    by_cases e : a = n
    · rw [if_pos e, sum_indicator_of_not_mem rest a (by rw [e]; exact hn.1)]
    · rw [if_neg e, ih hn.2 ((List.mem_cons.mp h).resolve_left e)]

theorem sum_filter_lengths {β : Type} (names : List Str) (hn : names.Nodup) :
    ∀ es : List (Str × β), (∀ e ∈ es, e.1 ∈ names) →
      (names.map (fun c => (es.filter (fun e => decide (e.1 = c))).length)).sum
        = es.length := by
  intro es
  induction es with
  | nil =>
    intro _
    simp
  | cons e tail ih =>
    intro h
    have hsplit : (names.map (fun c =>
          ((e :: tail).filter (fun e => decide (e.1 = c))).length))
        = names.map (fun c => (if e.1 = c then 1 else 0)
            + (tail.filter (fun e => decide (e.1 = c))).length) := by
      apply List.map_congr_left
      intro c _
      rw [List.filter_cons]
      by_cases hc : e.1 = c
      · simp [hc]
        omega
      · simp [hc]
    rw [hsplit, List.sum_map_add, sum_indicator_of_mem names hn e.1 (h e (List.mem_cons_self _ _)),
      ih (fun x hx => h x (List.mem_cons_of_mem _ hx)), List.length_cons]
    omega

theorem PascalIdentifier_Core (U : UnicodeTables) :
    PascalIdentifier U "Core".toList = "Core".toList := rfl

/-- C28: every operation of the specification appears in exactly one client record, the
one whose `ClientName` is `PascalIdentifier` of the first tag of the operation, or `Core`
when the operation has no tag; further tags are not read. Whenever `buildClients` returns
clients: their names are pairwise distinct; the client of every operation is among them;
the operations of a client are, up to the order, those declared operations (by path and
HTTP method) whose client name is the name of the client; and the number of operations
over all clients is the number of declared operations. -/
theorem buildClients_groups_by_first_tag (L : Library) (fuel : Nat) (g : Generator)
    (doc : Document) (clients : List clientTemplateData) (g' : Generator)
    (h : buildClients L fuel g doc = some (.ok (clients, g'))) :
    (clients.map (fun c => c.ClientName)).Nodup ∧
    (∀ w ∈ clientsWorkList doc.PathItems, w.clientName L ∈ clients.map (fun c => c.ClientName)) ∧
    (∀ c ∈ clients,
      (c.Operations.map (fun o => (o.Path, o.HttpMethod))).Perm
        (((clientsWorkList doc.PathItems).filter
            (fun w => decide (w.clientName L = c.ClientName))).map
          (fun w => (w.rawPath, canonicalMethodName L.unicode w.methodName)))) ∧
    (clients.map (fun c => c.Operations.length)).sum = (clientsWorkList doc.PathItems).length ∧
    (∀ w : clientsWork,
      w.clientName L = PascalIdentifier L.unicode (w.operation.Tags.headD "Core".toList)) ∧
    PascalIdentifier L.unicode "Core".toList = "Core".toList := by
  obtain ⟨es, he, hn, hkeys, hops⟩ := buildClients_entries L fuel g doc h
  have htr := entriesOf_clients L _ _ es he
  have hfst : es.map Prod.fst
      = (clientsWorkList doc.PathItems).map (fun w => w.clientName L) := by
    have := congrArg (fun l => l.map (fun t : Str × Str × Str => t.1)) htr
    simpa [List.map_map, Function.comp] using this
  have hpair : es.map (fun e => (e.1, (e.2.Path, e.2.HttpMethod)))
      = (clientsWorkList doc.PathItems).map (fun w =>
          (w.clientName L, (w.rawPath, canonicalMethodName L.unicode w.methodName))) := htr
  refine ⟨hn, ?_, ?_, ?_, ?_, PascalIdentifier_Core L.unicode⟩
  · intro w hw
    rw [hkeys, hfst]
    exact List.mem_map.mpr ⟨w, hw, rfl⟩
  · intro c hc
    have hp := (hops c hc).map (fun o : operationTemplateData => (o.Path, o.HttpMethod))
    refine hp.trans (List.Perm.of_eq ?_)
    unfold operationsFor
    rw [List.map_map]
    exact filter_map_of_map_eq c.ClientName (fun e : Str × operationTemplateData => e.1)
      (fun e => (e.2.Path, e.2.HttpMethod)) (fun w : clientsWork => w.clientName L)
      (fun w => (w.rawPath, canonicalMethodName L.unicode w.methodName)) es _ hpair
  · have hlen : clients.map (fun c => c.Operations.length)
        = (clients.map (fun c => c.ClientName)).map
            (fun n => (es.filter (fun e => decide (e.1 = n))).length) := by
      rw [List.map_map]
      apply List.map_congr_left
      intro c hc
      rw [(hops c hc).length_eq]
      simp [operationsFor]
    rw [hlen, sum_filter_lengths _ hn es, entriesOf_length L _ _ es he]
    intro e hemem
    exact (hkeys e.1).mpr (List.mem_map.mpr ⟨e, hemem, rfl⟩)
  · intro w
    unfold clientsWork.clientName
    cases w.operation.Tags <;> rfl

theorem repeatedNames_methods :
    clientsMethods (buildClients plainLibrary 5 startGenerator repeatedNamesDocument)
      = some [{ ClientName := "Pets".toList,
                Methods := [⟨"/a".toList, "Get".toList, "List".toList⟩,
                            ⟨"/c".toList, "Get".toList, "List2".toList⟩,
                            ⟨"/d".toList, "Get".toList, "List3".toList⟩] },
              { ClientName := "Users".toList,
                Methods := [⟨"/b".toList, "Get".toList, "List".toList⟩] }] := by
  decide!

theorem buildClients_groups_by_first_tag_witness :
    ∃ clients g',
      buildClients plainLibrary 5 startGenerator repeatedNamesDocument
        = some (.ok (clients, g')) ∧
      clients.map (fun c => c.ClientName) = ["Pets".toList, "Users".toList] ∧
      (clients.map (fun c => c.ClientName)).Nodup ∧
      (∀ c ∈ clients,
        (c.Operations.map (fun o => (o.Path, o.HttpMethod))).Perm
          (((clientsWorkList repeatedNamesDocument.PathItems).filter
              (fun w => decide (w.clientName plainLibrary = c.ClientName))).map
            (fun w => (w.rawPath, canonicalMethodName plainLibrary.unicode w.methodName)))) ∧
      (clients.map (fun c => c.Operations.length)).sum
        = (clientsWorkList repeatedNamesDocument.PathItems).length := by
  have hd := repeatedNames_methods
  rcases hc : buildClients plainLibrary 5 startGenerator repeatedNamesDocument
      with _ | (e | ⟨clients, g'⟩)
  · rw [hc] at hd; cases hd
  · rw [hc] at hd; cases hd
  · rw [hc] at hd
    simp only [clientsMethods, Option.some.injEq] at hd
    have hnames : clients.map (fun c => c.ClientName) = ["Pets".toList, "Users".toList] := by
      have := congrArg (fun l : List clientMethods => l.map (fun x => x.ClientName)) hd
      simp only [List.map_map] at this
      exact this
    have hall := buildClients_groups_by_first_tag plainLibrary 5 startGenerator
      repeatedNamesDocument clients g' hc
    exact ⟨clients, g', rfl, hnames, hall.1, hall.2.2.1, hall.2.2.2.1⟩

end SumUp

namespace SumUp

/-! ### Numbering of repeated method names -/

theorem dotted_methods :
    clientsMethods (buildClients plainLibrary 5 startGenerator dottedDocument)
      = some [{ ClientName := ".".toList,
                Methods := [⟨"/a".toList, "Get".toList, "..".toList⟩] },
              { ClientName := "..".toList,
                Methods := [⟨"/b".toList, "Get".toList, ".2".toList⟩] }] := by
  decide!

/-- C30 fails: the counter of a client is kept under the joined string
`clientName.pascalName`, and two different pairs of client and name can give the same
string. In `dottedDocument` the operation of the client `.` normalizes to `..` and the
operation of the client `..` normalizes to `.`; both keys are `....`, so the second
operation, the first and only one of its client, finds the count of the other client and is
named `.2` instead of `.`. -/
theorem buildClients_counts_by_joined_key :
    clientsMethods (buildClients plainLibrary 5 startGenerator dottedDocument)
      = some [{ ClientName := ".".toList,
                Methods := [⟨"/a".toList, "Get".toList, "..".toList⟩] },
              { ClientName := "..".toList,
                Methods := [⟨"/b".toList, "Get".toList, ".2".toList⟩] }] ∧
    (clientsWorkList dottedDocument.PathItems).map
        (fun w => (w.clientName plainLibrary, w.pascalName plainLibrary, w.key plainLibrary))
      = [(".".toList, "..".toList, "....".toList), ("..".toList, ".".toList, "....".toList)] :=
  ⟨dotted_methods, by decide⟩

theorem takeWhile_before_dot (c n : Str) (h : '.' ∉ c) :
    (c ++ '.' :: n).takeWhile (fun x => decide (x ≠ '.')) = c := by
  induction c with
  | nil => simp [List.takeWhile]
  | cons x rest ih =>
    have hx : x ≠ '.' := fun e => h (e ▸ List.mem_cons_self _ _)
    have hrest : '.' ∉ rest := fun e => h (List.mem_cons_of_mem _ e)
    rw [List.cons_append, List.takeWhile_cons, if_pos (by simpa using hx), ih hrest]

theorem key_eq_iff (L : Library) (v w : clientsWork) (hv : '.' ∉ v.clientName L)
    (hw : '.' ∉ w.clientName L) :
    v.key L = w.key L ↔ (v.clientName L = w.clientName L ∧ v.pascalName L = w.pascalName L) := by
  constructor
  · intro h
    have hkey : ∀ u : clientsWork, u.key L = u.clientName L ++ '.' :: u.pascalName L := by
      intro u
      unfold clientsWork.key
      simp
    rw [hkey v, hkey w] at h
    have hc : v.clientName L = w.clientName L := by
      have := congrArg (List.takeWhile (fun x => decide (x ≠ '.'))) h
      rwa [takeWhile_before_dot _ _ hv, takeWhile_before_dot _ _ hw] at this
    rw [hc] at h
    have := List.append_cancel_left h
    simp only [List.cons.injEq, true_and] at this
    exact ⟨hc, this⟩
  · intro h
    unfold clientsWork.key
    rw [h.1, h.2]

theorem finalName_eq_candidate (L : Library) (seen : List clientsWork) (w : clientsWork)
    (hseen : ∀ v ∈ seen, '.' ∉ v.clientName L) (hw : '.' ∉ w.clientName L) :
    w.finalName L seen = candidateName (w.pascalName L) (w.occurrence L seen) := by
  have hfilter : seen.filter (fun v => decide (v.key L = w.key L))
      = seen.filter (fun v =>
          decide (v.clientName L = w.clientName L ∧ v.pascalName L = w.pascalName L)) := by
    apply List.filter_congr
    intro v hv
    rw [decide_eq_decide]
    exact key_eq_iff L v w (hseen v hv) hw
  unfold clientsWork.finalName clientsWork.occurrence candidateName
  simp only [hfilter]
  by_cases h0 : (seen.filter (fun v =>
      decide (v.clientName L = w.clientName L ∧ v.pascalName L = w.pascalName L))).length = 0
  · rw [h0]
    simp
  · rw [if_pos (Nat.pos_of_ne_zero h0), if_neg (by omega)]

theorem entriesOf_digest (L : Library) :
    ∀ (ws seen : List clientsWork) (es : List (Str × operationTemplateData)),
      (∀ v ∈ seen, '.' ∉ v.clientName L) → (∀ w ∈ ws, '.' ∉ w.clientName L) →
      EntriesOf L seen ws es → es.map entryDigest = expectedMethodNames L seen ws := by
  intro ws
  induction ws with
  | nil =>
    intro seen es _ _ h
    rw [show es = [] from h]
    rfl
  | cons w rest ih =>
    intro seen es hseen hws h
    obtain ⟨e, tail, rfl, he, ht⟩ := h
    have hw := hws w (List.mem_cons_self _ _)
    have hseen' : ∀ v ∈ seen ++ [w], '.' ∉ v.clientName L := by
      intro v hv
      rcases List.mem_append.mp hv with hv | hv
      · exact hseen v hv
      · rw [List.mem_singleton.mp hv]; exact hw
    rw [List.map_cons, expectedMethodNames,
      ih (seen ++ [w]) tail hseen' (fun x hx => hws x (List.mem_cons_of_mem _ hx)) ht]
    congr 1
    unfold entryDigest
    rw [he.1, he.2.1, he.2.2.1, he.2.2.2, finalName_eq_candidate L seen w hseen hw]

/-- Where the joined key is unambiguous, the numbering is per client. Provided that no
client name contains a dot (as is the case for every tag that holds a letter or a digit),
within one client, in traversal order, the first operation whose base name normalizes to
`N` is named `N` and the `n`-th such operation is named `N` followed by the decimal numeral
`n`; operations of other clients with the same normalized name are not counted. Whenever
`buildClients` returns clients, the operations of every client (by path, HTTP method and
method name) are, up to the order, the entries of `expectedMethodNames` for that client. -/
theorem buildClients_numbers_repeated_names (L : Library) (fuel : Nat) (g : Generator)
    (doc : Document) (clients : List clientTemplateData) (g' : Generator)
    (h : buildClients L fuel g doc = some (.ok (clients, g')))
    (hdot : ∀ w ∈ clientsWorkList doc.PathItems, '.' ∉ w.clientName L) :
    ∀ c ∈ clients,
      (c.Operations.map (fun o => (o.Path, o.HttpMethod, o.MethodName))).Perm
        (((expectedMethodNames L [] (clientsWorkList doc.PathItems)).filter
            (fun q => decide (q.1 = c.ClientName))).map (fun q => q.2)) := by
  obtain ⟨es, he, _, _, hops⟩ := buildClients_entries L fuel g doc h
  have hdig := entriesOf_digest L _ [] es (fun _ hv => absurd hv (List.not_mem_nil _)) hdot he
  intro c hc
  have hp := (hops c hc).map
    (fun o : operationTemplateData => (o.Path, o.HttpMethod, o.MethodName))
  refine hp.trans (List.Perm.of_eq ?_)
  unfold operationsFor
  rw [List.map_map]
  have hpair : es.map (fun e => (e.1, (e.2.Path, e.2.HttpMethod, e.2.MethodName)))
      = (expectedMethodNames L [] (clientsWorkList doc.PathItems)).map
          (fun q => (q.1, q.2)) := by
    rw [List.map_id'' (fun q => rfl)]
    exact hdig
  exact filter_map_of_map_eq c.ClientName (fun e : Str × operationTemplateData => e.1)
    (fun e => (e.2.Path, e.2.HttpMethod, e.2.MethodName))
    (fun q : Str × Str × Str × Str => q.1) (fun q => q.2) es _ hpair

theorem buildClients_numbers_repeated_names_witness :
    ∃ clients g',
      buildClients plainLibrary 5 startGenerator repeatedNamesDocument
        = some (.ok (clients, g')) ∧
      clientsMethods (some (.ok (clients, g')))
        = some [{ ClientName := "Pets".toList,
                  Methods := [⟨"/a".toList, "Get".toList, "List".toList⟩,
                              ⟨"/c".toList, "Get".toList, "List2".toList⟩,
                              ⟨"/d".toList, "Get".toList, "List3".toList⟩] },
                { ClientName := "Users".toList,
                  Methods := [⟨"/b".toList, "Get".toList, "List".toList⟩] }] ∧
      expectedMethodNames plainLibrary [] (clientsWorkList repeatedNamesDocument.PathItems)
        = [("Pets".toList, "/a".toList, "Get".toList, "List".toList),
           ("Users".toList, "/b".toList, "Get".toList, "List".toList),
           ("Pets".toList, "/c".toList, "Get".toList, "List2".toList),
           ("Pets".toList, "/d".toList, "Get".toList, "List3".toList)] ∧
      ∀ c ∈ clients,
        (c.Operations.map (fun o => (o.Path, o.HttpMethod, o.MethodName))).Perm
          (((expectedMethodNames plainLibrary []
              (clientsWorkList repeatedNamesDocument.PathItems)).filter
              (fun q => decide (q.1 = c.ClientName))).map (fun q => q.2)) := by
  have hd := repeatedNames_methods
  rcases hc : buildClients plainLibrary 5 startGenerator repeatedNamesDocument
      with _ | (e | ⟨clients, g'⟩)
  · rw [hc] at hd; cases hd
  · rw [hc] at hd; cases hd
  · rw [hc] at hd
    have hnames : (clientsWorkList repeatedNamesDocument.PathItems).map
        (fun w => w.clientName plainLibrary)
        = ["Pets".toList, "Users".toList, "Pets".toList, "Pets".toList] := by decide
    refine ⟨clients, g', rfl, hd, by decide,
      buildClients_numbers_repeated_names plainLibrary 5 startGenerator repeatedNamesDocument
        clients g' hc ?_⟩
    intro w hw
    have hm : w.clientName plainLibrary
        ∈ (clientsWorkList repeatedNamesDocument.PathItems).map
            (fun w => w.clientName plainLibrary) := List.mem_map.mpr ⟨w, hw, rfl⟩
    rw [hnames] at hm
    simp only [List.mem_cons, List.mem_singleton, List.not_mem_nil, or_false] at hm
    rcases hm with e | e | e | e <;> rw [e] <;> decide

end SumUp

namespace SumUp

/-! ### Resolved type names are not empty -/

theorem nullableType_ne_nil {n : Str} (h : n ≠ []) (v r c : Bool) :
    (nullableType n v r c).TypeName ≠ [] := by
  unfold nullableType
  simp only
  split
  · intro e
    exact h (List.append_eq_nil.mp e).1
  · exact h

theorem isDescriptor_ne_nil {n : Str} (h : IsDescriptor n) : n ≠ [] := by
  intro e
  rw [e] at h
  rcases h with h | h | h
  · revert h
    decide
  · have := List.IsPrefix.length_le h
    simp at this
  · have := List.IsPrefix.length_le h
    simp at this

theorem typesNamed_of_sameTypes {g g' : Generator} (h : Generator.SameTypes g' g)
    (hn : g.TypesNamed) : g'.TypesNamed := by
  intro k info hk
  rw [h.2] at hk
  exact hn k info hk

theorem resolveTypeViaTable_ne_nil {g : Generator} (hn : g.TypesNamed) {p : SchemaProxy}
    {required : Bool} {t : typeInfo} (h : resolveTypeViaTable g p required = some t) :
    t.TypeName ≠ [] := by
  unfold resolveTypeViaTable at h
  split at h
  · rcases hk : g.schemaTypes (componentName p.getReference) with _ | info
    · rw [hk] at h; cases h
    · rw [hk] at h
      simp only [Option.some.injEq] at h
      rw [← h]
      apply nullableType_ne_nil
      split
      · rename_i ha
        exact ha.2
      · exact hn _ info hk
  · cases h

theorem resolveType_ne_nil (L : Library) {g : Generator} (hn : g.TypesNamed) (fuel : Nat)
    (ref : Option SchemaProxy) (required : Bool) {t : typeInfo}
    (h : resolveType L g fuel ref required = some t) : t.TypeName ≠ [] := by
  cases fuel with
  | zero => cases h
  | succ fuel =>
    rw [resolveType] at h
    unfold resolveTypeStep at h
    cases ref with
    | none =>
      simp only [Option.some.injEq] at h
      rw [← h]
      exact nullableType_ne_nil (by decide) _ _ _
    | some p =>
      simp only at h
      rcases hv : resolveTypeViaTable g p required with _ | t'
      · rw [hv] at h
        simp only at h
        rcases hs : schemaFromProxy L g fuel p with _ | (_ | schema)
        · rw [hs] at h; cases h
        · rw [hs] at h
          simp only [Option.some.injEq] at h
          rw [← h]
          exact nullableType_ne_nil (by decide) _ _ _
        · rw [hs] at h
          exact isDescriptor_ne_nil (resolveSchemaType_descriptor _ schema required h)
      · rw [hv] at h
        simp only [Option.some.injEq] at h
        rw [← h]
        exact resolveTypeViaTable_ne_nil hn hv

theorem candidateName_ne_nil {base : Str} (h : base ≠ []) (k : Nat) :
    candidateName base k ≠ [] := by
  intro e
  have := List.IsPrefix.length_le ( candidateName_prefix base k)
  rw [e] at this
  exact h (List.length_eq_zero.mp (Nat.le_zero.mp this))

theorem resolveInlineSchemaType_ne_nil (L : Library) {g : Generator} (hn : g.TypesNamed)
    (fuel : Nat) (ref : Option SchemaProxy) (required : Bool) (base : Str) {t : typeInfo}
    {g' : Generator} (h : resolveInlineSchemaType L fuel g ref required base = some (t, g')) :
    t.TypeName ≠ [] := by
  cases fuel with
  | zero => cases h
  | succ fuel =>
    rw [resolveInlineSchemaType] at h
    unfold resolveInlineStep at h
    have hres : ∀ {p : SchemaProxy},
        (match resolveType L g fuel (some p) required with
          | none => none
          | some t => some (t, g)) = some (t, g') → t.TypeName ≠ [] := by
      intro p hp
      rcases hr : resolveType L g fuel (some p) required with _ | t'
      · rw [hr] at hp; cases hp
      · rw [hr] at hp
        simp only [Option.some.injEq, Prod.mk.injEq] at hp
        rw [← hp.1]
        exact resolveType_ne_nil L hn fuel _ _ hr
    cases ref with
    | none =>
      simp only [Option.some.injEq, Prod.mk.injEq] at h
      rw [← h.1]
      exact nullableType_ne_nil (by decide) _ _ _
    | some p =>
      simp only at h
      split at h
      · rename_i hcond
        rcases hs : schemaFromProxy L g fuel p with _ | (_ | schema)
        · rw [hs] at h; cases h
        · rw [hs] at h
          simp only [Option.some.injEq, Prod.mk.injEq] at h
          rw [← h.1]
          exact nullableType_ne_nil (by decide) _ _ _
        · rw [hs] at h
          simp only at h
          split at h
          · rcases hc : createInlineModelWith L fuel (resolveInlineSchemaType L fuel) g base
                schema with _ | ⟨typeName, g₁⟩
            · rw [hc] at h; cases h
            · rw [hc] at h
              simp only [Option.some.injEq, Prod.mk.injEq] at h
              rw [← h.1]
              obtain ⟨k, _, hk⟩ := createInlineModelWith_name hc
              rw [hk]
              exact nullableType_ne_nil (candidateName_ne_nil hcond.1 k) _ _ _
          · split at h
            · split at h
              · cases h
              · simp only [Option.some.injEq, Prod.mk.injEq] at h
                rw [← h.1]
                exact nullableType_ne_nil (by simp) _ _ _
            · split at h
              · simp only [Option.some.injEq, Prod.mk.injEq] at h
                rw [← h.1]
                exact nullableType_ne_nil (by decide) _ _ _
              · split at h
                · split at h
                  · cases h
                  · simp only [Option.some.injEq, Prod.mk.injEq] at h
                    rw [← h.1]
                    exact nullableType_ne_nil (by simp) _ _ _
                · exact hres h
      · exact hres h

theorem resolveInlineSchemaType_keeps (L : Library) (fuel : Nat) (g : Generator)
    (ref : Option SchemaProxy) (required : Bool) (base : Str) {t : typeInfo} {g' : Generator}
    (h : resolveInlineSchemaType L fuel g ref required base = some (t, g')) :
    Generator.SameTypes g' g :=
  extends_sameTypes (resolveInlineSchemaType_extends L fuel g ref required base t g' h)

theorem preferredSchema_nil : preferredSchema ([] : List (Str × MediaType)) = none := rfl

theorem responseTypeForResponse_eq (L : Library) (fuel : Nat) (g : Generator)
    (resp : Response) (base : Str) :
    responseTypeForResponse L fuel g resp base
      = match preferredSchema resp.Content with
        | none => some (typeInfo.zero, g)
        | some s => resolveInlineSchemaType L fuel g (some s) true base := by
  unfold responseTypeForResponse
  split
  · rename_i hlen
    rw [List.length_eq_zero.mp hlen]
    rfl
  · rfl

end SumUp

namespace SumUp

/-! ### The table `buildModels` leaves behind has no empty type name -/

theorem typesNamed_setSchemaType {g : Generator} (hn : g.TypesNamed) (name : Str)
    (info : schemaTypeInfo) (hi : info.TypeName ≠ []) :
    (g.setSchemaType name info).TypesNamed := by
  intro k info' hk
  unfold Generator.setSchemaType at hk
  simp only at hk
  split at hk
  · rw [← Option.some.inj hk]
    exact hi
  · exact hn k info' hk

theorem registerSchemas_typesNamed (L : Library) (t : List (Str × SchemaProxy)) :
    ∀ g : Generator, g.TypesNamed → (registerSchemas L t g).TypesNamed := by
  induction t with
  | nil => intro g hn; exact hn
  | cons x xs ih =>
    intro g hn
    obtain ⟨name, proxy⟩ := x
    rw [registerSchemas]
    apply ih
    have h1 : (g.setSchemaType name
        { Name := name, TypeName := PascalIdentifier L.unicode name, Schema := proxy }).TypesNamed :=
      typesNamed_setSchemaType hn name _ (PascalIdentifier_ne_nil L.unicode name)
    exact h1

theorem classifyLoop_typesNamed (L : Library) (fuel : Nat) (names : List Str) :
    ∀ g g' : Generator, g.TypesNamed → classifyLoop L fuel names g = some g' →
      g'.TypesNamed := by
  induction names with
  | nil =>
    intro g g' hn h
    rw [classifyLoop] at h
    rw [← Option.some.inj h]
    exact hn
  | cons name rest ih =>
    intro g g' hn h
    rw [classifyLoop] at h
    rcases hk : g.schemaTypes name with _ | info
    · rw [hk] at h
      exact ih g g' hn h
    · rw [hk] at h
      simp only at h
      rcases hs : schemaFromProxy L g fuel info.Schema with _ | (_ | schema)
      · rw [hs] at h; cases h
      · rw [hs] at h
        exact ih g g' hn h
      · rw [hs] at h
        simp only at h
        refine ih _ g' ?_ h
        exact typesNamed_setSchemaType hn name _ (hn name info hk)

theorem aliasLoop_typesNamed (L : Library) (fuel : Nat) (names : List Str) :
    ∀ g g' : Generator, g.TypesNamed → aliasLoop L fuel names g = some g' →
      g'.TypesNamed := by
  induction names with
  | nil =>
    intro g g' hn h
    rw [aliasLoop] at h
    rw [← Option.some.inj h]
    exact hn
  | cons name rest ih =>
    intro g g' hn h
    rw [aliasLoop] at h
    rcases hk : g.schemaTypes name with _ | info
    · rw [hk] at h
      exact ih g g' hn h
    · rw [hk] at h
      simp only at h
      split at h
      · exact ih g g' hn h
      · rcases hs : schemaFromProxy L g fuel info.Schema with _ | (_ | schema)
        · rw [hs] at h; cases h
        · rw [hs] at h
          exact ih g g' hn h
        · rw [hs] at h
          simp only at h
          rcases hr : resolveType L g fuel (some (SchemaProxy.inline schema)) true with _ | t
          · rw [hr] at h; cases h
          · rw [hr] at h
            simp only at h
            refine ih _ g' ?_ h
            exact typesNamed_setSchemaType hn name _ (hn name info hk)

theorem modelLoop_typesNamed (L : Library) (fuel : Nat) (names : List Str) :
    ∀ (g g' : Generator) (models models' : List modelTemplateData), g.TypesNamed →
      modelLoop L fuel names g models = some (models', g') → g'.TypesNamed := by
  induction names with
  | nil =>
    intro g g' models models' hn h
    rw [modelLoop] at h
    simp only [Option.some.injEq, Prod.mk.injEq] at h
    rw [← h.2]
    exact hn
  | cons name rest ih =>
    intro g g' models models' hn h
    rw [modelLoop] at h
    rcases hk : g.schemaTypes name with _ | info
    · rw [hk] at h
      exact ih g g' _ _ hn h
    · rw [hk] at h
      simp only at h
      rcases hs : schemaFromProxy L g fuel info.Schema with _ | (_ | schema)
      · rw [hs] at h; cases h
      · rw [hs] at h
        exact ih g g' _ _ hn h
      · rw [hs] at h
        simp only at h
        split at h
        · refine ih _ g' _ _ ?_ h
          exact typesNamed_setSchemaType hn name _ (hn name info hk)
        · rcases hb : buildClassModel L fuel g info.TypeName schema with _ | ⟨model, g₁⟩
          · rw [hb] at h; cases h
          · rw [hb] at h
            simp only at h
            have hsame : Generator.SameTypes g₁ g :=
              extends_sameTypes (buildClassModelWith_extends L fuel _
                (resolveInlineSchemaType_extends L fuel) g info.TypeName schema hb).1
            refine ih _ g' _ _ ?_ h
            exact typesNamed_setSchemaType (typesNamed_of_sameTypes hsame hn) name _
              (hn name info hk)
        · exact ih g g' _ _ hn h

theorem buildModels_typesNamed (L : Library) (fuel : Nat) (g : Generator) (doc : Document)
    {models : List modelTemplateData} {g' : Generator}
    (h : buildModels L fuel g doc = some (models, g')) : g'.TypesNamed := by
  unfold buildModels at h
  simp only at h
  have h0 : ({ g with schemaTypes := fun _ => none } : Generator).TypesNamed := by
    intro k info hk
    cases hk
  split at h
  · simp only [Option.some.injEq, Prod.mk.injEq] at h
    rw [← h.2]
    exact h0
  · have h1 := registerSchemas_typesNamed L doc.Schemas _ h0
    rcases hc : classifyLoop L fuel (sortStrings (keysFromOldest doc.Schemas))
        (registerSchemas L doc.Schemas { g with schemaTypes := fun _ => none }) with _ | g₁
    · rw [hc] at h; cases h
    · rw [hc] at h
      simp only at h
      have h2 := classifyLoop_typesNamed L fuel _ _ g₁ h1 hc
      rcases ha : aliasLoop L fuel (sortStrings (keysFromOldest doc.Schemas)) g₁ with _ | g₂
      · rw [ha] at h; cases h
      · rw [ha] at h
        simp only at h
        have h3 := aliasLoop_typesNamed L fuel _ _ g₂ h2 ha
        rcases hm : modelLoop L fuel (sortStrings (keysFromOldest doc.Schemas)) g₂ []
            with _ | ⟨ms, g₃⟩
        · rw [hm] at h; cases h
        · rw [hm] at h
          simp only [Option.some.injEq, Prod.mk.injEq] at h
          rw [← h.2]
          exact modelLoop_typesNamed L fuel _ _ g₃ _ _ h3 hm

end SumUp

namespace SumUp

/-! ### Method names, response types and response modes on concrete operations -/

/-- C31 fails: the suffixed names are handed out without being looked up. For three
operations of one client with the identifiers `list`, `list` and `list2`, the second is
renamed to `List2` by its counter and the third, the first with the normalized name
`List2`, keeps that name: the client record has two operations named `List2`. -/
theorem buildClients_duplicate_method_name :
    clientsMethods (buildClients plainLibrary 5 startGenerator suffixClashDocument)
      = some [{ ClientName := "Core".toList,
                Methods := [⟨"/a".toList, "Get".toList, "List".toList⟩,
                            ⟨"/b".toList, "Get".toList, "List2".toList⟩,
                            ⟨"/c".toList, "Get".toList, "List2".toList⟩] }] ∧
    ¬ ["List".toList, "List2".toList, "List2".toList].Nodup := by
  constructor
  · decide!
  · decide

/-- C37 fails: the mode is resolved apart from the type. For an operation whose response
`200` has an inline object schema the record has the synthesized model `CoreXResponse` as
response type and the mode `json-document`, because `responseModeForResponse` resolves the
schema without a name hint; and for an operation whose response `200` has no content and
whose response `201` has a JSON array the record has the type `IEnumerable<string>` and
the mode `none`, because `resolveResponseMode` stops at the first success code. -/
theorem buildOperation_mode_disagrees_with_type :
    responseDigest (buildOperation plainLibrary 5 startGenerator "/x".toList "Get".toList
        "X".toList "Core".toList operationX (getPathItem operationX))
      = some ("CoreXResponse".toList, "json-document".toList) ∧
    responseDigest (buildOperation plainLibrary 5 startGenerator "/x".toList "Get".toList
        "X".toList "Core".toList skippedSuccessOperation (getPathItem skippedSuccessOperation))
      = some ("IEnumerable<string>".toList, "none".toList) := by
  constructor <;> decide!

end SumUp

namespace SumUp

/-! ### Merged parameters -/

theorem mem_firstOccurrences (ns : List Str) : ∀ m, m ∈ firstOccurrences ns ↔ m ∈ ns := by
  induction ns with
  | nil => intro m; exact Iff.rfl
  | cons n rest ih =>
    intro m
    rw [firstOccurrences, List.mem_cons, List.mem_cons, List.mem_filter, ih]
    by_cases h : m = n
    · simp [h]
    · simp [h]

theorem firstOccurrences_nodup (ns : List Str) : (firstOccurrences ns).Nodup := by
  induction ns with
  | nil => exact List.nodup_nil
  | cons n rest ih =>
    rw [firstOccurrences, List.nodup_cons]
    refine ⟨?_, ih.filter _⟩
    intro h
    have := (List.mem_filter.mp h).2
    simp at this

theorem firstOccurrences_append_singleton (ns : List Str) (n : Str) :
    firstOccurrences (ns ++ [n])
      = if n ∈ ns then firstOccurrences ns else firstOccurrences ns ++ [n] := by
  induction ns with
  | nil => simp [firstOccurrences]
  | cons m rest ih =>
    rw [List.cons_append, firstOccurrences, ih, firstOccurrences]
    by_cases hn : n ∈ rest
    · rw [if_pos hn, if_pos (List.mem_cons_of_mem _ hn)]
    · rw [if_neg hn, List.filter_append]
      by_cases hm : n = m
      · rw [if_pos (by rw [hm]; exact List.mem_cons_self _ _)]
        simp [hm]
      · rw [if_neg (by
          intro h
          rcases List.mem_cons.mp h with h | h
          · exact hm h
          · exact hn h)]
        simp [hm]

theorem lastDefinition_append_singleton (n : Str) (l : List parameterTemplateData)
    (p : parameterTemplateData) :
    lastDefinition n (l ++ [p]) = if p.Name = n then some p else lastDefinition n l := by
  unfold lastDefinition
  rw [List.filter_append]
  by_cases h : p.Name = n
  · simp [h]
  · simp [h]

theorem lastDefinition_of_mem {n : Str} {l : List parameterTemplateData}
    (h : n ∈ l.map (fun p => p.Name)) :
    ∃ r, lastDefinition n l = some r ∧ r.Name = n ∧ r ∈ l := by
  obtain ⟨q, hq, hqn⟩ := List.mem_map.mp h
  have hne : l.filter (fun p => decide (p.Name = n)) ≠ [] := by
    intro e
    have : q ∈ l.filter (fun p => decide (p.Name = n)) :=
      List.mem_filter.mpr ⟨hq, by simpa using hqn⟩
    rw [e] at this
    cases this
  refine ⟨(l.filter (fun p => decide (p.Name = n))).getLast hne, ?_, ?_, ?_⟩
  · unfold lastDefinition
    exact List.getLast?_eq_getLast _ hne
  · have := List.getLast_mem hne
    simpa using (List.mem_filter.mp this).2
  · exact (List.mem_filter.mp (List.getLast_mem hne)).1

theorem lastDefinition_name {n : Str} {l : List parameterTemplateData}
    {r : parameterTemplateData} (h : lastDefinition n l = some r) : r.Name = n ∧ r ∈ l := by
  unfold lastDefinition at h
  have hm := List.mem_of_getLast?_eq_some h
  exact ⟨by simpa using (List.mem_filter.mp hm).2, (List.mem_filter.mp hm).1⟩

theorem placeParameter_of_not_mem (l : List parameterTemplateData) (p : parameterTemplateData)
    (h : ∀ r ∈ l, r.Name ≠ p.Name) : placeParameter l p = l ++ [p] := by
  induction l with
  | nil => rfl
  | cons r rest ih =>
    rw [placeParameter, if_neg (h r (List.mem_cons_self _ _)),
      ih (fun x hx => h x (List.mem_cons_of_mem _ hx))]
    rfl

theorem placeParameter_filterMap (p : parameterTemplateData)
    (f : Str → Option parameterTemplateData) :
    ∀ ns : List Str, ns.Nodup → p.Name ∈ ns →
      (∀ n ∈ ns, ∃ r, f n = some r ∧ r.Name = n) →
      placeParameter (ns.filterMap f) p
        = ns.filterMap (fun n => if p.Name = n then some p else f n) := by
  intro ns
  induction ns with
  | nil => intro _ h; cases h
  | cons n rest ih =>
    intro hnd hmem hf
    obtain ⟨r, hr, hrn⟩ := hf n (List.mem_cons_self _ _)
    rw [List.filterMap_cons, hr, List.filterMap_cons]
    simp only
    by_cases hn : p.Name = n
    · rw [if_pos hn, placeParameter, if_pos (by rw [hrn, hn])]
      congr 1
      apply List.filterMap_congr
      intro m hm
      have : ¬ p.Name = m := by
        intro e
        rw [← e, hn] at hm
        exact (List.nodup_cons.mp hnd).1 hm
      rw [if_neg this]
    · rw [if_neg hn, hr, placeParameter, if_neg (by rw [hrn]; exact fun e => hn e.symm)]
      congr 1
      refine ih (List.nodup_cons.mp hnd).2 ?_
        (fun m hm => hf m (List.mem_cons_of_mem _ hm))
      rcases List.mem_cons.mp hmem with h | h
      · exact absurd h hn
      · exact h

theorem mergedByName_append_singleton (l : List parameterTemplateData)
    (p : parameterTemplateData) :
    mergedByName (l ++ [p]) = placeParameter (mergedByName l) p := by
  unfold mergedByName
  rw [List.map_append, List.map_cons, List.map_nil, firstOccurrences_append_singleton]
  have hfun : (fun n => lastDefinition n (l ++ [p]))
      = (fun n => if p.Name = n then some p else lastDefinition n l) := by
    funext n
    exact lastDefinition_append_singleton n l p
  rw [hfun]
  by_cases hmem : p.Name ∈ l.map (fun q => q.Name)
  · rw [if_pos hmem]
    symm
    apply placeParameter_filterMap p _ _ (firstOccurrences_nodup _)
      ((mem_firstOccurrences _ _).mpr hmem)
    intro n hn
    obtain ⟨r, hr, hrn, _⟩ := lastDefinition_of_mem ((mem_firstOccurrences _ _).mp hn)
    exact ⟨r, hr, hrn⟩
  · rw [if_neg hmem, List.filterMap_append]
    have hleft : (firstOccurrences (l.map (fun q => q.Name))).filterMap
          (fun n => if p.Name = n then some p else lastDefinition n l)
        = (firstOccurrences (l.map (fun q => q.Name))).filterMap
            (fun n => lastDefinition n l) := by
      apply List.filterMap_congr
      intro n hn
      have : ¬ p.Name = n := by
        intro e
        rw [← e] at hn
        exact hmem ((mem_firstOccurrences _ _).mp hn)
      rw [if_neg this]
    rw [hleft]
    have hright : [p.Name].filterMap
        (fun n => if p.Name = n then some p else lastDefinition n l) = [p] := by
      simp
    rw [hright]
    symm
    apply placeParameter_of_not_mem
    intro r hr e
    obtain ⟨n, _, hn⟩ := List.mem_filterMap.mp hr
    obtain ⟨hname, hin⟩ := lastDefinition_name hn
    exact hmem (List.mem_map.mpr ⟨r, hin, e⟩)

theorem mergedByName_names (l : List parameterTemplateData) :
    (mergedByName l).map (fun p => p.Name) = firstOccurrences (l.map (fun p => p.Name)) := by
  unfold mergedByName
  rw [List.map_filterMap]
  have : ∀ n ∈ firstOccurrences (l.map (fun p => p.Name)),
      (fun n => Option.map (fun p : parameterTemplateData => p.Name) (lastDefinition n l)) n
        = some n := by
    intro n hn
    obtain ⟨r, hr, hrn, _⟩ := lastDefinition_of_mem ((mem_firstOccurrences _ _).mp hn)
    simp only [hr, Option.map_some', hrn]
  rw [List.filterMap_congr this]
  exact List.filterMap_some _

theorem mergedParameters_append_same (location : Str) (l : List parameterTemplateData)
    (p : parameterTemplateData) (h : p.Location = location) :
    mergedParameters location (l ++ [p]) = placeParameter (mergedParameters location l) p := by
  unfold mergedParameters
  rw [List.filter_append]
  have : [p].filter (fun q => decide (q.Location = location)) = [p] := by simp [h]
  rw [this, mergedByName_append_singleton]

theorem mergedParameters_append_other (location : Str) (l : List parameterTemplateData)
    (p : parameterTemplateData) (h : p.Location ≠ location) :
    mergedParameters location (l ++ [p]) = mergedParameters location l := by
  unfold mergedParameters
  rw [List.filter_append]
  have : [p].filter (fun q => decide (q.Location = location)) = [] := by simp [h]
  rw [this, List.append_nil]

theorem collectParameters_eq (L : Library) (fuel : Nat) (g : Generator) :
    ∀ (params : List Parameter) (seen : List parameterTemplateData),
      collectParameters L fuel g params
          { pathParams := mergedParameters "path".toList seen,
            queryParams := mergedParameters "query".toList seen,
            headerParams := mergedParameters "header".toList seen }
        = (convertedParameters L fuel g params).map (fun cs =>
            { pathParams := mergedParameters "path".toList (seen ++ cs),
              queryParams := mergedParameters "query".toList (seen ++ cs),
              headerParams := mergedParameters "header".toList (seen ++ cs) }) := by
  intro params
  induction params with
  | nil =>
    intro seen
    simp [collectParameters, convertedParameters]
  | cons param rest ih =>
    intro seen
    rw [collectParameters, convertedParameters]
    rcases hc : convertParameter L fuel g param with _ | c
    · rfl
    · have hfinal : (Option.map (fun cs => c :: cs) (convertedParameters L fuel g rest)).map
            (fun cs => ({ pathParams := mergedParameters "path".toList (seen ++ cs),
                          queryParams := mergedParameters "query".toList (seen ++ cs),
                          headerParams := mergedParameters "header".toList (seen ++ cs) }
                        : parameterLists))
          = (convertedParameters L fuel g rest).map
              (fun cs => { pathParams := mergedParameters "path".toList ((seen ++ [c]) ++ cs),
                           queryParams := mergedParameters "query".toList ((seen ++ [c]) ++ cs),
                           headerParams :=
                             mergedParameters "header".toList ((seen ++ [c]) ++ cs) }) := by
        rw [Option.map_map]
        congr 1
        funext cs
        simp only [Function.comp, List.append_assoc, List.singleton_append]
      simp only
      rw [hfinal, ← ih (seen ++ [c])]
      by_cases h1 : c.Location = "path".toList
      · rw [if_pos h1, mergedParameters_append_same _ _ _ h1,
          mergedParameters_append_other "query".toList _ _ (by rw [h1]; decide),
          mergedParameters_append_other "header".toList _ _ (by rw [h1]; decide)]
      · rw [if_neg h1]
        by_cases h2 : c.Location = "query".toList
        · rw [if_pos h2, mergedParameters_append_same _ _ _ h2,
            mergedParameters_append_other "path".toList _ _ h1,
            mergedParameters_append_other "header".toList _ _ (by rw [h2]; decide)]
        · rw [if_neg h2]
          by_cases h3 : c.Location = "header".toList
          · rw [if_pos h3, mergedParameters_append_same _ _ _ h3,
              mergedParameters_append_other "path".toList _ _ h1,
              mergedParameters_append_other "query".toList _ _ h2]
          · rw [if_neg h3, mergedParameters_append_other "path".toList _ _ h1,
              mergedParameters_append_other "query".toList _ _ h2,
              mergedParameters_append_other "header".toList _ _ h3]

theorem convertedParameters_fields (L : Library) (fuel : Nat) (g : Generator) :
    ∀ (params : List Parameter) (cs : List parameterTemplateData),
      convertedParameters L fuel g params = some cs →
      cs.map (fun c => (c.Location, c.Name)) = params.map (fun p => (p.In, p.Name)) := by
  intro params
  induction params with
  | nil =>
    intro cs h
    simp only [convertedParameters, Option.some.injEq] at h
    rw [← h]
    rfl
  | cons param rest ih =>
    intro cs h
    rw [convertedParameters] at h
    rcases hc : convertParameter L fuel g param with _ | c
    · rw [hc] at h; cases h
    · rw [hc] at h
      simp only at h
      rcases hr : convertedParameters L fuel g rest with _ | cs'
      · rw [hr] at h; cases h
      · rw [hr] at h
        simp only [Option.map_some', Option.some.injEq] at h
        rw [← h, List.map_cons, List.map_cons, ih cs' hr]
        congr 1
        unfold convertParameter at hc
        dsimp only at hc
        split at hc
        · cases hc
        · simp only [Option.some.injEq] at hc
          rw [← hc]

end SumUp

namespace SumUp

theorem mergedParameters_spec (location : Str) (cs : List parameterTemplateData) :
    ((mergedParameters location cs).map (fun p => p.Name)).Nodup ∧
    (mergedParameters location cs).map (fun p => p.Name)
      = firstOccurrences
          ((cs.filter (fun p => decide (p.Location = location))).map (fun p => p.Name)) ∧
    (∀ q ∈ mergedParameters location cs,
      q.Location = location ∧
      lastDefinition q.Name (cs.filter (fun p => decide (p.Location = location))) = some q) := by
  refine ⟨?_, mergedByName_names _, ?_⟩
  · unfold mergedParameters
    rw [mergedByName_names]
    exact firstOccurrences_nodup _
  · intro q hq
    unfold mergedParameters mergedByName at hq
    obtain ⟨n, _, hn⟩ := List.mem_filterMap.mp hq
    obtain ⟨hname, hin⟩ := lastDefinition_name hn
    refine ⟨by simpa using (List.mem_filter.mp hin).2, ?_⟩
    rw [hname]
    exact hn

/-- C32: `buildOperation` converts the parameters of the path item followed by those of
the operation, and yields for each of the locations `path`, `query` and `header` the
merged list of the converted records of that location: the names of the list are pairwise
distinct and stand in the order of their first occurrences, and the record of a name is
the one converted from its last occurrence, so that a parameter of the operation replaces
the parameter of the path item with the same location and name in place. -/
theorem buildOperation_merges_parameters (L : Library) (fuel : Nat) (g : Generator)
    (path method methodName clientName : Str) (op : Operation) (pathItem : PathItem)
    (r : operationTemplateData) (g' : Generator)
    (h : buildOperation L fuel g path method methodName clientName op pathItem = some (r, g')) :
    ∃ cs, convertedParameters L fuel g (pathItem.Parameters ++ op.Parameters) = some cs ∧
      cs.map (fun c => (c.Location, c.Name))
        = (pathItem.Parameters ++ op.Parameters).map (fun p => (p.In, p.Name)) ∧
      r.PathParams = mergedParameters "path".toList cs ∧
      r.QueryParams = mergedParameters "query".toList cs ∧
      r.HeaderParams = mergedParameters "header".toList cs ∧
      ∀ location,
        ((mergedParameters location cs).map (fun p => p.Name)).Nodup ∧
        (mergedParameters location cs).map (fun p => p.Name)
          = firstOccurrences
              ((cs.filter (fun p => decide (p.Location = location))).map (fun p => p.Name)) ∧
        (∀ q ∈ mergedParameters location cs,
          q.Location = location ∧
          lastDefinition q.Name (cs.filter (fun p => decide (p.Location = location)))
            = some q) := by
  have hcol := collectParameters_eq L fuel g (pathItem.Parameters ++ op.Parameters) []
  have hnil : ∀ location, mergedParameters location [] = [] := fun _ => rfl
  simp only [hnil, List.nil_append] at hcol
  unfold buildOperation mergeParameters at h
  dsimp only at h
  have hdef : ({} : parameterLists)
      = { pathParams := [], queryParams := [], headerParams := [] } := rfl
  rw [hdef, hcol] at h
  rcases hcs : convertedParameters L fuel g (pathItem.Parameters ++ op.Parameters) with _ | cs
  · rw [hcs] at h
    cases h
  · rw [hcs] at h
    simp only [Option.map_some'] at h
    refine ⟨cs, rfl, convertedParameters_fields L fuel g _ cs hcs, ?_, ?_, ?_,
      fun location => mergedParameters_spec location cs⟩
    all_goals
      split at h
      · cases h
      split at h
      · cases h
      split at h
      · cases h
      split at h
      · cases h
      simp only [Option.some.injEq, Prod.mk.injEq] at h
      rw [← h.1]

theorem overridden_parameters :
    (buildOperation plainLibrary 5 startGenerator "/x".toList "Get".toList "X".toList
        "Core".toList overriddenOperation overriddenPathItem).map
        (fun p => operationParameters p.1)
      = some { PathParams := [],
               QueryParams := [⟨"limit".toList, "inner".toList⟩, ⟨"page".toList, "outer".toList⟩,
                               ⟨"sort".toList, "inner".toList⟩],
               HeaderParams := [⟨"limit".toList, "outer".toList⟩] } := by
  decide!

theorem buildOperation_merges_parameters_witness :
    ∃ r g',
      buildOperation plainLibrary 5 startGenerator "/x".toList "Get".toList "X".toList
        "Core".toList overriddenOperation overriddenPathItem = some (r, g') ∧
      operationParameters r
        = { PathParams := [],
            QueryParams := [⟨"limit".toList, "inner".toList⟩, ⟨"page".toList, "outer".toList⟩,
                            ⟨"sort".toList, "inner".toList⟩],
            HeaderParams := [⟨"limit".toList, "outer".toList⟩] } ∧
      ∃ cs, convertedParameters plainLibrary 5 startGenerator
          (overriddenPathItem.Parameters ++ overriddenOperation.Parameters) = some cs ∧
        cs.map (fun c => (c.Location, c.Name))
          = (overriddenPathItem.Parameters ++ overriddenOperation.Parameters).map
              (fun p => (p.In, p.Name)) ∧
        r.PathParams = mergedParameters "path".toList cs ∧
        r.QueryParams = mergedParameters "query".toList cs ∧
        r.HeaderParams = mergedParameters "header".toList cs ∧
        ∀ location,
          ((mergedParameters location cs).map (fun p => p.Name)).Nodup ∧
          (mergedParameters location cs).map (fun p => p.Name)
            = firstOccurrences
                ((cs.filter (fun p => decide (p.Location = location))).map
                  (fun p => p.Name)) ∧
          (∀ q ∈ mergedParameters location cs,
            q.Location = location ∧
            lastDefinition q.Name (cs.filter (fun p => decide (p.Location = location)))
              = some q) := by
  have hd := overridden_parameters
  rcases hc : buildOperation plainLibrary 5 startGenerator "/x".toList "Get".toList
      "X".toList "Core".toList overriddenOperation overriddenPathItem with _ | ⟨r, g'⟩
  · rw [hc] at hd; cases hd
  · rw [hc] at hd
    simp only [Option.map_some', Option.some.injEq] at hd
    exact ⟨r, g', rfl, hd,
      buildOperation_merges_parameters plainLibrary 5 startGenerator "/x".toList
        "Get".toList "X".toList "Core".toList overriddenOperation overriddenPathItem r g' hc⟩

end SumUp

namespace SumUp

/-! ### The response type of an operation -/

theorem responseTypeLoop_eq (L : Library) (fuel : Nat) (codesMap : List (Str × Response))
    (base : Str) {g : Generator} (hn : g.TypesNamed) :
    ∀ codes : List Str,
      responseTypeLoop L fuel codesMap base codes g
        = match firstUsableSchema codesMap codes with
          | some s =>
            (resolveInlineSchemaType L fuel g (some s) true base).map
              (fun r => (some r.1, r.2))
          | none => some (none, g) := by
  intro codes
  induction codes with
  | nil => rfl
  | cons code rest ih =>
    rw [responseTypeLoop, firstUsableSchema]
    cases hp : hasPrefix2 code with
    | false =>
      simp only [Bool.not_false, if_true, Bool.false_eq_true, if_false]
      exact ih
    | true =>
      simp only [Bool.not_true, Bool.false_eq_true, if_false, if_true]
      unfold contentSchema
      rcases hget : getOrZero codesMap code with _ | resp
      · simp only [Option.bind]
        exact ih
      · simp only [Option.bind]
        rw [responseTypeForResponse_eq]
        rcases hs : preferredSchema resp.Content with _ | s
        · simp only
          rw [if_neg (by simp [typeInfo.zero])]
          exact ih
        · simp only
          rcases hr : resolveInlineSchemaType L fuel g (some s) true base with _ | ⟨t, g₁⟩
          · rfl
          · simp only [Option.map_some']
            rw [if_pos (resolveInlineSchemaType_ne_nil L hn fuel _ _ _ hr)]

/-- C33 fails as stated: for an operation that declares no status code and a default
response with a JSON string schema, `resolveResponseType` returns `JsonDocument` and does
not look at the default response, whose type is `string`. -/
theorem resolveResponseType_ignores_lone_default :
    (resolveResponseType plainLibrary 5 startGenerator defaultOnlyOperation "Core".toList
        "X".toList).map (fun r => r.1.TypeName) = some "JsonDocument".toList ∧
    (expectedResponseType plainLibrary 5 startGenerator defaultOnlyOperation "Core".toList
        "X".toList).map (fun r => r.1.TypeName) = some "string".toList := by
  constructor <;> decide!

/-- C33, amended: for every operation that declares at least one status code (or no
responses at all, or no default response with a content schema), and every generator whose
table has no empty type name, `resolveResponseType` is the response type of the
specification: the type resolved from the content schema of the first status code, in
ascending order of the declared codes that begin with `2`, whose response has a content
schema; without such a code, the type resolved from the content schema of the default
response; without that, the non-nullable `JsonDocument`. It returns exactly when that
resolution returns. -/
theorem resolveResponseType_spec (L : Library) (fuel : Nat) (g : Generator) (op : Operation)
    (clientName methodName : Str) (hn : g.TypesNamed)
    (hcodes : ∀ responses, op.Responses = some responses → responses.Codes = [] →
      responses.Default.bind (fun resp => preferredSchema resp.Content) = none) :
    resolveResponseType L fuel g op clientName methodName
      = expectedResponseType L fuel g op clientName methodName := by
  unfold resolveResponseType expectedResponseType
  rcases hop : op.Responses with _ | responses
  · rfl
  · simp only
    by_cases hlen : responses.Codes.length = 0
    · have hnil := List.length_eq_zero.mp hlen
      rw [if_pos hlen, hcodes responses hop hnil, hnil]
      rfl
    · rw [if_neg hlen, responseTypeLoop_eq L fuel responses.Codes _ hn]
      rcases hf : firstUsableSchema responses.Codes
          (sortStrings (keysFromOldest responses.Codes)) with _ | s
      · simp only
        rcases hd : responses.Default with _ | resp
        · rfl
        · simp only [Option.bind]
          rw [responseTypeForResponse_eq]
          rcases hs : preferredSchema resp.Content with _ | s
          · simp only
            rw [if_neg (by simp [typeInfo.zero])]
          · simp only
            rcases hr : resolveInlineSchemaType L fuel g (some s) true
                (clientName ++ methodName ++ "ResponseDefault".toList) with _ | ⟨t, g₁⟩
            · rfl
            · simp only
              rw [if_pos (resolveInlineSchemaType_ne_nil L hn fuel _ _ _ hr)]
      · simp only
        rcases hr : resolveInlineSchemaType L fuel g (some s) true
            (clientName ++ methodName ++ "Response".toList) with _ | ⟨t, g₁⟩
        · rfl
        · rfl

theorem startGenerator_typesNamed : startGenerator.TypesNamed := by
  intro k info h
  cases h

theorem resolveResponseType_spec_witness :
    resolveResponseType plainLibrary 5 startGenerator notFoundOperation "Core".toList
        "X".toList
      = expectedResponseType plainLibrary 5 startGenerator notFoundOperation "Core".toList
          "X".toList ∧
    (resolveResponseType plainLibrary 5 startGenerator notFoundOperation "Core".toList
        "X".toList).map (fun r => r.1.TypeName) = some "string".toList ∧
    firstUsableSchema [("404".toList, jsonResponse (onePropertySchema "message".toList)),
        ("200".toList, jsonResponse (typedSchema "string".toList))]
        ["200".toList, "404".toList]
      = some (.inline (typedSchema "string".toList)) :=
  ⟨resolveResponseType_spec plainLibrary 5 startGenerator notFoundOperation "Core".toList
     "X".toList startGenerator_typesNamed (by
       intro responses hop hnil
       have hr : responses = { Codes := [("404".toList,
             jsonResponse (onePropertySchema "message".toList)),
           ("200".toList, jsonResponse (typedSchema "string".toList))], Default := none } :=
         (Option.some.inj hop).symm
       rw [hr] at hnil
       cases hnil),
   by decide!, rfl⟩

end SumUp

namespace SumUp

/-! ### Error mappings -/

theorem digit_range_iff (c : Char) :
    (decide ('0' ≤ c) && decide (c ≤ '9')) = true ↔ 48 ≤ c.toNat ∧ c.toNat ≤ 57 := by
  simp only [Bool.and_eq_true, decide_eq_true_eq, Char.le_def, Char.toNat,
    UInt32.le_def, Fin.le_def]
  rfl

theorem foldMatches_digit {c : Char}
    (h : (decide ('0' ≤ c) && decide (c ≤ '9')) = true) : foldMatches c 'd' = false := by
  have hr := (digit_range_iff c).mp h
  have hc : c.toNat < 128 := by omega
  revert h
  refine ascii_forall (P := fun c =>
    (decide ('0' ≤ c) && decide (c ≤ '9')) = true → foldMatches c 'd' = false) ?_ c hc
  decide

theorem numeric_first {code : Str} (h : isNumericStatusCode code = true) :
    ∃ c rest, code = c :: rest ∧ (decide ('0' ≤ c) && decide (c ≤ '9')) = true := by
  unfold isNumericStatusCode at h
  simp only [Bool.and_eq_true, decide_eq_true_eq] at h
  cases code with
  | nil =>
    have := h.1
    simp [byteLen] at this
  | cons c rest =>
    refine ⟨c, rest, rfl, ?_⟩
    have h2 := h.2
    rw [List.all_cons, Bool.and_eq_true] at h2
    exact h2.1

theorem numeric_not_default {code : Str} (h : isNumericStatusCode code = true) :
    equalFold code "default".toList = false := by
  obtain ⟨c, rest, rfl, hc⟩ := numeric_first h
  have : "default".toList = 'd' :: "efault".toList := rfl
  rw [this, equalFold, foldMatches_digit hc]
  rfl

theorem statusCodeLiteral_numeric {code : Str} (h : isNumericStatusCode code = true) :
    statusCodeLiteral code = code := by
  unfold statusCodeLiteral
  rw [numeric_not_default h, h]
  rfl

theorem statusCodeSuffix_numeric (U : UnicodeTables) {code : Str}
    (h : isNumericStatusCode code = true) : statusCodeSuffix U code = code := by
  unfold statusCodeSuffix
  rw [numeric_not_default h, h]
  rfl

theorem errorResponseForCode_spec (L : Library) (fuel : Nat) {g : Generator}
    (hn : g.TypesNamed) (resp : Response) (code clientName methodName : Str)
    (hcode : equalFold code "default".toList = true ∨ statusCodeLiteral code ≠ [])
    {opt : Option errorResponseTemplateData} {g' : Generator}
    (h : errorResponseForCode L fuel g resp code clientName methodName = some (opt, g')) :
    Generator.SameTypes g' g ∧
    match preferredSchema resp.Content with
    | none => opt = none
    | some s =>
      ∃ t g₂,
        resolveInlineSchemaType L fuel g (some s) true
          (clientName ++ methodName ++ "Error".toList ++ statusCodeSuffix L.unicode code)
          = some (t, g₂) ∧
        opt = some { StatusCodeLiteral := statusCodeLiteral code,
                     ErrorType := trimSuffixQ t.TypeName,
                     IsDefault := equalFold code "default".toList } := by
  unfold errorResponseForCode at h
  simp only at h
  rw [responseTypeForResponse_eq] at h
  rcases hs : preferredSchema resp.Content with _ | s
  · rw [hs] at h
    simp only at h
    rw [if_pos (by rfl)] at h
    simp only [Option.some.injEq, Prod.mk.injEq] at h
    rw [← h.1, ← h.2]
    exact ⟨sameTypes_refl g, rfl⟩
  · rw [hs] at h
    simp only at h
    rcases hr : resolveInlineSchemaType L fuel g (some s) true
        (clientName ++ methodName ++ "Error".toList ++ statusCodeSuffix L.unicode code)
      with _ | ⟨t, g₂⟩
    · rw [hr] at h; cases h
    · rw [hr] at h
      simp only at h
      have hne := resolveInlineSchemaType_ne_nil L hn fuel _ _ _ hr
      have hkeep := resolveInlineSchemaType_keeps L fuel g _ _ _ hr
      rw [if_neg hne] at h
      have hcond : ¬ ((!equalFold code "default".toList) = true ∧ statusCodeLiteral code = []) := by
        intro hc
        rcases hcode with hd | hl
        · rw [hd] at hc
          exact absurd hc.1 (by decide)
        · exact hl hc.2
      rw [if_neg hcond] at h
      simp only [Option.some.injEq, Prod.mk.injEq] at h
      refine ⟨?_, t, g₂, hr, h.1.symm⟩
      rw [← h.2]
      split
      · exact ⟨hkeep.1, hkeep.2⟩
      · exact hkeep

theorem errorResponsesLoop_spec (L : Library) (fuel : Nat) (codesMap : List (Str × Response))
    (clientName methodName : Str) {g : Generator} (hn : g.TypesNamed) :
    ∀ (codes : List Str) (g₀ : Generator) (acc rs : List errorResponseTemplateData)
      (g' : Generator),
      Generator.SameTypes g₀ g → (∀ c ∈ codes, isNumericStatusCode c = true) →
      errorResponsesLoop L fuel codesMap clientName methodName codes g₀ acc = some (rs, g') →
      Generator.SameTypes g' g ∧
      ∃ found, rs = acc ++ found ∧
        List.Forall₂ (fun code r =>
            r.StatusCodeLiteral = code ∧ r.IsDefault = false ∧
            ∃ resp, getOrZero codesMap code = some resp ∧
              ErrorTypeOf L fuel g resp
                (clientName ++ methodName ++ "Error".toList ++ code) r.ErrorType)
          (codes.filter (fun c => !hasPrefix2 c && (contentSchema codesMap c).isSome))
          found := by
  intro codes
  induction codes with
  | nil =>
    intro g₀ acc rs g' hg _ h
    rw [errorResponsesLoop] at h
    simp only [Option.some.injEq, Prod.mk.injEq] at h
    rw [← h.1, ← h.2]
    exact ⟨hg, [], (List.append_nil _).symm, List.Forall₂.nil⟩
  | cons code rest ih =>
    intro g₀ acc rs g' hg hnum h
    have hrest : ∀ c ∈ rest, isNumericStatusCode c = true :=
      fun c hc => hnum c (List.mem_cons_of_mem _ hc)
    have hcode := hnum code (List.mem_cons_self _ _)
    rw [errorResponsesLoop] at h
    rw [List.filter_cons]
    cases hp : hasPrefix2 code with
    | true =>
      rw [hp] at h
      simp only [if_true] at h
      simp only [Bool.not_true, Bool.false_and, Bool.false_eq_true, if_false]
      exact ih g₀ acc rs g' hg hrest h
    | false =>
      rw [hp] at h
      simp only [Bool.false_eq_true, if_false] at h
      simp only [Bool.not_false, Bool.true_and]
      unfold contentSchema
      rcases hget : getOrZero codesMap code with _ | resp
      · rw [hget] at h
        simp only at h
        simp only [Option.bind, Option.isSome_none, Bool.false_eq_true, if_false]
        exact ih g₀ acc rs g' hg hrest h
      · rw [hget] at h
        simp only at h
        simp only [Option.bind]
        rcases he : errorResponseForCode L fuel g₀ resp code clientName methodName
          with _ | ⟨opt, g₁⟩
        · rw [he] at h; cases h
        · rw [he] at h
          have hn₀ := typesNamed_of_sameTypes hg hn
          have hlit : statusCodeLiteral code ≠ [] := by
            rw [statusCodeLiteral_numeric hcode]
            obtain ⟨c, tl, hc, _⟩ := numeric_first hcode
            rw [hc]
            exact List.cons_ne_nil _ _
          obtain ⟨hkeep, hspec⟩ :=
            errorResponseForCode_spec L fuel hn₀ resp code clientName methodName (Or.inr hlit) he
          have hg₁ : Generator.SameTypes g₁ g := ⟨hkeep.1.trans hg.1, hkeep.2.trans hg.2⟩
          rcases hs : preferredSchema resp.Content with _ | s
          · rw [hs] at hspec
            simp only at hspec
            rw [hspec] at h
            simp only at h
            simp only [Option.isSome_none, Bool.false_eq_true, if_false]
            exact ih g₁ acc rs g' hg₁ hrest h
          · rw [hs] at hspec
            simp only at hspec
            obtain ⟨t, g₂, hres, hopt⟩ := hspec
            rw [hopt] at h
            simp only at h
            simp only [Option.isSome_some, if_true]
            obtain ⟨hfin, found, hrs, hall⟩ := ih g₁ _ rs g' hg₁ hrest h
            refine ⟨hfin,
              { StatusCodeLiteral := statusCodeLiteral code,
                ErrorType := trimSuffixQ t.TypeName,
                IsDefault := equalFold code "default".toList } :: found, ?_,
              List.Forall₂.cons ⟨?_, ?_, resp, hget, ?_⟩ hall⟩
            · rw [hrs, List.append_assoc]
              rfl
            · exact statusCodeLiteral_numeric hcode
            · exact numeric_not_default hcode
            · rw [statusCodeSuffix_numeric L.unicode hcode] at hres
              exact ⟨s, g₀, g₂, t, hs, hg, hres, rfl⟩

end SumUp

namespace SumUp

theorem resolveDefaultErrorResponse_spec (L : Library) (fuel : Nat) {g g₀ : Generator}
    (hn : g.TypesNamed) (hg : Generator.SameTypes g₀ g) (resp : Response)
    (clientName methodName : Str) {dflt : List errorResponseTemplateData} {g' : Generator}
    (h : resolveDefaultErrorResponse L fuel g₀ resp clientName methodName = some (dflt, g')) :
    (preferredSchema resp.Content = none → dflt = []) ∧
    (∀ s, preferredSchema resp.Content = some s →
      ∃ r, dflt = [r] ∧ r.StatusCodeLiteral = [] ∧ r.IsDefault = true ∧
        ErrorTypeOf L fuel g resp (clientName ++ methodName ++ "Error".toList ++ "Default".toList)
          r.ErrorType) := by
  unfold resolveDefaultErrorResponse at h
  rcases he : errorResponseForCode L fuel g₀ resp "default".toList clientName methodName
    with _ | ⟨opt, g₁⟩
  · rw [he] at h; cases h
  · rw [he] at h
    obtain ⟨_, hspec⟩ := errorResponseForCode_spec L fuel (typesNamed_of_sameTypes hg hn) resp
      "default".toList clientName methodName (Or.inl (by decide)) he
    rcases hs : preferredSchema resp.Content with _ | s
    · rw [hs] at hspec
      simp only at hspec
      rw [hspec] at h
      simp only [Option.some.injEq, Prod.mk.injEq] at h
      exact ⟨fun _ => h.1.symm, fun s e => by cases e⟩
    · rw [hs] at hspec
      simp only at hspec
      obtain ⟨t, g₂, hres, hopt⟩ := hspec
      rw [hopt] at h
      simp only [Option.some.injEq, Prod.mk.injEq] at h
      refine ⟨fun e => (by cases e), fun s' e => ?_⟩
      cases e
      have hsuffix : statusCodeSuffix L.unicode "default".toList = "Default".toList := by
        unfold statusCodeSuffix
        rw [if_pos (by decide)]
      rw [hsuffix] at hres
      exact ⟨_, h.1.symm, rfl, rfl, s, g₀, g₂, t, hs, hg, hres, rfl⟩

/-- C34: for every operation whose declared status codes are all numerals of three digits
(and every generator whose table has no empty type name), the list `resolveErrorResponses`
returns consists of one mapping for each declared code that does not begin with `2` and
whose response has a content schema, in ascending order of the codes, followed by one
default mapping when the default response has a content schema. The mapping of a code has
the code as its status code literal and is not a default mapping; the error type of every
mapping is the type resolved from the content schema of its response, without a trailing
`?`. No code that begins with `2` has a mapping. -/
theorem resolveErrorResponses_spec (L : Library) (fuel : Nat) (g : Generator) (op : Operation)
    (clientName methodName : Str) (responses : Responses)
    (rs : List errorResponseTemplateData) (g' : Generator)
    (hop : op.Responses = some responses)
    (hnum : ∀ c ∈ keysFromOldest responses.Codes, isNumericStatusCode c = true)
    (hn : g.TypesNamed)
    (h : resolveErrorResponses L fuel g op clientName methodName = some (rs, g')) :
    ∃ found dflt, rs = found ++ dflt ∧
      List.Forall₂ (fun code r =>
          r.StatusCodeLiteral = code ∧ r.IsDefault = false ∧
          ∃ resp, getOrZero responses.Codes code = some resp ∧
            ErrorTypeOf L fuel g resp
              (clientName ++ methodName ++ "Error".toList ++ code) r.ErrorType)
        (errorCodes responses) found ∧
      (responses.Default.bind (fun resp => preferredSchema resp.Content) = none → dflt = []) ∧
      (∀ resp s, responses.Default = some resp → preferredSchema resp.Content = some s →
        ∃ r, dflt = [r] ∧ r.StatusCodeLiteral = [] ∧ r.IsDefault = true ∧
          ErrorTypeOf L fuel g resp (clientName ++ methodName ++ "Error".toList ++ "Default".toList)
            r.ErrorType) ∧
      (∀ code ∈ errorCodes responses, hasPrefix2 code = false) := by
  have hpre : ∀ code ∈ errorCodes responses, hasPrefix2 code = false := by
    intro code hc
    have := (List.mem_filter.mp hc).2
    simp only [Bool.and_eq_true, Bool.not_eq_true'] at this
    exact this.1
  unfold resolveErrorResponses at h
  rw [hop] at h
  simp only at h
  have hdefault : ∀ (g₀ : Generator) (dflt : List errorResponseTemplateData) (g'' : Generator)
      (resp : Response), Generator.SameTypes g₀ g → responses.Default = some resp →
      resolveDefaultErrorResponse L fuel g₀ resp clientName methodName = some (dflt, g'') →
      (responses.Default.bind (fun resp => preferredSchema resp.Content) = none → dflt = []) ∧
      (∀ resp s, responses.Default = some resp → preferredSchema resp.Content = some s →
        ∃ r, dflt = [r] ∧ r.StatusCodeLiteral = [] ∧ r.IsDefault = true ∧
          ErrorTypeOf L fuel g resp (clientName ++ methodName ++ "Error".toList ++ "Default".toList)
            r.ErrorType) := by
    intro g₀ dflt g'' resp hg hd hres
    obtain ⟨h1, h2⟩ := resolveDefaultErrorResponse_spec L fuel hn hg resp clientName methodName
      hres
    refine ⟨?_, ?_⟩
    · intro hb
      rw [hd] at hb
      exact h1 hb
    · intro resp' s hd' hs
      rw [hd] at hd'
      rw [← Option.some.inj hd'] at hs ⊢
      exact h2 s hs
  have hnone : responses.Default = none →
      (responses.Default.bind (fun resp => preferredSchema resp.Content) = none →
        ([] : List errorResponseTemplateData) = []) ∧
      (∀ resp s, responses.Default = some resp → preferredSchema resp.Content = some s →
        ∃ r, ([] : List errorResponseTemplateData) = [r] ∧ r.StatusCodeLiteral = [] ∧
          r.IsDefault = true ∧
          ErrorTypeOf L fuel g resp (clientName ++ methodName ++ "Error".toList ++ "Default".toList)
            r.ErrorType) := by
    intro hd
    refine ⟨fun _ => rfl, ?_⟩
    intro resp s hd'
    rw [hd] at hd'
    cases hd'
  by_cases hlen : responses.Codes.length = 0
  · rw [if_pos hlen] at h
    have hnil := List.length_eq_zero.mp hlen
    have hcodes : errorCodes responses = [] := by
      unfold errorCodes
      rw [hnil]
      rfl
    rw [hcodes]
    rcases hd : responses.Default with _ | resp
    · rw [hd] at h
      simp only [Option.some.injEq, Prod.mk.injEq] at h
      rw [← hd]
      refine ⟨[], [], h.1.symm, List.Forall₂.nil, (hnone hd).1, (hnone hd).2, ?_⟩
      intro code hc
      cases hc
    · rw [hd] at h
      simp only at h
      rw [← hd]
      obtain ⟨h1, h2⟩ := hdefault g rs g' resp (sameTypes_refl g) hd h
      refine ⟨[], rs, rfl, List.Forall₂.nil, h1, h2, ?_⟩
      intro code hc
      cases hc
  · rw [if_neg hlen] at h
    rcases hl : errorResponsesLoop L fuel responses.Codes clientName methodName
        (sortStrings (keysFromOldest responses.Codes)) g [] with _ | ⟨found, g₁⟩
    · rw [hl] at h; cases h
    · rw [hl] at h
      simp only at h
      have hsorted : ∀ c ∈ sortStrings (keysFromOldest responses.Codes),
          isNumericStatusCode c = true := by
        intro c hc
        exact hnum c ((List.perm_insertionSort _ _).mem_iff.mp hc)
      obtain ⟨hg₁, found', hf, hall⟩ := errorResponsesLoop_spec L fuel responses.Codes
        clientName methodName hn _ g [] found g₁ (sameTypes_refl g) hsorted hl
      rw [List.nil_append] at hf
      rw [← hf] at hall
      rcases hd : responses.Default with _ | resp
      · rw [hd] at h
        simp only [Option.some.injEq, Prod.mk.injEq] at h
        rw [← hd]
        exact ⟨found, [], by rw [← h.1, List.append_nil], hall, (hnone hd).1, (hnone hd).2,
          hpre⟩
      · rw [hd] at h
        simp only at h
        rcases hr : resolveDefaultErrorResponse L fuel g₁ resp clientName methodName
          with _ | ⟨dflt, g₂⟩
        · rw [hr] at h; cases h
        · rw [hr] at h
          simp only [Option.some.injEq, Prod.mk.injEq] at h
          rw [← hd]
          obtain ⟨h1, h2⟩ := hdefault g₁ dflt g₂ resp hg₁ hd hr
          exact ⟨found, dflt, h.1.symm, hall, h1, h2, hpre⟩

theorem notFound_mappings :
    (resolveErrorResponses plainLibrary 5 startGenerator notFoundOperation "Core".toList
        "X".toList).map Prod.fst
      = some [{ StatusCodeLiteral := "404".toList, ErrorType := "CoreXError404".toList,
                IsDefault := false }] := by
  decide!

theorem resolveErrorResponses_spec_witness :
    ∃ rs g',
      resolveErrorResponses plainLibrary 5 startGenerator notFoundOperation "Core".toList
        "X".toList = some (rs, g') ∧
      rs = [{ StatusCodeLiteral := "404".toList, ErrorType := "CoreXError404".toList,
              IsDefault := false }] ∧
      errorCodes { Codes := [("404".toList, jsonResponse (onePropertySchema "message".toList)),
                             ("200".toList, jsonResponse (typedSchema "string".toList))],
                   Default := none } = ["404".toList] ∧
      ∃ found dflt, rs = found ++ dflt ∧
        List.Forall₂ (fun code r =>
            r.StatusCodeLiteral = code ∧ r.IsDefault = false ∧
            ∃ resp, getOrZero
                [("404".toList, jsonResponse (onePropertySchema "message".toList)),
                 ("200".toList, jsonResponse (typedSchema "string".toList))] code
                = some resp ∧
              ErrorTypeOf plainLibrary 5 startGenerator resp
                ("Core".toList ++ "X".toList ++ "Error".toList ++ code) r.ErrorType)
          (errorCodes
            { Codes := [("404".toList, jsonResponse (onePropertySchema "message".toList)),
                        ("200".toList, jsonResponse (typedSchema "string".toList))],
              Default := none }) found ∧
        ((none : Option Response).bind (fun resp => preferredSchema resp.Content) = none →
          dflt = []) ∧
        (∀ resp s, (none : Option Response) = some resp →
          preferredSchema resp.Content = some s →
          ∃ r, dflt = [r] ∧ r.StatusCodeLiteral = [] ∧ r.IsDefault = true ∧
            ErrorTypeOf plainLibrary 5 startGenerator resp
              ("Core".toList ++ "X".toList ++ "Error".toList ++ "Default".toList) r.ErrorType) ∧
        (∀ code ∈ errorCodes
            { Codes := [("404".toList, jsonResponse (onePropertySchema "message".toList)),
                        ("200".toList, jsonResponse (typedSchema "string".toList))],
              Default := none }, hasPrefix2 code = false) := by
  have hd := notFound_mappings
  rcases hc : resolveErrorResponses plainLibrary 5 startGenerator notFoundOperation
      "Core".toList "X".toList with _ | ⟨rs, g'⟩
  · rw [hc] at hd; cases hd
  · rw [hc] at hd
    simp only [Option.map_some', Option.some.injEq] at hd
    refine ⟨rs, g', rfl, hd, by decide, ?_⟩
    exact resolveErrorResponses_spec plainLibrary 5 startGenerator notFoundOperation
      "Core".toList "X".toList
      { Codes := [("404".toList, jsonResponse (onePropertySchema "message".toList)),
                  ("200".toList, jsonResponse (typedSchema "string".toList))],
        Default := none } rs g' rfl (by decide) startGenerator_typesNamed hc

end SumUp

namespace SumUp

/-! ### Status codes, media types and request bodies -/

/-- C35 fails as stated: the test for the default response is `strings.EqualFold`, so the
status code `DEFAULT`, which is neither a numeral of three digits nor the literal
`default`, gives a default mapping. -/
theorem errorResponseForCode_default_ignores_case :
    (errorResponseForCode plainLibrary 5 startGenerator
        (jsonResponse (typedSchema "string".toList)) "DEFAULT".toList "Core".toList
        "X".toList).map Prod.fst
      = some (some { StatusCodeLiteral := [], ErrorType := "string".toList,
                     IsDefault := true }) ∧
    isNumericStatusCode "DEFAULT".toList = false ∧ "DEFAULT".toList ≠ "default".toList := by
  refine ⟨by decide!, by decide, by decide⟩

/-- C35, amended: for every status code that is not a numeral of three digits and is not
`default` in any letter case, and every response, `errorResponseForCode` returns no
mapping; it returns exactly when the resolution of the response type returns (the type is
resolved, and entered into the error models, before the code is looked at). -/
theorem errorResponseForCode_no_mapping (L : Library) (fuel : Nat) (g : Generator)
    (resp : Response) (code clientName methodName : Str)
    (hd : equalFold code "default".toList = false) (hn : isNumericStatusCode code = false) :
    (errorResponseForCode L fuel g resp code clientName methodName).map Prod.fst
      = (responseTypeForResponse L fuel g resp
          (clientName ++ methodName ++ "Error".toList ++ statusCodeSuffix L.unicode code)).map
          (fun _ => none) := by
  unfold errorResponseForCode
  simp only
  rcases responseTypeForResponse L fuel g resp
      (clientName ++ methodName ++ "Error".toList ++ statusCodeSuffix L.unicode code)
    with _ | ⟨info, g₁⟩
  · rfl
  · have hlit : statusCodeLiteral code = [] := by
      unfold statusCodeLiteral
      rw [hd, hn]
      rfl
    rw [hlit, hd]
    by_cases h : info.TypeName = []
    · simp [h]
    · simp [h]

theorem errorResponseForCode_no_mapping_witness :
    equalFold "2XX".toList "default".toList = false ∧
    isNumericStatusCode "2XX".toList = false ∧
    (errorResponseForCode plainLibrary 5 startGenerator
        (jsonResponse (typedSchema "string".toList)) "2XX".toList "Core".toList
        "X".toList).map Prod.fst
      = (responseTypeForResponse plainLibrary 5 startGenerator
          (jsonResponse (typedSchema "string".toList))
          ("Core".toList ++ "X".toList ++ "Error".toList
            ++ statusCodeSuffix plainLibrary.unicode "2XX".toList)).map (fun _ => none) ∧
    (responseTypeForResponse plainLibrary 5 startGenerator
        (jsonResponse (typedSchema "string".toList))
        ("Core".toList ++ "X".toList ++ "Error".toList
          ++ statusCodeSuffix plainLibrary.unicode "2XX".toList)).map
        (fun r => r.1.TypeName) = some "string".toList :=
  ⟨by decide, by decide,
   errorResponseForCode_no_mapping plainLibrary 5 startGenerator
     (jsonResponse (typedSchema "string".toList)) "2XX".toList "Core".toList "X".toList
     (by decide) (by decide),
   by decide!⟩

theorem preferredSchema_json {content : List (Str × MediaType)} {media : MediaType}
    {s : SchemaProxy} (hj : getOrZero content "application/json".toList = some media)
    (hs : media.Schema = some s) : preferredSchema content = some s := by
  unfold preferredSchema
  rw [hj]
  simp only [hs]

theorem content_ne_nil_of_get {content : List (Str × MediaType)} {media : MediaType}
    {k : Str} (hj : getOrZero content k = some media) : ¬ content.length = 0 := by
  intro h
  rw [List.length_eq_zero.mp h] at hj
  cases hj

/-- C36 fails as stated: for a response whose JSON schema resolves to `JsonDocument` the
mode is `json-document` when `application/json` is the only media type and `string` when
`text/plain` is declared before it, although the JSON schema is the same. -/
theorem responseMode_depends_on_first_media_type :
    (responseModeForResponse plainLibrary 5 startGenerator
        (jsonResponse bareObjectSchema)).map Prod.fst = some "json-document".toList ∧
    (responseModeForResponse plainLibrary 5 startGenerator
        (textThenJsonResponse bareObjectSchema)).map Prod.fst = some "string".toList ∧
    preferredSchema (jsonResponse bareObjectSchema).Content
      = preferredSchema (textThenJsonResponse bareObjectSchema).Content := by
  refine ⟨by decide!, by decide!, rfl⟩

/-- C36, amended: for every response whose content declares `application/json` with the
schema `s`, the response type is the type resolved from `s`, whatever else the content
declares and in whatever order; the mode is the one that belongs to the type resolved from
`s`, which is `string` for `string` and `json` for every type other than `string` and
`JsonDocument`, whatever else the content declares; only for the type `JsonDocument` the
mode depends on the content, through its first declared media type: `string` when that is
a text type and `json-document` otherwise. -/
theorem json_schema_preferred (L : Library) (fuel : Nat) (g : Generator)
    (content : List (Str × MediaType)) (media : MediaType) (s : SchemaProxy) (base : Str)
    (hj : getOrZero content "application/json".toList = some media)
    (hs : media.Schema = some s) :
    responseTypeForResponse L fuel g { Content := content } base
      = resolveInlineSchemaType L fuel g (some s) true base ∧
    responseModeForResponse L fuel g { Content := content }
      = (resolveInlineSchemaType L fuel g (some s) true []).map (fun r =>
          (modeOfType r.1.TypeName (isTextContent L (firstContentType content)), r.2)) ∧
    (∀ (typeName : Str) (b₁ b₂ : Bool), trimSuffixQ typeName ≠ "JsonDocument".toList →
      modeOfType typeName b₁ = modeOfType typeName b₂) := by
  have hp := preferredSchema_json hj hs
  have hlen := content_ne_nil_of_get hj
  refine ⟨?_, ?_, ?_⟩
  · unfold responseTypeForResponse
    simp only [if_neg hlen, hp]
  · unfold responseModeForResponse
    simp only [if_neg hlen, hp]
    rcases resolveInlineSchemaType L fuel g (some s) true [] with _ | ⟨t, g₁⟩
    · rfl
    · simp only [Option.map_some', modeOfType, isTextContent]
      by_cases h1 : trimSuffixQ t.TypeName = "string".toList
      · rw [if_pos h1, if_pos h1]
      · rw [if_neg h1, if_neg h1]
        by_cases h2 : trimSuffixQ t.TypeName = "JsonDocument".toList
        · rw [if_pos h2, if_pos h2]
          by_cases hx : stringsContains (stringsToLower L.unicode (firstContentType content))
              "text/".toList = true
          · rw [if_pos hx, if_pos hx]
          · rw [if_neg hx, if_neg hx]
        · rw [if_neg h2, if_neg h2]
  · intro typeName b₁ b₂ h
    unfold modeOfType
    simp only [h, if_false]

theorem json_schema_preferred_witness :
    responseTypeForResponse plainLibrary 5 startGenerator
        { Content := (textThenJsonResponse arrayOfStringsSchema).Content } "CoreXResponse".toList
      = resolveInlineSchemaType plainLibrary 5 startGenerator
          (some (.inline arrayOfStringsSchema)) true "CoreXResponse".toList ∧
    responseModeForResponse plainLibrary 5 startGenerator
        { Content := (textThenJsonResponse arrayOfStringsSchema).Content }
      = (resolveInlineSchemaType plainLibrary 5 startGenerator
          (some (.inline arrayOfStringsSchema)) true []).map (fun r =>
          (modeOfType r.1.TypeName (isTextContent plainLibrary
            (firstContentType (textThenJsonResponse arrayOfStringsSchema).Content)), r.2)) ∧
    (∀ (typeName : Str) (b₁ b₂ : Bool), trimSuffixQ typeName ≠ "JsonDocument".toList →
      modeOfType typeName b₁ = modeOfType typeName b₂) ∧
    (responseModeForResponse plainLibrary 5 startGenerator
        (textThenJsonResponse arrayOfStringsSchema)).map Prod.fst = some "json".toList :=
  ⟨(json_schema_preferred plainLibrary 5 startGenerator
      (textThenJsonResponse arrayOfStringsSchema).Content (mediaOf arrayOfStringsSchema)
      (.inline arrayOfStringsSchema) "CoreXResponse".toList rfl rfl).1,
   (json_schema_preferred plainLibrary 5 startGenerator
      (textThenJsonResponse arrayOfStringsSchema).Content (mediaOf arrayOfStringsSchema)
      (.inline arrayOfStringsSchema) "CoreXResponse".toList rfl rfl).2.1,
   (json_schema_preferred plainLibrary 5 startGenerator
      (textThenJsonResponse arrayOfStringsSchema).Content (mediaOf arrayOfStringsSchema)
      (.inline arrayOfStringsSchema) "CoreXResponse".toList rfl rfl).2.2,
   by decide!⟩

theorem firstSchema_isSome {content : List (Str × MediaType)}
    (h : ∃ e ∈ content, e.2.Schema.isSome = true) : (firstSchema content).isSome = true := by
  induction content with
  | nil =>
    obtain ⟨e, he, _⟩ := h
    cases he
  | cons e rest ih =>
    obtain ⟨k, media⟩ := e
    unfold firstSchema
    cases hm : media.Schema with
    | some s => rfl
    | none =>
      simp only
      apply ih
      obtain ⟨e', he', hs'⟩ := h
      rcases List.mem_cons.mp he' with rfl | hmem
      · rw [hm] at hs'
        cases hs'
      · exact ⟨e', hmem, hs'⟩

theorem preferredSchema_isSome {content : List (Str × MediaType)}
    (h : ∃ e ∈ content, e.2.Schema.isSome = true) :
    (preferredSchema content).isSome = true := by
  unfold preferredSchema
  cases getOrZero content "application/json".toList with
  | none => exact firstSchema_isSome h
  | some media =>
    cases hm : media.Schema with
    | some s => simp only [hm]; rfl
    | none => simp only [hm]; exact firstSchema_isSome h

/-- C40 fails as stated: a request body whose first media type has the empty name gives
no record at all, although that media type has a schema. -/
theorem buildRequestBody_unnamed_media_type :
    (buildRequestBody plainLibrary 5 startGenerator "Core".toList "X".toList
        (some unnamedMediaBody)).map Prod.fst = some none ∧
    (∃ e ∈ unnamedMediaBody.Content, e.2.Schema.isSome = true) := by
  refine ⟨by decide!, ⟨_, List.mem_cons_self _ _, rfl⟩⟩

/-- C40, amended: for every request body with at least one media type that has a schema,
and whose first declared media type does not have the empty name, `buildRequestBody`
returns a record exactly when the resolution of the schema chosen by `preferredSchema`
(with the hint made of the client name, the method name and `Request`) returns; the
`ContentType` of the record is the first declared media type, its `TypeName` the name of
the type resolved from the preferred schema. -/
theorem buildRequestBody_spec (L : Library) (fuel : Nat) (g : Generator)
    (clientName methodName : Str) (body : RequestBody)
    (hm : ∃ e ∈ body.Content, e.2.Schema.isSome = true)
    (hfirst : firstContentType body.Content ≠ []) :
    ∃ s, preferredSchema body.Content = some s ∧
      buildRequestBody L fuel g clientName methodName (some body)
        = (resolveInlineSchemaType L fuel g (some s) (decide (body.Required = some true))
            (clientName ++ methodName ++ "Request".toList)).map
            (fun r => (some (bodyRecord body r.1), r.2)) := by
  have hp := preferredSchema_isSome hm
  rcases hs : preferredSchema body.Content with _ | s
  · rw [hs] at hp
    cases hp
  · refine ⟨s, rfl, ?_⟩
    unfold buildRequestBody resolveRequestBodyType
    simp only [if_neg hfirst, hs]
    rcases resolveInlineSchemaType L fuel g (some s) (decide (body.Required = some true))
        (clientName ++ methodName ++ "Request".toList) with _ | ⟨t, g₁⟩
    · rfl
    · simp only [Option.map_some', bodyRecord]
      by_cases hr : body.Required = some true
      · simp [hr]
      · simp [hr]

theorem buildRequestBody_spec_witness :
    (∃ s, preferredSchema textThenJsonBody.Content = some s ∧
      buildRequestBody plainLibrary 5 startGenerator "Core".toList "X".toList
          (some textThenJsonBody)
        = (resolveInlineSchemaType plainLibrary 5 startGenerator (some s)
            (decide (textThenJsonBody.Required = some true))
            ("Core".toList ++ "X".toList ++ "Request".toList)).map
            (fun r => (some (bodyRecord textThenJsonBody r.1), r.2))) ∧
    (buildRequestBody plainLibrary 5 startGenerator "Core".toList "X".toList
        (some textThenJsonBody)).map
        (fun r => r.1.map (fun b => (b.ContentType, b.TypeName)))
      = some (some ("text/plain".toList, "CoreXRequest".toList)) :=
  ⟨buildRequestBody_spec plainLibrary 5 startGenerator "Core".toList "X".toList
     textThenJsonBody ⟨_, List.mem_cons_self _ _, rfl⟩ (by decide),
   by decide!⟩

end SumUp

namespace SumUp

/-! ### Enum members -/

theorem enumOccurrence_append (L : Library) (seen : List Str) (s str : Str) :
    enumOccurrence L (seen ++ [s]) str
      = enumOccurrence L seen str
        + (if PascalIdentifier L.unicode s = PascalIdentifier L.unicode str then 1 else 0) := by
  unfold enumOccurrence
  rw [List.filter_append, List.length_append]
  by_cases h : PascalIdentifier L.unicode s = PascalIdentifier L.unicode str
  · simp [h]
  · simp [h]

theorem buildEnumValuesLoop_eq (L : Library) :
    ∀ (rest seen : List Str) (names : Str → Option Nat) (values : List enumValueTemplateData),
      (∀ str, names (PascalIdentifier L.unicode str)
        = if enumOccurrence L seen str = 0 then none
          else some (enumOccurrence L seen str - 1)) →
      buildEnumValuesLoop L rest names values = values ++ expectedEnumValues L seen rest := by
  intro rest
  induction rest with
  | nil =>
    intro seen names values _
    simp [buildEnumValuesLoop, expectedEnumValues]
  | cons str rest ih =>
    intro seen names values hnames
    have hstr := hnames str
    have hnext : ∀ (count : Nat)
        (_ : count = enumOccurrence L seen str) (s : Str),
        (fun k => if k = PascalIdentifier L.unicode str then some count else names k)
            (PascalIdentifier L.unicode s)
          = if enumOccurrence L (seen ++ [str]) s = 0 then none
            else some (enumOccurrence L (seen ++ [str]) s - 1) := by
      intro count hcount s
      rw [enumOccurrence_append]
      by_cases hs : PascalIdentifier L.unicode s = PascalIdentifier L.unicode str
      · have hocc : enumOccurrence L seen s = enumOccurrence L seen str := by
          unfold enumOccurrence
          rw [hs]
        simp only [hs, if_true, hocc]
        rw [if_neg (by omega), hcount]
        rfl
      · have hs' : ¬ PascalIdentifier L.unicode str = PascalIdentifier L.unicode s :=
          fun e => hs e.symm
        simp only [hs, hs', if_false, Nat.add_zero]
        exact hnames s
    rw [buildEnumValuesLoop, expectedEnumValues]
    by_cases h0 : enumOccurrence L seen str = 0
    · rw [if_pos h0] at hstr
      simp only [hstr]
      rw [ih (seen ++ [str]) _ _ (hnext 0 h0.symm)]
      simp [enumMemberName, h0]
    · rw [if_neg h0] at hstr
      simp only [hstr]
      rw [ih (seen ++ [str]) _ _
        (hnext (enumOccurrence L seen str - 1 + 1) (by omega))]
      have : enumOccurrence L seen str - 1 + 1 = enumOccurrence L seen str := by omega
      simp [enumMemberName, h0, this]

theorem expectedEnumValues_values (L : Library) :
    ∀ (rest seen : List Str), (expectedEnumValues L seen rest).map (fun v => v.Value) = rest := by
  intro rest
  induction rest with
  | nil => intro seen; rfl
  | cons str rest ih =>
    intro seen
    rw [expectedEnumValues, List.map_cons, ih]

theorem expectedEnumValues_at (L : Library) :
    ∀ (pre seen : List Str) (str : Str) (post : List Str),
      (expectedEnumValues L seen (pre ++ str :: post))[pre.length]?
        = some { Name := enumMemberName L (seen ++ pre) str, Value := str } := by
  intro pre
  induction pre with
  | nil =>
    intro seen str post
    simp [expectedEnumValues]
  | cons p pre ih =>
    intro seen str post
    rw [List.cons_append, expectedEnumValues, List.length_cons, List.getElem?_cons_succ,
      ih (seen ++ [p]) str post, List.append_assoc]
    rfl

/-- C38: `buildEnumValues` returns one entry per literal, in the declared order, each with
the literal as `Value`. The entry of a literal that normalizes to `N` and is preceded by
`k` literals normalizing to `N` is named `N` when `k = 0` and `N` followed by the decimal
numeral `k` otherwise: the first occurrence is `N`, the second `N1`, the `n`-th is `N`
with the numeral `n - 1`. -/
theorem buildEnumValues_spec (L : Library) (schema : Schema) :
    buildEnumValues L schema = expectedEnumValues L [] schema.enum ∧
    (buildEnumValues L schema).length = schema.enum.length ∧
    (buildEnumValues L schema).map (fun v => v.Value) = schema.enum ∧
    (∀ (pre : List Str) (str : Str) (post : List Str), schema.enum = pre ++ str :: post →
      (buildEnumValues L schema)[pre.length]?
        = some { Name :=
                   if enumOccurrence L pre str = 0 then PascalIdentifier L.unicode str
                   else PascalIdentifier L.unicode str ++ decimal (enumOccurrence L pre str),
                 Value := str }) ∧
    buildEnumValues plainLibrary repeatedEnumSchema
      = [{ Name := "A".toList, Value := "a".toList },
         { Name := "A1".toList, Value := "a".toList },
         { Name := "A1".toList, Value := "a1".toList }] := by
  have heq : buildEnumValues L schema = expectedEnumValues L [] schema.enum := by
    unfold buildEnumValues
    rw [buildEnumValuesLoop_eq L schema.enum [] (fun _ => none) []]
    · rfl
    · intro str
      simp [enumOccurrence]
  have hval := expectedEnumValues_values L schema.enum []
  refine ⟨heq, ?_, ?_, ?_, by decide⟩
  · rw [heq]
    have := congrArg List.length hval
    simpa using this
  · rw [heq]
    exact hval
  · intro pre str post hsplit
    rw [heq, hsplit, expectedEnumValues_at L pre [] str post]
    rfl

end SumUp

namespace SumUp

/-! ### Identifiers keep the letters and digits of their input -/

theorem replaceNonAlphaNum_filter :
    ∀ (s : Str) (b : Bool), (replaceNonAlphaNum b s).filter isAlphaNum = s.filter isAlphaNum := by
  intro s
  induction s with
  | nil => intro b; rfl
  | cons c rest ih =>
    intro b
    rw [replaceNonAlphaNum]
    by_cases hc : isAlphaNum c = true
    · rw [if_pos hc, List.filter_cons, if_pos hc, List.filter_cons, if_pos hc, ih]
    · have hf : (c :: rest).filter isAlphaNum = rest.filter isAlphaNum := by
        rw [List.filter_cons, if_neg hc]
      rw [if_neg hc, hf]
      cases b with
      | true => simp only [if_true]; exact ih true
      | false =>
        simp only [Bool.false_eq_true, if_false]
        rw [List.filter_cons, if_neg (by decide), ih]

theorem replaceNonAlphaNum_mem :
    ∀ (s : Str) (b : Bool), ∀ c ∈ replaceNonAlphaNum b s, isAlphaNum c = true ∨ c = ' ' := by
  intro s
  induction s with
  | nil => intro b c hc; cases hc
  | cons x rest ih =>
    intro b c hc
    rw [replaceNonAlphaNum] at hc
    by_cases hx : isAlphaNum x = true
    · rw [if_pos hx] at hc
      rcases List.mem_cons.mp hc with h | h
      · exact Or.inl (h ▸ hx)
      · exact ih false c h
    · rw [if_neg hx] at hc
      cases b with
      | true =>
        simp only [if_true] at hc
        exact ih true c hc
      | false =>
        simp only [Bool.false_eq_true, if_false] at hc
        rcases List.mem_cons.mp hc with h | h
        · exact Or.inr h
        · exact ih true c h

theorem fieldsLoop_flatten :
    ∀ (s cur : Str),
      (fieldsLoop cur s).flatten = cur ++ s.filter (fun c => !unicodeIsSpace c) := by
  intro s
  induction s with
  | nil =>
    intro cur
    rw [fieldsLoop]
    by_cases h : cur = []
    · rw [if_pos h, h]; rfl
    · rw [if_neg h]; simp
  | cons c rest ih =>
    intro cur
    rw [fieldsLoop]
    cases hsp : unicodeIsSpace c with
    | true =>
      simp only [if_true]
      rw [List.filter_cons, hsp]
      simp only [Bool.not_true, Bool.false_eq_true, if_false]
      by_cases h : cur = []
      · rw [if_pos h, ih, h]
      · rw [if_neg h, List.flatten_cons, ih, List.nil_append]
    | false =>
      simp only [Bool.false_eq_true, if_false]
      rw [ih, List.filter_cons, hsp]
      simp

theorem fieldsLoop_mem :
    ∀ (s cur f : Str), f ∈ fieldsLoop cur s →
      ∀ c ∈ f, c ∈ cur ∨ (c ∈ s ∧ unicodeIsSpace c = false) := by
  intro s
  induction s with
  | nil =>
    intro cur f hf c hc
    rw [fieldsLoop] at hf
    by_cases h : cur = []
    · rw [if_pos h] at hf; cases hf
    · rw [if_neg h] at hf
      rw [List.mem_singleton.mp hf] at hc
      exact Or.inl hc
  | cons x rest ih =>
    intro cur f hf c hc
    rw [fieldsLoop] at hf
    cases hsp : unicodeIsSpace x with
    | true =>
      rw [hsp] at hf
      simp only [if_true] at hf
      have hrest : f ∈ fieldsLoop [] rest → c ∈ cur ∨ (c ∈ x :: rest ∧ unicodeIsSpace c = false) := by
        intro hm
        rcases ih [] f hm c hc with h | h
        · cases h
        · exact Or.inr ⟨List.mem_cons_of_mem _ h.1, h.2⟩
      by_cases h : cur = []
      · rw [if_pos h] at hf
        exact hrest hf
      · rw [if_neg h] at hf
        rcases List.mem_cons.mp hf with hm | hm
        · rw [hm] at hc
          exact Or.inl hc
        · exact hrest hm
    | false =>
      rw [hsp] at hf
      simp only [Bool.false_eq_true, if_false] at hf
      rcases ih (cur ++ [x]) f hf c hc with h | h
      · rcases List.mem_append.mp h with h' | h'
        · exact Or.inl h'
        · rw [List.mem_singleton.mp h']
          exact Or.inr ⟨List.mem_cons_self _ _, hsp⟩
      · exact Or.inr ⟨List.mem_cons_of_mem _ h.1, h.2⟩

theorem fields_of_clean (input : Str) :
    (stringsFields (replaceNonAlphaNum false input)).flatten = input.filter isAlphaNum ∧
    ∀ f ∈ stringsFields (replaceNonAlphaNum false input), ∀ c ∈ f, isAlphaNum c = true := by
  constructor
  · unfold stringsFields
    rw [fieldsLoop_flatten, List.nil_append, ← replaceNonAlphaNum_filter input false]
    apply List.filter_congr
    intro c hc
    rcases replaceNonAlphaNum_mem input false c hc with h | h
    · rw [h, isAlphaNum_not_space h]
      rfl
    · rw [h]
      decide
  · intro f hf c hc
    unfold stringsFields at hf
    rcases fieldsLoop_mem _ [] f hf c hc with h | h
    · cases h
    · rcases replaceNonAlphaNum_mem input false c h.1 with h' | h'
      · exact h'
      · rw [h'] at h
        exact absurd h.2 (by decide)

theorem splitCamelLoop_flatten (U : UnicodeTables) :
    ∀ (rest : Str) (prev : Char) (cur : Str),
      (splitCamelLoop U prev rest cur).flatten = cur ++ rest := by
  intro rest
  induction rest with
  | nil => intro prev cur; simp [splitCamelLoop]
  | cons c rest ih =>
    intro prev cur
    rw [splitCamelLoop]
    split
    · rw [List.flatten_cons, ih]
      rfl
    · rw [ih, List.append_assoc]
      rfl

theorem splitCamel_flatten (U : UnicodeTables) (w : Str) : (splitCamel U w).flatten = w := by
  cases w with
  | nil => rfl
  | cons c rest =>
    cases rest with
    | nil => rfl
    | cons d rest =>
      show (splitCamelLoop U c (d :: rest) [c]).flatten = c :: d :: rest
      rw [splitCamelLoop_flatten]
      rfl

theorem alnum_case_table : ∀ n < 128,
    (isAlphaNum (Char.ofNat n) = true →
      (Char.ofNat n).toUpper.toLower = (Char.ofNat n).toLower ∧
      (Char.ofNat n).toLower.toLower = (Char.ofNat n).toLower ∧
      isAlphaNum (Char.ofNat n).toUpper = true ∧
      isAlphaNum (Char.ofNat n).toLower = true) := by
  decide

theorem alnum_case {c : Char} (h : isAlphaNum c = true) :
    c.toUpper.toLower = c.toLower ∧ c.toLower.toLower = c.toLower ∧
      isAlphaNum c.toUpper = true ∧ isAlphaNum c.toLower = true :=
  ascii_forall (P := fun c => isAlphaNum c = true →
      c.toUpper.toLower = c.toLower ∧ c.toLower.toLower = c.toLower ∧
      isAlphaNum c.toUpper = true ∧ isAlphaNum c.toLower = true)
    alnum_case_table c (isAlphaNum_ascii h) h

theorem stringsToLower_alnum (U : UnicodeTables) {t : Str}
    (h : ∀ c ∈ t, isAlphaNum c = true) : stringsToLower U t = t.map Char.toLower := by
  unfold stringsToLower
  apply List.map_congr_left
  intro c hc
  exact unicodeToLower_ascii U (isAlphaNum_ascii (h c hc))

theorem pascalPart_alnum (U : UnicodeTables) {p : Str} (h : ∀ c ∈ p, isAlphaNum c = true) :
    (pascalPart U p).map Char.toLower = p.map Char.toLower ∧
    ∀ c ∈ pascalPart U p, isAlphaNum c = true := by
  cases p with
  | nil => exact ⟨rfl, fun c hc => by cases hc⟩
  | cons x t =>
    have hx := h x (List.mem_cons_self _ _)
    have ht : ∀ c ∈ t, isAlphaNum c = true := fun c hc => h c (List.mem_cons_of_mem _ hc)
    have hascii := isAlphaNum_ascii hx
    have hpart : pascalPart U (x :: t) = x.toUpper :: t.map Char.toLower := by
      unfold pascalPart
      rw [if_neg (List.cons_ne_nil _ _)]
      unfold upperFirstByte lowerAfterFirstByte
      simp only [if_pos hascii]
      rw [unicodeToUpper_ascii U hascii, stringsToLower_alnum U ht]
      by_cases hlen : 1 < byteLen (x :: t)
      · rw [if_pos hlen]
        rfl
      · rw [if_neg hlen, byteLen_le_one hlen]
        rfl
    rw [hpart]
    constructor
    · rw [List.map_cons, List.map_cons, (alnum_case hx).1, List.map_map]
      congr 1
      apply List.map_congr_left
      intro c hc
      exact (alnum_case (ht c hc)).2.1
    · intro c hc
      rcases List.mem_cons.mp hc with e | hm
      · rw [e]
        exact (alnum_case hx).2.2.1
      · obtain ⟨d, hd, hdc⟩ := List.mem_map.mp hm
        rw [← hdc]
        exact (alnum_case (ht d hd)).2.2.2

theorem pascalParts_alnum (U : UnicodeTables) :
    ∀ parts : List Str, (∀ p ∈ parts, ∀ c ∈ p, isAlphaNum c = true) →
      ((parts.map (pascalPart U)).flatten).map Char.toLower = parts.flatten.map Char.toLower ∧
      ∀ c ∈ (parts.map (pascalPart U)).flatten, isAlphaNum c = true := by
  intro parts
  induction parts with
  | nil => intro _; exact ⟨rfl, fun c hc => by cases hc⟩
  | cons p rest ih =>
    intro h
    obtain ⟨h1, h2⟩ := pascalPart_alnum U (h p (List.mem_cons_self _ _))
    obtain ⟨h3, h4⟩ := ih (fun q hq => h q (List.mem_cons_of_mem _ hq))
    constructor
    · rw [List.map_cons, List.flatten_cons, List.map_append, h1, h3, List.flatten_cons,
        List.map_append]
    · intro c hc
      rw [List.map_cons, List.flatten_cons] at hc
      rcases List.mem_append.mp hc with hm | hm
      · exact h2 c hm
      · exact h4 c hm

theorem flatten_map_splitCamel (U : UnicodeTables) (fields : List Str) :
    ((fields.map (splitCamel U)).flatten).flatten = fields.flatten := by
  induction fields with
  | nil => rfl
  | cons f rest ih =>
    rw [List.map_cons, List.flatten_cons, List.flatten_append, splitCamel_flatten, ih,
      List.flatten_cons]

theorem filter_ne_nil_of_mem {input : Str} (h : ∃ c ∈ input, isAlphaNum c = true) :
    input.filter isAlphaNum ≠ [] := by
  obtain ⟨c, hc, hal⟩ := h
  intro e
  have : c ∈ input.filter isAlphaNum := List.mem_filter.mpr ⟨hc, hal⟩
  rw [e] at this
  cases this

theorem splitIntoWords_letters (U : UnicodeTables) (input : Str)
    (h : ∃ c ∈ input, isAlphaNum c = true) :
    (splitIntoWords U input).flatten = input.filter isAlphaNum ∧
    ∀ p ∈ splitIntoWords U input, ∀ c ∈ p, isAlphaNum c = true := by
  obtain ⟨hflat, hmem⟩ := fields_of_clean input
  have hne : ¬ ((stringsFields (replaceNonAlphaNum false input)).length = 0 ∧ input ≠ []) := by
    intro hc
    rw [List.length_eq_zero.mp hc.1] at hflat
    exact filter_ne_nil_of_mem h hflat.symm
  have hw : splitIntoWords U input
      = ((stringsFields (replaceNonAlphaNum false input)).map (splitCamel U)).flatten := by
    unfold splitIntoWords
    simp only
    rw [if_neg hne, foldl_splitCamel, List.nil_append]
  rw [hw]
  constructor
  · rw [flatten_map_splitCamel, hflat]
  · intro p hp c hc
    obtain ⟨ps, hps, hpps⟩ := List.mem_flatten.mp hp
    obtain ⟨f, hf, hfs⟩ := List.mem_map.mp hps
    have hcf : c ∈ f := by
      rw [← splitCamel_flatten U f, hfs]
      exact List.mem_flatten.mpr ⟨p, hpps, hc⟩
    exact hmem f hf c hcf

theorem PascalCase_letters (U : UnicodeTables) (input : Str)
    (h : ∃ c ∈ input, isAlphaNum c = true) :
    ∃ pre body : Str, PascalCase U input = pre ++ body ∧ (pre = [] ∨ pre = ['_']) ∧
      body ≠ [] ∧ (∀ c ∈ body, isAlphaNum c = true) ∧
      body.map Char.toLower = (input.filter isAlphaNum).map Char.toLower := by
  obtain ⟨hflat, hmem⟩ := splitIntoWords_letters U input h
  obtain ⟨hlow, hal⟩ := pascalParts_alnum U (splitIntoWords U input) hmem
  rw [hflat] at hlow
  have hbody : ((splitIntoWords U input).map (pascalPart U)).flatten ≠ [] := by
    intro e
    rw [e] at hlow
    have := congrArg List.length hlow
    simp only [List.map_nil, List.length_nil, List.length_map] at this
    exact filter_ne_nil_of_mem h (List.length_eq_zero.mp this.symm)
  have hparts : ¬ (splitIntoWords U input).length = 0 := by
    intro e
    rw [List.length_eq_zero.mp e] at hbody
    exact hbody rfl
  have hp : PascalCase U input
      = sanitizeLeadingCharacter U ((splitIntoWords U input).map (pascalPart U)).flatten := by
    unfold PascalCase
    simp only
    rw [if_neg hparts, foldl_pascalPart, List.nil_append]
  rw [hp]
  rcases hb : ((splitIntoWords U input).map (pascalPart U)).flatten with _ | ⟨c, t⟩
  · exact absurd hb hbody
  · rw [hb] at hlow hal
    unfold sanitizeLeadingCharacter
    simp only
    split
    · exact ⟨['_'], c :: t, rfl, Or.inr rfl, List.cons_ne_nil _ _, hal, hlow⟩
    · exact ⟨[], c :: t, rfl, Or.inl rfl, List.cons_ne_nil _ _, hal, hlow⟩

theorem CamelCase_letters (U : UnicodeTables) (input : Str)
    (h : ∃ c ∈ input, isAlphaNum c = true) :
    ∃ pre body : Str, CamelCase U input = pre ++ body ∧ (pre = [] ∨ pre = ['_']) ∧
      body ≠ [] ∧ (∀ c ∈ body, isAlphaNum c = true) ∧
      body.map Char.toLower = (input.filter isAlphaNum).map Char.toLower := by
  obtain ⟨pre, body, hp, hpre, hne, hal, hlow⟩ := PascalCase_letters U input h
  unfold CamelCase
  rw [hp]
  rcases hpre with e | e
  · rw [e, List.nil_append]
    cases body with
    | nil => exact absurd rfl hne
    | cons c t =>
      simp only
      have hc := hal c (List.mem_cons_self _ _)
      rw [unicodeToLower_ascii U (isAlphaNum_ascii hc)]
      refine ⟨[], c.toLower :: t, rfl, Or.inl rfl, List.cons_ne_nil _ _, ?_, ?_⟩
      · intro d hd
        rcases List.mem_cons.mp hd with e' | hm
        · rw [e']
          exact (alnum_case hc).2.2.2
        · exact hal d (List.mem_cons_of_mem _ hm)
      · rw [← hlow, List.map_cons, List.map_cons, (alnum_case hc).2.1]
  · rw [e]
    simp only [List.singleton_append]
    have hu : unicodeToLower U '_' = '_' := by
      rw [unicodeToLower_ascii U (underscore_facts U).2]
      rfl
    rw [hu]
    exact ⟨['_'], body, rfl, Or.inr rfl, hne, hal, hlow⟩

/-- C39: for every input that contains at least one ASCII letter or digit, the results of
`PascalIdentifier` and `Identifier` are made of an optional leading underscore, a body of
ASCII letters and digits and an optional suffix `Value`; the body is, up to letter case,
the sequence of the ASCII letters and digits of the input, so that every separator and
every character outside ASCII is dropped. An underscore can only be the first character:
all characters after the first are ASCII letters or digits. -/
theorem identifiers_keep_letters_and_digits (U : UnicodeTables) (input : Str)
    (h : ∃ c ∈ input, isAlphaNum c = true) :
    (KeepsLettersAndDigits input (PascalIdentifier U input) ∧
      (∀ c ∈ (PascalIdentifier U input).tail, isAlphaNum c = true) ∧
      (∀ c ∈ (PascalIdentifier U input).head?, isAlphaNum c = true ∨ c = '_')) ∧
    (KeepsLettersAndDigits input (Identifier U input) ∧
      (∀ c ∈ (Identifier U input).tail, isAlphaNum c = true) ∧
      (∀ c ∈ (Identifier U input).head?, isAlphaNum c = true ∨ c = '_')) := by
  have hvalue : ∀ c ∈ "Value".toList, isAlphaNum c = true := by decide
  have key : ∀ (base r : Str),
      (∃ pre body : Str, base = pre ++ body ∧ (pre = [] ∨ pre = ['_']) ∧
        body ≠ [] ∧ (∀ c ∈ body, isAlphaNum c = true) ∧
        body.map Char.toLower = (input.filter isAlphaNum).map Char.toLower) →
      (r = base ++ "Value".toList ∨ r = base) →
      KeepsLettersAndDigits input r ∧ (∀ c ∈ r.tail, isAlphaNum c = true) ∧
        (∀ c ∈ r.head?, isAlphaNum c = true ∨ c = '_') := by
    intro base r hbase hr
    obtain ⟨pre, body, hb, hpre, hne, hal, hlow⟩ := hbase
    have hsuf : ∃ suf : Str, r = pre ++ body ++ suf ∧ (suf = [] ∨ suf = "Value".toList) := by
      rcases hr with e | e
      · exact ⟨"Value".toList, by rw [e, hb], Or.inr rfl⟩
      · exact ⟨[], by rw [e, hb, List.append_nil], Or.inl rfl⟩
    obtain ⟨suf, hrs, hsuf'⟩ := hsuf
    have hsal : ∀ c ∈ suf, isAlphaNum c = true := by
      intro c hc
      rcases hsuf' with e | e
      · rw [e] at hc; cases hc
      · rw [e] at hc; exact hvalue c hc
    refine ⟨⟨pre, body, suf, hrs, hpre, hsuf', hal, hlow⟩, ?_, ?_⟩
    · intro c hc
      rw [hrs] at hc
      rcases hpre with e | e
      · rw [e, List.nil_append] at hc
        have := List.mem_of_mem_tail hc
        rcases List.mem_append.mp this with hm | hm
        · exact hal c hm
        · exact hsal c hm
      · rw [e] at hc
        simp only [List.singleton_append, List.cons_append, List.tail_cons] at hc
        rcases List.mem_append.mp hc with hm | hm
        · exact hal c hm
        · exact hsal c hm
    · intro c hc
      rw [hrs] at hc
      rcases hpre with e | e
      · rw [e, List.nil_append] at hc
        cases body with
        | nil => exact absurd rfl hne
        | cons x t =>
          simp only [List.cons_append, List.head?_cons, Option.mem_def,
            Option.some.injEq] at hc
          rw [← hc]
          exact Or.inl (hal x (List.mem_cons_self _ _))
      · rw [e] at hc
        simp only [List.singleton_append, List.cons_append, List.head?_cons, Option.mem_def,
          Option.some.injEq] at hc
        exact Or.inr hc.symm
  have hid := identifiers_avoid_reserved U input
  constructor
  · apply key (PascalCase U input) _ (PascalCase_letters U input h)
    rw [hid.2.1]
    split
    · exact Or.inl rfl
    · exact Or.inr rfl
  · apply key (CamelCase U input) _ (CamelCase_letters U input h)
    rw [hid.1.1]
    split
    · exact Or.inl rfl
    · exact Or.inr rfl

theorem identifiers_keep_letters_and_digits_witness :
    (∃ c ∈ "3d-secure é".toList, isAlphaNum c = true) ∧
    PascalIdentifier asciiTables "3d-secure é".toList = "_3dSecure".toList ∧
    Identifier asciiTables "3d-secure é".toList = "_3dSecure".toList ∧
    Identifier asciiTables "Long".toList = "longValue".toList ∧
    (KeepsLettersAndDigits "3d-secure é".toList
        (PascalIdentifier asciiTables "3d-secure é".toList) ∧
      (∀ c ∈ (PascalIdentifier asciiTables "3d-secure é".toList).tail, isAlphaNum c = true) ∧
      (∀ c ∈ (PascalIdentifier asciiTables "3d-secure é".toList).head?,
        isAlphaNum c = true ∨ c = '_')) ∧
    (KeepsLettersAndDigits "3d-secure é".toList
        (Identifier asciiTables "3d-secure é".toList) ∧
      (∀ c ∈ (Identifier asciiTables "3d-secure é".toList).tail, isAlphaNum c = true) ∧
      (∀ c ∈ (Identifier asciiTables "3d-secure é".toList).head?,
        isAlphaNum c = true ∨ c = '_')) :=
  ⟨⟨'3', by decide, by decide⟩, by decide, by decide, by decide,
   (identifiers_keep_letters_and_digits asciiTables "3d-secure é".toList
      ⟨'3', by decide, by decide⟩).1,
   (identifiers_keep_letters_and_digits asciiTables "3d-secure é".toList
      ⟨'3', by decide, by decide⟩).2⟩

end SumUp
